import Mathlib

/-!
# Dependence analysis and loop parallelization: a verification development

Shallow embedding of the dependence-graph builder (`CatPass.cpp`), the SCC
condensation (`SCCDAG.cpp`) and the chunked DOALL generator (`Builder.cpp`),
with the properties stated about them.
-/

namespace Noelle

/-! ## DOALL chunk worker (`passes/doall/src/Builder.cpp`) -/

/-- Number of values of the 64-bit integer type of the chunk worker's arguments
(`par.int64`); the induction variable has the same width, since the arguments
are bit-cast to its type. -/
def wordSize : Nat := 2 ^ 64

/-- The `cloneIVInfo` of `ChunkerInfo`: start value, step and trip bound (`end`)
of the induction variable of the cloned loop. -/
structure IVInfo where
  start : Nat
  step : Nat
  endVal : Nat
deriving DecidableEq, Repr

/-- The part of `ChunkerInfo` read by `createOuterLoop` and
`alterInnerLoopToIterateChunks`: the three integer arguments of the chunk worker
and the induction variable information. -/
structure ChunkerInfo where
  coreArgVal : Nat
  numCoresArgVal : Nat
  chunkSizeArgVal : Nat
  cloneIVInfo : IVInfo
deriving DecidableEq, Repr

/-- The value `outerIVStart` of `createOuterLoop`:
`CreateMul(coreArgVal, chunkSizeArgVal)` in 64-bit arithmetic. The start value of
the original induction variable only gives the type. -/
def outerIVStart (c : ChunkerInfo) : Nat :=
  (c.coreArgVal * c.chunkSizeArgVal) % wordSize

/-- The value `outerIVStepSize` of `createOuterLoop`:
`CreateMul(CreateMul(numCoresArgVal, chunkSizeArgVal), cloneIVInfo.step)`. -/
def outerIVStepSize (c : ChunkerInfo) : Nat :=
  (((c.numCoresArgVal * c.chunkSizeArgVal) % wordSize) * c.cloneIVInfo.step) % wordSize

/-- The value `outerIVInc` computed in the outer latch: `CreateAdd(outerIV, outerIVStepSize)`. -/
def outerIVInc (c : ChunkerInfo) (outerIV : Nat) : Nat :=
  (outerIV + outerIVStepSize c) % wordSize

/-- The comparison `outerIVCmp` of the outer header: `ICmpULT(outerIV, cloneIVInfo.end)`;
true enters the inner header, false goes to the exit block. -/
def outerIVCmp (c : ChunkerInfo) (outerIV : Nat) : Bool :=
  decide (outerIV < c.cloneIVInfo.endVal)

/-- The value `sumIV` of the inner header: `CreateAdd(cloneIV, outerIV)`. -/
def sumIV (cloneIV outerIV : Nat) : Nat :=
  (cloneIV + outerIV) % wordSize

/-- The inner loop after `alterInnerLoopToIterateChunks`, for a fixed value of the
outer index. `cloneIV` starts at 0 and is stepped by 1. The header computes `sumIV`
and tests `sumIV <u end` (`innerCmp`); on true it goes to the chunk comparison block,
which tests `cloneIV <u chunkSize` and on true runs the body (on `sumIV`); every
false answer leaves to the outer latch. `visited` collects the values of `sumIV` on
which the body ran; `none` means the fuel ran out. -/
def innerLoop (c : ChunkerInfo) (outerIV : Nat) : Nat → Nat → List Nat → Option (List Nat)
  | 0, _, _ => none
  | fuel + 1, cloneIV, visited =>
    if sumIV cloneIV outerIV < c.cloneIVInfo.endVal then
      if cloneIV < c.chunkSizeArgVal then
        innerLoop c outerIV fuel ((cloneIV + 1) % wordSize) (visited ++ [sumIV cloneIV outerIV])
      else some visited
    else some visited

/-- The outer chunking loop of `createOuterLoop`: the header tests `outerIVCmp`,
on true runs the inner loop and then the latch (`outerIVInc`), on false goes to the
exit block. -/
def outerLoop (c : ChunkerInfo) : Nat → Nat → List Nat → Option (List Nat)
  | 0, _, _ => none
  | fuel + 1, outerIV, visited =>
    if outerIVCmp c outerIV then
      match innerLoop c outerIV fuel 0 visited with
      | none => none
      | some visited' => outerLoop c fuel (outerIVInc c outerIV) visited'
    else some visited

/-- The generated chunk worker: entry block, then the outer loop from `outerIVStart`.
Returns the values of `sumIV` on which the cloned body ran, in order. -/
def chunkWorker (c : ChunkerInfo) (fuel : Nat) : Option (List Nat) :=
  outerLoop c fuel (outerIVStart c) []

/-- The arguments of worker `w` out of `C` workers with chunk size `K`, for the loop
with start `a`, step `s` and trip bound `N`. -/
def workerInfo (a s N C K w : Nat) : ChunkerInfo :=
  { coreArgVal := w, numCoresArgVal := C, chunkSizeArgVal := K,
    cloneIVInfo := { start := a, step := s, endVal := N } }

/-- The iterations visited by workers `0 .. C-1`, one after the other (an empty list
for a worker that ran out of fuel). -/
def visitedByAll (a s N C K fuel : Nat) : List Nat :=
  (List.range C).flatMap (fun w => (chunkWorker (workerInfo a s N C K w) fuel).getD [])

/-- Every worker `0 .. C-1` reaches its exit block within the fuel. -/
def allWorkersExit (a s N C K fuel : Nat) : Prop :=
  ∀ w, w < C → (chunkWorker (workerInfo a s N C K w) fuel).isSome = true

/-! ## Dependence graph builder (`passes/analysis/src/CatPass.cpp`) -/

/-- Opcode classes told apart by the `dyn_cast`s of the builder. -/
inductive Opcode where
  | store
  | load
  | call
  | other
deriving DecidableEq, Repr

/-- Dynamic class of an `llvm::Value` that is the user of a use: an instruction, a
function argument, or any other kind of user (for instance a constant expression). -/
inductive ValueKind where
  | instruction (op : Opcode)
  | argument
  | constant
deriving DecidableEq, Repr

/-- A function: its basic blocks, each the list of its instructions (values are
identified by numbers). -/
structure IRFunction where
  blocks : List (List Nat)
deriving DecidableEq, Repr

/-- The part of an `llvm::Module` the builder reads: the functions, the kind of every
value, and for every value the users of its uses (`V->uses()`, one entry per use). -/
structure IRModule where
  functions : List IRFunction
  kind : Nat → ValueKind
  uses : Nat → List Nat

/-- Answers of the alias oracle (`aa->alias`). -/
inductive AliasResult where
  | NoAlias
  | MayAlias
  | PartialAlias
  | MustAlias
deriving DecidableEq, Repr

/-- Answers of the mod/ref oracle (`aa->getModRefInfo`). -/
inductive ModRefInfo where
  | MRI_NoModRef
  | MRI_Ref
  | MRI_Mod
  | MRI_ModRef
deriving DecidableEq, Repr

/-- The two oracles of `AAResults`, as functions of the instructions queried:
`aliasOf memI memJ` stands for `aa->alias(MemoryLocation::get(memI), MemoryLocation::get(memJ))`
and `getModRefInfo call memI` for `aa->getModRefInfo(call, MemoryLocation::get(memI))`. -/
structure AAResults where
  aliasOf : Nat → Nat → AliasResult
  getModRefInfo : Nat → Nat → ModRefInfo

/-- A dependence edge `DGEdge<Value>` from value `src` (the outgoing node) to value
`dst` (the incoming node), with the three flags set by `setMemMustRaw`. -/
structure DGEdge where
  src : Nat
  dst : Nat
  memory : Bool
  must : Bool
  readAfterWrite : Bool
deriving DecidableEq, Repr

/-- Modelled from the spec: the setter `DGEdge::setMemMustRaw(mem, must, raw)` of the
graph template, which stores the three flags *is-memory*, *is-must* and
*is-read-after-write* of a dependence edge. -/
def DGEdge.setMemMustRaw (e : DGEdge) (mem must raw : Bool) : DGEdge :=
  { e with memory := mem, must := must, readAfterWrite := raw }

/-- The dependence graph: internal nodes, external (live-in/live-out) nodes, and the
dependence edges in creation order. -/
structure PDG where
  internalNodes : List Nat
  externalNodes : List Nat
  edges : List DGEdge
deriving DecidableEq, Repr

/-- Modelled from the spec: `PDG::createEdgeFromTo(from, to)` of the graph template
followed by the `setMemMustRaw` call every caller makes on the returned edge: one new
edge `from -> to` with the given flags is appended to the graph. -/
def PDG.createEdgeFromTo (g : PDG) (src dst : Nat) (mem must raw : Bool) : PDG :=
  { g with edges := g.edges ++
      [(DGEdge.mk src dst false false false).setMemMustRaw mem must raw] }

/-- The function `PDGAnalysis::constructEdgesFromUseDefs`: for every internal node `V`
with uses, and every use of `V`, an edge `V -> user` flagged `(false, true, true)` is
created when the user is an instruction, or else when it is an argument; a use whose
user is of another kind creates nothing. -/
def constructEdgesFromUseDefs (m : IRModule) (pdg : PDG) : PDG :=
  pdg.internalNodes.foldl (fun g v =>
    if (m.uses v).length = 0 then g
    else (m.uses v).foldl (fun g user =>
      match m.kind user with
      | ValueKind.instruction _ => g.createEdgeFromTo v user false true true
      | ValueKind.argument => g.createEdgeFromTo v user false true true
      | ValueKind.constant => g) g) pdg

/-- The template `PDGAnalysis::addEdgeFromMemoryAlias(F, aa, memI, memJ, storePair)`. -/
def addEdgeFromMemoryAlias (aa : AAResults) (pdg : PDG) (memI memJ : Nat)
    (storePair : Bool) : PDG :=
  match aa.aliasOf memI memJ with
  | AliasResult.PartialAlias => pdg.createEdgeFromTo memI memJ true false (!storePair)
  | AliasResult.MayAlias => pdg.createEdgeFromTo memI memJ true false (!storePair)
  | AliasResult.MustAlias => pdg.createEdgeFromTo memI memJ true true (!storePair)
  | AliasResult.NoAlias => pdg

/-- The overload `addEdgeFromFunctionModRef(F, aa, StoreInst *memI, CallInst *call)`. -/
def addEdgeFromFunctionModRefStore (aa : AAResults) (pdg : PDG) (memI call : Nat) : PDG :=
  match aa.getModRefInfo call memI with
  | ModRefInfo.MRI_Ref => pdg.createEdgeFromTo memI call true false true
  | ModRefInfo.MRI_Mod => pdg.createEdgeFromTo memI call true false false
  | ModRefInfo.MRI_ModRef =>
    (pdg.createEdgeFromTo memI call true false true).createEdgeFromTo memI call true false false
  | ModRefInfo.MRI_NoModRef => pdg

/-- The overload `addEdgeFromFunctionModRef(F, aa, LoadInst *memI, CallInst *call)`. -/
def addEdgeFromFunctionModRefLoad (aa : AAResults) (pdg : PDG) (memI call : Nat) : PDG :=
  match aa.getModRefInfo call memI with
  | ModRefInfo.MRI_Ref => pdg
  | ModRefInfo.MRI_Mod => pdg.createEdgeFromTo call memI true false true
  | ModRefInfo.MRI_ModRef => pdg.createEdgeFromTo call memI true false true
  | ModRefInfo.MRI_NoModRef => pdg

/-- The instructions of a function in the order of `for (auto &B : F) for (auto &I : B)`. -/
def IRFunction.instructions (f : IRFunction) : List Nat :=
  f.blocks.flatten

/-- The function `PDGAnalysis::iterateInstForStoreAliases(F, aa, J)` for the store `J`. -/
def iterateInstForStoreAliases (m : IRModule) (f : IRFunction) (aa : AAResults)
    (pdg : PDG) (j : Nat) : PDG :=
  f.instructions.foldl (fun g i =>
    match m.kind i with
    | ValueKind.instruction Opcode.store =>
      if i ≠ j then addEdgeFromMemoryAlias aa g i j true else g
    | ValueKind.instruction Opcode.load => addEdgeFromMemoryAlias aa g i j false
    | _ => g) pdg

/-- The function `PDGAnalysis::iterateInstForLoadAliases(F, aa, J)` for the load `J`. -/
def iterateInstForLoadAliases (m : IRModule) (f : IRFunction) (aa : AAResults)
    (pdg : PDG) (j : Nat) : PDG :=
  f.instructions.foldl (fun g i =>
    match m.kind i with
    | ValueKind.instruction Opcode.store => addEdgeFromMemoryAlias aa g i j false
    | _ => g) pdg

/-- The function `PDGAnalysis::iterateInstForModRef(F, aa, call)`. -/
def iterateInstForModRef (m : IRModule) (f : IRFunction) (aa : AAResults)
    (pdg : PDG) (call : Nat) : PDG :=
  f.instructions.foldl (fun g i =>
    match m.kind i with
    | ValueKind.instruction Opcode.load => addEdgeFromFunctionModRefLoad aa g i call
    | ValueKind.instruction Opcode.store => addEdgeFromFunctionModRefStore aa g i call
    | _ => g) pdg

/-- The body of the loop over functions of `constructEdgesFromAliases`, for one
function `F` with its alias results. -/
def constructEdgesFromAliasesForFunction (m : IRModule) (aa : AAResults) (pdg : PDG)
    (f : IRFunction) : PDG :=
  if f.blocks.isEmpty then pdg
  else f.instructions.foldl (fun g i =>
    match m.kind i with
    | ValueKind.instruction Opcode.store => iterateInstForStoreAliases m f aa g i
    | ValueKind.instruction Opcode.load => iterateInstForLoadAliases m f aa g i
    | ValueKind.instruction Opcode.call => iterateInstForModRef m f aa g i
    | _ => g) pdg

/-- The function `PDGAnalysis::constructEdgesFromAliases(M)`; `aaOf F` is the result
of `getAnalysis<AAResultsWrapperPass>(F).getAAResults()`. -/
def constructEdgesFromAliases (m : IRModule) (aaOf : IRFunction → AAResults) (pdg : PDG) : PDG :=
  m.functions.foldl (fun g f => constructEdgesFromAliasesForFunction m (aaOf f) g f) pdg

/-- Whether a user passes one of the two `dyn_cast`s of `constructEdgesFromUseDefs`
(`Instruction` or `Argument`). -/
def isInstructionOrArgument (m : IRModule) (user : Nat) : Bool :=
  match m.kind user with
  | ValueKind.instruction _ => true
  | ValueKind.argument => true
  | ValueKind.constant => false

/-- The register-data edge `v -> user`, flagged `(false, true, true)`. -/
def registerEdge (v user : Nat) : DGEdge :=
  { src := v, dst := user, memory := false, must := true, readAfterWrite := true }

/-- The register-data edges leaving `v`: one per use whose user is an instruction or
an argument, in use order. -/
def useDefEdges (m : IRModule) (v : Nat) : List DGEdge :=
  ((m.uses v).filter (isInstructionOrArgument m)).map (registerEdge v)

/-- The edges of a graph that leave the value `v`. -/
def PDG.edgesFrom (g : PDG) (v : Nat) : List DGEdge :=
  g.edges.filter (fun e => e.src = v)

/-- A module in which instruction `0` has two uses, by the instructions `1` and `2`. -/
def twoUsesModule : IRModule :=
  { functions := [],
    kind := fun _ => ValueKind.instruction Opcode.other,
    uses := fun v => if v = 0 then [1, 2] else [] }

/-- The edges appended by one call of `addEdgeFromMemoryAlias`. -/
def memoryAliasEdges (aa : AAResults) (memI memJ : Nat) (storePair : Bool) : List DGEdge :=
  match aa.aliasOf memI memJ with
  | AliasResult.PartialAlias => [DGEdge.mk memI memJ true false (!storePair)]
  | AliasResult.MayAlias => [DGEdge.mk memI memJ true false (!storePair)]
  | AliasResult.MustAlias => [DGEdge.mk memI memJ true true (!storePair)]
  | AliasResult.NoAlias => []

/-- The edges appended by one iteration of the loop of `iterateInstForStoreAliases`. -/
def storeAliasEdges (m : IRModule) (aa : AAResults) (j i : Nat) : List DGEdge :=
  match m.kind i with
  | ValueKind.instruction Opcode.store => if i ≠ j then memoryAliasEdges aa i j true else []
  | ValueKind.instruction Opcode.load => memoryAliasEdges aa i j false
  | _ => []

/-- The edges appended by one iteration of the loop of `iterateInstForLoadAliases`. -/
def loadAliasEdges (m : IRModule) (aa : AAResults) (j i : Nat) : List DGEdge :=
  match m.kind i with
  | ValueKind.instruction Opcode.store => memoryAliasEdges aa i j false
  | _ => []

/-- The edges appended by one call of `addEdgeFromFunctionModRef` for a store. -/
def modRefStoreEdges (aa : AAResults) (memI call : Nat) : List DGEdge :=
  match aa.getModRefInfo call memI with
  | ModRefInfo.MRI_Ref => [DGEdge.mk memI call true false true]
  | ModRefInfo.MRI_Mod => [DGEdge.mk memI call true false false]
  | ModRefInfo.MRI_ModRef =>
    [DGEdge.mk memI call true false true, DGEdge.mk memI call true false false]
  | ModRefInfo.MRI_NoModRef => []

/-- The edges appended by one call of `addEdgeFromFunctionModRef` for a load. -/
def modRefLoadEdges (aa : AAResults) (memI call : Nat) : List DGEdge :=
  match aa.getModRefInfo call memI with
  | ModRefInfo.MRI_Ref => []
  | ModRefInfo.MRI_Mod => [DGEdge.mk call memI true false true]
  | ModRefInfo.MRI_ModRef => [DGEdge.mk call memI true false true]
  | ModRefInfo.MRI_NoModRef => []

/-- The edges appended by one iteration of the loop of `iterateInstForModRef`. -/
def modRefEdges (m : IRModule) (aa : AAResults) (call i : Nat) : List DGEdge :=
  match m.kind i with
  | ValueKind.instruction Opcode.load => modRefLoadEdges aa i call
  | ValueKind.instruction Opcode.store => modRefStoreEdges aa i call
  | _ => []

/-- The edges appended while `constructEdgesFromAliases` visits instruction `i` of `f`. -/
def aliasEdgesAt (m : IRModule) (aa : AAResults) (f : IRFunction) (i : Nat) : List DGEdge :=
  match m.kind i with
  | ValueKind.instruction Opcode.store => f.instructions.flatMap (storeAliasEdges m aa i)
  | ValueKind.instruction Opcode.load => f.instructions.flatMap (loadAliasEdges m aa i)
  | ValueKind.instruction Opcode.call => f.instructions.flatMap (modRefEdges m aa i)
  | _ => []

/-- The edges appended by `constructEdgesFromAliases` for the function `f`. -/
def aliasEdgesOfFunction (m : IRModule) (aa : AAResults) (f : IRFunction) : List DGEdge :=
  if f.blocks.isEmpty then [] else f.instructions.flatMap (aliasEdgesAt m aa f)

/-- The flags the alias builder gives an edge between two memory operations: memory;
must exactly for `MustAlias`; not read-after-write exactly for a pair of stores. -/
def MemoryAliasFlags (m : IRModule) (aa : AAResults) (e : DGEdge) : Prop :=
  e.memory = true ∧
  (e.must = true ↔ aa.aliasOf e.src e.dst = AliasResult.MustAlias) ∧
  (e.must = false ↔ (aa.aliasOf e.src e.dst = AliasResult.MayAlias ∨
      aa.aliasOf e.src e.dst = AliasResult.PartialAlias)) ∧
  (e.readAfterWrite = false ↔
    (m.kind e.src = ValueKind.instruction Opcode.store ∧
      m.kind e.dst = ValueKind.instruction Opcode.store))

/-- The edge that the alias builder is to create for the pair of memory operations
`(memI, memJ)`: none when the oracle answers `NoAlias`; otherwise one memory edge
`memI -> memJ`, must exactly for `MustAlias`, and read-after-write unless both
operations are stores. -/
def aliasEdgeFor (m : IRModule) (aa : AAResults) (memI memJ : Nat) : List DGEdge :=
  if aa.aliasOf memI memJ = AliasResult.NoAlias then []
  else [DGEdge.mk memI memJ true (decide (aa.aliasOf memI memJ = AliasResult.MustAlias))
    (!(decide (m.kind memI = ValueKind.instruction Opcode.store ∧
      m.kind memJ = ValueKind.instruction Opcode.store)))]

/-- A module with one function of one block holding the load `0` and the store `1`. -/
def loadStoreModule : IRModule :=
  { functions := [⟨[[0, 1]]⟩],
    kind := fun v => if v = 0 then ValueKind.instruction Opcode.load
      else ValueKind.instruction Opcode.store,
    uses := fun _ => [] }

/-- An oracle answering `MustAlias` and `ModRef` to every query. -/
def mustAliasOracle : AAResults :=
  { aliasOf := fun _ _ => AliasResult.MustAlias,
    getModRefInfo := fun _ _ => ModRefInfo.MRI_ModRef }

/-! ## SCC condensation (`src/pdg/src/SCCDAG.cpp`)

The graph template `DG<T>`, the class `SCC` and LLVM's `scc_iterator` are not part
of the sources at hand; the definitions that stand for them are marked as such. -/

/-- An `SCC` object: `id` stands for the identity (address) of the object and of its
node in the SCCDAG, `values` for its internal nodes. Its external nodes and its edges
are those of the dependence graph around `values` (see `SCC.externalValues`). -/
structure SCC where
  id : Nat
  values : List Nat
deriving DecidableEq, Repr

/-- An edge `DGEdge<SCC>` of the SCCDAG from the SCC node `src` to the SCC node `dst`
(both given by identity), with its sub-edges in insertion order. -/
structure SCCEdge where
  src : Nat
  dst : Nat
  subEdges : List DGEdge
deriving DecidableEq, Repr

/-- The state of an `SCCDAG` object: the dependence graph its SCCs were taken from, the
internal and external SCC nodes in iteration order, the edges in creation order, the
map `valueToSCCNode` (looked up from the front), and the next fresh identity. -/
structure SCCDAG where
  pdg : PDG
  internalNodes : List SCC
  externalNodes : List SCC
  edges : List SCCEdge
  valueToSCCNode : List (Nat × Nat)
  nextId : Nat
deriving DecidableEq, Repr

/-- Modelled from the spec: the dependence edges the condensation works on, those
between internal nodes of the dependence graph. An edge that touches an externally
live value takes no part in the condensation: such a value only gets a pseudo-SCC at
the end of the constructor. -/
def PDG.internalEdges (g : PDG) : List DGEdge :=
  g.edges.filter (fun e => e.src ∈ g.internalNodes ∧ e.dst ∈ g.internalNodes)

/-- The targets of the internal edges leaving `v`. -/
def PDG.succs (g : PDG) (v : Nat) : List Nat :=
  (g.internalEdges.filter (fun e => e.src = v)).map (fun e => e.dst)

/-- The sources of the internal edges entering `v`. -/
def PDG.preds (g : PDG) (v : Nat) : List Nat :=
  (g.internalEdges.filter (fun e => e.dst = v)).map (fun e => e.src)

/-- Worklist closure of a set of nodes under a neighbour function: nodes not yet in
the set are added until none is left or the fuel is used up. -/
def closure (nbrs : Nat → List Nat) : Nat → List Nat → List Nat
  | 0, s => s
  | fuel + 1, s =>
    if ((s.flatMap nbrs).dedup.filter (fun w => w ∉ s)) = [] then s
    else closure nbrs fuel (s ++ (s.flatMap nbrs).dedup.filter (fun w => w ∉ s))

/-- The nodes reachable from `v` along internal edges (`v` included). -/
def PDG.reach (g : PDG) (v : Nat) : List Nat :=
  closure g.succs g.internalNodes.length [v]

/-- Modelled from the spec: `DG::getDisconnectedSubgraphs`, the partition of the
region into disconnected subgraphs: the node sets of the weakly connected components,
found from each node not yet covered by following edges in both directions. -/
def PDG.getDisconnectedSubgraphs (g : PDG) : List (List Nat) :=
  g.internalNodes.foldl (fun comps v =>
    if comps.any (fun c => decide (v ∈ c)) then comps
    else comps ++ [closure (fun u => g.succs u ++ g.preds u) g.internalNodes.length [v]]) []

/-- Modelled from the spec: `DG::addNodesIntoNewGraph`, the graph with the given node
set and the edges of `g` between its nodes. -/
def PDG.addNodesIntoNewGraph (g : PDG) (nodeset : List Nat) : PDG :=
  { internalNodes := nodeset, externalNodes := [],
    edges := g.internalEdges.filter (fun e => e.src ∈ nodeset ∧ e.dst ∈ nodeset) }

/-- Modelled from the spec: `DG::getTopLevelNodes`, the top-level nodes: the nodes
with no incoming edge. -/
def PDG.getTopLevelNodes (g : PDG) : List Nat :=
  g.internalNodes.filter (fun v => (g.internalEdges.filter (fun e => e.dst = v)).length = 0)

/-- The strongly connected component of `v`: the nodes reachable from `v` that reach
`v` back. -/
def PDG.sccOf (g : PDG) (v : Nat) : List Nat :=
  (g.reach v).filter (fun u => v ∈ g.reach u)

/-- LLVM's `scc_begin(&graph) .. scc_end(&graph)` by its contract: the strongly
connected components of the nodes reachable from the entry node, each once. (The
order of enumeration is not modelled.) -/
def PDG.sccIterator (g : PDG) (entry : Nat) : List (List Nat) :=
  (g.reach entry).foldl (fun acc u =>
    if acc.any (fun c => decide (u ∈ c)) then acc else acc ++ [g.sccOf u]) []

/-- The loop `for (auto node : *pdgI)` of the constructor with its `break`: returns
`nodes`, `valuesInSCCs` and `uniqueSCC` after the loop. -/
def scanSCC : List Nat → List Nat → List Nat → List Nat × List Nat × Bool
  | [], nodes, valuesInSCCs => (nodes, valuesInSCCs, true)
  | node :: rest, nodes, valuesInSCCs =>
    if node ∈ valuesInSCCs then (nodes, valuesInSCCs, false)
    else scanSCC rest (nodes ++ [node]) (valuesInSCCs ++ [node])

/-- The statements `new SCC(nodes)` and `this->addNode(scc, inclusion)`: a fresh SCC object
with the given internal nodes becomes an internal (`inclusion = true`) or external
node of the SCCDAG. -/
def SCCDAG.addNode (d : SCCDAG) (nodes : List Nat) (inclusion : Bool) : SCCDAG :=
  if inclusion then
    { d with internalNodes := d.internalNodes ++ [⟨d.nextId, nodes⟩], nextId := d.nextId + 1 }
  else
    { d with externalNodes := d.externalNodes ++ [⟨d.nextId, nodes⟩], nextId := d.nextId + 1 }

/-- The body of the loop over `scc_begin .. scc_end` of the constructor: the state is
the SCCDAG under construction and the set `valuesInSCCs`. -/
def addUniqueSCC (st : SCCDAG × List Nat) (scc : List Nat) : SCCDAG × List Nat :=
  match scanSCC scc [] st.2 with
  | (nodes, valuesInSCCs, uniqueSCC) =>
    if !uniqueSCC then (st.1, valuesInSCCs)
    else (st.1.addNode nodes true, valuesInSCCs)

/-- The body of the loop over the disconnected subgraphs of the constructor. -/
def addSubgraphSCCs (pdg : PDG) (d : SCCDAG) (subgraphNodeset : List Nat) : SCCDAG :=
  ((pdg.addNodesIntoNewGraph subgraphNodeset).getTopLevelNodes.foldl
    (fun st topLevelNode =>
      ((pdg.addNodesIntoNewGraph subgraphNodeset).sccIterator topLevelNode).foldl
        addUniqueSCC st)
    (d, [])).1

/-- The function `SCCDAG::markValuesInSCC`: the map is cleared and every internal
value of every internal SCC is assigned the node of that SCC. -/
def SCCDAG.markValuesInSCC (d : SCCDAG) : SCCDAG :=
  { d with valueToSCCNode :=
      d.internalNodes.foldl (fun mp scc =>
        scc.values.foldl (fun mp v => (v, scc.id) :: mp) mp) [] }

/-- Modelled from the spec: `scc->externalNodePairs()`, the values outside the SCC
that an internal edge joins to a value of the SCC, in either direction. -/
def SCC.externalValues (pdg : PDG) (scc : SCC) : List Nat :=
  (pdg.internalEdges.flatMap (fun e =>
    if e.src ∈ scc.values ∧ e.dst ∉ scc.values then [e.dst]
    else if e.dst ∈ scc.values ∧ e.src ∉ scc.values then [e.src]
    else [])).dedup

/-- Modelled from the spec: `incomingNode->getIncomingEdges()` for the external node
`x` inside the graph of the SCC: the edges from values of the SCC to `x`. -/
def SCC.incomingEdges (pdg : PDG) (scc : SCC) (x : Nat) : List DGEdge :=
  pdg.internalEdges.filter (fun e => e.src ∈ scc.values ∧ e.dst = x)

/-- Whether an SCCDAG edge joins the nodes `a` and `b`, in either direction
(`getEdgesToAndFromNode`). -/
def SCCEdge.joins (a b : Nat) (e : SCCEdge) : Bool :=
  (e.src = a ∧ e.dst = b) ∨ (e.src = b ∧ e.dst = a)

/-- Replace the element at a position of a list. -/
def modifyAt {α : Type} (f : α → α) : Nat → List α → List α
  | _, [] => []
  | 0, x :: xs => f x :: xs
  | n + 1, x :: xs => x :: modifyAt f n xs

/-- The body of the inner loop of `markEdgesAndSubEdges` for the SCC `outgoingSCC` and
its external value `x`; the state is the edge list and the set `clearedEdges` (edges
by position). `none` stands for the dereference of the null pointer that
`valueToSCCNode[x]` yields for a value without entry. -/
def markEdgeStep (pdg : PDG) (valueToSCCNode : List (Nat × Nat)) (outgoingSCC : SCC)
    (st : List SCCEdge × List Nat) (x : Nat) : Option (List SCCEdge × List Nat) :=
  if (outgoingSCC.incomingEdges pdg x).length = 0 then some st
  else
    match valueToSCCNode.lookup x with
    | none => none
    | some incomingSCCNode =>
      let found := st.1.findIdx? (SCCEdge.joins outgoingSCC.id incomingSCCNode)
      let edges1 := if found.isNone then st.1 ++ [⟨outgoingSCC.id, incomingSCCNode, []⟩] else st.1
      let sccEdge := found.getD st.1.length
      let edges2 := if sccEdge ∈ st.2 then edges1
        else modifyAt (fun e => { e with subEdges := [] }) sccEdge edges1
      let cleared := if sccEdge ∈ st.2 then st.2 else sccEdge :: st.2
      some (modifyAt (fun e => { e with subEdges := e.subEdges ++ outgoingSCC.incomingEdges pdg x })
        sccEdge edges2, cleared)

/-- The function `SCCDAG::markEdgesAndSubEdges`. -/
def SCCDAG.markEdgesAndSubEdges (d : SCCDAG) : Option SCCDAG :=
  (d.internalNodes.foldlM (fun (st : List SCCEdge × List Nat) (outgoingSCC : SCC) =>
      (outgoingSCC.externalValues d.pdg).foldlM
        (markEdgeStep d.pdg d.valueToSCCNode outgoingSCC) st)
    (d.edges, [])).map (fun st => { d with edges := st.1 })

/-- The constructor `SCCDAG::SCCDAG(PDG *pdg)`. -/
def SCCDAG.construct (pdg : PDG) : Option SCCDAG :=
  let d0 : SCCDAG := ⟨pdg, [], [], [], [], 0⟩
  let d1 := pdg.getDisconnectedSubgraphs.foldl (addSubgraphSCCs pdg) d0
  match d1.markValuesInSCC.markEdgesAndSubEdges with
  | none => none
  | some d2 => some (pdg.externalNodes.foldl (fun d v => d.addNode [v] false) d2)

/-- Modelled from the spec: `DG::removeNode`, which removes the node and every edge
connected to it. -/
def SCCDAG.removeNode (d : SCCDAG) (sccNode : Nat) : SCCDAG :=
  { d with
    internalNodes := d.internalNodes.filter (fun s => s.id ≠ sccNode),
    externalNodes := d.externalNodes.filter (fun s => s.id ≠ sccNode),
    edges := d.edges.filter (fun e => e.src ≠ sccNode ∧ e.dst ≠ sccNode) }

/-- The SCC of a node of the SCCDAG (`sccNode->getT()`); `none` for an identity that
is no node of the SCCDAG. -/
def SCCDAG.getT (d : SCCDAG) (sccNode : Nat) : Option SCC :=
  (d.internalNodes ++ d.externalNodes).find? (fun s => s.id = sccNode)

/-- The set `mergeNodes` of `mergeSCCs`: the internal nodes of the SCCs of the set. -/
def SCCDAG.mergeNodes (d : SCCDAG) (sccSet : List Nat) : List Nat :=
  (sccSet.dedup.flatMap (fun sccNode =>
    match d.getT sccNode with
    | some scc => scc.values
    | none => [])).dedup

/-- The function `SCCDAG::mergeSCCs`; `sccSet` lists the nodes of the set (a set, so
repetitions do not count). -/
def SCCDAG.mergeSCCs (d : SCCDAG) (sccSet : List Nat) : Option SCCDAG :=
  if sccSet.dedup.length < 2 then some d
  else
    ((sccSet.dedup.foldl SCCDAG.removeNode
      (d.addNode (d.mergeNodes sccSet) true)).markValuesInSCC).markEdgesAndSubEdges

/-- The function `SCCDAG::sccOfValue`: `valueToSCCNode.find(val)->second->getT()`;
`none` stands for the dereference of the end iterator for a value without entry. -/
def SCCDAG.sccOfValue (d : SCCDAG) (val : Nat) : Option SCC :=
  match d.valueToSCCNode.lookup val with
  | none => none
  | some sccNode => d.getT sccNode

/-- An edge record without memory flags, for graphs given by their arcs. -/
def arc (src dst : Nat) : DGEdge :=
  { src := src, dst := dst, memory := false, must := true, readAfterWrite := true }

/-- The dependence graph with internal nodes `0 .. n-1` and the given arcs. -/
def graphOf (n : Nat) (arcs : List (Nat × Nat)) : PDG :=
  { internalNodes := List.range n, externalNodes := [],
    edges := arcs.map (fun a => arc a.1 a.2) }

/-- One dependence step between internal nodes: some internal edge goes from `a` to `b`. -/
def PDG.edgeRel (g : PDG) (a b : Nat) : Prop :=
  b ∈ g.succs a

/-- Reachability along internal dependence edges. -/
def PDG.Reaches (g : PDG) (a b : Nat) : Prop :=
  Relation.ReflTransGen g.edgeRel a b

/-- The edge relation of the SCCDAG on node identities. -/
def SCCDAG.edgeRel (d : SCCDAG) (a b : Nat) : Prop :=
  ∃ e ∈ d.edges, e.src = a ∧ e.dst = b

/-- The SCCDAG has no directed cycle: no node reaches itself along one or more edges. -/
def SCCDAG.Acyclic (d : SCCDAG) : Prop :=
  ∀ a, ¬ Relation.TransGen d.edgeRel a a

/-- The state of the constructor inside the loop over one disconnected subgraph `c`
with top-level nodes `tops`, started from the SCCDAG `dIn`: the SCCs `newS` created so
far are strongly connected components of nodes of `c` reachable from a top-level node,
pairwise disjoint, and `valuesInSCCs` holds exactly their values. -/
def SubInv (pdg : PDG) (c tops : List Nat) (dIn : SCCDAG) (st : SCCDAG × List Nat) : Prop :=
  ∃ newS : List SCC,
    st.1 = { dIn with internalNodes := dIn.internalNodes ++ newS,
                      nextId := dIn.nextId + newS.length } ∧
    newS.map SCC.id = List.range' dIn.nextId newS.length ∧
    (∀ y, y ∈ st.2 ↔ ∃ s ∈ newS, y ∈ s.values) ∧
    (∀ s ∈ newS, ∃ u ∈ c, ∀ w, w ∈ s.values ↔ (pdg.Reaches u w ∧ pdg.Reaches w u)) ∧
    newS.Pairwise (fun s s' => List.Disjoint s.values s'.values) ∧
    (∀ s ∈ newS, ∀ a ∈ s.values, ∃ t ∈ tops, pdg.Reaches t a)

/-- The state of the constructor between two disconnected subgraphs: identities are
`0 .. nextId-1`, every internal SCC is a strongly connected component of `pdg`, the
SCCs are pairwise disjoint, and every successor of a value of an SCC is in an SCC. -/
def NodesInv (pdg : PDG) (d : SCCDAG) : Prop :=
  d.pdg = pdg ∧ d.edges = [] ∧ d.externalNodes = [] ∧ d.valueToSCCNode = [] ∧
  d.internalNodes.map SCC.id = List.range d.nextId ∧
  (∀ s ∈ d.internalNodes, ∃ u, ∀ w, w ∈ s.values ↔ (pdg.Reaches u w ∧ pdg.Reaches w u)) ∧
  d.internalNodes.Pairwise (fun s s' => List.Disjoint s.values s'.values) ∧
  (∀ s ∈ d.internalNodes, ∀ a ∈ s.values, ∀ x ∈ pdg.succs a,
    ∃ s' ∈ d.internalNodes, x ∈ s'.values)

/-- The visits of `markEdgesAndSubEdges` in order: every internal SCC with each of its
external values. -/
def SCCDAG.visits (d : SCCDAG) : List (SCC × Nat) :=
  d.internalNodes.flatMap (fun s => (s.externalValues d.pdg).map (fun x => (s, x)))

/-- The state of `markEdgesAndSubEdges` after the visits `proc`, started from the edge
list `E0`: original edges keep their position and end points (and are untouched while
not cleared); cleared positions are valid; every new edge was created by a visit with
incoming edges, from the visiting SCC to the SCC node of the external value, and is
cleared; the sub-edges of a cleared edge are the incoming edges of the visits between
its two end points; no two edges join the same pair of nodes; and every visit with
incoming edges has a cleared edge between its two nodes. -/
structure EdgeInv (P : PDG) (M : List (Nat × Nat)) (E0 : List SCCEdge)
    (proc : List (SCC × Nat)) (st : List SCCEdge × List Nat) : Prop where
  orig : ∀ (i : Nat) (e0 : SCCEdge), E0[i]? = some e0 →
    ∃ e, st.1[i]? = some e ∧ e.src = e0.src ∧ e.dst = e0.dst ∧ (i ∉ st.2 → e = e0)
  clearedLt : ∀ i ∈ st.2, i < st.1.length
  created : ∀ (i : Nat) (e : SCCEdge), st.1[i]? = some e → E0[i]? = none →
    i ∈ st.2 ∧ ∃ v ∈ proc, v.1.incomingEdges P v.2 ≠ [] ∧ e.src = v.1.id ∧
      M.lookup v.2 = some e.dst
  subs : ∀ i ∈ st.2, ∀ e : SCCEdge, st.1[i]? = some e → ∀ dep, dep ∈ e.subEdges ↔
    ∃ v ∈ proc, ∃ t, M.lookup v.2 = some t ∧ e.joins v.1.id t = true ∧
      dep ∈ v.1.incomingEdges P v.2
  single : ∀ (i j : Nat) (e e' : SCCEdge), st.1[i]? = some e → st.1[j]? = some e' →
    e'.joins e.src e.dst = true → i = j
  visited : ∀ v ∈ proc, v.1.incomingEdges P v.2 ≠ [] →
    ∃ t, M.lookup v.2 = some t ∧ ∃ i ∈ st.2, ∃ e, st.1[i]? = some e ∧
      e.joins v.1.id t = true

/-- No two edges of the SCCDAG join the same pair of nodes. -/
def SCCDAG.SingleEdges (d : SCCDAG) : Prop :=
  d.edges.Pairwise (fun e e' => e'.joins e.src e.dst = false)

/-- Every external value of an internal SCC that has an incoming edge from the SCC has
an entry in `valueToSCCNode`. -/
def SCCDAG.MapTotal (d : SCCDAG) : Prop :=
  ∀ s ∈ d.internalNodes, ∀ x ∈ s.externalValues d.pdg, s.incomingEdges d.pdg x ≠ [] →
    ∃ t, d.valueToSCCNode.lookup x = some t

/-- The identities of the internal SCC nodes are distinct and all identities are below
the next fresh one. -/
def SCCDAG.IdsOK (d : SCCDAG) : Prop :=
  (d.internalNodes.map SCC.id).Nodup ∧ ∀ s ∈ d.internalNodes ++ d.externalNodes, s.id < d.nextId

/-- No value is internal to two internal SCC nodes. -/
def SCCDAG.DisjointSCCs (d : SCCDAG) : Prop :=
  d.internalNodes.Pairwise (fun s s' => ∀ v ∈ s.values, v ∉ s'.values)

/-- Every target of an internal edge that leaves a value of an internal SCC is itself
a value of an internal SCC. -/
def SCCDAG.Closed (d : SCCDAG) : Prop :=
  ∀ s ∈ d.internalNodes, ∀ a ∈ s.values, ∀ x ∈ d.pdg.succs a,
    ∃ s' ∈ d.internalNodes, x ∈ s'.values

/-- The map `valueToSCCNode` is up to date: its entries point to an internal SCC holding
the value, and every internal value of an internal SCC is mapped to that SCC. -/
def SCCDAG.MapOK (d : SCCDAG) : Prop :=
  (∀ p ∈ d.valueToSCCNode, ∃ s ∈ d.internalNodes, s.id = p.2 ∧ p.1 ∈ s.values) ∧
  (∀ s ∈ d.internalNodes, ∀ v ∈ s.values, d.valueToSCCNode.lookup v = some s.id)

/-- Every edge of the SCCDAG goes between two internal SCC nodes and is backed by a
dependence edge in its own direction, from a value of its source to a value outside
the source that belongs to its destination. -/
def SCCDAG.Faithful (d : SCCDAG) : Prop :=
  ∀ e ∈ d.edges, ∃ A ∈ d.internalNodes, ∃ B ∈ d.internalNodes,
    A.id = e.src ∧ B.id = e.dst ∧
    ∃ dep ∈ d.pdg.internalEdges, dep.src ∈ A.values ∧ dep.dst ∈ B.values ∧ dep.dst ∉ A.values

/-- The dependence edge `dep` goes between a value of `A` and a value of `B`, in one
direction or the other. -/
def SCC.Between (A B : SCC) (dep : DGEdge) : Prop :=
  (dep.src ∈ A.values ∧ dep.dst ∈ B.values) ∨ (dep.src ∈ B.values ∧ dep.dst ∈ A.values)

/-- Every edge of the SCCDAG joins two different internal SCC nodes between which some
dependence edge goes, in one direction or the other. -/
def SCCDAG.EdgesBacked (d : SCCDAG) : Prop :=
  ∀ e ∈ d.edges, ∃ A ∈ d.internalNodes, ∃ B ∈ d.internalNodes,
    A.id ≠ B.id ∧ e.joins A.id B.id = true ∧ ∃ dep ∈ d.pdg.internalEdges, A.Between B dep

/-- Every dependence edge from a value of an internal SCC to a value of another
internal SCC has an SCCDAG edge that joins the two SCC nodes, in one direction or the
other. -/
def SCCDAG.Complete (d : SCCDAG) : Prop :=
  ∀ A ∈ d.internalNodes, ∀ B ∈ d.internalNodes, A ≠ B →
    ∀ dep ∈ d.pdg.internalEdges, dep.src ∈ A.values → dep.dst ∈ B.values →
      ∃ e ∈ d.edges, e.joins A.id B.id = true

/-- The edges of the SCCDAG follow the dependences: every dependence edge from a value
of an internal SCC to a value of another internal SCC has an SCCDAG edge from the node
of the first to the node of the second. -/
def SCCDAG.Directed (d : SCCDAG) : Prop :=
  ∀ A ∈ d.internalNodes, ∀ B ∈ d.internalNodes, A ≠ B →
    ∀ dep ∈ d.pdg.internalEdges, dep.src ∈ A.values → dep.dst ∈ B.values →
      d.edgeRel A.id B.id

/-- The set `S` of nodes is convex in the SCCDAG: no path of edges leaves the set and
comes back to it. -/
def SCCDAG.ConvexSet (d : SCCDAG) (S : List Nat) : Prop :=
  ∀ a ∈ S, ∀ b ∈ S, ∀ x, x ∉ S →
    ¬ (Relation.TransGen d.edgeRel a x ∧ Relation.TransGen d.edgeRel x b)

/-- The invariants of an SCCDAG between two operations: distinct identities, disjoint
SCCs, successors of SCC values covered by SCCs, and an up-to-date value map. -/
def SCCDAG.WellFormed (d : SCCDAG) : Prop :=
  d.IdsOK ∧ d.DisjointSCCs ∧ d.Closed ∧ d.MapOK

/-- The identities in `sccSet` are identities of internal SCC nodes of the SCCDAG. -/
def SCCDAG.HasNodes (d : SCCDAG) (sccSet : List Nat) : Prop :=
  ∀ n ∈ sccSet, ∃ s ∈ d.internalNodes, s.id = n

/-- No dependence path leaves the set `M` of values and comes back: there are no `a`,
`b` in `M` and `x` outside `M` with `x` reachable from `a` and `b` reachable from `x`. -/
def PDG.Convex (g : PDG) (M : List Nat) : Prop :=
  ∀ a ∈ M, ∀ x ∈ g.internalNodes, x ∉ M → ∀ b ∈ M, ¬ (x ∈ g.reach a ∧ b ∈ g.reach x)

/-- The SCCDAGs that the operations produce: the results of the constructor, and the
results of `mergeSCCs` on such an SCCDAG for a set of its internal SCC nodes. -/
inductive SCCDAG.Reachable : SCCDAG → Prop where
  | construct (pdg : PDG) (d : SCCDAG) : SCCDAG.construct pdg = some d → SCCDAG.Reachable d
  | merge (d : SCCDAG) (sccSet : List Nat) (d' : SCCDAG) : SCCDAG.Reachable d →
      d.HasNodes sccSet → d.mergeSCCs sccSet = some d' → SCCDAG.Reachable d'

/-- The dependence graph of two values that depend on each other and on nothing else. -/
def cycle2 : PDG := graphOf 2 [(0, 1), (1, 0)]

/-- The dependence chain `0 -> 1 -> 2`. -/
def chain3 : PDG := graphOf 3 [(0, 1), (1, 2)]

/-- The dependence chain `0 -> 1 -> 2 -> 3`. -/
def chain4 : PDG := graphOf 4 [(0, 1), (1, 2), (2, 3)]

/-- The SCCDAG of `chain3`: three SCCs of one value each. -/
def chain3SCCDAG : SCCDAG :=
  { pdg := chain3,
    internalNodes := [⟨0, [0]⟩, ⟨1, [1]⟩, ⟨2, [2]⟩],
    externalNodes := [],
    edges := [⟨0, 1, [arc 0 1]⟩, ⟨1, 2, [arc 1 2]⟩],
    valueToSCCNode := [(2, 2), (1, 1), (0, 0)],
    nextId := 3 }

/-- The state inside `mergeSCCs` of the SCCs `0` and `2` of `chain3SCCDAG`, after
`markValuesInSCC` and before `markEdgesAndSubEdges`. -/
def chain3PreMark : SCCDAG :=
  { pdg := chain3,
    internalNodes := [⟨1, [1]⟩, ⟨3, [0, 2]⟩],
    externalNodes := [],
    edges := [],
    valueToSCCNode := [(2, 3), (0, 3), (1, 1)],
    nextId := 4 }

/-- The SCCDAG of `chain3` after merging its first and last SCC. -/
def chain3Merged : SCCDAG :=
  { chain3PreMark with edges := [⟨1, 3, [arc 1 2, arc 0 1]⟩] }

/-- The SCCDAG of `chain4`: four SCCs of one value each. -/
def chain4SCCDAG : SCCDAG :=
  { pdg := chain4,
    internalNodes := [⟨0, [0]⟩, ⟨1, [1]⟩, ⟨2, [2]⟩, ⟨3, [3]⟩],
    externalNodes := [],
    edges := [⟨0, 1, [arc 0 1]⟩, ⟨1, 2, [arc 1 2]⟩, ⟨2, 3, [arc 2 3]⟩],
    valueToSCCNode := [(3, 3), (2, 2), (1, 1), (0, 0)],
    nextId := 4 }

/-- The SCCDAG of `chain4` after merging its first and last SCC. -/
def chain4Merged : SCCDAG :=
  { pdg := chain4,
    internalNodes := [⟨1, [1]⟩, ⟨2, [2]⟩, ⟨4, [0, 3]⟩],
    externalNodes := [],
    edges := [⟨1, 2, [arc 1 2]⟩, ⟨2, 4, [arc 2 3]⟩, ⟨4, 1, [arc 0 1]⟩],
    valueToSCCNode := [(3, 4), (0, 4), (2, 2), (1, 1)],
    nextId := 5 }


/-! ## Dependence graph builder: fixtures for calls -/

/-- A module with one function of one block holding the load `0`, the stores `1` and
`2`, and the call `3`. -/
def memOpsModule : IRModule :=
  { functions := [⟨[[0, 1, 2, 3]]⟩],
    kind := fun v => if v = 0 then ValueKind.instruction Opcode.load
      else if v = 3 then ValueKind.instruction Opcode.call
      else ValueKind.instruction Opcode.store,
    uses := fun _ => [] }

/-- A module with one function of one block holding the load `0` and the call `1`. -/
def loadCallModule : IRModule :=
  { functions := [⟨[[0, 1]]⟩],
    kind := fun v => if v = 0 then ValueKind.instruction Opcode.load
      else ValueKind.instruction Opcode.call,
    uses := fun _ => [] }

/-- An oracle answering `MayAlias` and `Ref` to every query. -/
def refOracle : AAResults :=
  { aliasOf := fun _ _ => AliasResult.MayAlias,
    getModRefInfo := fun _ _ => ModRefInfo.MRI_Ref }

/-- The edge `e` is a memory edge from `src` to `dst`. -/
def DGEdge.IsMemoryEdge (e : DGEdge) (src dst : Nat) : Prop :=
  e.memory = true ∧ e.src = src ∧ e.dst = dst

/-! ## Induction variables (`src/loops/src/InductionVariables.cpp`)

The classes of the header `InductionVariables.hpp`, the class `SCC`, LLVM's IR and
its scalar-evolution analysis are not part of the sources at hand; the definitions
that stand for them are marked as such. An `assert` that fails, and the use of a null
or uninitialised pointer, stop a constructor: it then yields `none`. -/

/-- The predicates of an integer compare (`CmpInst::Predicate`, `ICMP_*`). The header
compare read by the analysis has the header PHI of an add recurrence, an integer or a
pointer, as an operand, so it is an integer compare. -/
inductive Predicate where
  | ICMP_EQ
  | ICMP_NE
  | ICMP_UGT
  | ICMP_UGE
  | ICMP_ULT
  | ICMP_ULE
  | ICMP_SGT
  | ICMP_SGE
  | ICMP_SLT
  | ICMP_SLE
deriving DecidableEq, Repr

/-- LLVM's `CmpInst::getInversePredicate` by its contract: the predicate that holds
exactly when the given one does not. -/
def getInversePredicate : Predicate → Predicate
  | Predicate.ICMP_EQ => Predicate.ICMP_NE
  | Predicate.ICMP_NE => Predicate.ICMP_EQ
  | Predicate.ICMP_UGT => Predicate.ICMP_ULE
  | Predicate.ICMP_UGE => Predicate.ICMP_ULT
  | Predicate.ICMP_ULT => Predicate.ICMP_UGE
  | Predicate.ICMP_ULE => Predicate.ICMP_UGT
  | Predicate.ICMP_SGT => Predicate.ICMP_SLE
  | Predicate.ICMP_SGE => Predicate.ICMP_SLT
  | Predicate.ICMP_SLT => Predicate.ICMP_SGE
  | Predicate.ICMP_SLE => Predicate.ICMP_SGT

/-- LLVM's `CmpInst::getSwappedPredicate` by its contract: the predicate that holds of
`(b, a)` exactly when the given one holds of `(a, b)`. -/
def getSwappedPredicate : Predicate → Predicate
  | Predicate.ICMP_EQ => Predicate.ICMP_EQ
  | Predicate.ICMP_NE => Predicate.ICMP_NE
  | Predicate.ICMP_UGT => Predicate.ICMP_ULT
  | Predicate.ICMP_UGE => Predicate.ICMP_ULE
  | Predicate.ICMP_ULT => Predicate.ICMP_UGT
  | Predicate.ICMP_ULE => Predicate.ICMP_UGE
  | Predicate.ICMP_SGT => Predicate.ICMP_SLT
  | Predicate.ICMP_SGE => Predicate.ICMP_SLE
  | Predicate.ICMP_SLT => Predicate.ICMP_SGT
  | Predicate.ICMP_SLE => Predicate.ICMP_SGE

/-- The unsigned value of the `w`-bit word that the integer `a` denotes. -/
def unsignedValue (w : Nat) (a : Int) : Int :=
  a % 2 ^ w

/-- The signed (two's complement) value of the `w`-bit word that the integer `a`
denotes. -/
def signedValue (w : Nat) (a : Int) : Int :=
  (a + 2 ^ (w - 1)) % 2 ^ w - 2 ^ (w - 1)

/-- LLVM's `icmp` on `w`-bit words, each given by an integer that denotes it: `eq` and
`ne` compare the words, the unsigned predicates compare their unsigned values and the
signed predicates their signed values. -/
def Predicate.holds (w : Nat) : Predicate → Int → Int → Bool
  | Predicate.ICMP_EQ, a, b => decide (unsignedValue w a = unsignedValue w b)
  | Predicate.ICMP_NE, a, b => decide (unsignedValue w a ≠ unsignedValue w b)
  | Predicate.ICMP_UGT, a, b => decide (unsignedValue w b < unsignedValue w a)
  | Predicate.ICMP_UGE, a, b => decide (unsignedValue w b ≤ unsignedValue w a)
  | Predicate.ICMP_ULT, a, b => decide (unsignedValue w a < unsignedValue w b)
  | Predicate.ICMP_ULE, a, b => decide (unsignedValue w a ≤ unsignedValue w b)
  | Predicate.ICMP_SGT, a, b => decide (signedValue w b < signedValue w a)
  | Predicate.ICMP_SGE, a, b => decide (signedValue w b ≤ signedValue w a)
  | Predicate.ICMP_SLT, a, b => decide (signedValue w a < signedValue w b)
  | Predicate.ICMP_SLE, a, b => decide (signedValue w a ≤ signedValue w b)

/-- The predicates that compare signed values. -/
def Predicate.isSigned : Predicate → Bool
  | Predicate.ICMP_SGT => true
  | Predicate.ICMP_SGE => true
  | Predicate.ICMP_SLT => true
  | Predicate.ICMP_SLE => true
  | _ => false

/-- The value `v + n * k` of the recurrence after `n` further steps does not wrap around
`w` bits in the reading of the predicate `e`: for a signed predicate the signed value of
`v` and the `n` steps stay within the signed range; for `eq`, `ne` and the unsigned
predicates the unsigned value of `v` and the `n` steps stay within the unsigned range. -/
def NoWrap (w : Nat) (e : Predicate) (v : Int) (n : Nat) (k : Int) : Prop :=
  if e.isSigned then
    -(2 ^ (w - 1)) ≤ signedValue w v + n * k ∧ signedValue w v + n * k < 2 ^ (w - 1)
  else
    0 ≤ unsignedValue w v + n * k ∧ unsignedValue w v + n * k < 2 ^ w

/-- What an `llvm::Value` is, as far as the `isa`/`dyn_cast` tests of the analysis
tell: a PHI with its incoming (value, block) pairs, a compare with its predicate and
operands, a conditional branch with its condition and two successors, an unconditional
branch, an address computation, any other instruction, an integer constant with its
(signed) value, or any other value. Values and blocks are identified by numbers. -/
inductive IRValue where
  | phi (incoming : List (Nat × Nat))
  | cmp (predicate : Predicate) (op0 op1 : Nat)
  | condBr (condition succ0 succ1 : Nat)
  | br (succ : Nat)
  | gep
  | instruction
  | constantInt (value : Int)
  | other
deriving DecidableEq, Repr

/-- The test `isa<Instruction>`. -/
def IRValue.isInstruction : IRValue → Bool
  | IRValue.constantInt _ => false
  | IRValue.other => false
  | _ => true

/-- The test `isa<PHINode>`. -/
def IRValue.isPHINode : IRValue → Bool
  | IRValue.phi _ => true
  | _ => false

/-- The part of the IR that the analysis reads: what every value is, the block of an
instruction (`getParent`), the terminator of a block (`getTerminator`) and the
instructions of a block in order. -/
structure LoopIR where
  value : Nat → IRValue
  getParent : Nat → Nat
  getTerminator : Nat → Nat
  instructions : Nat → List Nat

/-- The types of scalar-evolution expression the analysis tells apart: a constant
(with its `ConstantInt` value), an unknown (with its value), an add recurrence (with
its step recurrence), or any other type. -/
inductive SCEV where
  | scConstant (value : Nat)
  | scUnknown (value : Nat)
  | scAddRecExpr (step : SCEV)
  | scOther
deriving DecidableEq, Repr

/-- The oracles of LLVM used by the constructor of `InductionVariable`:
`ScalarEvolution::getSCEV` and `SCEVExpander::getExactExistingExpansion` (which may
find no value). The instructions a fresh expansion creates are not modelled. -/
structure ScalarEvolution where
  getSCEV : Nat → SCEV
  getExactExistingExpansion : SCEV → Option Nat

/-- A dependence edge as the analysis reads it: the value it leaves (`getOutgoingT`),
the value it enters (`getIncomingT`), and `isDataDependence()`. -/
structure DepEdge where
  src : Nat
  dst : Nat
  isDataDependence : Bool
deriving DecidableEq, Repr

/-- Modelled from the spec: the graph of an `SCC` object as the analysis reads it, its
internal nodes (`internalNodePairs`) and its dependence edges with their kind. (The
structure `SCC` of the condensation only keeps the values.) -/
structure SCCGraph where
  internalNodes : List Nat
  edges : List DepEdge
deriving DecidableEq, Repr

/-- Modelled from the spec: `scc.isInternal(v)`. -/
def SCCGraph.isInternal (scc : SCCGraph) (v : Nat) : Bool :=
  decide (v ∈ scc.internalNodes)

/-- Modelled from the spec: whether `scc.fetchNode(v)` finds a node: `v` is an
internal node or an end point of an edge. -/
def SCCGraph.isInGraph (scc : SCCGraph) (v : Nat) : Bool :=
  decide (v ∈ scc.internalNodes) || scc.edges.any (fun e => e.src = v ∨ e.dst = v)

/-- Modelled from the spec: `scc.fetchNode(v)->getIncomingEdges()`, the edges that
enter `v`. -/
def SCCGraph.getIncomingEdges (scc : SCCGraph) (v : Nat) : List DepEdge :=
  scc.edges.filter (fun e => e.dst = v)

/-- The fields of an `InductionVariable` that the analysis sets and reads. The
accessors `getHeaderPHI`, `getAllInstructions` and `getSimpleValueOfStepSize` of the
header file are taken to return the fields `headerPHI`, `allInstructions` and
`stepSize`. -/
structure InductionVariable where
  headerPHI : Nat
  PHIs : List Nat
  accumulators : List Nat
  allInstructions : List Nat
  startValue : Option Nat
  stepSize : Option Nat
deriving DecidableEq, Repr

/-- The operation `std::set::insert`. -/
def setInsert (x : Nat) (s : List Nat) : List Nat :=
  if x ∈ s then s else s ++ [x]

/-- The traversal of the constructor of `InductionVariable` (the `while` loop over the
queue `ivIntermediateValues`), with the queue, the set `valuesVisited` and the object
under construction as state; `none` when the fuel runs out. -/
def InductionVariable.collect (ir : LoopIR) (scc : SCCGraph) :
    Nat → List Nat → List Nat → InductionVariable → Option InductionVariable
  | _, [], _, iv => some iv
  | 0, _ :: _, _, _ => none
  | fuel + 1, value :: queue, valuesVisited, iv =>
    if value ∈ valuesVisited then InductionVariable.collect ir scc fuel queue valuesVisited iv
    else
      InductionVariable.collect ir scc fuel
        (queue ++ ((scc.getIncomingEdges value).filter
          (fun edge => edge.isDataDependence && scc.isInternal edge.src)).map DepEdge.src)
        (setInsert value valuesVisited)
        (if (ir.value value).isPHINode then
          { iv with PHIs := setInsert value iv.PHIs,
                    allInstructions := setInsert value iv.allInstructions }
        else if (ir.value value).isInstruction then
          { iv with accumulators := setInsert value iv.accumulators,
                    allInstructions := setInsert value iv.allInstructions }
        else iv)

/-- The loop that fetches the initial value: the first incoming value of the header PHI
whose incoming block is not a block of the loop. -/
def fetchStartValue (bbs : List Nat) : List (Nat × Nat) → Option Nat
  | [] => none
  | (incomingValue, incomingBB) :: rest =>
    if incomingBB ∉ bbs then some incomingValue else fetchStartValue bbs rest

/-- The `switch` on the type of the step recurrence: the value of a constant or of an
unknown, and for any other type the existing expansion if there is one. -/
def fetchStepSize (SE : ScalarEvolution) (stepSCEV : SCEV) : Option Nat :=
  match stepSCEV with
  | SCEV.scConstant value => some value
  | SCEV.scUnknown value => some value
  | _ => SE.getExactExistingExpansion stepSCEV

/-- The constructor `InductionVariable::InductionVariable`; `bbs` are the blocks of the
loop (`LS->getBasicBlocks()`). -/
def InductionVariable.construct (ir : LoopIR) (bbs : List Nat) (SE : ScalarEvolution)
    (headerPHI : Nat) (scc : SCCGraph) (fuel : Nat) : Option InductionVariable :=
  if !scc.isInGraph headerPHI then none
  else
    match InductionVariable.collect ir scc fuel [headerPHI] []
        ⟨headerPHI, [], [], [], none, none⟩ with
    | none => none
    | some iv =>
      match ir.value headerPHI, SE.getSCEV headerPHI with
      | IRValue.phi incoming, SCEV.scAddRecExpr stepSCEV =>
        some { iv with startValue := fetchStartValue bbs incoming,
                       stepSize := fetchStepSize SE stepSCEV }
      | _, _ => none

/-- The fields of a `LoopGoverningIVAttribution`; `none` for a pointer not (yet) set.
The accessors `getHeaderCmpInst`, `getHeaderBrInst`, `getExitBlockFromHeader`,
`getConditionValueDerivation` and `isSCCContainingIVWellFormed` of the header file are
taken to return the fields `headerCmp`, `headerBr`, `exitBlock`,
`conditionValueDerivation` and `isWellFormed`. -/
structure LoopGoverningIVAttribution where
  headerBr : Option Nat
  headerCmp : Option Nat
  conditionValue : Option Nat
  exitBlock : Option Nat
  conditionValueDerivation : List Nat
  isWellFormed : Bool
deriving DecidableEq, Repr

/-- The loop over the incoming edges of a value of the queue `conditionDerivation`:
the result is the set `conditionValueDerivation` and whether the `return` for an
instruction of the induction variable was taken; `none` for the failed `assert` on an
internal value that is no instruction. -/
def scanIncomingEdges (ir : LoopIR) (scc : SCCGraph) (ivInstructions : List Nat) :
    List DepEdge → List Nat → Option (List Nat × Bool)
  | [], conditionValueDerivation => some (conditionValueDerivation, false)
  | edge :: rest, conditionValueDerivation =>
    if scc.isInternal edge.src then
      if !(ir.value edge.src).isInstruction then none
      else if edge.src ∈ ivInstructions then some (conditionValueDerivation, true)
      else scanIncomingEdges ir scc ivInstructions rest
        (setInsert edge.src conditionValueDerivation)
    else scanIncomingEdges ir scc ivInstructions rest conditionValueDerivation

/-- The `while` loop over the queue `conditionDerivation`. Its body pushes nothing on
the queue, so the recursion is on the queue itself. -/
def deriveConditionValue (ir : LoopIR) (scc : SCCGraph) (ivInstructions : List Nat) :
    List Nat → List Nat → Option (List Nat × Bool)
  | [], conditionValueDerivation => some (conditionValueDerivation, false)
  | value :: conditionDerivation, conditionValueDerivation =>
    match scanIncomingEdges ir scc ivInstructions (scc.getIncomingEdges value)
        conditionValueDerivation with
    | none => none
    | some (derivation, true) => some (derivation, true)
    | some (derivation, false) =>
      deriveConditionValue ir scc ivInstructions conditionDerivation derivation

/-- The body of the last loop of the constructor for one internal node of the SCC:
`true` for `continue`, `false` for `return`. -/
def passesSCCCheck (ir : LoopIR) (iv : InductionVariable) (a : LoopGoverningIVAttribution)
    (value : Nat) : Bool :=
  if (ir.value value).isInstruction then
    if value ∈ iv.allInstructions then true
    else if value ∈ a.conditionValueDerivation then true
    else
      match ir.value value with
      | IRValue.cmp _ _ _ => decide (some value = a.headerCmp)
      | IRValue.condBr _ _ _ => decide (some value = a.headerBr)
      | IRValue.br _ => true
      | IRValue.gep => true
      | IRValue.phi _ => true
      | _ => false
  else false

/-- The last loop of the constructor and the assignment `isWellFormed = true` that
follows it. -/
def checkInternalNodes (ir : LoopIR) (iv : InductionVariable) (scc : SCCGraph)
    (a : LoopGoverningIVAttribution) : LoopGoverningIVAttribution :=
  { a with isWellFormed := scc.internalNodes.all (passesSCCCheck ir iv a) }

/-- The constructor from the test `scc.isInternal(conditionValue)` on. -/
def checkConditionValue (ir : LoopIR) (iv : InductionVariable) (scc : SCCGraph)
    (a : LoopGoverningIVAttribution) (conditionValue : Nat) :
    Option LoopGoverningIVAttribution :=
  if scc.isInternal conditionValue then
    if !(ir.value conditionValue).isInstruction then none
    else
      match deriveConditionValue ir scc iv.allInstructions [conditionValue] [] with
      | none => none
      | some (derivation, true) => some { a with conditionValueDerivation := derivation }
      | some (derivation, false) =>
        some (checkInternalNodes ir iv scc { a with conditionValueDerivation := derivation })
  else some (checkInternalNodes ir iv scc a)

/-- The first test of the constructor: the step has a simple value that is no
`ConstantInt`. -/
def hasNonConstantStep (ir : LoopIR) (iv : InductionVariable) : Bool :=
  match iv.stepSize with
  | none => false
  | some stepSize =>
    match ir.value stepSize with
    | IRValue.constantInt _ => false
    | _ => true

/-- The constructor `LoopGoverningIVAttribution::LoopGoverningIVAttribution`. Every
`return` yields the object with the fields set so far. -/
def LoopGoverningIVAttribution.construct (ir : LoopIR) (iv : InductionVariable)
    (scc : SCCGraph) (exitBlocks : List Nat) : Option LoopGoverningIVAttribution :=
  if hasNonConstantStep ir iv then some ⟨none, none, none, none, [], false⟩
  else
    match ir.value (ir.getTerminator (ir.getParent iv.headerPHI)) with
    | IRValue.br _ =>
      some ⟨some (ir.getTerminator (ir.getParent iv.headerPHI)), none, none, none, [], false⟩
    | IRValue.condBr headerCondition succ0 succ1 =>
      match ir.value headerCondition with
      | IRValue.cmp _ opL opR =>
        if !(xor (decide (opL = iv.headerPHI)) (decide (opR = iv.headerPHI))) then
          some ⟨some (ir.getTerminator (ir.getParent iv.headerPHI)), some headerCondition,
            none, none, [], false⟩
        else if succ0 ∈ exitBlocks then
          checkConditionValue ir iv scc
            ⟨some (ir.getTerminator (ir.getParent iv.headerPHI)), some headerCondition,
              some (if opL = iv.headerPHI then opR else opL), some succ0, [], false⟩
            (if opL = iv.headerPHI then opR else opL)
        else if succ1 ∈ exitBlocks then
          checkConditionValue ir iv scc
            ⟨some (ir.getTerminator (ir.getParent iv.headerPHI)), some headerCondition,
              some (if opL = iv.headerPHI then opR else opL), some succ1, [], false⟩
            (if opL = iv.headerPHI then opR else opL)
        else
          some ⟨some (ir.getTerminator (ir.getParent iv.headerPHI)), some headerCondition,
            some (if opL = iv.headerPHI then opR else opL), none, [], false⟩
      | _ =>
        some ⟨some (ir.getTerminator (ir.getParent iv.headerPHI)), none, none, none, [], false⟩
    | _ => some ⟨none, none, none, none, [], false⟩

/-- The fields of a `LoopGoverningIVUtility`. -/
structure LoopGoverningIVUtility where
  condition : Nat
  doesOriginalCmpInstHaveIVAsLeftOperand : Bool
  conditionValueOrderedDerivation : List Nat
  flipOperandsToUseNonStrictPredicate : Bool
  nonStrictPredicate : Predicate
deriving DecidableEq, Repr

/-- The exit predicate of the constructor of `LoopGoverningIVUtility`: the predicate of
the compare, inverted when the branch exits on its false edge, then swapped when the
induction variable is the right operand. -/
def exitPredicateOf (predicate : Predicate) (conditionExitsOnTrue : Bool)
    (doesOriginalCmpInstHaveIVAsLeftOperand : Bool) : Predicate :=
  if doesOriginalCmpInstHaveIVAsLeftOperand then
    (if conditionExitsOnTrue then predicate else getInversePredicate predicate)
  else
    getSwappedPredicate
      (if conditionExitsOnTrue then predicate else getInversePredicate predicate)

/-- The `switch (exitPredicate)` of the constructor of `LoopGoverningIVUtility`; `none`
for a failed `assert`. -/
def selectNonStrictPredicate (exitPredicate : Predicate) (isStepValuePositive : Bool) :
    Option Predicate :=
  match exitPredicate with
  | Predicate.ICMP_NE => some exitPredicate
  | Predicate.ICMP_EQ =>
    some (if isStepValuePositive then Predicate.ICMP_UGE else Predicate.ICMP_ULE)
  | Predicate.ICMP_SLE => if !isStepValuePositive then some exitPredicate else none
  | Predicate.ICMP_SLT => if !isStepValuePositive then some exitPredicate else none
  | Predicate.ICMP_ULT => if !isStepValuePositive then some exitPredicate else none
  | Predicate.ICMP_ULE => if !isStepValuePositive then some exitPredicate else none
  | Predicate.ICMP_UGT => if isStepValuePositive then some exitPredicate else none
  | Predicate.ICMP_UGE => if isStepValuePositive then some exitPredicate else none
  | Predicate.ICMP_SGT => if isStepValuePositive then some exitPredicate else none
  | Predicate.ICMP_SGE => if isStepValuePositive then some exitPredicate else none

/-- The constructor `LoopGoverningIVUtility::LoopGoverningIVUtility`. The value of a
`ConstantInt` is strictly positive (`isStrictlyPositive`) when it is above zero; the
inner `match` is `getHeaderBrInst()->getSuccessor(0)`. -/
def LoopGoverningIVUtility.construct (ir : LoopIR) (iv : InductionVariable)
    (attribution : LoopGoverningIVAttribution) : Option LoopGoverningIVUtility :=
  match attribution.headerCmp with
  | none => none
  | some condition =>
    match ir.value condition with
    | IRValue.cmp predicate op0 _ =>
      match iv.stepSize with
      | none => none
      | some stepSize =>
        match ir.value stepSize with
        | IRValue.constantInt stepValue =>
          match attribution.headerBr, attribution.exitBlock with
          | some headerBr, some exitBlock =>
            match (match ir.value headerBr with
              | IRValue.condBr _ succ0 _ => some succ0
              | IRValue.br succ => some succ
              | _ => none) with
            | some succ0 =>
              (selectNonStrictPredicate
                (exitPredicateOf predicate (decide (succ0 = exitBlock))
                  (decide (op0 = iv.headerPHI)))
                (decide (0 < stepValue))).map
                (fun nonStrictPredicate =>
                  { condition := condition,
                    doesOriginalCmpInstHaveIVAsLeftOperand := decide (op0 = iv.headerPHI),
                    conditionValueOrderedDerivation :=
                      (ir.instructions (ir.getParent condition)).filter
                        (fun I => I ∈ attribution.conditionValueDerivation),
                    flipOperandsToUseNonStrictPredicate := !decide (op0 = iv.headerPHI),
                    nonStrictPredicate := nonStrictPredicate })
            | none => none
          | _, _ => none
        | _ => none
    | _ => none

/-- The function `LoopGoverningIVUtility::cloneConditionalCheckFor`: the compare
`icmp nonStrictPredicate recurrenceOfIV, clonedCompareValue` and the branch on it that
goes to `exitBlock` on true and to `continueBlock` on false; `cmpInst` is the identity
of the new compare. -/
def LoopGoverningIVUtility.cloneConditionalCheckFor (u : LoopGoverningIVUtility)
    (recurrenceOfIV clonedCompareValue continueBlock exitBlock cmpInst : Nat) :
    IRValue × IRValue :=
  (IRValue.cmp u.nonStrictPredicate recurrenceOfIV clonedCompareValue,
   IRValue.condBr cmpInst exitBlock continueBlock)

/-- Whether a conditional branch on a compare of `w`-bit words takes the edge to
`block`, when the left and right operands of the compare are the words `l` and `r`. -/
def takesEdgeTo (w : Nat) (cmp br : IRValue) (block : Nat) (l r : Int) : Bool :=
  match cmp, br with
  | IRValue.cmp predicate _ _, IRValue.condBr _ succ0 succ1 =>
    if predicate.holds w l r then decide (succ0 = block) else decide (succ1 = block)
  | _, _ => false

/-- The IR of a loop governed by an induction variable:

    block 0 (preheader)
    block 1 (header):  %0 = phi [ %5, block 0 ], [ %1, block 2 ]
                       %2 = icmp p %0, %6     (icmp p %6, %0 if the IV is the right operand)
                       %3 = br %2, block 3, block 2   (block 2, block 3 if it exits on false)
    block 2 (body):    %1 = add %0, %7
                       %4 = br block 1
    block 3 (exit)

where `%5` is the constant `start`, `%7` the constant `step` and `%6` the bound, a value
defined outside the loop. -/
def loopIR (p : Predicate) (exitsOnTrue ivIsLeft : Bool) (start step : Int) : LoopIR :=
  { value := fun v =>
      if v = 0 then IRValue.phi [(5, 0), (1, 2)]
      else if v = 1 then IRValue.instruction
      else if v = 2 then (if ivIsLeft then IRValue.cmp p 0 6 else IRValue.cmp p 6 0)
      else if v = 3 then (if exitsOnTrue then IRValue.condBr 2 3 2 else IRValue.condBr 2 2 3)
      else if v = 4 then IRValue.br 1
      else if v = 5 then IRValue.constantInt start
      else if v = 7 then IRValue.constantInt step
      else IRValue.other,
    getParent := fun v => if v = 1 ∨ v = 4 then 2 else 1,
    getTerminator := fun b => if b = 2 then 4 else 3,
    instructions := fun b => if b = 1 then [0, 2, 3] else if b = 2 then [1, 4] else [] }

/-- The SCC of the induction variable of `loopIR`: the PHI, the addition, the compare
and the header branch, with the data dependences among them and the control dependences
of the header branch. -/
def loopSCC : SCCGraph :=
  { internalNodes := [0, 1, 2, 3],
    edges := [⟨1, 0, true⟩, ⟨0, 1, true⟩, ⟨0, 2, true⟩, ⟨2, 3, true⟩,
      ⟨3, 0, false⟩, ⟨3, 1, false⟩, ⟨3, 2, false⟩, ⟨3, 3, false⟩] }

/-- Scalar evolution for `loopIR`: the PHI `%0` is an add recurrence with the given
step recurrence, and no expansion exists for a composite step. -/
def loopSE (stepSCEV : SCEV) : ScalarEvolution :=
  { getSCEV := fun v => if v = 0 then SCEV.scAddRecExpr stepSCEV else SCEV.scOther,
    getExactExistingExpansion := fun _ => none }

/-- The induction variable of `loopIR` with the constant step `%7`. -/
def loopIV : InductionVariable :=
  { headerPHI := 0, PHIs := [0], accumulators := [1], allInstructions := [0, 1],
    startValue := some 5, stepSize := some 7 }

/-- The attribution of `loopIV` in `loopIR`: the exit block is block 3. -/
def loopAttribution : LoopGoverningIVAttribution :=
  { headerBr := some 3, headerCmp := some 2, conditionValue := some 6,
    exitBlock := some 3, conditionValueDerivation := [], isWellFormed := true }

/-- The IR of a loop whose bound is itself carried around the loop:

    block 1 (header):  %0 = phi [ %5, block 0 ], [ %1, block 2 ]
                       %8 = phi [ %6, block 0 ], [ %9, block 2 ]
                       %2 = icmp slt %0, %8
                       %3 = br %2, block 2, block 3
    block 2 (body):    %9 = the next bound (an arithmetic instruction)
                       %1 = add %0, 1
                       %4 = br block 1
    block 3 (exit) -/
def derivedBoundIR : LoopIR :=
  { value := fun v =>
      if v = 0 then IRValue.phi [(5, 0), (1, 2)]
      else if v = 1 then IRValue.instruction
      else if v = 2 then IRValue.cmp Predicate.ICMP_SLT 0 8
      else if v = 3 then IRValue.condBr 2 2 3
      else if v = 4 then IRValue.br 1
      else if v = 5 then IRValue.constantInt 0
      else if v = 7 then IRValue.constantInt 1
      else if v = 8 then IRValue.phi [(6, 0), (9, 2)]
      else if v = 9 then IRValue.instruction
      else IRValue.other,
    getParent := fun v => if v = 1 ∨ v = 4 ∨ v = 9 then 2 else 1,
    getTerminator := fun b => if b = 2 then 4 else 3,
    instructions := fun b => if b = 1 then [0, 8, 2, 3] else if b = 2 then [9, 1, 4] else [] }

/-- The SCC of the induction variable of `derivedBoundIR`. When `circular` holds the
next bound `%9` is computed from the induction variable `%0` (a data dependence
`%0 -> %9`), so the bound `%8` depends on the induction variable through `%9`. -/
def derivedBoundSCC (circular : Bool) : SCCGraph :=
  { internalNodes := [0, 1, 2, 3, 8, 9],
    edges := [⟨1, 0, true⟩, ⟨0, 1, true⟩, ⟨0, 2, true⟩, ⟨8, 2, true⟩, ⟨2, 3, true⟩,
      ⟨9, 8, true⟩] ++ (if circular then [⟨0, 9, true⟩] else []) ++
      [⟨3, 0, false⟩, ⟨3, 1, false⟩, ⟨3, 2, false⟩, ⟨3, 3, false⟩, ⟨3, 8, false⟩,
       ⟨3, 9, false⟩] }

/-- The combination that the constructor of `LoopGoverningIVUtility` reads from the IR,
the induction variable and the attribution: the header compare has the predicate `p`,
the header branch leaves the loop on its true edge exactly when `exitsOnTrue`, the
induction variable is the left operand of the compare exactly when `ivIsLeft`, and the
step is the integer constant `step`. -/
def GoverningCompare (ir : LoopIR) (iv : InductionVariable)
    (attribution : LoopGoverningIVAttribution) (p : Predicate) (exitsOnTrue ivIsLeft : Bool)
    (step : Int) : Prop :=
  ∃ condition op0 op1 headerBr headerCondition succ0 succ1 exitBlock stepSize,
    attribution.headerCmp = some condition ∧ ir.value condition = IRValue.cmp p op0 op1 ∧
    attribution.headerBr = some headerBr ∧
    ir.value headerBr = IRValue.condBr headerCondition succ0 succ1 ∧
    attribution.exitBlock = some exitBlock ∧ exitsOnTrue = decide (succ0 = exitBlock) ∧
    ivIsLeft = decide (op0 = iv.headerPHI) ∧
    iv.stepSize = some stepSize ∧ ir.value stepSize = IRValue.constantInt step

/-- The less-than predicates `<` and `<=`, signed or unsigned. -/
def Predicate.isLessThan : Predicate → Bool
  | Predicate.ICMP_SLT => true
  | Predicate.ICMP_SLE => true
  | Predicate.ICMP_ULT => true
  | Predicate.ICMP_ULE => true
  | _ => false

/-- The greater-than predicates `>` and `>=`, signed or unsigned. -/
def Predicate.isGreaterThan : Predicate → Bool
  | Predicate.ICMP_SGT => true
  | Predicate.ICMP_SGE => true
  | Predicate.ICMP_UGT => true
  | Predicate.ICMP_UGE => true
  | _ => false

/-- One step of data dependence inside the SCC: a data-dependence edge between two
internal values. -/
def SCCGraph.dataStep (scc : SCCGraph) (a b : Nat) : Prop :=
  scc.isInternal a = true ∧ scc.isInternal b = true ∧
    ∃ e ∈ scc.edges, e.isDataDependence = true ∧ e.src = a ∧ e.dst = b

/-- The value `b` depends on `a` through one or more data dependences inside the SCC:
`a` is in the transitive data-dependence closure of `b` within the SCC. -/
def SCCGraph.DependsOn (scc : SCCGraph) (b a : Nat) : Prop :=
  Relation.TransGen scc.dataStep a b

/-! ## Further definitions for the chunk worker, the chunk counter, the branch update
and the membership test -/

/-- The sequential loop that the chunk workers replace, `for (i = a; i <u N; i += s)`
in 64-bit arithmetic: `visited` collects the values of the induction variable on which
the body runs; `none` means the fuel ran out. -/
def originalLoop (s N : Nat) : Nat → Nat → List Nat → Option (List Nat)
  | 0, _, _ => none
  | fuel + 1, i, visited =>
    if i < N then originalLoop s N fuel ((i + s) % wordSize) (visited ++ [i])
    else some visited

/-- The two kinds of incoming value that `IVUtility::createChunkPHI` gives the chunk
PHI: the constant `zeroValueForChunking`, and the select `chunkWrap` built in front of
the terminator of a latch. -/
inductive ChunkIncoming where
  | zeroValueForChunking
  | chunkWrap
deriving DecidableEq, Repr

/-- The function `IVUtility::createChunkPHI`: the incoming (value, block) pairs of the
new PHI, one per predecessor of the header: zero from the preheader, `chunkWrap` from
every other predecessor. -/
def createChunkPHI (preheaderB : Nat) (headerPreds : List Nat) : List (ChunkIncoming × Nat) :=
  headerPreds.map (fun B =>
    if preheaderB = B then (ChunkIncoming.zeroValueForChunking, B)
    else (ChunkIncoming.chunkWrap, B))

/-- The instruction `chunkIncrement`: `CreateAdd(chunkPHI, 1)` in the integer type of
the chunk PHI, `w` bits wide. -/
def chunkIncrement (w chunkPHI : Nat) : Nat :=
  (chunkPHI + 1) % 2 ^ w

/-- The instruction `isChunkCompleted`: `CreateICmp(ICMP_EQ, chunkIncrement, chunkSize)`. -/
def isChunkCompleted (w chunkSize chunkPHI : Nat) : Bool :=
  decide (chunkIncrement w chunkPHI = chunkSize)

/-- The value of an incoming value of the chunk PHI, given the value `chunkPHI` the PHI
had in the iteration that ends: `chunkWrap` is
`CreateSelect(isChunkCompleted, 0, chunkIncrement)`. -/
def ChunkIncoming.value (w chunkSize chunkPHI : Nat) : ChunkIncoming → Nat
  | ChunkIncoming.zeroValueForChunking => 0
  | ChunkIncoming.chunkWrap =>
    if isChunkCompleted w chunkSize chunkPHI then 0 else chunkIncrement w chunkPHI

/-- The value the PHI takes when the header is entered from block `B` (the incoming
value for `B`; 0 if the PHI has no entry for `B`). -/
def phiValueFrom (w chunkSize : Nat) (phi : List (ChunkIncoming × Nat)) (chunkPHI B : Nat) :
    Nat :=
  match phi.find? (fun p => p.2 = B) with
  | some p => p.1.value w chunkSize chunkPHI
  | none => 0

/-- The value of the chunk PHI after the header was entered through the blocks of
`path`, one after the other (the PHI is undefined, here 0, before the first entry). -/
def chunkPHIAfter (w chunkSize : Nat) (phi : List (ChunkIncoming × Nat)) (path : List Nat) :
    Nat :=
  path.foldl (phiValueFrom w chunkSize phi) 0

/-- The select `nextStepOrNextChunk` that `IVUtility::chunkInductionVariablePHI` puts in
the place of the incoming value `incoming` of the induction variable from a latch: on
`isChunkCompleted` (the condition of the select `chunkWrap` of that latch) the value
`incoming + chunkStepSize`, else `incoming`. -/
def nextStepOrNextChunk (w chunkSize chunkPHI incoming chunkStepSize : Nat) : Nat :=
  if isChunkCompleted w chunkSize chunkPHI then (incoming + chunkStepSize) % 2 ^ w
  else incoming

/-- The function `LoopGoverningIVUtility::updateConditionAndBranchToCatchIteratingPastExitValue`
applied to the compare `cmpToUpdate` and the conditional branch `branchInst`: the
operands of the compare are swapped if `flipOperandsToUseNonStrictPredicate`, its
predicate becomes the non-strict one, and the exit block becomes successor 0 of the
branch. -/
def LoopGoverningIVUtility.updateConditionAndBranchToCatchIteratingPastExitValue
    (u : LoopGoverningIVUtility) (cmpToUpdate branchInst : IRValue) (exitBlock : Nat) :
    IRValue × IRValue :=
  ((match cmpToUpdate with
    | IRValue.cmp _ opL opR =>
      if u.flipOperandsToUseNonStrictPredicate then IRValue.cmp u.nonStrictPredicate opR opL
      else IRValue.cmp u.nonStrictPredicate opL opR
    | v => v),
   (match branchInst with
    | IRValue.condBr condition succ0 succ1 =>
      if succ0 ≠ exitBlock then IRValue.condBr condition exitBlock succ0
      else IRValue.condBr condition succ0 succ1
    | v => v))

/-- The function `SCCDAG::doesItContain`: `sccOfValue(inst) != nullptr`; `none` when
`sccOfValue` fails. -/
def SCCDAG.doesItContain (d : SCCDAG) (inst : Nat) : Option Bool :=
  match d.sccOfValue inst with
  | none => none
  | some _ => some true

/-- One step of the traversal of the constructor of `InductionVariable`: from the value
`a` to the source `b` of a data-dependence edge that enters `a` and whose source is
internal to the SCC. -/
def SCCGraph.ivStep (scc : SCCGraph) (a b : Nat) : Prop :=
  ∃ e ∈ scc.edges, e.isDataDependence = true ∧ scc.isInternal e.src = true ∧
    e.dst = a ∧ e.src = b

/-- The value `v` is reachable from the header PHI by following incoming
data-dependence edges whose source is internal to the SCC. -/
def SCCGraph.IVReach (scc : SCCGraph) (headerPHI v : Nat) : Prop :=
  Relation.ReflTransGen scc.ivStep headerPHI v

/-- The state of the traversal of the constructor of `InductionVariable`: the values in
the queue and the visited ones are reachable from the header PHI, the predecessors of a
visited value are visited or in the queue, the header PHI is visited or in the queue,
and the three sets hold the visited values of their kind. -/
structure CollectInv (ir : LoopIR) (scc : SCCGraph) (headerPHI : Nat) (queue visited : List Nat)
    (iv : InductionVariable) : Prop where
  reach : ∀ v, v ∈ queue ∨ v ∈ visited → scc.IVReach headerPHI v
  closed : ∀ v ∈ visited, ∀ b, scc.ivStep v b → b ∈ visited ∨ b ∈ queue
  start : headerPHI ∈ visited ∨ headerPHI ∈ queue
  phis : ∀ v, v ∈ iv.PHIs ↔ v ∈ visited ∧ (ir.value v).isPHINode = true
  accs : ∀ v, v ∈ iv.accumulators ↔
    v ∈ visited ∧ (ir.value v).isInstruction = true ∧ (ir.value v).isPHINode = false
  all : ∀ v, v ∈ iv.allInstructions ↔ v ∈ visited ∧ (ir.value v).isInstruction = true

/-- The two end points of an SCCDAG edge. -/
def SCCEdge.ends (e : SCCEdge) : Nat × Nat :=
  (e.src, e.dst)

/-- The edge list `F` extends `A` as far as end points go: it is at least as long and
has the same end points at the positions of `A`. -/
def EndExt (A F : List SCCEdge) : Prop :=
  A.length ≤ F.length ∧
    ∀ j : Nat, j < A.length → (F[j]?).map SCCEdge.ends = (A[j]?).map SCCEdge.ends

/-- The relation between a first pass of `markEdgesAndSubEdges`, in the state `(A, c)`,
and a second pass over the result `F` of the first, in the state `(B, c)` after the
same visits: `B` has the end points of `F`; at the positions cleared so far it agrees
with `A`, and elsewhere it still agrees with `F`. -/
structure EdgeSim (A : List SCCEdge) (c : List Nat) (B F : List SCCEdge) : Prop where
  len : B.length = F.length
  ends : ∀ j : Nat, (B[j]?).map SCCEdge.ends = (F[j]?).map SCCEdge.ends
  touched : ∀ j ∈ c, B[j]? = A[j]? ∧ j < A.length
  untouched : ∀ j : Nat, j ∉ c → B[j]? = F[j]?

/-! ## DSWP stage creation (`passes/dswp/src/Pipeline.cpp`)

The classes `SCCDAGPartition` and `StageInfo` and the graph functions
`getTopLevelNodes` and `nextDepthNodes` of `DG<T>` are not part of the sources at hand;
the definitions that stand for them are marked as such. An SCC and its node in the
SCCDAG are both given by the identity `SCC.id`. -/

/-- Modelled from the spec: the partition object `LDI->partitions` as far as the stage
creation reads it: `isRemovable scc` tells whether the SCC is cloned rather than staged,
`partitionOf scc` is the external grouping key (the identity of the partition of the
SCC). -/
structure SCCDAGPartition where
  isRemovable : Nat → Bool
  partitionOf : Nat → Nat

/-- Modelled from the spec: a `StageInfo` object as far as the stage creation goes, its
order index and its set `stageSCCs` in insertion order. The constructor
`StageInfo(order, scc)` makes `⟨order, [scc]⟩`, the stage whose only SCC is `scc`. -/
structure StageInfo where
  order : Nat
  stageSCCs : List Nat
deriving DecidableEq, Repr

/-- The fields of `DSWPLoopDependenceInfo` that the stage creation reads and writes. A
`StageInfo *` is given by the position of the stage in the vector `stages`, which owns
the stages; the map `sccToStage` holds one pair per key. -/
structure DSWPLoopDependenceInfo where
  loopSCCDAG : SCCDAG
  partitions : SCCDAGPartition
  sccToStage : List (Nat × Nat)
  stages : List StageInfo

/-- The assignment `m[key] = val` on an `unordered_map`: the entry of the key is
replaced, or a new entry is made. -/
def mapAssign (key val : Nat) : List (Nat × Nat) → List (Nat × Nat)
  | [] => [(key, val)]
  | (k, v) :: rest =>
    if k = key then (k, val) :: rest else (k, v) :: mapAssign key val rest

/-- Modelled from the spec: `DG::getTopLevelNodes` on the SCCDAG, the nodes with no
incoming edge, in iteration order. -/
def SCCDAG.getTopLevelNodes (d : SCCDAG) : List Nat :=
  (d.internalNodes.filter
    (fun s => (d.edges.filter (fun e => e.dst = s.id)).length = 0)).map SCC.id

/-- Modelled from the spec: `DG::nextDepthNodes`, the set of the nodes one edge away
from the node, which the breadth-first traversal goes to next. -/
def SCCDAG.nextDepthNodes (d : SCCDAG) (sccNode : Nat) : List Nat :=
  ((d.edges.filter (fun e => e.src = sccNode)).map SCCEdge.dst).dedup

/-- The loop over `nextNodes` in the traversal: every node not found yet is added to the
set `nodesFound` and to the back of the queue `nodesToTraverse`. -/
def addUnvisited (nextNodes : List Nat) (nodesFound nodesToTraverse : List Nat) :
    List Nat × List Nat :=
  nextNodes.foldl (fun st next =>
    if next ∈ st.1 then st else (setInsert next st.1, st.2 ++ [next]))
    (nodesFound, nodesToTraverse)

/-- The part of the state of `createStagesfromPartitionedSCCs` that holds the stages:
the counter `order`, the map `partitionToStage`, and the fields `stages` and
`sccToStage` of the loop information. The counter is an `int` in the source; it counts
the stages made, at most one per SCC node. -/
structure StageAssignment where
  order : Nat
  partitionToStage : List (Nat × Nat)
  stages : List StageInfo
  sccToStage : List (Nat × Nat)
deriving DecidableEq, Repr

/-- The second half of the body of the `while` loop for the SCC `scc`: a removable SCC
is skipped; otherwise the SCC joins the stage of its partition, which is made first if
the partition has none. `none` stands for `stages[order - 1]` past the end. -/
def assignStage (partitions : SCCDAGPartition) (st : StageAssignment) (scc : Nat) :
    Option StageAssignment :=
  if partitions.isRemovable scc then some st
  else
    let sccPartition := partitions.partitionOf scc
    match st.partitionToStage.lookup sccPartition with
    | some stage =>
      some { st with
        stages := modifyAt (fun s => { s with stageSCCs := setInsert scc s.stageSCCs })
          stage st.stages,
        sccToStage := mapAssign scc stage st.sccToStage }
    | none =>
      let stages1 := st.stages ++ [⟨st.order, [scc]⟩]
      let order1 := st.order + 1
      if order1 - 1 < stages1.length then
        some { order := order1,
               partitionToStage := mapAssign sccPartition (order1 - 1) st.partitionToStage,
               stages := stages1,
               sccToStage := mapAssign scc (order1 - 1) st.sccToStage }
      else none

/-- The `while` loop of `createStagesfromPartitionedSCCs` over the queue
`nodesToTraverse`; `none` when the fuel runs out or a stage is read past the end of
`stages`. -/
def createStagesLoop (d : SCCDAG) (partitions : SCCDAGPartition) :
    Nat → List Nat → List Nat → StageAssignment → Option StageAssignment
  | _, _, [], st => some st
  | 0, _, _ :: _, _ => none
  | fuel + 1, nodesFound, sccNode :: nodesToTraverse, st =>
    match assignStage partitions st sccNode with
    | none => none
    | some st1 =>
      createStagesLoop d partitions fuel
        (addUnvisited (d.nextDepthNodes sccNode) nodesFound nodesToTraverse).1
        (addUnvisited (d.nextDepthNodes sccNode) nodesFound nodesToTraverse).2 st1

/-- The function `DSWP::createStagesfromPartitionedSCCs`. -/
def DSWP.createStagesfromPartitionedSCCs (LDI : DSWPLoopDependenceInfo) (fuel : Nat) :
    Option DSWPLoopDependenceInfo :=
  let topLevelSCCNodes := LDI.loopSCCDAG.getTopLevelNodes
  (createStagesLoop LDI.loopSCCDAG LDI.partitions fuel
    (topLevelSCCNodes.foldl (fun s n => setInsert n s) []) topLevelSCCNodes
    ⟨0, [], LDI.stages, LDI.sccToStage⟩).map
    (fun st => { LDI with stages := st.stages, sccToStage := st.sccToStage })

/-- The sequence in which the `while` loop of `createStagesfromPartitionedSCCs` takes
the nodes from the front of the queue: the breadth-first traversal. -/
def traversalOrder (d : SCCDAG) : Nat → List Nat → List Nat → Option (List Nat)
  | _, _, [] => some []
  | 0, _, _ :: _ => none
  | fuel + 1, nodesFound, sccNode :: nodesToTraverse =>
    (traversalOrder d fuel
      (addUnvisited (d.nextDepthNodes sccNode) nodesFound nodesToTraverse).1
      (addUnvisited (d.nextDepthNodes sccNode) nodesFound nodesToTraverse).2).map
      (fun rest => sccNode :: rest)

/-- The breadth-first traversal from the top-level nodes of the SCCDAG. -/
def SCCDAG.traversal (d : SCCDAG) (fuel : Nat) : Option (List Nat) :=
  traversalOrder d fuel (d.getTopLevelNodes.foldl (fun s n => setInsert n s) [])
    d.getTopLevelNodes

/-- The distinct elements of a list in the order in which they are first met. -/
def firstMet (l : List Nat) : List Nat :=
  l.foldl (fun s k => setInsert k s) []

/-- The visited SCCs that are not removable, in the order of the traversal. -/
def staged (partitions : SCCDAGPartition) (visited : List Nat) : List Nat :=
  visited.filter (fun scc => !partitions.isRemovable scc)

/-- The partitions of the visited SCCs that are not removable, in the order in which
the traversal first meets them. -/
def partitionsMet (partitions : SCCDAGPartition) (visited : List Nat) : List Nat :=
  firstMet ((staged partitions visited).map partitions.partitionOf)

/-- The node `x` of the SCCDAG is reachable from a top-level node along edges. -/
def SCCDAG.TopReach (d : SCCDAG) (x : Nat) : Prop :=
  ∃ t ∈ d.getTopLevelNodes, Relation.ReflTransGen d.edgeRel t x

/-- The entries of the key `scc` in the map. -/
def entriesOf (scc : Nat) (m : List (Nat × Nat)) : List (Nat × Nat) :=
  m.filter (fun p => p.1 = scc)

/-- The order index of the stage that `sccToStage` gives for the SCC, if any. -/
def DSWPLoopDependenceInfo.stageOrder (LDI : DSWPLoopDependenceInfo) (scc : Nat) :
    Option Nat :=
  match LDI.sccToStage.lookup scc with
  | none => none
  | some stage => (LDI.stages[stage]?).map StageInfo.order

/-- The state of the stages after the traversal has visited the SCCs `visited`, in
terms of the partitions met so far: the stage at position `i` has order `i` and holds
the visited non-removable SCCs of the `i`-th partition met. -/
structure StageInv (partitions : SCCDAGPartition) (visited : List Nat)
    (st : StageAssignment) : Prop where
  order : st.order = (partitionsMet partitions visited).length
  length : st.stages.length = (partitionsMet partitions visited).length
  toStage : ∀ k, st.partitionToStage.lookup k =
    if k ∈ partitionsMet partitions visited
    then some ((partitionsMet partitions visited).indexOf k) else none
  stage : ∀ (i : Nat) (s : StageInfo), st.stages[i]? = some s → s.order = i ∧
    ∃ k, (partitionsMet partitions visited)[i]? = some k ∧
      ∀ x, x ∈ s.stageSCCs ↔ x ∈ staged partitions visited ∧ partitions.partitionOf x = k
  sccStage : ∀ x, st.sccToStage.lookup x =
    if x ∈ staged partitions visited
    then some ((partitionsMet partitions visited).indexOf (partitions.partitionOf x))
    else none
  keys : (st.sccToStage.map Prod.fst).Nodup

/-- The dependence graph of `main` of `tests/DSWP_list_inlined/test.cpp`, cut down to
five values: the list head `n0` (`0`), the list pointer `tmpN` (`1`) and its successor
`tmpN->next` (`2`), which depend on each other, and the accumulator `total` (`3`) and the
sum `total + v` (`4`), which depend on each other; the sum takes `v` from the node the
pointer is at. -/
def listLoop : PDG := graphOf 5 [(0, 1), (1, 2), (2, 1), (1, 4), (4, 3), (3, 4)]

/-- The SCCDAG of `listLoop`: the list head, the pointer-chasing SCC (node `1`) and the
accumulation SCC (node `2`). -/
def listLoopSCCDAG : SCCDAG :=
  { pdg := listLoop,
    internalNodes := [⟨0, [0]⟩, ⟨1, [1, 2]⟩, ⟨2, [4, 3]⟩],
    externalNodes := [],
    edges := [⟨0, 1, [arc 0 1]⟩, ⟨1, 2, [arc 1 4]⟩],
    valueToSCCNode := [(3, 2), (4, 2), (2, 1), (1, 1), (0, 0)],
    nextId := 3 }

/-- The loop information over the SCCDAG `d` of a loop in which no SCC is
removable and every SCC is a partition of its own. -/
def ownStages (d : SCCDAG) : DSWPLoopDependenceInfo :=
  { loopSCCDAG := d, partitions := ⟨fun _ => false, fun scc => scc⟩,
    sccToStage := [], stages := [] }

/-- The dependence graph `0 -> 1`, `0 -> 2`, `2 -> 3`, `3 -> 1` of four values. -/
def kite : PDG := graphOf 4 [(0, 1), (0, 2), (2, 3), (3, 1)]

/-- The SCCDAG of `kite`: four SCCs of one value each. -/
def kiteSCCDAG : SCCDAG :=
  { pdg := kite,
    internalNodes := [⟨0, [0]⟩, ⟨1, [1]⟩, ⟨2, [2]⟩, ⟨3, [3]⟩],
    externalNodes := [],
    edges := [⟨0, 1, [arc 0 1]⟩, ⟨0, 2, [arc 0 2]⟩, ⟨2, 3, [arc 2 3]⟩, ⟨3, 1, [arc 3 1]⟩],
    valueToSCCNode := [(3, 3), (2, 2), (1, 1), (0, 0)],
    nextId := 4 }
/-! ## Theorems: DOALL chunk worker -/

theorem wordSize_pos : 0 < wordSize := by unfold wordSize; positivity

theorem innerLoop_spec (c : ChunkerInfo) (outerIV : Nat)
    (hN : c.cloneIVInfo.endVal < wordSize) (hK : c.chunkSizeArgVal < wordSize)
    (ho : outerIV < c.cloneIVInfo.endVal) :
    ∀ (d cloneIV : Nat) (visited : List Nat) (fuel : Nat),
      cloneIV + d = min c.chunkSizeArgVal (c.cloneIVInfo.endVal - outerIV) →
      d + 1 ≤ fuel →
      innerLoop c outerIV fuel cloneIV visited
        = some (visited ++ List.range' (outerIV + cloneIV) d) := by
  intro d
  induction d with
  | zero =>
    intro cloneIV visited fuel hm hf
    obtain ⟨f, rfl⟩ : ∃ f, fuel = f + 1 := ⟨fuel - 1, by omega⟩
    have hs : sumIV cloneIV outerIV = cloneIV + outerIV := by
      unfold sumIV; apply Nat.mod_eq_of_lt; omega
    simp only [innerLoop, hs, List.range'_zero, List.append_nil]
    by_cases h1 : cloneIV + outerIV < c.cloneIVInfo.endVal
    · have h2 : ¬ cloneIV < c.chunkSizeArgVal := by omega
      simp [h1, h2]
    · simp [h1]
  | succ d ih =>
    intro cloneIV visited fuel hm hf
    obtain ⟨f, rfl⟩ : ∃ f, fuel = f + 1 := ⟨fuel - 1, by omega⟩
    have hs : sumIV cloneIV outerIV = cloneIV + outerIV := by
      unfold sumIV; apply Nat.mod_eq_of_lt; omega
    have h1 : cloneIV + outerIV < c.cloneIVInfo.endVal := by omega
    have h2 : cloneIV < c.chunkSizeArgVal := by omega
    have h3 : (cloneIV + 1) % wordSize = cloneIV + 1 := by
      apply Nat.mod_eq_of_lt; omega
    simp only [innerLoop, hs, h1, h2, h3, if_true]
    rw [ih (cloneIV + 1) _ f (by omega) (by omega)]
    simp [List.range'_succ, Nat.add_comm, Nat.add_left_comm, Nat.add_assoc]

theorem count_range' (x s n : Nat) :
    (List.range' s n).count x = if s ≤ x ∧ x < s + n then 1 else 0 := by
  rw [List.count_eq_of_nodup (List.nodup_range' s n)]
  simp only [List.mem_range'_1]

theorem outerLoop_count (c : ChunkerInfo)
    (hN : c.cloneIVInfo.endVal < wordSize) (hK : c.chunkSizeArgVal < wordSize)
    (hK1 : 1 ≤ c.chunkSizeArgVal) (hKS : c.chunkSizeArgVal ≤ outerIVStepSize c)
    (hov : c.cloneIVInfo.endVal + outerIVStepSize c ≤ wordSize) :
    ∀ (fuel outerIV : Nat) (visited : List Nat),
      c.cloneIVInfo.endVal - outerIV + 2 ≤ fuel →
      ∃ tr, outerLoop c fuel outerIV visited = some tr ∧
        ∀ x, tr.count x = visited.count x +
          (if outerIV ≤ x ∧ x < c.cloneIVInfo.endVal ∧
              (x - outerIV) % outerIVStepSize c < c.chunkSizeArgVal then 1 else 0) := by
  intro fuel
  induction fuel with
  | zero => intro outerIV visited hf; omega
  | succ f ih =>
    intro outerIV visited hf
    by_cases ho : outerIV < c.cloneIVInfo.endVal
    · have hin := innerLoop_spec c outerIV hN hK ho
        (min c.chunkSizeArgVal (c.cloneIVInfo.endVal - outerIV)) 0 visited f (by simp) (by omega)
      have hinc : outerIVInc c outerIV = outerIV + outerIVStepSize c := by
        unfold outerIVInc; apply Nat.mod_eq_of_lt; omega
      obtain ⟨tr, htr, hcnt⟩ := ih (outerIV + outerIVStepSize c)
        (visited ++ List.range' (outerIV + 0)
          (min c.chunkSizeArgVal (c.cloneIVInfo.endVal - outerIV))) (by omega)
      refine ⟨tr, ?_, ?_⟩
      · simp only [outerLoop, outerIVCmp, ho, decide_True, if_true, hin, hinc]
        exact htr
      · intro x
        rw [hcnt x, List.count_append, count_range']
        by_cases hx1 : x < outerIV
        · have e1 : ¬ (outerIV ≤ x ∧ x < c.cloneIVInfo.endVal ∧
              (x - outerIV) % outerIVStepSize c < c.chunkSizeArgVal) := by omega
          have e2 : ¬ (outerIV + 0 ≤ x ∧ x < outerIV + 0 +
              min c.chunkSizeArgVal (c.cloneIVInfo.endVal - outerIV)) := by omega
          have e3 : ¬ (outerIV + outerIVStepSize c ≤ x ∧ x < c.cloneIVInfo.endVal ∧
              (x - (outerIV + outerIVStepSize c)) % outerIVStepSize c < c.chunkSizeArgVal) := by
            omega
          rw [if_neg e1, if_neg e2, if_neg e3]
        · by_cases hx2 : x < outerIV + outerIVStepSize c
          · have hm : (x - outerIV) % outerIVStepSize c = x - outerIV :=
              Nat.mod_eq_of_lt (by omega)
            have e3 : ¬ (outerIV + outerIVStepSize c ≤ x ∧ x < c.cloneIVInfo.endVal ∧
                (x - (outerIV + outerIVStepSize c)) % outerIVStepSize c < c.chunkSizeArgVal) := by
              omega
            rw [hm, if_neg e3]
            by_cases hx3 : x < outerIV + 0 +
                min c.chunkSizeArgVal (c.cloneIVInfo.endVal - outerIV)
            · rw [if_pos ⟨by omega, hx3⟩, if_pos ⟨by omega, by omega, by omega⟩]
            · rw [if_neg (fun h => hx3 h.2), if_neg (by omega)]
          · have hm : (x - outerIV) % outerIVStepSize c
                = (x - (outerIV + outerIVStepSize c)) % outerIVStepSize c := by
              rw [Nat.mod_eq_sub_mod (by omega)]
              congr 1; omega
            have e2 : ¬ (outerIV + 0 ≤ x ∧ x < outerIV + 0 +
                min c.chunkSizeArgVal (c.cloneIVInfo.endVal - outerIV)) := by omega
            rw [hm, if_neg e2]
            by_cases hx4 : x < c.cloneIVInfo.endVal ∧
                (x - (outerIV + outerIVStepSize c)) % outerIVStepSize c < c.chunkSizeArgVal
            · rw [if_pos ⟨by omega, hx4⟩, if_pos ⟨by omega, hx4⟩]
            · rw [if_neg (fun h => hx4 h.2), if_neg (fun h => hx4 h.2)]
    · refine ⟨visited, ?_, ?_⟩
      · simp [outerLoop, outerIVCmp, ho]
      · intro x
        have e1 : ¬ (outerIV ≤ x ∧ x < c.cloneIVInfo.endVal ∧
              (x - outerIV) % outerIVStepSize c < c.chunkSizeArgVal) := by omega
        rw [if_neg e1]; rfl

theorem chunk_owner (C K w x : Nat) (hK : 1 ≤ K) (hw : w < C) :
    (w * K ≤ x ∧ (x - w * K) % (C * K) < K) ↔ w = (x / K) % C := by
  have key : ∀ y, (y % (C * K) < K ↔ (y / K) % C = 0) := by
    intro y
    rw [← Nat.mod_mul_left_div_self, Nat.div_eq_zero_iff (by omega)]
  have hdiv : w * K ≤ x → (x - w * K) / K = x / K - w := by
    intro h1
    rw [Nat.mul_comm w K]
    exact Nat.sub_mul_div _ _ _ (by rw [Nat.mul_comm]; exact h1)
  constructor
  · rintro ⟨h1, h2⟩
    have hq : w ≤ x / K := (Nat.le_div_iff_mul_le (by omega)).2 h1
    rw [key, hdiv h1] at h2
    obtain ⟨t, ht⟩ := Nat.dvd_of_mod_eq_zero h2
    have : x / K = w + C * t := by omega
    rw [this, Nat.add_mul_mod_self_left, Nat.mod_eq_of_lt hw]
  · intro h
    have hq : w ≤ x / K := by rw [h]; exact Nat.mod_le _ _
    have h1 : w * K ≤ x := (Nat.le_div_iff_mul_le (by omega)).1 hq
    refine ⟨h1, ?_⟩
    rw [key, hdiv h1]
    have h3 := Nat.div_add_mod (x / K) C
    have : x / K - w = C * (x / K / C) := by omega
    rw [this, Nat.mul_mod_right]

theorem sum_indicator_range (C w0 : Nat) (p : Prop) [Decidable p] :
    ((List.range C).map (fun w => if w = w0 ∧ p then 1 else 0)).sum
      = if w0 < C ∧ p then 1 else 0 := by
  induction C with
  | zero => simp
  | succ C ih =>
    rw [List.range_succ, List.map_append, List.sum_append, ih]
    by_cases hp : p
    · by_cases h1 : w0 < C
      · have h2 : ¬ C = w0 := by omega
        have h3 : w0 < C + 1 := by omega
        simp [h1, hp, h2, h3]
      · by_cases h2 : C = w0
        · simp [h2, hp]
        · have : ¬ w0 < C + 1 := by omega
          simp [h1, h2, this]
    · simp [hp]

theorem chunkWorker_count (N C K w fuel : Nat) (hC : w < C) (hK : 1 ≤ K)
    (hov : N + C * K ≤ wordSize) (hf : N + 2 ≤ fuel) :
    ∃ tr, chunkWorker (workerInfo 0 1 N C K w) fuel = some tr ∧
      ∀ x, tr.count x = if w = (x / K) % C ∧ x < N then 1 else 0 := by
  have hCK : K ≤ C * K := Nat.le_mul_of_pos_left K (by omega)
  have hwK : w * K + K ≤ C * K := by
    have : (w + 1) * K ≤ C * K := Nat.mul_le_mul_right K (by omega)
    rw [Nat.add_mul, Nat.one_mul] at this; exact this
  have hstart : outerIVStart (workerInfo 0 1 N C K w) = w * K := by
    simp only [outerIVStart, workerInfo]; apply Nat.mod_eq_of_lt; omega
  by_cases hN : N = 0
  · subst hN
    obtain ⟨f, rfl⟩ : ∃ f, fuel = f + 1 := ⟨fuel - 1, by omega⟩
    refine ⟨[], ?_, ?_⟩
    · simp [chunkWorker, outerLoop, outerIVCmp, workerInfo]
    · intro x; simp
  · have hstep : outerIVStepSize (workerInfo 0 1 N C K w) = C * K := by
      simp only [outerIVStepSize, workerInfo, Nat.mul_one, Nat.mod_mod]
      apply Nat.mod_eq_of_lt; omega
    obtain ⟨tr, htr, hcnt⟩ := outerLoop_count (workerInfo 0 1 N C K w)
      (by simp only [workerInfo]; omega) (by simp only [workerInfo]; omega)
      (by simp only [workerInfo]; omega) (by rw [hstep]; simp only [workerInfo]; omega)
      (by rw [hstep]; simp only [workerInfo]; omega) fuel (w * K) []
      (by simp only [workerInfo]; omega)
    refine ⟨tr, by rw [chunkWorker, hstart]; exact htr, ?_⟩
    intro x
    rw [hcnt x, hstep]
    simp only [workerInfo, List.count_nil, Nat.zero_add]
    have := chunk_owner C K w x hK hC
    apply if_congr _ rfl rfl
    constructor
    · intro h; exact ⟨this.1 ⟨h.1, h.2.2⟩, h.2.1⟩
    · intro h; exact ⟨(this.2 h.1).1, h.2, (this.2 h.1).2⟩

/-- C1 (as amended): for every trip bound `N`, worker count `C >= 1` and chunk size
`K >= 1` with `N + C * K <= 2^64` (no 64-bit operation of the worker wraps around), with
original start 0 and step 1 and enough fuel, every worker `0 .. C-1` reaches its exit
block, and the iterations on which the body runs, taken over all workers, are exactly
`0 .. N-1`, each visited exactly once. -/
theorem doall_iteration_coverage (N C K fuel : Nat) (hC : 1 ≤ C) (hK : 1 ≤ K)
    (hov : N + C * K ≤ wordSize) (hf : N + 2 ≤ fuel) :
    allWorkersExit 0 1 N C K fuel ∧ (visitedByAll 0 1 N C K fuel).Perm (List.range N) := by
  constructor
  · intro w hw
    obtain ⟨tr, htr, -⟩ := chunkWorker_count N C K w fuel hw hK hov hf
    rw [htr]; rfl
  · rw [List.perm_iff_count]
    intro x
    have hmap : (List.range C).map (List.count x ∘ fun w =>
          (chunkWorker (workerInfo 0 1 N C K w) fuel).getD [])
        = (List.range C).map (fun w => if w = (x / K) % C ∧ x < N then 1 else 0) := by
      apply List.map_congr_left
      intro w hw
      obtain ⟨tr, htr, hcnt⟩ := chunkWorker_count N C K w fuel (List.mem_range.1 hw) hK hov hf
      simp only [Function.comp, htr, Option.getD_some, hcnt]
    rw [visitedByAll, List.count_flatMap, hmap, sum_indicator_range,
      List.count_eq_of_nodup (List.nodup_range N)]
    have hlt : (x / K) % C < C := Nat.mod_lt _ (by omega)
    simp [hlt, List.mem_range]

theorem innerLoop_fuel_succ (c : ChunkerInfo) (outerIV : Nat) :
    ∀ (fuel cloneIV : Nat) (visited r : List Nat),
      innerLoop c outerIV fuel cloneIV visited = some r →
      innerLoop c outerIV (fuel + 1) cloneIV visited = some r := by
  intro fuel
  induction fuel with
  | zero => intro cloneIV visited r h; simp [innerLoop] at h
  | succ f ih =>
    intro cloneIV visited r h
    rw [innerLoop] at h
    rw [innerLoop]
    split
    · rename_i h1
      rw [if_pos h1] at h
      split
      · rename_i h2
        rw [if_pos h2] at h
        exact ih _ _ _ h
      · rename_i h2
        rw [if_neg h2] at h; exact h
    · rename_i h1
      rw [if_neg h1] at h; exact h

theorem outerLoop_fuel_succ (c : ChunkerInfo) :
    ∀ (fuel outerIV : Nat) (visited r : List Nat),
      outerLoop c fuel outerIV visited = some r →
      outerLoop c (fuel + 1) outerIV visited = some r := by
  intro fuel
  induction fuel with
  | zero => intro outerIV visited r h; simp [outerLoop] at h
  | succ f ih =>
    intro outerIV visited r h
    rw [outerLoop] at h
    rw [outerLoop]
    by_cases h1 : outerIVCmp c outerIV = true
    · rw [if_pos h1] at h
      rw [if_pos h1]
      cases hin : innerLoop c outerIV f 0 visited with
      | none => rw [hin] at h; simp at h
      | some v =>
        rw [hin] at h
        rw [innerLoop_fuel_succ c outerIV f 0 visited v hin]
        exact ih _ _ _ h
    · rw [if_neg h1] at h
      rw [if_neg h1]; exact h

theorem chunkWorker_fuel_le (c : ChunkerInfo) (fuel fuel' : Nat) (r : List Nat)
    (hle : fuel ≤ fuel') (h : chunkWorker c fuel = some r) : chunkWorker c fuel' = some r := by
  induction hle with
  | refl => exact h
  | step _ ih => exact outerLoop_fuel_succ c _ _ _ _ ih

theorem chunkWorker_fuel_indep (c : ChunkerInfo) (fuel fuel' : Nat) (r : List Nat)
    (h : chunkWorker c fuel = some r) (h' : (chunkWorker c fuel').isSome = true) :
    chunkWorker c fuel' = some r := by
  rcases Nat.le_total fuel fuel' with hle | hle
  · exact chunkWorker_fuel_le c fuel fuel' r hle h
  · obtain ⟨r', hr'⟩ := Option.isSome_iff_exists.1 h'
    have := chunkWorker_fuel_le c fuel' fuel r' hle hr'
    rw [h] at this
    rw [hr', ← Option.some.inj this]

/-- Counterexample to C1 as stated: for `(N, C, K) = (1, 3, 2^63)` the start index
`2 * 2^63` of worker 2 wraps around to 0, so workers 0 and 2 both run the body on
iteration 0: for no amount of fuel do all workers exit with the iterations `0 .. N-1`
visited exactly once. -/
theorem doall_coverage_wraps :
    ¬ ∃ fuel, allWorkersExit 0 1 1 3 (2 ^ 63) fuel ∧
        (visitedByAll 0 1 1 3 (2 ^ 63) fuel).Perm (List.range 1) := by
  rintro ⟨fuel, hexit, hperm⟩
  have h0 := chunkWorker_fuel_indep (workerInfo 0 1 1 3 (2 ^ 63) 0) 10 fuel [0] (by decide)
    (hexit 0 (by decide))
  have h1 := chunkWorker_fuel_indep (workerInfo 0 1 1 3 (2 ^ 63) 1) 10 fuel [] (by decide)
    (hexit 1 (by decide))
  have h2 := chunkWorker_fuel_indep (workerInfo 0 1 1 3 (2 ^ 63) 2) 10 fuel [0] (by decide)
    (hexit 2 (by decide))
  have hv : visitedByAll 0 1 1 3 (2 ^ 63) fuel = [0, 0] := by
    unfold visitedByAll
    rw [show List.range 3 = [0, 1, 2] from rfl]
    simp only [List.flatMap_cons, List.flatMap_nil, h0, h1, h2, Option.getD_some]
    rfl
  rw [hv] at hperm
  have := hperm.length_eq
  simp at this

/-- Witness for C1 (as amended): `(N, C, K) = (97, 3, 4)`. -/
theorem doall_iteration_coverage_witness :
    (1 ≤ 3 ∧ 1 ≤ 4 ∧ 97 + 3 * 4 ≤ wordSize ∧ 97 + 2 ≤ 99) ∧
      (allWorkersExit 0 1 97 3 4 99 ∧ (visitedByAll 0 1 97 3 4 99).Perm (List.range 97)) :=
  ⟨⟨by decide, by decide, by decide, by decide⟩,
    doall_iteration_coverage 97 3 4 99 (by decide) (by decide) (by decide) (by decide)⟩

/-! ## Theorems: dependence graph builder -/

theorem createEdgeFromTo_edges (g : PDG) (s d : Nat) (a b c : Bool) :
    (g.createEdgeFromTo s d a b c).edges = g.edges ++ [DGEdge.mk s d a b c] := rfl

theorem useDefs_inner_edges (m : IRModule) (v : Nat) :
    ∀ (us : List Nat) (g : PDG),
      (us.foldl (fun g user =>
        match m.kind user with
        | ValueKind.instruction _ => g.createEdgeFromTo v user false true true
        | ValueKind.argument => g.createEdgeFromTo v user false true true
        | ValueKind.constant => g) g).edges
      = g.edges ++ (us.filter (isInstructionOrArgument m)).map (registerEdge v) := by
  intro us
  induction us with
  | nil => intro g; simp
  | cons u us ih =>
    intro g
    rw [List.foldl_cons, ih]
    cases hk : m.kind u <;>
      simp [isInstructionOrArgument, hk, createEdgeFromTo_edges, registerEdge]

theorem useDefs_edges (m : IRModule) :
    ∀ (nodes : List Nat) (g : PDG),
      (nodes.foldl (fun g v =>
        if (m.uses v).length = 0 then g
        else (m.uses v).foldl (fun g user =>
          match m.kind user with
          | ValueKind.instruction _ => g.createEdgeFromTo v user false true true
          | ValueKind.argument => g.createEdgeFromTo v user false true true
          | ValueKind.constant => g) g) g).edges
      = g.edges ++ nodes.flatMap (useDefEdges m) := by
  intro nodes
  induction nodes with
  | nil => intro g; simp
  | cons v nodes ih =>
    intro g
    rw [List.foldl_cons, ih]
    by_cases h0 : (m.uses v).length = 0
    · have hnil : m.uses v = [] := List.length_eq_zero.1 h0
      simp [h0, useDefEdges, hnil]
    · rw [if_neg h0, useDefs_inner_edges]
      simp [useDefEdges, List.append_assoc]

theorem useDefEdges_src (m : IRModule) (v : Nat) : ∀ e ∈ useDefEdges m v, e.src = v := by
  intro e he
  simp only [useDefEdges, List.mem_map] at he
  obtain ⟨u, -, rfl⟩ := he
  rfl

theorem filter_src_flatMap (m : IRModule) (v : Nat) :
    ∀ (nodes : List Nat), nodes.Nodup → v ∈ nodes →
      (nodes.flatMap (useDefEdges m)).filter (fun e => e.src = v) = useDefEdges m v := by
  have hnot : ∀ nodes : List Nat, v ∉ nodes →
      (nodes.flatMap (useDefEdges m)).filter (fun e => e.src = v) = [] := by
    intro nodes hv
    rw [List.filter_eq_nil_iff]
    intro e he
    rw [List.mem_flatMap] at he
    obtain ⟨u, hu, heu⟩ := he
    have := useDefEdges_src m u e heu
    simp only [decide_eq_true_eq]
    intro h
    exact hv (by rw [← h, this]; exact hu)
  intro nodes
  induction nodes with
  | nil => intro _ h; simp at h
  | cons u nodes ih =>
    intro hnd hv
    rw [List.nodup_cons] at hnd
    rw [List.flatMap_cons, List.filter_append]
    by_cases huv : u = v
    · subst huv
      rw [hnot nodes hnd.1, List.append_nil, List.filter_eq_self]
      intro e he
      simp [useDefEdges_src m u e he]
    · have hv' : v ∈ nodes := by
        rcases List.mem_cons.1 hv with h | h
        · exact absurd h.symm huv
        · exact h
      rw [ih hnd.2 hv']
      have : (useDefEdges m u).filter (fun e => e.src = v) = [] := by
        rw [List.filter_eq_nil_iff]
        intro e he
        simp [useDefEdges_src m u e he, huv]
      rw [this, List.nil_append]

/-- The edges that `constructEdgesFromUseDefs` appends and that leave the internal value
`v`: one register-data edge per use of `v` whose user passes one of the two `dyn_cast`s. -/
theorem useDefs_created_from (m : IRModule) (pdg : PDG) (v : Nat)
    (hnd : pdg.internalNodes.Nodup) (hv : v ∈ pdg.internalNodes) :
    ∃ created, (constructEdgesFromUseDefs m pdg).edges = pdg.edges ++ created ∧
      created.filter (fun e => e.src = v)
        = ((m.uses v).filter (isInstructionOrArgument m)).map (registerEdge v) := by
  refine ⟨pdg.internalNodes.flatMap (useDefEdges m), ?_, ?_⟩
  · exact useDefs_edges m pdg.internalNodes pdg
  · rw [filter_src_flatMap m v pdg.internalNodes hnd hv]
    rfl

/-- C8: for every internal value `v` of the dependence graph (an instruction or an
argument, whose users are instructions in LLVM IR; here: instructions or arguments of
any kind), `constructEdgesFromUseDefs` only appends edges, and the appended edges that
leave `v` are exactly one register-data edge `v -> user`, flagged `(false, true, true)`,
per use of `v`, in use order; so a value with `N` uses gets exactly `N` edges. -/
theorem useDefs_one_edge_per_use (m : IRModule) (pdg : PDG) (v : Nat)
    (hnd : pdg.internalNodes.Nodup) (hv : v ∈ pdg.internalNodes)
    (husers : ∀ user ∈ m.uses v, isInstructionOrArgument m user = true) :
    ∃ created, (constructEdgesFromUseDefs m pdg).edges = pdg.edges ++ created ∧
      created.filter (fun e => e.src = v) = (m.uses v).map (registerEdge v) ∧
      (created.filter (fun e => e.src = v)).length = (m.uses v).length ∧
      ((constructEdgesFromUseDefs m pdg).edgesFrom v).length
        = (pdg.edgesFrom v).length + (m.uses v).length := by
  obtain ⟨created, h1, h2⟩ := useDefs_created_from m pdg v hnd hv
  have hall : (m.uses v).filter (isInstructionOrArgument m) = m.uses v :=
    List.filter_eq_self.2 husers
  rw [hall] at h2
  refine ⟨created, h1, h2, by rw [h2, List.length_map], ?_⟩
  unfold PDG.edgesFrom
  rw [h1, List.filter_append, List.length_append, h2, List.length_map]

/-- Witness for C8: the instruction `0` with two uses, by the instructions `1` and `2`. -/
theorem useDefs_one_edge_per_use_witness :
    ((⟨[0, 1, 2], [], []⟩ : PDG).internalNodes.Nodup ∧
      0 ∈ (⟨[0, 1, 2], [], []⟩ : PDG).internalNodes ∧
      ∀ user ∈ twoUsesModule.uses 0, isInstructionOrArgument twoUsesModule user = true) ∧
    ∃ created, (constructEdgesFromUseDefs twoUsesModule ⟨[0, 1, 2], [], []⟩).edges
        = (⟨[0, 1, 2], [], []⟩ : PDG).edges ++ created ∧
      created.filter (fun e => e.src = 0) = (twoUsesModule.uses 0).map (registerEdge 0) ∧
      (created.filter (fun e => e.src = 0)).length = (twoUsesModule.uses 0).length ∧
      ((constructEdgesFromUseDefs twoUsesModule ⟨[0, 1, 2], [], []⟩).edgesFrom 0).length
        = ((⟨[0, 1, 2], [], []⟩ : PDG).edgesFrom 0).length + (twoUsesModule.uses 0).length :=
  ⟨⟨by decide, by decide, by decide⟩,
    useDefs_one_edge_per_use twoUsesModule ⟨[0, 1, 2], [], []⟩ 0
      (by decide) (by decide) (by decide)⟩

theorem foldl_edges_append {α : Type} (step : PDG → α → PDG) (news : α → List DGEdge)
    (h : ∀ g a, (step g a).edges = g.edges ++ news a) :
    ∀ (l : List α) (g : PDG), (l.foldl step g).edges = g.edges ++ l.flatMap news := by
  intro l
  induction l with
  | nil => intro g; simp
  | cons a l ih =>
    intro g
    rw [List.foldl_cons, ih, h, List.flatMap_cons, List.append_assoc]

theorem addEdgeFromMemoryAlias_edges (aa : AAResults) (pdg : PDG) (i j : Nat) (sp : Bool) :
    (addEdgeFromMemoryAlias aa pdg i j sp).edges = pdg.edges ++ memoryAliasEdges aa i j sp := by
  unfold addEdgeFromMemoryAlias memoryAliasEdges
  cases aa.aliasOf i j <;> simp [createEdgeFromTo_edges]

theorem addEdgeFromFunctionModRefStore_edges (aa : AAResults) (pdg : PDG) (i c : Nat) :
    (addEdgeFromFunctionModRefStore aa pdg i c).edges = pdg.edges ++ modRefStoreEdges aa i c := by
  unfold addEdgeFromFunctionModRefStore modRefStoreEdges
  cases aa.getModRefInfo c i <;> simp [createEdgeFromTo_edges]

theorem addEdgeFromFunctionModRefLoad_edges (aa : AAResults) (pdg : PDG) (i c : Nat) :
    (addEdgeFromFunctionModRefLoad aa pdg i c).edges = pdg.edges ++ modRefLoadEdges aa i c := by
  unfold addEdgeFromFunctionModRefLoad modRefLoadEdges
  cases aa.getModRefInfo c i <;> simp [createEdgeFromTo_edges]

theorem iterateInstForStoreAliases_edges (m : IRModule) (f : IRFunction) (aa : AAResults)
    (pdg : PDG) (j : Nat) :
    (iterateInstForStoreAliases m f aa pdg j).edges
      = pdg.edges ++ f.instructions.flatMap (storeAliasEdges m aa j) := by
  unfold iterateInstForStoreAliases
  apply foldl_edges_append
  intro g i
  unfold storeAliasEdges
  split
  · by_cases hij : i = j <;> simp [hij, addEdgeFromMemoryAlias_edges]
  · exact addEdgeFromMemoryAlias_edges aa g i j false
  · simp

theorem iterateInstForLoadAliases_edges (m : IRModule) (f : IRFunction) (aa : AAResults)
    (pdg : PDG) (j : Nat) :
    (iterateInstForLoadAliases m f aa pdg j).edges
      = pdg.edges ++ f.instructions.flatMap (loadAliasEdges m aa j) := by
  unfold iterateInstForLoadAliases
  apply foldl_edges_append
  intro g i
  unfold loadAliasEdges
  split
  · exact addEdgeFromMemoryAlias_edges aa g i j false
  · simp

theorem iterateInstForModRef_edges (m : IRModule) (f : IRFunction) (aa : AAResults)
    (pdg : PDG) (c : Nat) :
    (iterateInstForModRef m f aa pdg c).edges
      = pdg.edges ++ f.instructions.flatMap (modRefEdges m aa c) := by
  unfold iterateInstForModRef
  apply foldl_edges_append
  intro g i
  unfold modRefEdges
  split
  · exact addEdgeFromFunctionModRefLoad_edges aa g i c
  · exact addEdgeFromFunctionModRefStore_edges aa g i c
  · simp

theorem constructEdgesFromAliasesForFunction_edges (m : IRModule) (aa : AAResults)
    (pdg : PDG) (f : IRFunction) :
    (constructEdgesFromAliasesForFunction m aa pdg f).edges
      = pdg.edges ++ aliasEdgesOfFunction m aa f := by
  unfold constructEdgesFromAliasesForFunction aliasEdgesOfFunction
  by_cases he : f.blocks.isEmpty = true
  · simp [he]
  · rw [if_neg he, if_neg he]
    apply foldl_edges_append
    intro g i
    unfold aliasEdgesAt
    split
    · exact iterateInstForStoreAliases_edges m f aa g i
    · exact iterateInstForLoadAliases_edges m f aa g i
    · exact iterateInstForModRef_edges m f aa g i
    · simp

theorem constructEdgesFromAliases_edges (m : IRModule) (aaOf : IRFunction → AAResults)
    (pdg : PDG) :
    (constructEdgesFromAliases m aaOf pdg).edges
      = pdg.edges ++ m.functions.flatMap (fun f => aliasEdgesOfFunction m (aaOf f) f) := by
  unfold constructEdgesFromAliases
  apply foldl_edges_append
  intro g f
  exact constructEdgesFromAliasesForFunction_edges m (aaOf f) g f

theorem memoryAliasEdges_mem (aa : AAResults) (i j : Nat) (sp : Bool) (e : DGEdge)
    (he : e ∈ memoryAliasEdges aa i j sp) :
    e.src = i ∧ e.dst = j ∧ e.memory = true ∧ e.readAfterWrite = (!sp) ∧
      (e.must = true ↔ aa.aliasOf i j = AliasResult.MustAlias) ∧
      (e.must = false ↔ (aa.aliasOf i j = AliasResult.MayAlias ∨
        aa.aliasOf i j = AliasResult.PartialAlias)) := by
  unfold memoryAliasEdges at he
  cases h : aa.aliasOf i j <;> rw [h] at he <;> simp at he <;> subst he <;> simp

theorem storeAliasEdges_flags (m : IRModule) (aa : AAResults) (j i : Nat) (e : DGEdge)
    (hj : m.kind j = ValueKind.instruction Opcode.store)
    (he : e ∈ storeAliasEdges m aa j i) : MemoryAliasFlags m aa e := by
  unfold storeAliasEdges at he
  split at he
  · rename_i hi
    by_cases hij : i = j
    · simp [hij] at he
    · rw [if_pos hij] at he
      obtain ⟨h1, h2, h3, h4, h5, h6⟩ := memoryAliasEdges_mem aa i j true e he
      refine ⟨h3, by rw [h1, h2]; exact h5, by rw [h1, h2]; exact h6, ?_⟩
      rw [h1, h2, h4]
      simp [hi, hj]
  · rename_i hi
    obtain ⟨h1, h2, h3, h4, h5, h6⟩ := memoryAliasEdges_mem aa i j false e he
    refine ⟨h3, by rw [h1, h2]; exact h5, by rw [h1, h2]; exact h6, ?_⟩
    rw [h1, h2, h4]
    simp [hi]
  · simp at he

theorem loadAliasEdges_flags (m : IRModule) (aa : AAResults) (j i : Nat) (e : DGEdge)
    (hj : m.kind j = ValueKind.instruction Opcode.load)
    (he : e ∈ loadAliasEdges m aa j i) : MemoryAliasFlags m aa e := by
  unfold loadAliasEdges at he
  split at he
  · obtain ⟨h1, h2, h3, h4, h5, h6⟩ := memoryAliasEdges_mem aa i j false e he
    refine ⟨h3, by rw [h1, h2]; exact h5, by rw [h1, h2]; exact h6, ?_⟩
    rw [h1, h2, h4]
    simp [hj]
  · simp at he

theorem memoryAliasEdges_eq (aa : AAResults) (i j : Nat) (sp : Bool) :
    memoryAliasEdges aa i j sp =
      if aa.aliasOf i j = AliasResult.NoAlias then []
      else [DGEdge.mk i j true (decide (aa.aliasOf i j = AliasResult.MustAlias)) (!sp)] := by
  unfold memoryAliasEdges
  cases h : aa.aliasOf i j <;> simp

theorem flatMap_ite_filter {α β : Type} (p : α → Bool) (g : α → List β) :
    ∀ l : List α, l.flatMap (fun i => if p i = true then g i else []) = (l.filter p).flatMap g := by
  intro l
  induction l with
  | nil => rfl
  | cons a l ih =>
    rw [List.flatMap_cons, ih]
    by_cases h : p a = true
    · rw [if_pos h, List.filter_cons_of_pos h, List.flatMap_cons]
    · rw [if_neg h, List.filter_cons_of_neg h, List.nil_append]

theorem aliasEdgeFor_flags (m : IRModule) (aa : AAResults) (i j : Nat) (e : DGEdge)
    (he : e ∈ aliasEdgeFor m aa i j) : MemoryAliasFlags m aa e := by
  unfold aliasEdgeFor at he
  by_cases hno : aa.aliasOf i j = AliasResult.NoAlias
  · rw [if_pos hno] at he
    exact absurd he (List.not_mem_nil _)
  · rw [if_neg hno, List.mem_singleton] at he
    subst he
    refine ⟨rfl, by simp, ?_, by simp⟩
    cases h : aa.aliasOf i j <;> simp [h] at hno ⊢

theorem storeAliasEdges_eq (m : IRModule) (aa : AAResults) (s i : Nat)
    (hs : m.kind s = ValueKind.instruction Opcode.store) :
    storeAliasEdges m aa s i =
      if (decide ((m.kind i = ValueKind.instruction Opcode.store ∧ i ≠ s) ∨
          m.kind i = ValueKind.instruction Opcode.load)) = true
      then aliasEdgeFor m aa i s else [] := by
  unfold storeAliasEdges aliasEdgeFor
  rw [memoryAliasEdges_eq, memoryAliasEdges_eq]
  cases hk : m.kind i with
  | instruction op =>
    cases op <;> by_cases hij : i = s <;> simp [hij, hs]
  | argument => simp
  | constant => simp

theorem loadAliasEdges_eq (m : IRModule) (aa : AAResults) (l i : Nat)
    (hl : m.kind l = ValueKind.instruction Opcode.load) :
    loadAliasEdges m aa l i =
      if (decide (m.kind i = ValueKind.instruction Opcode.store)) = true
      then aliasEdgeFor m aa i l else [] := by
  unfold loadAliasEdges aliasEdgeFor
  rw [memoryAliasEdges_eq]
  cases hk : m.kind i with
  | instruction op => cases op <;> simp [hl]
  | argument => simp
  | constant => simp

/-- C9: one call of `addEdgeFromMemoryAlias` for the pair `(memI, memJ)` appends no edge
when the oracle answers `NoAlias` and otherwise exactly one edge `memI -> memJ` flagged
memory, must exactly for `MustAlias` (may for `MayAlias` and `PartialAlias`), and
read-after-write exactly when `storePair` is false. For a store `s`,
`iterateInstForStoreAliases` makes this call for every other store (with `storePair`
true) and every load of the function, and for a load `l`, `iterateInstForLoadAliases`
makes it for every store: the appended edges are exactly one edge per such pair that the
oracle does not answer `NoAlias`, flagged memory, must exactly for `MustAlias`, and not
read-after-write exactly when both operations are stores. -/
theorem memoryAlias_edge_flags (m : IRModule) (f : IRFunction) (aa : AAResults) (pdg : PDG)
    (s l : Nat) (hs : m.kind s = ValueKind.instruction Opcode.store)
    (hl : m.kind l = ValueKind.instruction Opcode.load) :
    (∀ (g : PDG) (memI memJ : Nat) (storePair : Bool),
      (addEdgeFromMemoryAlias aa g memI memJ storePair).edges = g.edges ++
        (if aa.aliasOf memI memJ = AliasResult.NoAlias then []
         else [DGEdge.mk memI memJ true
            (decide (aa.aliasOf memI memJ = AliasResult.MustAlias)) (!storePair)])) ∧
    (iterateInstForStoreAliases m f aa pdg s).edges = pdg.edges ++
      (f.instructions.filter (fun i =>
        decide ((m.kind i = ValueKind.instruction Opcode.store ∧ i ≠ s) ∨
          m.kind i = ValueKind.instruction Opcode.load))).flatMap
        (fun i => aliasEdgeFor m aa i s) ∧
    (iterateInstForLoadAliases m f aa pdg l).edges = pdg.edges ++
      (f.instructions.filter (fun i =>
        decide (m.kind i = ValueKind.instruction Opcode.store))).flatMap
        (fun i => aliasEdgeFor m aa i l) ∧
    (∀ (memI memJ : Nat) (e : DGEdge), e ∈ aliasEdgeFor m aa memI memJ →
      e.src = memI ∧ e.dst = memJ ∧ MemoryAliasFlags m aa e) ∧
    (∀ memI memJ : Nat, aa.aliasOf memI memJ ≠ AliasResult.NoAlias →
      ∃ e, aliasEdgeFor m aa memI memJ = [e]) := by
  refine ⟨?_, ?_, ?_, ?_, ?_⟩
  · intro g memI memJ storePair
    rw [addEdgeFromMemoryAlias_edges, memoryAliasEdges_eq]
  · rw [iterateInstForStoreAliases_edges, ← flatMap_ite_filter]
    congr 1
    apply List.flatMap_congr
    intro i _
    exact storeAliasEdges_eq m aa s i hs
  · rw [iterateInstForLoadAliases_edges, ← flatMap_ite_filter]
    congr 1
    apply List.flatMap_congr
    intro i _
    exact loadAliasEdges_eq m aa l i hl
  · intro memI memJ e he
    refine ⟨?_, ?_, aliasEdgeFor_flags m aa memI memJ e he⟩
    · unfold aliasEdgeFor at he
      by_cases hno : aa.aliasOf memI memJ = AliasResult.NoAlias
      · rw [if_pos hno] at he
        exact absurd he (List.not_mem_nil _)
      · rw [if_neg hno, List.mem_singleton] at he
        rw [he]
    · unfold aliasEdgeFor at he
      by_cases hno : aa.aliasOf memI memJ = AliasResult.NoAlias
      · rw [if_pos hno] at he
        exact absurd he (List.not_mem_nil _)
      · rw [if_neg hno, List.mem_singleton] at he
        rw [he]
  · intro memI memJ hne
    unfold aliasEdgeFor
    rw [if_neg hne]
    exact ⟨_, rfl⟩

/-- Witness for C9: the function with the load `0` and the store `1`, whose two calls
append the must edges `0 -> 1` and `1 -> 0`, both read-after-write. -/
theorem memoryAlias_edge_flags_witness :
    (loadStoreModule.kind 1 = ValueKind.instruction Opcode.store ∧
      loadStoreModule.kind 0 = ValueKind.instruction Opcode.load) ∧
    (iterateInstForStoreAliases loadStoreModule ⟨[[0, 1]]⟩ mustAliasOracle
        ⟨[0, 1], [], []⟩ 1).edges = [DGEdge.mk 0 1 true true true] ∧
    (iterateInstForLoadAliases loadStoreModule ⟨[[0, 1]]⟩ mustAliasOracle
        ⟨[0, 1], [], []⟩ 0).edges = [DGEdge.mk 1 0 true true true] :=
  ⟨⟨by decide, by decide⟩,
    ((memoryAlias_edge_flags loadStoreModule ⟨[[0, 1]]⟩ mustAliasOracle ⟨[0, 1], [], []⟩ 1 0
      (by decide) (by decide)).2.1).trans (by decide),
    ((memoryAlias_edge_flags loadStoreModule ⟨[[0, 1]]⟩ mustAliasOracle ⟨[0, 1], [], []⟩ 1 0
      (by decide) (by decide)).2.2.1).trans (by decide)⟩

theorem memoryAliasEdges_of_alias (aa : AAResults) (i j : Nat) (sp : Bool)
    (h : aa.aliasOf i j ≠ AliasResult.NoAlias) :
    DGEdge.mk i j true (decide (aa.aliasOf i j = AliasResult.MustAlias)) (!sp)
      ∈ memoryAliasEdges aa i j sp := by
  unfold memoryAliasEdges
  cases h' : aa.aliasOf i j <;> simp [h'] at h ⊢

/-- C10 (as amended): for every load `L` and store `S` of a function of the module,
`constructEdgesFromAliases` creates a memory edge `L -> S` (into the store) when the
oracle does not answer `NoAlias` for `(L, S)`, and it also creates a memory edge
`S -> L` (into the load) when the oracle does not answer `NoAlias` for `(S, L)`; both
edges are read-after-write and must exactly for `MustAlias`. -/
theorem loadStore_edges_both_directions (m : IRModule) (aaOf : IRFunction → AAResults)
    (pdg : PDG) (f : IRFunction) (L S : Nat)
    (hf : f ∈ m.functions) (hL : L ∈ f.instructions) (hS : S ∈ f.instructions)
    (hkL : m.kind L = ValueKind.instruction Opcode.load)
    (hkS : m.kind S = ValueKind.instruction Opcode.store) :
    ((aaOf f).aliasOf L S ≠ AliasResult.NoAlias →
      DGEdge.mk L S true (decide ((aaOf f).aliasOf L S = AliasResult.MustAlias)) true
        ∈ (constructEdgesFromAliases m aaOf pdg).edges) ∧
    ((aaOf f).aliasOf S L ≠ AliasResult.NoAlias →
      DGEdge.mk S L true (decide ((aaOf f).aliasOf S L = AliasResult.MustAlias)) true
        ∈ (constructEdgesFromAliases m aaOf pdg).edges) := by
  have hne : ¬ f.blocks.isEmpty = true := by
    intro h
    have : f.blocks = [] := List.isEmpty_iff.1 h
    simp [IRFunction.instructions, this] at hL
  rw [constructEdgesFromAliases_edges]
  constructor
  · intro h
    apply List.mem_append_right
    refine List.mem_flatMap.2 ⟨f, hf, ?_⟩
    rw [aliasEdgesOfFunction, if_neg hne]
    refine List.mem_flatMap.2 ⟨S, hS, ?_⟩
    simp only [aliasEdgesAt, hkS]
    refine List.mem_flatMap.2 ⟨L, hL, ?_⟩
    simp only [storeAliasEdges, hkL]
    exact memoryAliasEdges_of_alias (aaOf f) L S false h
  · intro h
    apply List.mem_append_right
    refine List.mem_flatMap.2 ⟨f, hf, ?_⟩
    rw [aliasEdgesOfFunction, if_neg hne]
    refine List.mem_flatMap.2 ⟨L, hL, ?_⟩
    simp only [aliasEdgesAt, hkL]
    refine List.mem_flatMap.2 ⟨S, hS, ?_⟩
    simp only [loadAliasEdges, hkS]
    exact memoryAliasEdges_of_alias (aaOf f) S L false h

/-- Witness for C10 (as amended): the function with the load `0` and the store `1`. -/
theorem loadStore_edges_both_directions_witness :
    ((⟨[[0, 1]]⟩ : IRFunction) ∈ loadStoreModule.functions ∧
      0 ∈ (⟨[[0, 1]]⟩ : IRFunction).instructions ∧
      1 ∈ (⟨[[0, 1]]⟩ : IRFunction).instructions ∧
      loadStoreModule.kind 0 = ValueKind.instruction Opcode.load ∧
      loadStoreModule.kind 1 = ValueKind.instruction Opcode.store) ∧
    ((mustAliasOracle.aliasOf 0 1 ≠ AliasResult.NoAlias →
      DGEdge.mk 0 1 true (decide (mustAliasOracle.aliasOf 0 1 = AliasResult.MustAlias)) true
        ∈ (constructEdgesFromAliases loadStoreModule (fun _ => mustAliasOracle)
            ⟨[0, 1], [], []⟩).edges) ∧
    (mustAliasOracle.aliasOf 1 0 ≠ AliasResult.NoAlias →
      DGEdge.mk 1 0 true (decide (mustAliasOracle.aliasOf 1 0 = AliasResult.MustAlias)) true
        ∈ (constructEdgesFromAliases loadStoreModule (fun _ => mustAliasOracle)
            ⟨[0, 1], [], []⟩).edges)) :=
  ⟨⟨by decide, by decide, by decide, by decide, by decide⟩,
    loadStore_edges_both_directions loadStoreModule (fun _ => mustAliasOracle)
      ⟨[0, 1], [], []⟩ ⟨[[0, 1]]⟩ 0 1 (by decide) (by decide) (by decide) (by decide)
      (by decide)⟩

/-- Counterexample to C10 as stated: for the aliasing load `0` and store `1`,
`constructEdgesFromAliases` creates the memory edge `1 -> 0`, from the store to the load. -/
theorem loadStore_edge_from_store_created :
    (constructEdgesFromAliases loadStoreModule (fun _ => mustAliasOracle)
        ⟨[0, 1], [], []⟩).edges
      = [DGEdge.mk 1 0 true true true, DGEdge.mk 0 1 true true true] := by
  decide

/-! ## Theorems: reachability by worklist closure -/

theorem closure_subset (nbrs : Nat → List Nat) :
    ∀ (n : Nat) (s : List Nat), s ⊆ closure nbrs n s := by
  intro n
  induction n with
  | zero => intro s; simp [closure]
  | succ n ih =>
    intro s
    rw [closure]
    split
    · exact List.Subset.refl s
    · intro x hx
      exact ih _ (List.mem_append_left _ hx)

theorem closure_sound (nbrs : Nat → List Nat) :
    ∀ (n : Nat) (s : List Nat) (w : Nat), w ∈ closure nbrs n s →
      ∃ v ∈ s, Relation.ReflTransGen (fun a b => b ∈ nbrs a) v w := by
  intro n
  induction n with
  | zero =>
    intro s w hw
    exact ⟨w, by simpa [closure] using hw, Relation.ReflTransGen.refl⟩
  | succ n ih =>
    intro s w hw
    rw [closure] at hw
    split at hw
    · exact ⟨w, hw, Relation.ReflTransGen.refl⟩
    · obtain ⟨v, hv, hvw⟩ := ih _ w hw
      rcases List.mem_append.1 hv with h | h
      · exact ⟨v, h, hvw⟩
      · have h1 := (List.mem_filter.1 h).1
        rw [List.mem_dedup, List.mem_flatMap] at h1
        obtain ⟨u, hu, huv⟩ := h1
        exact ⟨u, hu, Relation.ReflTransGen.head huv hvw⟩

theorem closure_nodup (nbrs : Nat → List Nat) :
    ∀ (n : Nat) (s : List Nat), s.Nodup → (closure nbrs n s).Nodup := by
  intro n
  induction n with
  | zero => intro s hs; simpa [closure] using hs
  | succ n ih =>
    intro s hs
    rw [closure]
    split
    · exact hs
    · apply ih
      rw [List.nodup_append]
      refine ⟨hs, (List.nodup_dedup _).filter _, ?_⟩
      intro a ha hb
      have := (List.mem_filter.1 hb).2
      simp at this
      exact this ha

theorem closure_within (nbrs : Nat → List Nat) (U : List Nat)
    (hU : ∀ u ∈ U, ∀ w ∈ nbrs u, w ∈ U) :
    ∀ (n : Nat) (s : List Nat), s ⊆ U → closure nbrs n s ⊆ U := by
  intro n
  induction n with
  | zero => intro s hs; simpa [closure] using hs
  | succ n ih =>
    intro s hs
    rw [closure]
    split
    · exact hs
    · apply ih
      intro x hx
      rcases List.mem_append.1 hx with h | h
      · exact hs h
      · have h1 := (List.mem_filter.1 h).1
        rw [List.mem_dedup, List.mem_flatMap] at h1
        obtain ⟨u, hu, hux⟩ := h1
        exact hU u (hs hu) x hux

theorem closure_closed (nbrs : Nat → List Nat) (U : List Nat)
    (hU : ∀ u ∈ U, ∀ w ∈ nbrs u, w ∈ U) :
    ∀ (n : Nat) (s : List Nat), s.Nodup → s ⊆ U → U.length ≤ s.length + n →
      ∀ u ∈ closure nbrs n s, ∀ w ∈ nbrs u, w ∈ closure nbrs n s := by
  intro n
  induction n with
  | zero =>
    intro s hs hsU hlen u hu w hw
    simp only [closure] at hu ⊢
    have hsub : s.Subperm U := List.subperm_of_subset hs hsU
    have hperm : s.Perm U := hsub.perm_of_length_le (by omega)
    exact hperm.mem_iff.2 (hU u (hsU hu) w hw)
  | succ n ih =>
    intro s hs hsU hlen
    rw [closure]
    split
    · rename_i hnil
      intro u hu w hw
      by_contra hws
      have : w ∈ (s.flatMap nbrs).dedup.filter (fun w => w ∉ s) := by
        rw [List.mem_filter, List.mem_dedup, List.mem_flatMap]
        exact ⟨⟨u, hu, hw⟩, by simpa using hws⟩
      rw [hnil] at this
      simp at this
    · rename_i hne
      apply ih
      · rw [List.nodup_append]
        refine ⟨hs, (List.nodup_dedup _).filter _, ?_⟩
        intro a ha hb
        have := (List.mem_filter.1 hb).2
        simp at this
        exact this ha
      · intro x hx
        rcases List.mem_append.1 hx with h | h
        · exact hsU h
        · have h1 := (List.mem_filter.1 h).1
          rw [List.mem_dedup, List.mem_flatMap] at h1
          obtain ⟨u, hu, hux⟩ := h1
          exact hU u (hsU hu) x hux
      · have hpos : 0 < ((s.flatMap nbrs).dedup.filter (fun w => w ∉ s)).length :=
          List.length_pos.2 hne
        rw [List.length_append]
        omega

theorem closure_complete (nbrs : Nat → List Nat) (U : List Nat)
    (hU : ∀ u ∈ U, ∀ w ∈ nbrs u, w ∈ U) (n : Nat) (s : List Nat)
    (hs : s.Nodup) (hsU : s ⊆ U) (hlen : U.length ≤ s.length + n) (v w : Nat)
    (hv : v ∈ s) (hvw : Relation.ReflTransGen (fun a b => b ∈ nbrs a) v w) :
    w ∈ closure nbrs n s := by
  induction hvw with
  | refl => exact closure_subset nbrs n s hv
  | tail _ hbc ih => exact closure_closed nbrs U hU n s hs hsU hlen _ ih _ hbc

/-! ## Theorems: components and strongly connected components -/

theorem mem_internalEdges (g : PDG) (e : DGEdge) :
    e ∈ g.internalEdges ↔ e ∈ g.edges ∧ e.src ∈ g.internalNodes ∧ e.dst ∈ g.internalNodes := by
  simp [PDG.internalEdges, List.mem_filter]

theorem mem_succs (g : PDG) (v w : Nat) :
    w ∈ g.succs v ↔ ∃ e ∈ g.internalEdges, e.src = v ∧ e.dst = w := by
  simp only [PDG.succs, List.mem_map, List.mem_filter, decide_eq_true_eq]
  constructor
  · rintro ⟨e, ⟨he, hs⟩, hd⟩; exact ⟨e, he, hs, hd⟩
  · rintro ⟨e, he, hs, hd⟩; exact ⟨e, ⟨he, hs⟩, hd⟩

theorem mem_preds (g : PDG) (v w : Nat) :
    w ∈ g.preds v ↔ ∃ e ∈ g.internalEdges, e.src = w ∧ e.dst = v := by
  simp only [PDG.preds, List.mem_map, List.mem_filter, decide_eq_true_eq]
  constructor
  · rintro ⟨e, ⟨he, hd⟩, hs⟩; exact ⟨e, he, hs, hd⟩
  · rintro ⟨e, he, hs, hd⟩; exact ⟨e, ⟨he, hd⟩, hs⟩

theorem mem_preds_iff_succs (g : PDG) (v w : Nat) : w ∈ g.preds v ↔ v ∈ g.succs w := by
  rw [mem_preds, mem_succs]

theorem succs_internal (g : PDG) (v w : Nat) (h : w ∈ g.succs v) :
    v ∈ g.internalNodes ∧ w ∈ g.internalNodes := by
  obtain ⟨e, he, hs, hd⟩ := (mem_succs g v w).1 h
  have := (mem_internalEdges g e).1 he
  exact ⟨hs ▸ this.2.1, hd ▸ this.2.2⟩

theorem mem_reach (g : PDG) (v w : Nat) : w ∈ g.reach v ↔ g.Reaches v w := by
  have hU : ∀ u ∈ v :: g.internalNodes, ∀ x ∈ g.succs u, x ∈ v :: g.internalNodes := by
    intro u _ x hx
    exact List.mem_cons_of_mem _ (succs_internal g u x hx).2
  constructor
  · intro h
    obtain ⟨v', hv', hr⟩ := closure_sound g.succs _ _ w h
    rw [List.mem_singleton] at hv'
    subst hv'
    exact hr
  · intro h
    exact closure_complete g.succs (v :: g.internalNodes) hU g.internalNodes.length [v]
      (List.nodup_singleton v) (by simp) (by simp; omega) v w (by simp) h

theorem reach_nodup (g : PDG) (v : Nat) : (g.reach v).Nodup :=
  closure_nodup g.succs _ _ (List.nodup_singleton v)

theorem mem_sccOf (g : PDG) (v w : Nat) :
    w ∈ g.sccOf v ↔ g.Reaches v w ∧ g.Reaches w v := by
  simp [PDG.sccOf, List.mem_filter, mem_reach]

theorem sccOf_nodup (g : PDG) (v : Nat) : (g.sccOf v).Nodup :=
  (reach_nodup g v).filter _

theorem self_mem_sccOf (g : PDG) (v : Nat) : v ∈ g.sccOf v :=
  (mem_sccOf g v v).2 ⟨Relation.ReflTransGen.refl, Relation.ReflTransGen.refl⟩

/-- Members of one strongly connected component have the same component. -/
theorem sccOf_eq_of_mem (g : PDG) (u v : Nat) (h : v ∈ g.sccOf u) (w : Nat) :
    w ∈ g.sccOf u ↔ w ∈ g.sccOf v := by
  rw [mem_sccOf] at h
  rw [mem_sccOf, mem_sccOf]
  constructor
  · rintro ⟨h1, h2⟩; exact ⟨h.2.trans h1, h2.trans h.1⟩
  · rintro ⟨h1, h2⟩; exact ⟨h.1.trans h1, h2.trans h.2⟩

theorem classFold_mono (cls : Nat → List Nat) :
    ∀ (l : List Nat) (acc : List (List Nat)),
      acc ⊆ l.foldl (fun acc u =>
        if acc.any (fun c => decide (u ∈ c)) then acc else acc ++ [cls u]) acc := by
  intro l
  induction l with
  | nil => intro acc; simp
  | cons u l ih =>
    intro acc
    rw [List.foldl_cons]
    split
    · exact ih acc
    · intro c hc
      exact ih _ (List.mem_append_left _ hc)

theorem classFold_origin (cls : Nat → List Nat) :
    ∀ (l : List Nat) (acc : List (List Nat)) (c : List Nat),
      c ∈ l.foldl (fun acc u =>
        if acc.any (fun c => decide (u ∈ c)) then acc else acc ++ [cls u]) acc →
      c ∈ acc ∨ ∃ u ∈ l, c = cls u := by
  intro l
  induction l with
  | nil => intro acc c hc; exact Or.inl (by simpa using hc)
  | cons u l ih =>
    intro acc c hc
    rw [List.foldl_cons] at hc
    split at hc
    · rcases ih acc c hc with h | ⟨u', hu', h⟩
      · exact Or.inl h
      · exact Or.inr ⟨u', List.mem_cons_of_mem _ hu', h⟩
    · rcases ih _ c hc with h | ⟨u', hu', h⟩
      · rcases List.mem_append.1 h with h | h
        · exact Or.inl h
        · exact Or.inr ⟨u, List.mem_cons_self _ _, by simpa using h⟩
      · exact Or.inr ⟨u', List.mem_cons_of_mem _ hu', h⟩

theorem classFold_cover (cls : Nat → List Nat) (hself : ∀ u, u ∈ cls u) :
    ∀ (l : List Nat) (acc : List (List Nat)) (u : Nat), u ∈ l →
      ∃ c ∈ l.foldl (fun acc u =>
        if acc.any (fun c => decide (u ∈ c)) then acc else acc ++ [cls u]) acc, u ∈ c := by
  intro l
  induction l with
  | nil => intro acc u hu; simp at hu
  | cons a l ih =>
    intro acc u hu
    rw [List.foldl_cons]
    rcases List.mem_cons.1 hu with h | h
    · subst h
      split
      · rename_i hany
        rw [List.any_eq_true] at hany
        obtain ⟨c, hc, huc⟩ := hany
        exact ⟨c, classFold_mono cls l acc hc, by simpa using huc⟩
      · exact ⟨cls u, classFold_mono cls l _ (by simp), hself u⟩
    · exact ih _ u h

theorem sccIterator_origin (g : PDG) (t : Nat) (c : List Nat) (hc : c ∈ g.sccIterator t) :
    ∃ u, g.Reaches t u ∧ c = g.sccOf u := by
  rcases classFold_origin g.sccOf (g.reach t) [] c hc with h | ⟨u, hu, h⟩
  · simp at h
  · exact ⟨u, (mem_reach g t u).1 hu, h⟩

theorem sccIterator_cover (g : PDG) (t u : Nat) (h : g.Reaches t u) :
    ∃ c ∈ g.sccIterator t, u ∈ c :=
  classFold_cover g.sccOf (self_mem_sccOf g) (g.reach t) [] u ((mem_reach g t u).2 h)

theorem classFold_pairwise (cls : Nat → List Nat) (hself : ∀ u, u ∈ cls u)
    (heq : ∀ u w, w ∈ cls u → ∀ x, x ∈ cls u ↔ x ∈ cls w) :
    ∀ (l : List Nat) (acc : List (List Nat)),
      (∀ c ∈ acc, ∃ v, c = cls v) → acc.Pairwise List.Disjoint →
      (l.foldl (fun acc u =>
        if acc.any (fun c => decide (u ∈ c)) then acc else acc ++ [cls u]) acc).Pairwise
          List.Disjoint := by
  intro l
  induction l with
  | nil => intro acc _ hp; simpa using hp
  | cons u l ih =>
    intro acc hcls hp
    rw [List.foldl_cons]
    split
    · exact ih acc hcls hp
    · rename_i hany
      apply ih
      · intro c hc
        rcases List.mem_append.1 hc with h | h
        · exact hcls c h
        · exact ⟨u, by simpa using h⟩
      · rw [List.pairwise_append]
        refine ⟨hp, List.pairwise_singleton _ _, ?_⟩
        intro c hc c' hc'
        rw [List.mem_singleton] at hc'
        subst hc'
        intro x hxc hxu
        obtain ⟨v, rfl⟩ := hcls c hc
        apply hany
        rw [List.any_eq_true]
        refine ⟨cls v, hc, ?_⟩
        have h1 : u ∈ cls x := (heq u x hxu u).1 (hself u)
        have h2 : u ∈ cls v := (heq v x hxc u).2 h1
        simpa using h2

/-- One step of the undirected neighbour function used for the disconnected subgraphs. -/
theorem undirected_symm (g : PDG) (a b : Nat)
    (h : b ∈ g.succs a ++ g.preds a) : a ∈ g.succs b ++ g.preds b := by
  rcases List.mem_append.1 h with h | h
  · exact List.mem_append_right _ ((mem_preds_iff_succs g b a).2 h)
  · exact List.mem_append_left _ ((mem_preds_iff_succs g a b).1 h)

theorem mem_component (g : PDG) (v w : Nat) :
    w ∈ closure (fun u => g.succs u ++ g.preds u) g.internalNodes.length [v] ↔
      Relation.ReflTransGen (fun a b => b ∈ g.succs a ++ g.preds a) v w := by
  have hU : ∀ u ∈ v :: g.internalNodes, ∀ x ∈ g.succs u ++ g.preds u,
      x ∈ v :: g.internalNodes := by
    intro u _ x hx
    rcases List.mem_append.1 hx with h | h
    · exact List.mem_cons_of_mem _ (succs_internal g u x h).2
    · exact List.mem_cons_of_mem _ (succs_internal g x u ((mem_preds_iff_succs g u x).1 h)).1
  constructor
  · intro h
    obtain ⟨v', hv', hr⟩ := closure_sound _ _ _ w h
    rw [List.mem_singleton] at hv'
    subst hv'
    exact hr
  · intro h
    exact closure_complete _ (v :: g.internalNodes) hU g.internalNodes.length [v]
      (List.nodup_singleton v) (by simp) (by simp; omega) v w (by simp) h

theorem component_symm (g : PDG) (v w : Nat)
    (h : Relation.ReflTransGen (fun a b => b ∈ g.succs a ++ g.preds a) v w) :
    Relation.ReflTransGen (fun a b => b ∈ g.succs a ++ g.preds a) w v := by
  induction h with
  | refl => exact Relation.ReflTransGen.refl
  | tail _ hbc ih => exact Relation.ReflTransGen.head (undirected_symm g _ _ hbc) ih

theorem subgraphs_origin (g : PDG) (c : List Nat) (hc : c ∈ g.getDisconnectedSubgraphs) :
    ∃ v, c = closure (fun u => g.succs u ++ g.preds u) g.internalNodes.length [v] := by
  rcases classFold_origin _ g.internalNodes [] c hc with h | ⟨u, _, h⟩
  · simp at h
  · exact ⟨u, h⟩

theorem subgraph_closed (g : PDG) (c : List Nat) (hc : c ∈ g.getDisconnectedSubgraphs)
    (u w : Nat) (hu : u ∈ c) (hw : w ∈ g.succs u) : w ∈ c := by
  obtain ⟨v, rfl⟩ := subgraphs_origin g c hc
  rw [mem_component] at hu ⊢
  exact hu.tail (List.mem_append_left _ hw)

theorem subgraphs_pairwise (g : PDG) : g.getDisconnectedSubgraphs.Pairwise List.Disjoint := by
  apply classFold_pairwise
  · intro u; rw [mem_component]
  · intro u w hw x
    rw [mem_component] at hw
    rw [mem_component, mem_component]
    constructor
    · intro hx; exact (component_symm g u w hw).trans hx
    · intro hx; exact hw.trans hx
  · intro c hc; simp at hc
  · exact List.Pairwise.nil

theorem mem_sub_succs (g : PDG) (c : List Nat) (v w : Nat) :
    w ∈ (g.addNodesIntoNewGraph c).succs v ↔ w ∈ g.succs v ∧ v ∈ c ∧ w ∈ c := by
  rw [mem_succs, mem_succs]
  constructor
  · rintro ⟨e, he, hs, hd⟩
    rw [mem_internalEdges] at he
    simp only [PDG.addNodesIntoNewGraph, List.mem_filter, decide_eq_true_eq] at he
    exact ⟨⟨e, he.1.1, hs, hd⟩, hs ▸ he.2.1, hd ▸ he.2.2⟩
  · rintro ⟨⟨e, he, hs, hd⟩, hv, hw⟩
    refine ⟨e, ?_, hs, hd⟩
    rw [mem_internalEdges]
    simp only [PDG.addNodesIntoNewGraph, List.mem_filter, decide_eq_true_eq]
    subst hs hd
    exact ⟨⟨he, hv, hw⟩, hv, hw⟩

theorem sub_reaches_of (g : PDG) (c : List Nat) (v w : Nat)
    (h : (g.addNodesIntoNewGraph c).Reaches v w) : g.Reaches v w := by
  induction h with
  | refl => exact Relation.ReflTransGen.refl
  | tail _ hbc ih => exact ih.tail ((mem_sub_succs g c _ _).1 hbc).1

theorem sub_reaches_iff (g : PDG) (c : List Nat)
    (hcl : ∀ u ∈ c, ∀ w ∈ g.succs u, w ∈ c) (v w : Nat) (hv : v ∈ c)
    (h : g.Reaches v w) : (g.addNodesIntoNewGraph c).Reaches v w ∧ w ∈ c := by
  induction h with
  | refl => exact ⟨Relation.ReflTransGen.refl, hv⟩
  | tail _ hbc ih =>
    have hc' := hcl _ ih.2 _ hbc
    exact ⟨ih.1.tail ((mem_sub_succs g c _ _).2 ⟨hbc, ih.2, hc'⟩), hc'⟩

theorem mem_sub_sccOf (g : PDG) (c : List Nat)
    (hcl : ∀ u ∈ c, ∀ w ∈ g.succs u, w ∈ c) (u w : Nat) (hu : u ∈ c) :
    w ∈ (g.addNodesIntoNewGraph c).sccOf u ↔ g.Reaches u w ∧ g.Reaches w u := by
  rw [mem_sccOf]
  constructor
  · rintro ⟨h1, h2⟩
    exact ⟨sub_reaches_of g c _ _ h1, sub_reaches_of g c _ _ h2⟩
  · rintro ⟨h1, h2⟩
    have h1' := sub_reaches_iff g c hcl u w hu h1
    exact ⟨h1'.1, (sub_reaches_iff g c hcl w u h1'.2 h2).1⟩

/-! ## Theorems: the nodes created by the constructor -/

theorem scanSCC_fresh :
    ∀ (scc nodes seen : List Nat), scc.Nodup → (∀ n ∈ scc, n ∉ seen) →
      scanSCC scc nodes seen = (nodes ++ scc, seen ++ scc, true) := by
  intro scc
  induction scc with
  | nil => intro nodes seen _ _; simp [scanSCC]
  | cons n rest ih =>
    intro nodes seen hnd hfresh
    rw [List.nodup_cons] at hnd
    have hn : n ∉ seen := hfresh n (List.mem_cons_self _ _)
    rw [scanSCC, if_neg hn, ih _ _ hnd.2]
    · simp
    · intro m hm hms
      rcases List.mem_append.1 hms with h | h
      · exact hfresh m (List.mem_cons_of_mem _ hm) h
      · rw [List.mem_singleton] at h
        subst h
        exact hnd.1 hm

theorem addUniqueSCC_spec (d : SCCDAG) (seen scc : List Nat) (hne : scc ≠ [])
    (hnd : scc.Nodup) (hsat : ∀ y ∈ scc, y ∈ seen → ∀ z ∈ scc, z ∈ seen) :
    ((∀ z ∈ scc, z ∈ seen) ∧ addUniqueSCC (d, seen) scc = (d, seen)) ∨
    ((∀ z ∈ scc, z ∉ seen) ∧
      addUniqueSCC (d, seen) scc = (d.addNode scc true, seen ++ scc)) := by
  cases scc with
  | nil => exact absurd rfl hne
  | cons n rest =>
    by_cases hn : n ∈ seen
    · left
      refine ⟨hsat n (List.mem_cons_self _ _) hn, ?_⟩
      simp [addUniqueSCC, scanSCC, hn]
    · right
      have hfresh : ∀ z ∈ n :: rest, z ∉ seen := by
        intro z hz hzs
        exact hn (hsat z hz hzs n (List.mem_cons_self _ _))
      refine ⟨hfresh, ?_⟩
      simp [addUniqueSCC, scanSCC_fresh (n :: rest) [] seen hnd hfresh]

theorem subInv_step (pdg : PDG) (c tops : List Nat) (dIn : SCCDAG)
    (hcl : ∀ u ∈ c, ∀ w ∈ pdg.succs u, w ∈ c)
    (st : SCCDAG × List Nat) (hinv : SubInv pdg c tops dIn st)
    (t : Nat) (ht : t ∈ tops) (htc : t ∈ c) (scc : List Nat)
    (hscc : scc ∈ (pdg.addNodesIntoNewGraph c).sccIterator t) :
    SubInv pdg c tops dIn (addUniqueSCC st scc) ∧
      (∀ y ∈ st.2, y ∈ (addUniqueSCC st scc).2) ∧
      (∀ y ∈ scc, y ∈ (addUniqueSCC st scc).2) := by
  obtain ⟨d, seen⟩ := st
  obtain ⟨newS, hd, hids, hseen, hcls, hpw, htop⟩ := hinv
  obtain ⟨u, htu, rfl⟩ := sccIterator_origin _ t scc hscc
  have htu' := sub_reaches_iff pdg c hcl t u htc (sub_reaches_of pdg c t u htu)
  have huc : u ∈ c := htu'.2
  have hmem : ∀ w, w ∈ (pdg.addNodesIntoNewGraph c).sccOf u ↔
      (pdg.Reaches u w ∧ pdg.Reaches w u) := fun w => mem_sub_sccOf pdg c hcl u w huc
  have hsat : ∀ y ∈ (pdg.addNodesIntoNewGraph c).sccOf u, y ∈ seen →
      ∀ z ∈ (pdg.addNodesIntoNewGraph c).sccOf u, z ∈ seen := by
    intro y hy hys z hz
    obtain ⟨s, hs, hys'⟩ := (hseen y).1 hys
    obtain ⟨u', _, hu'⟩ := hcls s hs
    rw [hmem] at hy hz
    have hy' := (hu' y).1 hys'
    refine (hseen z).2 ⟨s, hs, (hu' z).2 ?_⟩
    exact ⟨hy'.1.trans (hy.2.trans hz.1), hz.2.trans (hy.1.trans hy'.2)⟩
  have hne : (pdg.addNodesIntoNewGraph c).sccOf u ≠ [] :=
    List.ne_nil_of_mem (self_mem_sccOf _ u)
  rcases addUniqueSCC_spec d seen _ hne (sccOf_nodup _ u) hsat with ⟨hall, heq⟩ | ⟨hfresh, heq⟩
  · rw [heq]
    exact ⟨⟨newS, hd, hids, hseen, hcls, hpw, htop⟩, fun y hy => hy, hall⟩
  · rw [heq]
    refine ⟨⟨newS ++ [⟨d.nextId, (pdg.addNodesIntoNewGraph c).sccOf u⟩], ?_, ?_, ?_, ?_, ?_, ?_⟩,
      fun y hy => List.mem_append_left _ hy, fun y hy => List.mem_append_right _ hy⟩
    · simp only at hd
      subst hd
      simp [SCCDAG.addNode, Nat.add_assoc]
    · simp only at hd
      subst hd
      rw [List.map_append, hids, List.length_append, List.length_singleton,
        List.range'_concat]
      simp
    · intro y
      simp only [List.mem_append, List.mem_singleton]
      constructor
      · rintro (h | h)
        · obtain ⟨s, hs, hys⟩ := (hseen y).1 h
          exact ⟨s, Or.inl hs, hys⟩
        · exact ⟨_, Or.inr rfl, h⟩
      · rintro ⟨s, hs | hs, hys⟩
        · exact Or.inl ((hseen y).2 ⟨s, hs, hys⟩)
        · subst hs; exact Or.inr hys
    · intro s hs
      rcases List.mem_append.1 hs with h | h
      · exact hcls s h
      · rw [List.mem_singleton] at h
        subst h
        exact ⟨u, huc, hmem⟩
    · rw [List.pairwise_append]
      refine ⟨hpw, List.pairwise_singleton _ _, ?_⟩
      intro s hs s' hs'
      rw [List.mem_singleton] at hs'
      subst hs'
      intro y hys hyu
      exact hfresh y hyu ((hseen y).2 ⟨s, hs, hys⟩)
    · intro s hs a ha
      rcases List.mem_append.1 hs with h | h
      · exact htop s h a ha
      · rw [List.mem_singleton] at h
        subst h
        exact ⟨t, ht, htu'.1 |> fun h' => (sub_reaches_of pdg c t u h').trans ((hmem a).1 ha).1⟩

theorem subInv_top (pdg : PDG) (c tops : List Nat) (dIn : SCCDAG)
    (hcl : ∀ u ∈ c, ∀ w ∈ pdg.succs u, w ∈ c) (t : Nat) (ht : t ∈ tops) (htc : t ∈ c) :
    ∀ (L : List (List Nat)), (∀ scc ∈ L, scc ∈ (pdg.addNodesIntoNewGraph c).sccIterator t) →
      ∀ st, SubInv pdg c tops dIn st →
        SubInv pdg c tops dIn (L.foldl addUniqueSCC st) ∧
        (∀ y ∈ st.2, y ∈ (L.foldl addUniqueSCC st).2) ∧
        (∀ scc ∈ L, ∀ y ∈ scc, y ∈ (L.foldl addUniqueSCC st).2) := by
  intro L
  induction L with
  | nil => intro _ st hinv; exact ⟨hinv, fun y hy => hy, by simp⟩
  | cons scc L ih =>
    intro hL st hinv
    obtain ⟨h1, h2, h3⟩ := subInv_step pdg c tops dIn hcl st hinv t ht htc scc
      (hL scc (List.mem_cons_self _ _))
    obtain ⟨i1, i2, i3⟩ := ih (fun s hs => hL s (List.mem_cons_of_mem _ hs)) _ h1
    rw [List.foldl_cons]
    refine ⟨i1, fun y hy => i2 y (h2 y hy), ?_⟩
    intro s hs y hy
    rcases List.mem_cons.1 hs with h | h
    · subst h; exact i2 y (h3 y hy)
    · exact i3 s h y hy

theorem subInv_tops (pdg : PDG) (c tops : List Nat) (dIn : SCCDAG)
    (hcl : ∀ u ∈ c, ∀ w ∈ pdg.succs u, w ∈ c) :
    ∀ (T : List Nat), (∀ t ∈ T, t ∈ tops ∧ t ∈ c) →
      ∀ st, SubInv pdg c tops dIn st →
        SubInv pdg c tops dIn (T.foldl (fun st t =>
          ((pdg.addNodesIntoNewGraph c).sccIterator t).foldl addUniqueSCC st) st) ∧
        (∀ y ∈ st.2, y ∈ (T.foldl (fun st t =>
          ((pdg.addNodesIntoNewGraph c).sccIterator t).foldl addUniqueSCC st) st).2) ∧
        (∀ t ∈ T, ∀ y, pdg.Reaches t y → y ∈ (T.foldl (fun st t =>
          ((pdg.addNodesIntoNewGraph c).sccIterator t).foldl addUniqueSCC st) st).2) := by
  intro T
  induction T with
  | nil => intro _ st hinv; exact ⟨hinv, fun y hy => hy, by simp⟩
  | cons t T ih =>
    intro hT st hinv
    have htt := hT t (List.mem_cons_self _ _)
    obtain ⟨h1, h2, h3⟩ := subInv_top pdg c tops dIn hcl t htt.1 htt.2 _ (fun _ h => h) st hinv
    obtain ⟨i1, i2, i3⟩ := ih (fun s hs => hT s (List.mem_cons_of_mem _ hs)) _ h1
    rw [List.foldl_cons]
    refine ⟨i1, fun y hy => i2 y (h2 y hy), ?_⟩
    intro t' ht' y hy
    rcases List.mem_cons.1 ht' with h | h
    · subst h
      obtain ⟨scc, hscc, hyscc⟩ := sccIterator_cover _ t' y
        (sub_reaches_iff pdg c hcl t' y htt.2 hy).1
      exact i2 y (h3 scc hscc y hyscc)
    · exact i3 t' h y hy

theorem addSubgraphSCCs_spec (pdg : PDG) (d : SCCDAG) (c : List Nat)
    (hcl : ∀ u ∈ c, ∀ w ∈ pdg.succs u, w ∈ c) :
    ∃ newS : List SCC,
      addSubgraphSCCs pdg d c =
        { d with internalNodes := d.internalNodes ++ newS, nextId := d.nextId + newS.length } ∧
      newS.map SCC.id = List.range' d.nextId newS.length ∧
      (∀ s ∈ newS, ∃ u ∈ c, ∀ w, w ∈ s.values ↔ (pdg.Reaches u w ∧ pdg.Reaches w u)) ∧
      newS.Pairwise (fun s s' => List.Disjoint s.values s'.values) ∧
      (∀ s ∈ newS, ∀ a ∈ s.values, ∀ x ∈ pdg.succs a, ∃ s' ∈ newS, x ∈ s'.values) := by
  have hinit : SubInv pdg c (pdg.addNodesIntoNewGraph c).getTopLevelNodes d (d, []) := by
    refine ⟨[], ?_, by simp, by simp, by simp, List.Pairwise.nil, by simp⟩
    simp
  have htops : ∀ t ∈ (pdg.addNodesIntoNewGraph c).getTopLevelNodes,
      t ∈ (pdg.addNodesIntoNewGraph c).getTopLevelNodes ∧ t ∈ c := by
    intro t ht
    refine ⟨ht, ?_⟩
    have := (List.mem_filter.1 ht).1
    simpa [PDG.addNodesIntoNewGraph] using this
  obtain ⟨⟨newS, hd, hids, hseen, hcls, hpw, htop⟩, -, hreach⟩ :=
    subInv_tops pdg c _ d hcl _ htops (d, []) hinit
  refine ⟨newS, hd, hids, hcls, hpw, ?_⟩
  intro s hs a ha x hx
  obtain ⟨t, ht, hta⟩ := htop s hs a ha
  exact (hseen x).1 (hreach t ht x (hta.tail hx))

theorem class_subset_of_closed (pdg : PDG) (c : List Nat)
    (hcl : ∀ u ∈ c, ∀ w ∈ pdg.succs u, w ∈ c) (u : Nat) (hu : u ∈ c) (w : Nat)
    (h : pdg.Reaches u w) : w ∈ c :=
  (sub_reaches_iff pdg c hcl u w hu h).2

theorem nodesInv_fold (pdg : PDG) :
    ∀ (comps : List (List Nat)), (∀ c ∈ comps, ∀ u ∈ c, ∀ w ∈ pdg.succs u, w ∈ c) →
      comps.Pairwise List.Disjoint →
      ∀ d, NodesInv pdg d → (∀ s ∈ d.internalNodes, ∀ c ∈ comps, List.Disjoint s.values c) →
        NodesInv pdg (comps.foldl (addSubgraphSCCs pdg) d) := by
  intro comps
  induction comps with
  | nil => intro _ _ d hd _; exact hd
  | cons c comps ih =>
    intro hcl hpw d hd hdisj
    rw [List.pairwise_cons] at hpw
    rw [List.foldl_cons]
    obtain ⟨newS, heq, hids, hcls, hnpw, hclosed⟩ :=
      addSubgraphSCCs_spec pdg d c (hcl c (List.mem_cons_self _ _))
    obtain ⟨g1, g2, g3, g4, g5, g6, g7, g8⟩ := hd
    have hsub : ∀ s ∈ newS, ∀ v ∈ s.values, v ∈ c := by
      intro s hs v hv
      obtain ⟨u, huc, hu⟩ := hcls s hs
      exact class_subset_of_closed pdg c (hcl c (List.mem_cons_self _ _)) u huc v ((hu v).1 hv).1
    apply ih (fun c' hc' => hcl c' (List.mem_cons_of_mem _ hc')) hpw.2
    · rw [heq]
      refine ⟨g1, g2, g3, g4, ?_, ?_, ?_, ?_⟩
      · simp only [List.map_append, g5, hids]
        rw [List.range_eq_range', List.range_eq_range']
        have := List.range'_append_1 0 d.nextId newS.length
        simpa [Nat.add_comm] using this
      · intro s hs
        rcases List.mem_append.1 hs with h | h
        · exact g6 s h
        · obtain ⟨u, _, hu⟩ := hcls s h
          exact ⟨u, hu⟩
      · simp only
        rw [List.pairwise_append]
        refine ⟨g7, hnpw, ?_⟩
        intro s hs s' hs' v hv hv'
        exact hdisj s hs c (List.mem_cons_self _ _) hv (hsub s' hs' v hv')
      · intro s hs a ha x hx
        rcases List.mem_append.1 hs with h | h
        · obtain ⟨s', hs', hx'⟩ := g8 s h a ha x hx
          exact ⟨s', List.mem_append_left _ hs', hx'⟩
        · obtain ⟨s', hs', hx'⟩ := hclosed s h a ha x hx
          exact ⟨s', List.mem_append_right _ hs', hx'⟩
    · rw [heq]
      intro s hs c' hc'
      rcases List.mem_append.1 hs with h | h
      · exact hdisj s h c' (List.mem_cons_of_mem _ hc')
      · intro v hv hv'
        exact hpw.1 c' hc' (hsub s h v hv) hv'

theorem nodesInv_construct (pdg : PDG) :
    NodesInv pdg (pdg.getDisconnectedSubgraphs.foldl (addSubgraphSCCs pdg)
      ⟨pdg, [], [], [], [], 0⟩) := by
  apply nodesInv_fold pdg _ (fun c hc u hu w hw => subgraph_closed pdg c hc u w hu hw)
    (subgraphs_pairwise pdg)
  · exact ⟨rfl, rfl, rfl, rfl, by simp, by simp, List.Pairwise.nil, by simp⟩
  · intro s hs; simp at hs

/-! ## Theorems: `markValuesInSCC` and `markEdgesAndSubEdges` -/

theorem modifyAt_length {α : Type} (f : α → α) :
    ∀ (i : Nat) (l : List α), (modifyAt f i l).length = l.length := by
  intro i l
  induction l generalizing i with
  | nil => cases i <;> rfl
  | cons a l ih =>
    cases i with
    | zero => rfl
    | succ i => simp [modifyAt, ih]

theorem getElem?_modifyAt {α : Type} (f : α → α) :
    ∀ (i : Nat) (l : List α) (j : Nat),
      (modifyAt f i l)[j]? = if j = i then (l[j]?).map f else l[j]? := by
  intro i l
  induction l generalizing i with
  | nil => intro j; cases i <;> simp [modifyAt]
  | cons a l ih =>
    intro j
    cases i with
    | zero =>
      cases j with
      | zero => simp [modifyAt]
      | succ j => simp [modifyAt]
    | succ i =>
      cases j with
      | zero => simp [modifyAt]
      | succ j => simp [modifyAt, ih]

theorem markEdgeStep_skip (P : PDG) (M : List (Nat × Nat)) (s : SCC)
    (st : List SCCEdge × List Nat) (x : Nat) (hinc : s.incomingEdges P x = []) :
    markEdgeStep P M s st x = some st := by
  simp [markEdgeStep, hinc]

theorem markEdgeStep_spec (P : PDG) (M : List (Nat × Nat)) (s : SCC)
    (E : List SCCEdge) (cl : List Nat) (x t : Nat)
    (hinc : s.incomingEdges P x ≠ []) (hlk : M.lookup x = some t) :
    ∃ (E1 : List SCCEdge) (idx : Nat) (b : SCCEdge) (E' : List SCCEdge),
      markEdgeStep P M s (E, cl) x = some (E', if idx ∈ cl then cl else idx :: cl) ∧
      (E1 = E ∨ (E1 = E ++ [⟨s.id, t, []⟩] ∧ idx = E.length ∧
        (∀ e ∈ E, SCCEdge.joins s.id t e = false))) ∧
      E1[idx]? = some b ∧ SCCEdge.joins s.id t b = true ∧
      (∀ j, E'[j]? = if j = idx then
          some { b with subEdges :=
            (if idx ∈ cl then b.subEdges else []) ++ s.incomingEdges P x }
        else E1[j]?) := by
  have hlen : ¬ (s.incomingEdges P x).length = 0 := by
    intro h; exact hinc (List.length_eq_zero.1 h)
  cases hf : E.findIdx? (SCCEdge.joins s.id t) with
  | none =>
    have hnone := List.findIdx?_eq_none_iff.1 hf
    refine ⟨E ++ [⟨s.id, t, []⟩], E.length, ⟨s.id, t, []⟩,
      modifyAt (fun e => { e with subEdges := e.subEdges ++ s.incomingEdges P x }) E.length
        (if E.length ∈ cl then E ++ [⟨s.id, t, []⟩]
          else modifyAt (fun e => { e with subEdges := [] }) E.length (E ++ [⟨s.id, t, []⟩])),
      ?h1, Or.inr ⟨rfl, rfl, hnone⟩,
      List.getElem?_concat_length _ _, by simp [SCCEdge.joins], ?h2⟩
    case h1 =>
      simp only [markEdgeStep, hlen, if_false, hlk, hf, Option.isNone_none, if_true,
        Option.getD_none]
    case h2 =>
      intro j
      rw [getElem?_modifyAt]
      by_cases hj : j = E.length
      · subst hj
        by_cases hc : E.length ∈ cl
        · simp [hc]
        · simp [hc, getElem?_modifyAt]
      · by_cases hc : E.length ∈ cl
        · simp [hc, hj]
        · simp [hc, hj, getElem?_modifyAt]
  | some i =>
    obtain ⟨hi, hp, -⟩ := List.findIdx?_eq_some_iff_getElem.1 hf
    refine ⟨E, i, E[i],
      modifyAt (fun e => { e with subEdges := e.subEdges ++ s.incomingEdges P x }) i
        (if i ∈ cl then E else modifyAt (fun e => { e with subEdges := [] }) i E),
      ?h1, Or.inl rfl, List.getElem?_eq_getElem hi, hp, ?h2⟩
    case h1 =>
      simp only [markEdgeStep, hlen, if_false, hlk, hf, Option.isNone_some, Option.getD_some,
        Bool.false_eq_true]
    case h2 =>
      intro j
      rw [getElem?_modifyAt]
      by_cases hj : j = i
      · subst hj
        by_cases hc : j ∈ cl
        · simp [hc, List.getElem?_eq_getElem hi]
        · simp [hc, getElem?_modifyAt, List.getElem?_eq_getElem hi]
      · by_cases hc : i ∈ cl
        · simp [hc, hj]
        · simp [hc, hj, getElem?_modifyAt]

theorem joins_ends (a b : Nat) (e e' : SCCEdge) (hs : e.src = e'.src) (hd : e.dst = e'.dst) :
    SCCEdge.joins a b e = SCCEdge.joins a b e' := by
  simp [SCCEdge.joins, hs, hd]

theorem joins_pair (a b : Nat) (e e' : SCCEdge) (h : SCCEdge.joins a b e = true)
    (h' : SCCEdge.joins a b e' = true) : SCCEdge.joins e.src e.dst e' = true := by
  simp only [SCCEdge.joins, decide_eq_true_eq] at h h' ⊢
  rcases h with ⟨h1, h2⟩ | ⟨h1, h2⟩ <;> rcases h' with ⟨h3, h4⟩ | ⟨h3, h4⟩ <;>
    simp [h1, h2, h3, h4]

theorem joins_trans (a b : Nat) (e e' : SCCEdge) (h : SCCEdge.joins a b e = true)
    (h' : SCCEdge.joins e.src e.dst e' = true) : SCCEdge.joins a b e' = true := by
  simp only [SCCEdge.joins, decide_eq_true_eq] at h h' ⊢
  rcases h with ⟨h1, h2⟩ | ⟨h1, h2⟩ <;> rcases h' with ⟨h3, h4⟩ | ⟨h3, h4⟩ <;>
    simp [← h1, ← h2, h3, h4]

theorem joins_comm (e e' : SCCEdge) (h : SCCEdge.joins e.src e.dst e' = true) :
    SCCEdge.joins e'.src e'.dst e = true := by
  simp only [SCCEdge.joins, decide_eq_true_eq] at h ⊢
  rcases h with ⟨h1, h2⟩ | ⟨h1, h2⟩ <;> simp [h1, h2]

theorem edgeInv_skip (P : PDG) (M : List (Nat × Nat)) (E0 : List SCCEdge)
    (proc : List (SCC × Nat)) (st : List SCCEdge × List Nat) (v : SCC × Nat)
    (hv : v.1.incomingEdges P v.2 = []) (h : EdgeInv P M E0 proc st) :
    EdgeInv P M E0 (proc ++ [v]) st where
  orig := h.orig
  clearedLt := h.clearedLt
  created := by
    intro i e he h0
    obtain ⟨h1, w, hw, h2⟩ := h.created i e he h0
    exact ⟨h1, w, List.mem_append_left _ hw, h2⟩
  subs := by
    intro i hi e he dep
    rw [h.subs i hi e he dep]
    constructor
    · rintro ⟨w, hw, h2⟩
      exact ⟨w, List.mem_append_left _ hw, h2⟩
    · rintro ⟨w, hw, t, h2, h3, h4⟩
      rcases List.mem_append.1 hw with hw | hw
      · exact ⟨w, hw, t, h2, h3, h4⟩
      · rw [List.mem_singleton] at hw
        subst hw
        rw [hv] at h4
        simp at h4
  single := h.single
  visited := by
    intro w hw hne
    rcases List.mem_append.1 hw with hw | hw
    · exact h.visited w hw hne
    · rw [List.mem_singleton] at hw
      subst hw
      exact absurd hv hne

theorem edgeInv_touch (P : PDG) (M : List (Nat × Nat)) (E0 : List SCCEdge)
    (proc : List (SCC × Nat)) (E : List SCCEdge) (cl : List Nat) (s : SCC) (x t : Nat)
    (hinc : s.incomingEdges P x ≠ []) (hlk : M.lookup x = some t)
    (h : EdgeInv P M E0 proc (E, cl)) :
    ∃ st', markEdgeStep P M s (E, cl) x = some st' ∧
      EdgeInv P M E0 (proc ++ [(s, x)]) st' := by
  obtain ⟨E1, idx, b, E', hres, hE1, hb, hpb, hget⟩ := markEdgeStep_spec P M s E cl x t hinc hlk
  refine ⟨_, hres, ?_⟩
  -- positions of `E` are positions of `E1`
  have F1 : ∀ (j : Nat) (e : SCCEdge), E[j]? = some e → E1[j]? = some e := by
    intro j e hj
    rcases hE1 with rfl | ⟨rfl, -, -⟩
    · exact hj
    · rw [List.getElem?_append_left (List.getElem?_eq_some.1 hj).1]; exact hj
  have F2 : ∀ (j : Nat) (e : SCCEdge), E1[j]? = some e → E[j]? = some e ∨
      (j = idx ∧ E[j]? = none ∧ e.src = s.id ∧ e.dst = t ∧
        (∀ e ∈ E, SCCEdge.joins s.id t e = false)) := by
    intro j e hj
    rcases hE1 with rfl | ⟨rfl, hidx, hno⟩
    · exact Or.inl hj
    · by_cases hlt : j < E.length
      · rw [List.getElem?_append_left hlt] at hj; exact Or.inl hj
      · have hjl := (List.getElem?_eq_some.1 hj).1
        simp only [List.length_append, List.length_singleton] at hjl
        have hje : j = E.length := by omega
        subst hje
        rw [List.getElem?_concat_length] at hj
        have := Option.some.inj hj
        subst this
        exact Or.inr ⟨hidx.symm, List.getElem?_eq_none_iff.2 (Nat.le_refl _), rfl, rfl, hno⟩
  have F3 : idx ∈ (if idx ∈ cl then cl else idx :: cl) := by
    by_cases hc : idx ∈ cl <;> simp [hc]
  have F3a : ∀ i ∈ cl, i ∈ (if idx ∈ cl then cl else idx :: cl) := by
    intro i hi
    by_cases hc : idx ∈ cl <;> simp [hc, hi]
  have F3b : ∀ i ∈ (if idx ∈ cl then cl else idx :: cl), i ∈ cl ∨ (i = idx ∧ idx ∉ cl) := by
    intro i hi
    by_cases hc : idx ∈ cl
    · rw [if_pos hc] at hi; exact Or.inl hi
    · rw [if_neg hc] at hi
      rcases List.mem_cons.1 hi with h1 | h1
      · exact Or.inr ⟨h1, hc⟩
      · exact Or.inl h1
  have F4 : ∀ (j : Nat) (e' : SCCEdge), E'[j]? = some e' → ∃ e, E1[j]? = some e ∧ e'.src = e.src ∧
      e'.dst = e.dst ∧ (j ≠ idx → e' = e) := by
    intro j e' hj
    rw [hget j] at hj
    by_cases hji : j = idx
    · rw [if_pos hji] at hj
      have := Option.some.inj hj
      subst this
      exact ⟨b, hji ▸ hb, rfl, rfl, fun hne => absurd hji hne⟩
    · rw [if_neg hji] at hj
      exact ⟨e', hj, rfl, rfl, fun _ => rfl⟩
  have F5 : ∀ (j : Nat) (e : SCCEdge), E1[j]? = some e → ∃ e', E'[j]? = some e' ∧ e'.src = e.src ∧
      e'.dst = e.dst := by
    intro j e hj
    rw [hget j]
    by_cases hji : j = idx
    · rw [if_pos hji]
      subst hji
      rw [hb] at hj
      have := Option.some.inj hj
      subst this
      exact ⟨_, rfl, rfl, rfl⟩
    · rw [if_neg hji]
      exact ⟨e, hj, rfl, rfl⟩
  have U1 : ∀ (i j : Nat) (e e' : SCCEdge), E1[i]? = some e → E1[j]? = some e' →
      SCCEdge.joins e.src e.dst e' = true → i = j := by
    intro i j e e' hi hj hjo
    rcases F2 i e hi with h1 | ⟨h1, -, h1s, h1d, hno⟩ <;>
      rcases F2 j e' hj with h2 | ⟨h2, -, h2s, h2d, hno'⟩
    · exact h.single i j e e' h1 h2 hjo
    · exfalso
      have hm : e ∈ E := List.mem_iff_getElem?.2 ⟨i, h1⟩
      have := hno' e hm
      have hj2 : SCCEdge.joins s.id t e' = true := by simp [SCCEdge.joins, h2s, h2d]
      have h3 := joins_trans s.id t e' e hj2 (joins_comm e e' hjo)
      rw [h3] at this; exact Bool.noConfusion this
    · exfalso
      have hm : e' ∈ E := List.mem_iff_getElem?.2 ⟨j, h2⟩
      have := hno e' hm
      rw [h1s, h1d] at hjo
      rw [hjo] at this; exact Bool.noConfusion this
    · rw [h1, h2]
  -- a position of `E` joining the visited pair is the touched position
  have U2 : ∀ (i : Nat) (e : SCCEdge), E[i]? = some e → SCCEdge.joins s.id t e = true → i = idx := by
    intro i e hi hjo
    exact U1 i idx e b (F1 i e hi) hb (joins_pair s.id t e b hjo hpb)
  constructor
  · -- orig
    intro i e0 hi0
    obtain ⟨e, he, hs, hd, hun⟩ := h.orig i e0 hi0
    obtain ⟨e', he', hs', hd'⟩ := F5 i e (F1 i e he)
    refine ⟨e', he', hs'.trans hs, hd'.trans hd, ?_⟩
    intro hncl
    have hne : i ≠ idx := fun hh => hncl (hh ▸ F3)
    obtain ⟨e2, he2, -, -, heq⟩ := F4 i e' he'
    rw [F1 i e he] at he2
    have := Option.some.inj he2
    subst this
    rw [heq hne]
    exact hun (fun hcl => hncl (F3a i hcl))
  · -- clearedLt
    intro i hi
    have hlen : ∀ j, j < E1.length → j < E'.length := by
      intro j hj
      obtain ⟨e', he', -⟩ := F5 j _ (List.getElem?_eq_getElem hj)
      exact (List.getElem?_eq_some.1 he').1
    rcases F3b i hi with h1 | ⟨h1, -⟩
    · have := h.clearedLt i h1
      exact hlen i (List.getElem?_eq_some.1 (F1 i _ (List.getElem?_eq_getElem this))).1
    · subst h1
      exact hlen i (List.getElem?_eq_some.1 hb).1
  · -- created
    intro i e' hi h0
    obtain ⟨e, he, hs, hd, heq⟩ := F4 i e' hi
    rcases F2 i e he with h1 | ⟨h1, -, h1s, h1d, -⟩
    · obtain ⟨hc, v, hv, hvne, hvs, hvl⟩ := h.created i e h1 h0
      exact ⟨F3a i hc, v, List.mem_append_left _ hv, hvne, hs.trans hvs, by rw [hd]; exact hvl⟩
    · refine ⟨h1 ▸ F3, (s, x), List.mem_append_right _ (List.mem_singleton.2 rfl), hinc,
        hs.trans h1s, ?_⟩
      simp only
      rw [hlk, hd, h1d]
  · -- subs
    intro i hi e' he' dep
    obtain ⟨e, he, hs, hd, heq⟩ := F4 i e' he'
    by_cases hii : i = idx
    · subst hii
      rw [hb] at he
      have hbe := Option.some.inj he
      subst hbe
      have he'' := he'
      rw [hget i, if_pos rfl] at he''
      have hval := Option.some.inj he''
      have hsub : e'.subEdges = (if i ∈ cl then b.subEdges else []) ++ s.incomingEdges P x := by
        rw [← hval]
      rw [hsub, List.mem_append]
      have hjoin : ∀ a c, SCCEdge.joins a c e' = SCCEdge.joins a c b :=
        fun a c => joins_ends a c e' b hs hd
      constructor
      · rintro (hold | hnew)
        · by_cases hc : i ∈ cl
          · rw [if_pos hc] at hold
            have hEi : E[i]? = some b := by
              rcases F2 i b hb with h1 | ⟨-, h1, -⟩
              · exact h1
              · exact absurd (h.clearedLt i hc) (by
                  have := List.getElem?_eq_none_iff.1 h1
                  simp only at this ⊢
                  omega)
            obtain ⟨v, hv, t', h1, h2, h3⟩ := (h.subs i hc b hEi dep).1 hold
            exact ⟨v, List.mem_append_left _ hv, t', h1, by rw [hjoin]; exact h2, h3⟩
          · rw [if_neg hc] at hold
            simp at hold
        · exact ⟨(s, x), List.mem_append_right _ (List.mem_singleton.2 rfl), t, hlk,
            by rw [hjoin]; exact hpb, hnew⟩
      · rintro ⟨v, hv, t', h1, h2, h3⟩
        rw [hjoin] at h2
        rcases List.mem_append.1 hv with hv | hv
        · have hvne : v.1.incomingEdges P v.2 ≠ [] := List.ne_nil_of_mem h3
          obtain ⟨t'', h4, k, hk, ek, hek, hjk⟩ := h.visited v hv hvne
          rw [h1] at h4
          have htt := Option.some.inj h4
          subst htt
          have hki : k = i :=
            U1 k i ek b (F1 k ek hek) hb (joins_pair v.1.id t' ek b hjk h2)
          subst hki
          left
          rw [if_pos hk]
          have hEk : E[k]? = some b := by
            have := F1 k ek hek
            rw [hb] at this
            rw [hek, Option.some.inj this]
          exact (h.subs k hk b hEk dep).2 ⟨v, hv, t', h1, h2, h3⟩
        · rw [List.mem_singleton] at hv
          subst hv
          exact Or.inr h3
    · have hee := heq hii
      subst hee
      have hicl : i ∈ cl := by
        rcases F3b i hi with h1 | ⟨h1, -⟩
        · exact h1
        · exact absurd h1 hii
      have hEi : E[i]? = some e' := by
        rcases F2 i e' he with h1 | ⟨h1, -⟩
        · exact h1
        · exact absurd h1 hii
      rw [h.subs i hicl e' hEi dep]
      constructor
      · rintro ⟨v, hv, h2⟩
        exact ⟨v, List.mem_append_left _ hv, h2⟩
      · rintro ⟨v, hv, t', h1, h2, h3⟩
        rcases List.mem_append.1 hv with hv | hv
        · exact ⟨v, hv, t', h1, h2, h3⟩
        · rw [List.mem_singleton] at hv
          subst hv
          simp only at h1 h2
          rw [hlk] at h1
          have htt := Option.some.inj h1
          subst htt
          exact absurd (U2 i e' hEi h2) hii
  · -- single
    intro i j e e' hi hj hjo
    obtain ⟨e1, he1, hs1, hd1, -⟩ := F4 i e hi
    obtain ⟨e2, he2, hs2, hd2, -⟩ := F4 j e' hj
    apply U1 i j e1 e2 he1 he2
    rw [← hs1, ← hd1, ← joins_ends e.src e.dst e' e2 hs2 hd2]
    exact hjo
  · -- visited
    intro v hv hvne
    rcases List.mem_append.1 hv with hv | hv
    · obtain ⟨t', h1, k, hk, ek, hek, hjk⟩ := h.visited v hv hvne
      obtain ⟨e', he', hs', hd'⟩ := F5 k ek (F1 k ek hek)
      exact ⟨t', h1, k, F3a k hk, e', he', by rw [joins_ends _ _ e' ek hs' hd']; exact hjk⟩
    · rw [List.mem_singleton] at hv
      subst hv
      obtain ⟨e', he', hs', hd'⟩ := F5 idx b hb
      exact ⟨t, hlk, idx, F3, e', he', by rw [joins_ends _ _ e' b hs' hd']; exact hpb⟩

theorem edgeInv_inner (P : PDG) (M : List (Nat × Nat)) (E0 : List SCCEdge) (s : SCC) :
    ∀ (xs : List Nat) (proc : List (SCC × Nat)) (st : List SCCEdge × List Nat),
      EdgeInv P M E0 proc st →
      (∀ x ∈ xs, s.incomingEdges P x ≠ [] → ∃ t, M.lookup x = some t) →
      ∃ st', xs.foldlM (markEdgeStep P M s) st = some st' ∧
        EdgeInv P M E0 (proc ++ xs.map (fun x => (s, x))) st' := by
  intro xs
  induction xs with
  | nil => intro proc st h _; exact ⟨st, rfl, by simpa using h⟩
  | cons x xs ih =>
    intro proc st h htot
    rw [List.foldlM_cons]
    by_cases hinc : s.incomingEdges P x = []
    · rw [markEdgeStep_skip P M s st x hinc]
      obtain ⟨st', h1, h2⟩ := ih (proc ++ [(s, x)]) st
        (edgeInv_skip P M E0 proc st (s, x) hinc h)
        (fun y hy => htot y (List.mem_cons_of_mem _ hy))
      exact ⟨st', h1, by simpa [List.append_assoc] using h2⟩
    · obtain ⟨t, ht⟩ := htot x (List.mem_cons_self _ _) hinc
      obtain ⟨st1, h1, h2⟩ := edgeInv_touch P M E0 proc st.1 st.2 s x t hinc ht h
      rw [show st = (st.1, st.2) from rfl, h1]
      obtain ⟨st', h3, h4⟩ := ih (proc ++ [(s, x)]) st1 h2
        (fun y hy => htot y (List.mem_cons_of_mem _ hy))
      exact ⟨st', h3, by simpa [List.append_assoc] using h4⟩

theorem edgeInv_outer (P : PDG) (M : List (Nat × Nat)) (E0 : List SCCEdge) :
    ∀ (ss : List SCC) (proc : List (SCC × Nat)) (st : List SCCEdge × List Nat),
      EdgeInv P M E0 proc st →
      (∀ s ∈ ss, ∀ x ∈ s.externalValues P, s.incomingEdges P x ≠ [] →
        ∃ t, M.lookup x = some t) →
      ∃ st', ss.foldlM (fun (st : List SCCEdge × List Nat) (s : SCC) =>
          (s.externalValues P).foldlM (markEdgeStep P M s) st) st = some st' ∧
        EdgeInv P M E0
          (proc ++ ss.flatMap (fun s => (s.externalValues P).map (fun x => (s, x)))) st' := by
  intro ss
  induction ss with
  | nil => intro proc st h _; exact ⟨st, rfl, by simpa using h⟩
  | cons s ss ih =>
    intro proc st h htot
    rw [List.foldlM_cons]
    obtain ⟨st1, h1, h2⟩ := edgeInv_inner P M E0 s (s.externalValues P) proc st h
      (htot s (List.mem_cons_self _ _))
    rw [h1]
    obtain ⟨st', h3, h4⟩ := ih _ st1 h2 (fun s' hs' => htot s' (List.mem_cons_of_mem _ hs'))
    exact ⟨st', h3, by simpa [List.append_assoc] using h4⟩

theorem singleEdges_index (E : List SCCEdge)
    (h : E.Pairwise (fun e e' => e'.joins e.src e.dst = false)) :
    ∀ (i j : Nat) (e e' : SCCEdge), E[i]? = some e → E[j]? = some e' →
      e'.joins e.src e.dst = true → i = j := by
  intro i j e e' hi hj hjo
  rw [List.pairwise_iff_getElem] at h
  obtain ⟨hil, hie⟩ := List.getElem?_eq_some.1 hi
  obtain ⟨hjl, hje⟩ := List.getElem?_eq_some.1 hj
  rcases Nat.lt_trichotomy i j with hlt | heq | hgt
  · have := h i j hil hjl hlt
    rw [hie, hje, hjo] at this
    exact Bool.noConfusion this
  · exact heq
  · have := h j i hjl hil hgt
    rw [hie, hje, joins_comm e e' hjo] at this
    exact Bool.noConfusion this

theorem singleEdges_of_index (E : List SCCEdge)
    (h : ∀ (i j : Nat) (e e' : SCCEdge), E[i]? = some e → E[j]? = some e' →
      e'.joins e.src e.dst = true → i = j) :
    E.Pairwise (fun e e' => e'.joins e.src e.dst = false) := by
  rw [List.pairwise_iff_getElem]
  intro i j hi hj hlt
  cases hjo : SCCEdge.joins E[i].src E[i].dst E[j] with
  | false => rfl
  | true =>
    have := h i j E[i] E[j] (List.getElem?_eq_getElem hi) (List.getElem?_eq_getElem hj) hjo
    omega

theorem edgeInv_init (P : PDG) (M : List (Nat × Nat)) (E0 : List SCCEdge)
    (hsingle : ∀ (i j : Nat) (e e' : SCCEdge), E0[i]? = some e → E0[j]? = some e' →
      e'.joins e.src e.dst = true → i = j) :
    EdgeInv P M E0 [] (E0, []) where
  orig := fun i e0 h => ⟨e0, h, rfl, rfl, fun _ => rfl⟩
  clearedLt := by intro i hi; simp at hi
  created := by
    intro i e he h0
    simp only at he
    rw [he] at h0
    exact Option.noConfusion h0
  subs := by intro i hi; simp at hi
  single := hsingle
  visited := by intro v hv; simp at hv

/-- The function `markEdgesAndSubEdges` returns when the value map covers every external value with
an incoming edge; it only changes the edge list, and the result satisfies the invariant
for all visits. -/
theorem markEdgesAndSubEdges_spec (d : SCCDAG) (hsingle : d.SingleEdges) (htot : d.MapTotal) :
    ∃ E' cl, d.markEdgesAndSubEdges = some { d with edges := E' } ∧
      EdgeInv d.pdg d.valueToSCCNode d.edges d.visits (E', cl) := by
  obtain ⟨st', h1, h2⟩ := edgeInv_outer d.pdg d.valueToSCCNode d.edges d.internalNodes []
    (d.edges, []) (edgeInv_init _ _ _ (singleEdges_index _ hsingle)) htot
  refine ⟨st'.1, st'.2, ?_, by simpa [SCCDAG.visits] using h2⟩
  unfold SCCDAG.markEdgesAndSubEdges
  rw [h1]
  rfl

theorem lookup_mem (l : List (Nat × Nat)) (k i : Nat) (h : l.lookup k = some i) :
    (k, i) ∈ l := by
  induction l with
  | nil => simp at h
  | cons p l ih =>
    obtain ⟨a, b⟩ := p
    rw [List.lookup_cons] at h
    by_cases hk : k = a
    · subst hk; simp at h; subst h; simp
    · have : (k == a) = false := by simpa using hk
      rw [this] at h
      exact List.mem_cons_of_mem _ (ih h)

theorem lookup_of_mem (l : List (Nat × Nat)) (k i : Nat) (h : (k, i) ∈ l) :
    ∃ j, l.lookup k = some j := by
  induction l with
  | nil => simp at h
  | cons p l ih =>
    obtain ⟨a, b⟩ := p
    rw [List.lookup_cons]
    by_cases hk : k = a
    · subst hk; exact ⟨b, by simp⟩
    · have hne : (k == a) = false := by simpa using hk
      rw [hne]
      rcases List.mem_cons.1 h with h1 | h1
      · exact absurd (Prod.mk.inj h1).1 hk
      · exact ih h1

theorem markValues_inner (id : Nat) :
    ∀ (vals : List Nat) (mp : List (Nat × Nat)) (p : Nat × Nat),
      p ∈ vals.foldl (fun mp v => (v, id) :: mp) mp ↔ p ∈ mp ∨ (p.2 = id ∧ p.1 ∈ vals) := by
  intro vals
  induction vals with
  | nil => intro mp p; simp
  | cons v vals ih =>
    intro mp p
    rw [List.foldl_cons, ih]
    obtain ⟨a, b⟩ := p
    simp only [List.mem_cons, Prod.mk.injEq]
    constructor
    · rintro ((⟨h1, h2⟩ | h) | ⟨h1, h2⟩)
      · exact Or.inr ⟨h2, Or.inl h1⟩
      · exact Or.inl h
      · exact Or.inr ⟨h1, Or.inr h2⟩
    · rintro (h | ⟨h1, h2 | h2⟩)
      · exact Or.inl (Or.inr h)
      · exact Or.inl (Or.inl ⟨h2, h1⟩)
      · exact Or.inr ⟨h1, h2⟩

theorem markValues_outer :
    ∀ (nodes : List SCC) (mp : List (Nat × Nat)) (p : Nat × Nat),
      p ∈ nodes.foldl (fun mp scc => scc.values.foldl (fun mp v => (v, scc.id) :: mp) mp) mp ↔
        p ∈ mp ∨ ∃ s ∈ nodes, s.id = p.2 ∧ p.1 ∈ s.values := by
  intro nodes
  induction nodes with
  | nil => intro mp p; simp
  | cons s nodes ih =>
    intro mp p
    rw [List.foldl_cons, ih, markValues_inner]
    constructor
    · rintro ((h | ⟨h1, h2⟩) | ⟨s', hs', h⟩)
      · exact Or.inl h
      · exact Or.inr ⟨s, List.mem_cons_self _ _, h1.symm, h2⟩
      · exact Or.inr ⟨s', List.mem_cons_of_mem _ hs', h⟩
    · rintro (h | ⟨s', hs', h1, h2⟩)
      · exact Or.inl (Or.inl h)
      · rcases List.mem_cons.1 hs' with h3 | h3
        · subst h3; exact Or.inl (Or.inr ⟨h1.symm, h2⟩)
        · exact Or.inr ⟨s', h3, h1, h2⟩

theorem disjoint_eq (d : SCCDAG) (hd : d.DisjointSCCs) (s s' : SCC)
    (hs : s ∈ d.internalNodes) (hs' : s' ∈ d.internalNodes) (v : Nat)
    (hv : v ∈ s.values) (hv' : v ∈ s'.values) : s = s' := by
  by_contra hne
  have hsym : Symmetric (fun s s' : SCC => ∀ v ∈ s.values, v ∉ s'.values) :=
    fun a b h v hv hv' => h v hv' hv
  exact hd.forall hsym hs hs' hne v hv hv'

/-- After `markValuesInSCC` the value map is up to date, when the SCCs are disjoint. -/
theorem markValues_mapOK (d : SCCDAG) (hd : d.DisjointSCCs) : d.markValuesInSCC.MapOK := by
  constructor
  · intro p hp
    rcases (markValues_outer d.internalNodes [] p).1 hp with h | h
    · simp at h
    · exact h
  · intro s hs v hv
    have hmem : (v, s.id) ∈ d.markValuesInSCC.valueToSCCNode :=
      (markValues_outer d.internalNodes [] (v, s.id)).2 (Or.inr ⟨s, hs, rfl, hv⟩)
    obtain ⟨j, hj⟩ := lookup_of_mem _ v s.id hmem
    have hmem' := lookup_mem _ v j hj
    rcases (markValues_outer d.internalNodes [] (v, j)).1 hmem' with h | ⟨s', hs', h1, h2⟩
    · simp at h
    · have := disjoint_eq d hd s s' hs hs' v hv h2
      subst this
      rw [hj]
      exact congrArg some h1.symm

theorem mem_incomingEdges (P : PDG) (s : SCC) (x : Nat) (dep : DGEdge) :
    dep ∈ s.incomingEdges P x ↔ dep ∈ P.internalEdges ∧ dep.src ∈ s.values ∧ dep.dst = x := by
  simp [SCC.incomingEdges, List.mem_filter]

theorem mem_externalValues (P : PDG) (s : SCC) (x : Nat) :
    x ∈ s.externalValues P ↔ x ∉ s.values ∧ ∃ e ∈ P.internalEdges,
      (e.src ∈ s.values ∧ e.dst = x) ∨ (e.dst ∈ s.values ∧ e.src = x) := by
  simp only [SCC.externalValues, List.mem_dedup, List.mem_flatMap]
  constructor
  · rintro ⟨e, he, hx⟩
    by_cases h1 : e.src ∈ s.values ∧ e.dst ∉ s.values
    · rw [if_pos h1, List.mem_singleton] at hx
      subst hx
      exact ⟨h1.2, e, he, Or.inl ⟨h1.1, rfl⟩⟩
    · rw [if_neg h1] at hx
      by_cases h2 : e.dst ∈ s.values ∧ e.src ∉ s.values
      · rw [if_pos h2, List.mem_singleton] at hx
        subst hx
        exact ⟨h2.2, e, he, Or.inr ⟨h2.1, rfl⟩⟩
      · rw [if_neg h2] at hx
        simp at hx
  · rintro ⟨hx, e, he, ⟨h1, h2⟩ | ⟨h1, h2⟩⟩
    · refine ⟨e, he, ?_⟩
      subst h2
      rw [if_pos ⟨h1, hx⟩]
      simp
    · refine ⟨e, he, ?_⟩
      subst h2
      have hn : ¬ (e.src ∈ s.values ∧ e.dst ∉ s.values) := fun h => hx h.1
      rw [if_neg hn, if_pos ⟨h1, hx⟩]
      simp

theorem mapTotal_of (d : SCCDAG) (hmap : d.MapOK) (hcl : d.Closed) : d.MapTotal := by
  intro s hs x _ hinc
  obtain ⟨dep, hdep⟩ := List.exists_mem_of_ne_nil _ hinc
  rw [mem_incomingEdges] at hdep
  have hsucc : x ∈ d.pdg.succs dep.src := (mem_succs _ _ _).2 ⟨dep, hdep.1, rfl, hdep.2.2⟩
  obtain ⟨s', hs', hx'⟩ := hcl s hs dep.src hdep.2.1 x hsucc
  exact ⟨s'.id, hmap.2 s' hs' x hx'⟩

/-! ## Theorems: the edges and sub-edges after `markEdgesAndSubEdges` -/

theorem joins_swap (a b : Nat) (e : SCCEdge) : SCCEdge.joins a b e = SCCEdge.joins b a e := by
  simp only [SCCEdge.joins]
  congr 1
  exact propext (Or.comm)

theorem joins_iff (a b : Nat) (e : SCCEdge) :
    SCCEdge.joins a b e = true ↔ (e.src = a ∧ e.dst = b) ∨ (e.src = b ∧ e.dst = a) := by
  simp [SCCEdge.joins]

theorem mem_visits (d : SCCDAG) (v : SCC × Nat) :
    v ∈ d.visits ↔ v.1 ∈ d.internalNodes ∧ v.2 ∈ v.1.externalValues d.pdg := by
  obtain ⟨s, x⟩ := v
  simp only [SCCDAG.visits, List.mem_flatMap, List.mem_map, Prod.mk.injEq]
  constructor
  · rintro ⟨s', hs', x', hx', rfl, rfl⟩; exact ⟨hs', hx'⟩
  · rintro ⟨hs, hx⟩; exact ⟨s, hs, x, hx, rfl, rfl⟩

theorem ids_inj (d : SCCDAG) (hids : (d.internalNodes.map SCC.id).Nodup) (s s' : SCC)
    (hs : s ∈ d.internalNodes) (hs' : s' ∈ d.internalNodes) (h : s.id = s'.id) : s = s' :=
  List.inj_on_of_nodup_map hids hs hs' h

theorem lookup_scc (d : SCCDAG) (hmap : d.MapOK) (x t : Nat)
    (h : d.valueToSCCNode.lookup x = some t) :
    ∃ s ∈ d.internalNodes, s.id = t ∧ x ∈ s.values :=
  hmap.1 (x, t) (lookup_mem _ x t h)

/-- A dependence edge from a value of `A` to a value of another internal SCC `B` gives a
visit of `markEdgesAndSubEdges`, of `A` with the target value, with that incoming edge. -/
theorem visit_of_dep (d : SCCDAG) (hD : d.DisjointSCCs) (A B : SCC)
    (hA : A ∈ d.internalNodes) (hB : B ∈ d.internalNodes) (hne : A ≠ B) (dep : DGEdge)
    (hdep : dep ∈ d.pdg.internalEdges) (hs : dep.src ∈ A.values) (ht : dep.dst ∈ B.values) :
    (A, dep.dst) ∈ d.visits ∧ dep ∈ A.incomingEdges d.pdg dep.dst := by
  have hnA : dep.dst ∉ A.values := fun h => hne (disjoint_eq d hD A B hA hB dep.dst h ht)
  refine ⟨(mem_visits d _).2 ⟨hA, (mem_externalValues _ _ _).2
    ⟨hnA, dep, hdep, Or.inl ⟨hs, rfl⟩⟩⟩, (mem_incomingEdges _ _ _ _).2 ⟨hdep, hs, rfl⟩⟩

/-- The two ends of an edge joining `A` and `B`, read off a visit between them. -/
theorem pair_of_joins (d : SCCDAG) (hids : (d.internalNodes.map SCC.id).Nodup)
    (A B s s' : SCC) (hA : A ∈ d.internalNodes) (hB : B ∈ d.internalNodes)
    (hs : s ∈ d.internalNodes) (hs' : s' ∈ d.internalNodes) (e : SCCEdge)
    (h1 : e.joins A.id B.id = true) (h2 : e.joins s.id s'.id = true) :
    (s = A ∧ s' = B) ∨ (s = B ∧ s' = A) := by
  rw [joins_iff] at h1 h2
  rcases h1 with ⟨a1, a2⟩ | ⟨a1, a2⟩ <;> rcases h2 with ⟨b1, b2⟩ | ⟨b1, b2⟩
  · exact Or.inl ⟨ids_inj d hids s A hs hA (b1.symm.trans a1),
      ids_inj d hids s' B hs' hB (b2.symm.trans a2)⟩
  · exact Or.inr ⟨ids_inj d hids s B hs hB (b2.symm.trans a2),
      ids_inj d hids s' A hs' hA (b1.symm.trans a1)⟩
  · exact Or.inr ⟨ids_inj d hids s B hs hB (b1.symm.trans a1),
      ids_inj d hids s' A hs' hA (b2.symm.trans a2)⟩
  · exact Or.inl ⟨ids_inj d hids s A hs hA (b2.symm.trans a2),
      ids_inj d hids s' B hs' hB (b1.symm.trans a1)⟩

theorem filter_joins_le_one (a b : Nat) :
    ∀ (E : List SCCEdge), E.Pairwise (fun e e' => e'.joins e.src e.dst = false) →
      (E.filter (SCCEdge.joins a b)).length ≤ 1 := by
  intro E
  induction E with
  | nil => intro _; simp
  | cons e E ih =>
    intro hp
    rw [List.pairwise_cons] at hp
    by_cases he : SCCEdge.joins a b e = true
    · have hnil : E.filter (SCCEdge.joins a b) = [] := by
        rw [List.filter_eq_nil_iff]
        intro e' he' hj
        have := hp.1 e' he'
        rw [joins_pair a b e e' he hj] at this
        exact Bool.noConfusion this
      simp [List.filter_cons, he, hnil]
    · simp only [List.filter_cons, he]
      exact ih hp.2

/-- The facts about the result of `markEdgesAndSubEdges` for two different internal
SCCs `A` and `B`, from the invariant over all visits. -/
theorem pair_facts (d : SCCDAG) (hids : (d.internalNodes.map SCC.id).Nodup)
    (hD : d.DisjointSCCs) (hmap : d.MapOK) (hback : d.EdgesBacked)
    (E' : List SCCEdge) (cl : List Nat)
    (hinv : EdgeInv d.pdg d.valueToSCCNode d.edges d.visits (E', cl))
    (A B : SCC) (hA : A ∈ d.internalNodes) (hB : B ∈ d.internalNodes) (hne : A ≠ B) :
    ((∃ e ∈ E', e.joins A.id B.id = true) ↔ ∃ dep ∈ d.pdg.internalEdges, A.Between B dep) ∧
    (∀ e ∈ E', e.joins A.id B.id = true → ∀ dep, dep ∈ e.subEdges ↔
      (dep ∈ d.pdg.internalEdges ∧ A.Between B dep)) := by
  -- a dependence between `A` and `B` gives a cleared edge joining them
  have hfwd : ∀ dep ∈ d.pdg.internalEdges, A.Between B dep →
      ∃ i ∈ cl, ∃ e, E'[i]? = some e ∧ e.joins A.id B.id = true := by
    intro dep hdep hbt
    rcases hbt with ⟨h1, h2⟩ | ⟨h1, h2⟩
    · obtain ⟨hv, hin⟩ := visit_of_dep d hD A B hA hB hne dep hdep h1 h2
      obtain ⟨t, ht, i, hi, e, he, hj⟩ := hinv.visited _ hv (List.ne_nil_of_mem hin)
      have : t = B.id := by
        have := hmap.2 B hB dep.dst h2
        simp only at ht
        rw [ht] at this
        exact Option.some.inj this
      subst this
      exact ⟨i, hi, e, he, hj⟩
    · obtain ⟨hv, hin⟩ := visit_of_dep d hD B A hB hA (Ne.symm hne) dep hdep h1 h2
      obtain ⟨t, ht, i, hi, e, he, hj⟩ := hinv.visited _ hv (List.ne_nil_of_mem hin)
      have : t = A.id := by
        have := hmap.2 A hA dep.dst h2
        simp only at ht
        rw [ht] at this
        exact Option.some.inj this
      subst this
      exact ⟨i, hi, e, he, by rw [joins_swap]; exact hj⟩
  -- an edge joining `A` and `B` is backed by a dependence between them
  have hbwd : ∀ (i : Nat) (e : SCCEdge), E'[i]? = some e → e.joins A.id B.id = true →
      ∃ dep ∈ d.pdg.internalEdges, A.Between B dep := by
    intro i e hi hj
    cases h0 : d.edges[i]? with
    | some e0 =>
      obtain ⟨e1, he1, hs, hd', -⟩ := hinv.orig i e0 h0
      simp only at he1
      rw [hi] at he1
      have := Option.some.inj he1
      subst this
      obtain ⟨A', hA', B', hB', -, hj', dep, hdep, hbt⟩ :=
        hback e0 (List.mem_iff_getElem?.2 ⟨i, h0⟩)
      rw [joins_ends _ _ e0 e hs.symm hd'.symm] at hj'
      refine ⟨dep, hdep, ?_⟩
      rcases pair_of_joins d hids A B A' B' hA hB hA' hB' e hj hj' with ⟨rfl, rfl⟩ | ⟨rfl, rfl⟩
      · exact hbt
      · exact hbt.symm
    | none =>
      obtain ⟨-, v, hv, hvne, hvs, hvl⟩ := hinv.created i e hi h0
      obtain ⟨dep, hdep⟩ := List.exists_mem_of_ne_nil _ hvne
      rw [mem_incomingEdges] at hdep
      obtain ⟨s', hs', hid', hx'⟩ := lookup_scc d hmap _ _ hvl
      have hvs' := ((mem_visits d v).1 hv).1
      have hj2 : e.joins v.1.id s'.id = true := by
        rw [joins_iff]; exact Or.inl ⟨hvs, hid'.symm⟩
      refine ⟨dep, hdep.1, ?_⟩
      rcases pair_of_joins d hids A B v.1 s' hA hB hvs' hs' e hj hj2 with ⟨h1, h2⟩ | ⟨h1, h2⟩
      · exact Or.inl ⟨h1 ▸ hdep.2.1, by rw [hdep.2.2, ← h2]; exact hx'⟩
      · exact Or.inr ⟨h1 ▸ hdep.2.1, by rw [hdep.2.2, ← h2]; exact hx'⟩
  constructor
  · constructor
    · rintro ⟨e, he, hj⟩
      obtain ⟨i, hi⟩ := List.mem_iff_getElem?.1 he
      exact hbwd i e hi hj
    · rintro ⟨dep, hdep, hbt⟩
      obtain ⟨i, -, e, he, hj⟩ := hfwd dep hdep hbt
      exact ⟨e, List.mem_iff_getElem?.2 ⟨i, he⟩, hj⟩
  · intro e he hj dep
    obtain ⟨i, hi⟩ := List.mem_iff_getElem?.1 he
    obtain ⟨dep0, hdep0, hbt0⟩ := hbwd i e hi hj
    obtain ⟨k, hk, e', he', hj'⟩ := hfwd dep0 hdep0 hbt0
    have hki : k = i := hinv.single k i e' e he' hi (joins_pair A.id B.id e' e hj' hj)
    subst hki
    rw [hinv.subs k hk e hi dep]
    constructor
    · rintro ⟨v, hv, t, hlk, hjv, hin⟩
      rw [mem_incomingEdges] at hin
      obtain ⟨s', hs', hid', hx'⟩ := lookup_scc d hmap _ _ hlk
      have hvs' := ((mem_visits d v).1 hv).1
      have hj2 : e.joins v.1.id s'.id = true := by rw [hid']; exact hjv
      refine ⟨hin.1, ?_⟩
      rcases pair_of_joins d hids A B v.1 s' hA hB hvs' hs' e hj hj2 with ⟨h1, h2⟩ | ⟨h1, h2⟩
      · exact Or.inl ⟨h1 ▸ hin.2.1, by rw [hin.2.2, ← h2]; exact hx'⟩
      · exact Or.inr ⟨h1 ▸ hin.2.1, by rw [hin.2.2, ← h2]; exact hx'⟩
    · rintro ⟨hdep, hbt⟩
      rcases hbt with ⟨h1, h2⟩ | ⟨h1, h2⟩
      · obtain ⟨hv, hin⟩ := visit_of_dep d hD A B hA hB hne dep hdep h1 h2
        exact ⟨_, hv, B.id, hmap.2 B hB dep.dst h2, hj, hin⟩
      · obtain ⟨hv, hin⟩ := visit_of_dep d hD B A hB hA (Ne.symm hne) dep hdep h1 h2
        exact ⟨_, hv, A.id, hmap.2 A hA dep.dst h2, by rw [joins_swap]; exact hj, hin⟩

/-! ## Theorems: acyclicity of the SCCDAG -/

theorem faithful_edge (d : SCCDAG) (hF : d.Faithful) (a b : Nat) (h : d.edgeRel a b) :
    ∃ A ∈ d.internalNodes, ∃ B ∈ d.internalNodes, A.id = a ∧ B.id = b ∧
      ∃ dep ∈ d.pdg.internalEdges, dep.src ∈ A.values ∧ dep.dst ∈ B.values ∧
        dep.dst ∉ A.values := by
  obtain ⟨e, he, rfl, rfl⟩ := h
  exact hF e he

theorem reaches_dep (P : PDG) (dep : DGEdge) (h : dep ∈ P.internalEdges) :
    P.Reaches dep.src dep.dst :=
  Relation.ReflTransGen.single ((mem_succs P _ _).2 ⟨dep, h, rfl, rfl⟩)

/-- The SCCDAG is acyclic when its edges are backed by dependence edges in their own
direction, every SCC other than the one named `mid` is a strongly connected component of
the dependence graph, and no dependence path leaves the SCC named `mid` and comes back. -/
theorem acyclic_of_faithful (d : SCCDAG) (mid : Nat) (hF : d.Faithful)
    (hids : (d.internalNodes.map SCC.id).Nodup)
    (hconn : ∀ s ∈ d.internalNodes, s.id ≠ mid →
      ∀ a ∈ s.values, ∀ b ∈ s.values, d.pdg.Reaches a b)
    (hcls : ∀ s ∈ d.internalNodes, s.id ≠ mid →
      ∀ a ∈ s.values, ∀ w, d.pdg.Reaches a w → d.pdg.Reaches w a → w ∈ s.values)
    (hconv : ∀ m ∈ d.internalNodes, m.id = mid → ∀ a ∈ m.values, ∀ x, x ∉ m.values →
      ∀ b ∈ m.values, ¬ (d.pdg.Reaches a x ∧ d.pdg.Reaches x b)) :
    d.Acyclic := by
  -- paths that avoid `mid` connect all values of their end points
  have hA : ∀ a b, Relation.ReflTransGen d.edgeRel a b →
      (∀ A ∈ d.internalNodes, ∀ B ∈ d.internalNodes, A.id = a → B.id = b →
        ∀ x ∈ A.values, ∀ y ∈ B.values, d.pdg.Reaches x y) ∨
      (Relation.ReflTransGen d.edgeRel a mid ∧ Relation.ReflTransGen d.edgeRel mid b) := by
    intro a b hab
    induction hab using Relation.ReflTransGen.head_induction_on with
    | refl =>
      by_cases hb : b = mid
      · subst hb
        exact Or.inr ⟨Relation.ReflTransGen.refl, Relation.ReflTransGen.refl⟩
      · left
        intro A hA B hB hAb hBb x hx y hy
        have : A = B := ids_inj d hids A B hA hB (hAb.trans hBb.symm)
        subst this
        exact hconn A hA (by rw [hAb]; exact hb) x hx y hy
    | head hac hcb ih =>
      rename_i a' c
      rcases ih with ih | ⟨h1, h2⟩
      · by_cases ha : a' = mid
        · subst ha
          exact Or.inr ⟨Relation.ReflTransGen.refl, Relation.ReflTransGen.head hac hcb⟩
        · left
          intro A hA B hB hAa hBb x hx y hy
          obtain ⟨A', hA', C', hC', hA'a, hC'c, dep, hdep, hs, ht, -⟩ :=
            faithful_edge d hF _ _ hac
          have : A' = A := ids_inj d hids A' A hA' hA (hA'a.trans hAa.symm)
          subst this
          have h1 := hconn A' hA (by rw [hAa]; exact ha) x hx dep.src hs
          have h2 := ih C' hC' B hB hC'c hBb dep.dst ht y hy
          exact h1.trans ((reaches_dep _ dep hdep).trans h2)
      · exact Or.inr ⟨Relation.ReflTransGen.head hac h1, h2⟩
  -- a path into `mid` carries every value of its start into the values of `mid`
  have hB : ∀ c, Relation.ReflTransGen d.edgeRel c mid → c ≠ mid →
      ∀ C ∈ d.internalNodes, C.id = c → ∀ y ∈ C.values,
        ∃ M ∈ d.internalNodes, M.id = mid ∧ ∃ m ∈ M.values, d.pdg.Reaches y m := by
    intro c hc
    induction hc using Relation.ReflTransGen.head_induction_on with
    | refl => intro h; exact absurd rfl h
    | head hcc' hc'm ih =>
      rename_i c0 c'
      intro hne C hC hCc y hy
      obtain ⟨C1, hC1, C2, hC2, hC1c, hC2c, dep, hdep, hs, ht, -⟩ :=
        faithful_edge d hF _ _ hcc'
      have : C1 = C := ids_inj d hids C1 C hC1 hC (hC1c.trans hCc.symm)
      subst this
      have h1 := hconn C1 hC (by rw [hCc]; exact hne) y hy dep.src hs
      by_cases hc' : c' = mid
      · exact ⟨C2, hC2, hC2c.trans hc', dep.dst, ht, h1.trans (reaches_dep _ dep hdep)⟩
      · obtain ⟨M, hM, hMid, m, hm, hr⟩ := ih hc' C2 hC2 hC2c dep.dst ht
        exact ⟨M, hM, hMid, m, hm, h1.trans ((reaches_dep _ dep hdep).trans hr)⟩
  -- no cycle through `mid`
  have hM : ¬ Relation.TransGen d.edgeRel mid mid := by
    intro h
    obtain ⟨c, hmc, hcm⟩ := Relation.TransGen.head'_iff.1 h
    obtain ⟨M, hMn, C, hC, hMid, hCc, dep, hdep, hs, ht, hnt⟩ := faithful_edge d hF _ _ hmc
    have hcne : c ≠ mid := by
      intro hc
      have : C = M := ids_inj d hids C M hC hMn (hCc.trans (hc.trans hMid.symm))
      subst this
      exact hnt ht
    obtain ⟨M', hM', hM'id, m, hm, hr⟩ := hB c hcm hcne C hC hCc dep.dst ht
    have : M' = M := ids_inj d hids M' M hM' hMn (hM'id.trans hMid.symm)
    subst this
    exact hconv M' hMn hMid dep.src hs dep.dst hnt m hm ⟨reaches_dep _ dep hdep, hr⟩
  intro a h
  by_cases ha : a = mid
  · subst ha; exact hM h
  · obtain ⟨c, hac, hca⟩ := Relation.TransGen.head'_iff.1 h
    obtain ⟨A, hAn, C, hC, hAa, hCc, dep, hdep, hs, ht, hnt⟩ := faithful_edge d hF _ _ hac
    rcases hA c a hca with hq | ⟨h1, h2⟩
    · have hback := hq C hC A hAn hCc hAa dep.dst ht dep.src hs
      exact hnt (hcls A hAn (by rw [hAa]; exact ha) dep.src hs dep.dst
        (reaches_dep _ dep hdep) hback)
    · exact hM (Relation.TransGen.trans_left (Relation.TransGen.tail' h2 hac) h1)

/-! ## Theorems: the constructor and `mergeSCCs` keep the SCCDAG well formed -/

theorem faithful_of_inv (d : SCCDAG) (hF : d.Faithful) (hmap : d.MapOK)
    (E' : List SCCEdge) (cl : List Nat)
    (hinv : EdgeInv d.pdg d.valueToSCCNode d.edges d.visits (E', cl)) :
    SCCDAG.Faithful { d with edges := E' } := by
  intro e he
  obtain ⟨i, hi⟩ := List.mem_iff_getElem?.1 he
  simp only at hi
  cases h0 : d.edges[i]? with
  | some e0 =>
    obtain ⟨e1, he1, hs, hd', -⟩ := hinv.orig i e0 h0
    simp only at he1
    rw [hi] at he1
    have := Option.some.inj he1
    subst this
    obtain ⟨A, hA, B, hB, h1, h2, h3⟩ := hF e0 (List.mem_iff_getElem?.2 ⟨i, h0⟩)
    exact ⟨A, hA, B, hB, h1.trans hs.symm, h2.trans hd'.symm, h3⟩
  | none =>
    obtain ⟨-, v, hv, hvne, hvs, hvl⟩ := hinv.created i e hi h0
    obtain ⟨dep, hdep⟩ := List.exists_mem_of_ne_nil _ hvne
    rw [mem_incomingEdges] at hdep
    obtain ⟨s', hs', hid', hx'⟩ := lookup_scc d hmap _ _ hvl
    obtain ⟨hv1, hv2⟩ := (mem_visits d v).1 hv
    refine ⟨v.1, hv1, s', hs', hvs.symm, hid', dep, hdep.1, hdep.2.1, ?_, ?_⟩
    · rw [hdep.2.2]; exact hx'
    · rw [hdep.2.2]; exact ((mem_externalValues _ _ _).1 hv2).1

theorem edgesBacked_of_faithful (d : SCCDAG) (hids : (d.internalNodes.map SCC.id).Nodup)
    (hF : d.Faithful) : d.EdgesBacked := by
  intro e he
  obtain ⟨A, hA, B, hB, hAe, hBe, dep, hdep, h1, h2, h3⟩ := hF e he
  refine ⟨A, hA, B, hB, ?_, ?_, dep, hdep, Or.inl ⟨h1, h2⟩⟩
  · intro hid
    have hAB : A = B := ids_inj d hids A B hA hB hid
    exact h3 (hAB ▸ h2)
  · rw [joins_iff]; exact Or.inl ⟨hAe.symm, hBe.symm⟩

/-- The function `markEdgesAndSubEdges` returns on a well-formed SCCDAG and keeps the edges single
and faithful. -/
theorem markEdges_result (d : SCCDAG) (hids : (d.internalNodes.map SCC.id).Nodup)
    (hD : d.DisjointSCCs) (hmap : d.MapOK) (hcl : d.Closed)
    (hsingle : d.SingleEdges) (hF : d.Faithful) :
    ∃ E', d.markEdgesAndSubEdges = some { d with edges := E' } ∧
      SCCDAG.Faithful { d with edges := E' } ∧ SCCDAG.SingleEdges { d with edges := E' } ∧
      SCCDAG.Complete { d with edges := E' } := by
  obtain ⟨E', cl, h1, h2⟩ := markEdgesAndSubEdges_spec d hsingle (mapTotal_of d hmap hcl)
  refine ⟨E', h1, faithful_of_inv d hF hmap E' cl h2, singleEdges_of_index E' h2.single, ?_⟩
  intro A hA B hB hne dep hdep hs ht
  exact ((pair_facts d hids hD hmap (edgesBacked_of_faithful d hids hF) E' cl h2 A B hA hB
    hne).1).2 ⟨dep, hdep, Or.inl ⟨hs, ht⟩⟩

theorem addExternal_fold :
    ∀ (vs : List Nat) (d : SCCDAG),
      (vs.foldl (fun d v => d.addNode [v] false) d).internalNodes = d.internalNodes ∧
      (vs.foldl (fun d v => d.addNode [v] false) d).edges = d.edges ∧
      (vs.foldl (fun d v => d.addNode [v] false) d).pdg = d.pdg ∧
      (vs.foldl (fun d v => d.addNode [v] false) d).valueToSCCNode = d.valueToSCCNode ∧
      d.nextId ≤ (vs.foldl (fun d v => d.addNode [v] false) d).nextId ∧
      (∀ s ∈ (vs.foldl (fun d v => d.addNode [v] false) d).externalNodes,
        s ∈ d.externalNodes ∨ s.id < (vs.foldl (fun d v => d.addNode [v] false) d).nextId) := by
  intro vs
  induction vs with
  | nil => intro d; exact ⟨rfl, rfl, rfl, rfl, Nat.le_refl _, fun s hs => Or.inl hs⟩
  | cons v vs ih =>
    intro d
    rw [List.foldl_cons]
    obtain ⟨h1, h2, h3, h4, h5, h6⟩ := ih (d.addNode [v] false)
    refine ⟨h1, h2, h3, h4, ?_, ?_⟩
    · have : (d.addNode [v] false).nextId = d.nextId + 1 := rfl
      omega
    · intro s hs
      rcases h6 s hs with h | h
      · have hext : (d.addNode [v] false).externalNodes = d.externalNodes ++ [⟨d.nextId, [v]⟩] :=
          rfl
        rw [hext] at h
        rcases List.mem_append.1 h with h | h
        · exact Or.inl h
        · rw [List.mem_singleton] at h
          subst h
          have : (d.addNode [v] false).nextId = d.nextId + 1 := rfl
          right
          simp only
          omega
      · exact Or.inr h

/-- The constructor returns, and its result is well formed, has single and faithful
edges, and every internal SCC is a strongly connected component of the dependence graph. -/
theorem construct_spec (pdg : PDG) :
    ∃ d, SCCDAG.construct pdg = some d ∧ d.pdg = pdg ∧ d.WellFormed ∧ d.Faithful ∧
      d.SingleEdges ∧
      (∀ s ∈ d.internalNodes, ∃ u, ∀ w, w ∈ s.values ↔ (pdg.Reaches u w ∧ pdg.Reaches w u)) ∧
      d.Complete := by
  obtain ⟨g1, g2, g3, g4, g5, g6, g7, g8⟩ := nodesInv_construct pdg
  generalize hd1 : pdg.getDisconnectedSubgraphs.foldl (addSubgraphSCCs pdg)
    ⟨pdg, [], [], [], [], 0⟩ = d1 at g1 g2 g3 g4 g5 g6 g7 g8
  have hD : d1.markValuesInSCC.DisjointSCCs := by
    refine List.Pairwise.imp ?_ g7
    intro s s' h v hv hv'
    exact h hv hv'
  have hmap : d1.markValuesInSCC.MapOK := markValues_mapOK d1 hD
  have hcl : d1.markValuesInSCC.Closed := by
    intro s hs a ha x hx
    have hp : d1.markValuesInSCC.pdg = pdg := g1
    rw [hp] at hx
    exact g8 s hs a ha x hx
  have hsingle : d1.markValuesInSCC.SingleEdges := by
    have : d1.markValuesInSCC.edges = [] := g2
    simp [SCCDAG.SingleEdges, this]
  have hF : d1.markValuesInSCC.Faithful := by
    have : d1.markValuesInSCC.edges = [] := g2
    intro e he
    rw [this] at he
    simp at he
  have hids1 : (d1.markValuesInSCC.internalNodes.map SCC.id).Nodup := by
    show (d1.internalNodes.map SCC.id).Nodup
    rw [g5]; exact List.nodup_range _
  obtain ⟨E', hE, hF', hS', hC'⟩ := markEdges_result _ hids1 hD hmap hcl hsingle hF
  obtain ⟨e1, e2, e3, e4, e5, e6⟩ := addExternal_fold pdg.externalNodes
    { d1.markValuesInSCC with edges := E' }
  refine ⟨pdg.externalNodes.foldl (fun d v => d.addNode [v] false)
    { d1.markValuesInSCC with edges := E' }, ?_, ?_, ⟨⟨?_, ?_⟩, ?_, ?_, ?_⟩, ?_, ?_, ?_, ?_⟩
  · simp only [SCCDAG.construct, hd1, hE]
  · rw [e3]; exact g1
  · rw [e1]
    show (d1.internalNodes.map SCC.id).Nodup
    rw [g5]; exact List.nodup_range _
  · intro s hs
    rcases List.mem_append.1 hs with h | h
    · rw [e1] at h
      have hid : s.id ∈ d1.internalNodes.map SCC.id := List.mem_map_of_mem _ h
      rw [g5, List.mem_range] at hid
      have : d1.nextId ≤ _ := e5
      omega
    · rcases e6 s h with h' | h'
      · have : d1.externalNodes = [] := g3
        simp only [SCCDAG.markValuesInSCC] at h'
        rw [this] at h'
        simp at h'
      · exact h'
  · unfold SCCDAG.DisjointSCCs
    rw [e1]; exact hD
  · intro s hs a ha x hx
    rw [e1] at hs ⊢
    rw [e3] at hx
    exact hcl s hs a ha x hx
  · constructor
    · intro p hp
      rw [e4] at hp
      rw [e1]
      exact hmap.1 p hp
    · intro s hs v hv
      rw [e1] at hs
      rw [e4]
      exact hmap.2 s hs v hv
  · intro e he
    rw [e2] at he
    rw [e1, e3]
    exact hF' e he
  · unfold SCCDAG.SingleEdges
    rw [e2]; exact hS'
  · intro s hs
    rw [e1] at hs
    exact g6 s hs
  · intro A hA B hB hne dep hdep hs ht
    rw [e1] at hA hB
    rw [e3] at hdep
    obtain ⟨e, he, hj⟩ := hC' A hA B hB hne dep hdep hs ht
    exact ⟨e, by rw [e2]; exact he, hj⟩

theorem removeNodes_fold :
    ∀ (S : List Nat) (d : SCCDAG),
      (S.foldl SCCDAG.removeNode d).internalNodes
          = d.internalNodes.filter (fun s => decide (s.id ∉ S)) ∧
      (S.foldl SCCDAG.removeNode d).externalNodes
          = d.externalNodes.filter (fun s => decide (s.id ∉ S)) ∧
      (S.foldl SCCDAG.removeNode d).edges
          = d.edges.filter (fun e => decide (e.src ∉ S ∧ e.dst ∉ S)) ∧
      (S.foldl SCCDAG.removeNode d).pdg = d.pdg ∧
      (S.foldl SCCDAG.removeNode d).nextId = d.nextId ∧
      (S.foldl SCCDAG.removeNode d).valueToSCCNode = d.valueToSCCNode := by
  intro S
  induction S with
  | nil => intro d; simp
  | cons n S ih =>
    intro d
    rw [List.foldl_cons]
    obtain ⟨h1, h2, h3, h4, h5, h6⟩ := ih (d.removeNode n)
    refine ⟨?_, ?_, ?_, h4, h5, h6⟩
    · rw [h1]
      simp only [SCCDAG.removeNode, List.filter_filter]
      apply List.filter_congr
      intro s _
      by_cases hn : s.id = n <;> by_cases hs : s.id ∈ S <;> simp [hn, hs]
    · rw [h2]
      simp only [SCCDAG.removeNode, List.filter_filter]
      apply List.filter_congr
      intro s _
      by_cases hn : s.id = n <;> by_cases hs : s.id ∈ S <;> simp [hn, hs]
    · rw [h3]
      simp only [SCCDAG.removeNode, List.filter_filter]
      apply List.filter_congr
      intro e _
      by_cases h1 : e.src = n <;> by_cases h2 : e.dst = n <;> by_cases h3 : e.src ∈ S <;>
        by_cases h4 : e.dst ∈ S <;> simp [h1, h2, h3, h4]

theorem find?_unique (l : List SCC) (s : SCC) (hs : s ∈ l) (n : Nat) (hn : s.id = n)
    (hu : ∀ s' ∈ l, s'.id = n → s' = s) :
    l.find? (fun s => decide (s.id = n)) = some s := by
  induction l with
  | nil => simp at hs
  | cons a l ih =>
    rw [List.find?_cons]
    by_cases ha : a.id = n
    · have := hu a (List.mem_cons_self _ _) ha
      subst this
      simp [ha]
    · have hs' : s ∈ l := by
        rcases List.mem_cons.1 hs with h | h
        · subst h; exact absurd hn ha
        · exact h
      simp only [ha, decide_False]
      exact ih hs' (fun s' h' => hu s' (List.mem_cons_of_mem _ h'))

theorem getT_internal (d : SCCDAG) (hids : (d.internalNodes.map SCC.id).Nodup) (s : SCC)
    (hs : s ∈ d.internalNodes) : d.getT s.id = some s := by
  unfold SCCDAG.getT
  rw [List.find?_append, find?_unique d.internalNodes s hs s.id rfl
    (fun s' hs' h => ids_inj d hids s' s hs' hs h)]
  rfl

theorem mem_mergeNodes (d : SCCDAG) (hids : (d.internalNodes.map SCC.id).Nodup)
    (S : List Nat) (hS : d.HasNodes S) (v : Nat) :
    v ∈ d.mergeNodes S ↔ ∃ s ∈ d.internalNodes, s.id ∈ S ∧ v ∈ s.values := by
  simp only [SCCDAG.mergeNodes, List.mem_dedup, List.mem_flatMap]
  constructor
  · rintro ⟨n, hn, hv⟩
    obtain ⟨s, hs, rfl⟩ := hS n hn
    rw [getT_internal d hids s hs] at hv
    exact ⟨s, hs, hn, hv⟩
  · rintro ⟨s, hs, hn, hv⟩
    refine ⟨s.id, hn, ?_⟩
    rw [getT_internal d hids s hs]
    exact hv

/-- The SCCDAG after the node updates of `mergeSCCs`, before the maps are rebuilt. -/
theorem merge_nodes (d : SCCDAG) (hids : d.IdsOK) (S : List Nat) (hS : d.HasNodes S) :
    (S.dedup.foldl SCCDAG.removeNode (d.addNode (d.mergeNodes S) true)).internalNodes
        = d.internalNodes.filter (fun s => decide (s.id ∉ S)) ++ [⟨d.nextId, d.mergeNodes S⟩] ∧
    (S.dedup.foldl SCCDAG.removeNode (d.addNode (d.mergeNodes S) true)).externalNodes
        = d.externalNodes.filter (fun s => decide (s.id ∉ S)) ∧
    (S.dedup.foldl SCCDAG.removeNode (d.addNode (d.mergeNodes S) true)).edges
        = d.edges.filter (fun e => decide (e.src ∉ S ∧ e.dst ∉ S)) ∧
    (S.dedup.foldl SCCDAG.removeNode (d.addNode (d.mergeNodes S) true)).pdg = d.pdg ∧
    (S.dedup.foldl SCCDAG.removeNode (d.addNode (d.mergeNodes S) true)).nextId
        = d.nextId + 1 := by
  obtain ⟨h1, h2, h3, h4, h5, -⟩ := removeNodes_fold S.dedup (d.addNode (d.mergeNodes S) true)
  have hfresh : d.nextId ∉ S := by
    intro hn
    obtain ⟨s, hs, hid⟩ := hS _ hn
    have := hids.2 s (List.mem_append_left _ hs)
    omega
  refine ⟨?_, ?_, ?_, h4, h5⟩
  · rw [h1]
    simp only [SCCDAG.addNode, if_true, List.filter_append, List.mem_dedup]
    congr 1
    simp [hfresh]
  · rw [h2]
    simp only [SCCDAG.addNode, if_true, List.mem_dedup]
  · rw [h3]
    simp only [SCCDAG.addNode, if_true, List.mem_dedup]

theorem filter_ids_length (l : List SCC) (hnd : (l.map SCC.id).Nodup) (S : List Nat)
    (hSnd : S.Nodup) (hS : ∀ n ∈ S, ∃ s ∈ l, s.id = n) :
    (l.filter (fun s => decide (s.id ∉ S))).length + S.length = l.length := by
  have hperm := List.filter_append_perm (fun s : SCC => decide (s.id ∈ S)) l
  have hlen := hperm.length_eq
  rw [List.length_append] at hlen
  have h1 : (l.filter (fun s => decide (s.id ∈ S))).length = S.length := by
    have hnd' : ((l.filter (fun s => decide (s.id ∈ S))).map SCC.id).Nodup :=
      List.Nodup.sublist ((List.filter_sublist l).map SCC.id) hnd
    have hp : ((l.filter (fun s => decide (s.id ∈ S))).map SCC.id).Perm S := by
      rw [List.perm_ext_iff_of_nodup hnd' hSnd]
      intro n
      simp only [List.mem_map, List.mem_filter, decide_eq_true_eq]
      constructor
      · rintro ⟨s, ⟨-, hs⟩, rfl⟩; exact hs
      · intro hn
        obtain ⟨s, hs, rfl⟩ := hS n hn
        exact ⟨s, ⟨hs, hn⟩, rfl⟩
    have := hp.length_eq
    rwa [List.length_map] at this
  have h2 : l.filter (fun s => !decide (s.id ∈ S)) = l.filter (fun s => decide (s.id ∉ S)) := by
    apply List.filter_congr
    intro s _
    simp
  rw [h2] at hlen
  omega

theorem markEdgeStep_total (P : PDG) (M : List (Nat × Nat)) (s : SCC)
    (st : List SCCEdge × List Nat) (x : Nat)
    (h : s.incomingEdges P x ≠ [] → ∃ t, M.lookup x = some t) :
    ∃ st', markEdgeStep P M s st x = some st' := by
  by_cases hinc : s.incomingEdges P x = []
  · exact ⟨st, markEdgeStep_skip P M s st x hinc⟩
  · obtain ⟨t, ht⟩ := h hinc
    obtain ⟨_, _, _, E', hres, -⟩ := markEdgeStep_spec P M s st.1 st.2 x t hinc ht
    exact ⟨_, hres⟩

theorem markEdges_inner_total (P : PDG) (M : List (Nat × Nat)) (s : SCC) :
    ∀ (xs : List Nat) (st : List SCCEdge × List Nat),
      (∀ x ∈ xs, s.incomingEdges P x ≠ [] → ∃ t, M.lookup x = some t) →
      ∃ st', xs.foldlM (markEdgeStep P M s) st = some st' := by
  intro xs
  induction xs with
  | nil => intro st _; exact ⟨st, rfl⟩
  | cons x xs ih =>
    intro st h
    obtain ⟨st1, h1⟩ := markEdgeStep_total P M s st x (h x (List.mem_cons_self _ _))
    rw [List.foldlM_cons, h1]
    exact ih st1 (fun y hy => h y (List.mem_cons_of_mem _ hy))

theorem markEdges_outer_total (P : PDG) (M : List (Nat × Nat)) :
    ∀ (ss : List SCC) (st : List SCCEdge × List Nat),
      (∀ s ∈ ss, ∀ x ∈ s.externalValues P, s.incomingEdges P x ≠ [] →
        ∃ t, M.lookup x = some t) →
      ∃ st', ss.foldlM (fun (st : List SCCEdge × List Nat) (s : SCC) =>
          (s.externalValues P).foldlM (markEdgeStep P M s) st) st = some st' := by
  intro ss
  induction ss with
  | nil => intro st _; exact ⟨st, rfl⟩
  | cons s ss ih =>
    intro st h
    obtain ⟨st1, h1⟩ := markEdges_inner_total P M s (s.externalValues P) st
      (h s (List.mem_cons_self _ _))
    rw [List.foldlM_cons, h1]
    exact ih st1 (fun s' hs' => h s' (List.mem_cons_of_mem _ hs'))

/-- The function `markEdgesAndSubEdges` returns, changing only the edge list, when the value map
covers every external value with an incoming edge. -/
theorem markEdges_total (d : SCCDAG) (htot : d.MapTotal) :
    ∃ E', d.markEdgesAndSubEdges = some { d with edges := E' } := by
  obtain ⟨st', h⟩ := markEdges_outer_total d.pdg d.valueToSCCNode d.internalNodes
    (d.edges, []) htot
  refine ⟨st'.1, ?_⟩
  unfold SCCDAG.markEdgesAndSubEdges
  rw [h]
  rfl

/-- The SCCDAG after `mergeSCCs` of at least two internal SCC nodes of a well-formed
SCCDAG: the call returns, the nodes of the set are replaced by one new node with their
values, and the result is well formed (with single, faithful edges if it had them). -/
theorem merge_spec (d : SCCDAG) (hwf : d.WellFormed) (S : List Nat) (hS : d.HasNodes S)
    (h2 : 2 ≤ S.dedup.length) :
    ∃ d', d.mergeSCCs S = some d' ∧
      d'.internalNodes = d.internalNodes.filter (fun s => decide (s.id ∉ S))
        ++ [⟨d.nextId, d.mergeNodes S⟩] ∧
      d'.pdg = d.pdg ∧ d'.WellFormed ∧
      (d.Faithful → d.SingleEdges → d'.Faithful ∧ d'.SingleEdges ∧ d'.Complete) := by
  obtain ⟨hids, hD, hcl, -⟩ := hwf
  obtain ⟨n1, n2, n3, n4, n5⟩ := merge_nodes d hids S hS
  generalize hd2 : S.dedup.foldl SCCDAG.removeNode (d.addNode (d.mergeNodes S) true) = d2
    at n1 n2 n3 n4 n5
  have hmem := mem_mergeNodes d hids.1 S hS
  have hsub : ∀ s ∈ d.internalNodes.filter (fun s => decide (s.id ∉ S)),
      s ∈ d.internalNodes ∧ s.id ∉ S := by
    intro s hs
    have := List.mem_filter.1 hs
    exact ⟨this.1, by simpa using this.2⟩
  have hD2 : d2.DisjointSCCs := by
    unfold SCCDAG.DisjointSCCs
    rw [n1, List.pairwise_append]
    refine ⟨List.Pairwise.filter _ hD, List.pairwise_singleton _ _, ?_⟩
    intro s hs m hm v hv hvm
    rw [List.mem_singleton] at hm
    subst hm
    obtain ⟨s0, hs0, hs0S, hv0⟩ := (hmem v).1 hvm
    have := disjoint_eq d hD s s0 (hsub s hs).1 hs0 v hv hv0
    subst this
    exact (hsub s hs).2 hs0S
  have hcl2 : d2.Closed := by
    intro s hs a ha x hx
    rw [n4] at hx
    rw [n1] at hs ⊢
    have hold : ∃ s0 ∈ d.internalNodes, a ∈ s0.values := by
      rcases List.mem_append.1 hs with h | h
      · exact ⟨s, (hsub s h).1, ha⟩
      · rw [List.mem_singleton] at h
        subst h
        obtain ⟨s0, hs0, -, hv0⟩ := (hmem a).1 ha
        exact ⟨s0, hs0, hv0⟩
    obtain ⟨s0, hs0, ha0⟩ := hold
    obtain ⟨s1, hs1, hx1⟩ := hcl s0 hs0 a ha0 x hx
    by_cases h1 : s1.id ∈ S
    · exact ⟨_, List.mem_append_right _ (List.mem_singleton.2 rfl),
        (hmem x).2 ⟨s1, hs1, h1, hx1⟩⟩
    · exact ⟨s1, List.mem_append_left _ (List.mem_filter.2 ⟨hs1, by simpa using h1⟩), hx1⟩
  have hmap3 : d2.markValuesInSCC.MapOK := markValues_mapOK d2 hD2
  have hcl3 : d2.markValuesInSCC.Closed := hcl2
  obtain ⟨E', hE⟩ := markEdges_total _ (mapTotal_of _ hmap3 hcl3)
  have hids' : SCCDAG.IdsOK { d2.markValuesInSCC with edges := E' } := by
    constructor
    · show (d2.internalNodes.map SCC.id).Nodup
      rw [n1, List.map_append, List.nodup_append]
      refine ⟨List.Nodup.sublist ((List.filter_sublist _).map SCC.id) hids.1,
        List.nodup_singleton _, ?_⟩
      intro n hn hn'
      simp only [List.map_cons, List.map_nil, List.mem_singleton] at hn'
      obtain ⟨s, hs, rfl⟩ := List.mem_map.1 hn
      have := hids.2 s (List.mem_append_left _ (hsub s hs).1)
      omega
    · intro s hs
      show s.id < d2.nextId
      rw [n5]
      have hs' : s ∈ d2.internalNodes ++ d2.externalNodes := hs
      rw [n1, n2] at hs'
      rcases List.mem_append.1 hs' with h | h
      · rcases List.mem_append.1 h with h | h
        · have := hids.2 s (List.mem_append_left _ (hsub s h).1)
          omega
        · rw [List.mem_singleton] at h
          subst h
          exact Nat.lt_succ_self _
      · have := hids.2 s (List.mem_append_right _ (List.mem_filter.1 h).1)
        omega
  refine ⟨{ d2.markValuesInSCC with edges := E' }, ?_, n1, n4, ⟨hids', hD2, hcl2, hmap3⟩, ?_⟩
  · unfold SCCDAG.mergeSCCs
    rw [if_neg (by omega), hd2]
    exact hE
  · intro hF hsingle
    have hsingle3 : d2.markValuesInSCC.SingleEdges := by
      show d2.edges.Pairwise _
      rw [n3]
      exact List.Pairwise.filter _ hsingle
    have hF3 : d2.markValuesInSCC.Faithful := by
      intro e he
      have he' : e ∈ d2.edges := he
      rw [n3] at he'
      obtain ⟨he1, he2⟩ := List.mem_filter.1 he'
      simp only [decide_eq_true_eq] at he2
      obtain ⟨A, hA, B, hB, hAe, hBe, dep, hdep, h3⟩ := hF e he1
      have hA' : A ∈ d2.internalNodes := by
        rw [n1]
        exact List.mem_append_left _ (List.mem_filter.2 ⟨hA, by rw [hAe]; simpa using he2.1⟩)
      have hB' : B ∈ d2.internalNodes := by
        rw [n1]
        exact List.mem_append_left _ (List.mem_filter.2 ⟨hB, by rw [hBe]; simpa using he2.2⟩)
      have hdep' : dep ∈ d2.markValuesInSCC.pdg.internalEdges := by
        rw [show d2.markValuesInSCC.pdg = d.pdg from n4]; exact hdep
      exact ⟨A, hA', B, hB', hAe, hBe, dep, hdep', h3⟩
    obtain ⟨E'', hE'', hF'', hS'', hC''⟩ :=
      markEdges_result d2.markValuesInSCC
        (show (d2.markValuesInSCC.internalNodes.map SCC.id).Nodup from hids'.1)
        hD2 hmap3 hcl3 hsingle3 hF3
    rw [hE] at hE''
    have : E' = E'' := by
      have := Option.some.inj hE''
      exact congrArg SCCDAG.edges this
    subst this
    exact ⟨hF'', hS'', hC''⟩

/-! ## Theorems: the SCCDAG after the constructor and after `mergeSCCs` -/

theorem construct_result (pdg : PDG) (d : SCCDAG) (h : SCCDAG.construct pdg = some d) :
    d.pdg = pdg ∧ d.WellFormed ∧ d.Faithful ∧ d.SingleEdges ∧
      (∀ s ∈ d.internalNodes, ∃ u, ∀ w, w ∈ s.values ↔ (pdg.Reaches u w ∧ pdg.Reaches w u)) ∧
      d.Complete := by
  obtain ⟨d0, h0, hrest⟩ := construct_spec pdg
  rw [h] at h0
  have := Option.some.inj h0
  subst this
  exact hrest

theorem construct_result_acyclic (pdg : PDG) (d : SCCDAG)
    (h : SCCDAG.construct pdg = some d) : d.Acyclic := by
  obtain ⟨hp, ⟨hids, -, -, -⟩, hF, -, hcls, -⟩ := construct_result pdg d h
  apply acyclic_of_faithful d d.nextId hF hids.1
  · intro s hs _ a ha b hb
    obtain ⟨u, hu⟩ := hcls s hs
    rw [hp]
    exact ((hu a).1 ha).2.trans ((hu b).1 hb).1
  · intro s hs _ a ha w haw hwa
    obtain ⟨u, hu⟩ := hcls s hs
    rw [hp] at haw hwa
    have hau := (hu a).1 ha
    exact (hu w).2 ⟨hau.1.trans haw, hwa.trans hau.2⟩
  · intro m hm hmid
    have := hids.2 m (List.mem_append_left _ hm)
    omega

theorem acyclic_no_two_way (d : SCCDAG) (h : d.Acyclic) (a b : Nat) (hab : d.edgeRel a b) :
    ¬ d.edgeRel b a :=
  fun hba => h a (Relation.TransGen.tail (Relation.TransGen.single hab) hba)

/-- C2 (failing input): for the dependence graph of two values that depend on each
other, no node is a top-level node, the constructor creates no SCC at all, and the two
values belong to no SCC of the SCCDAG. -/
theorem construct_cycle_without_scc :
    cycle2.internalNodes = [0, 1] ∧
      SCCDAG.construct cycle2 = some ⟨cycle2, [], [], [], [], 0⟩ := by
  decide

/-- C3: for every dependence graph the constructor returns an SCCDAG, and the graph of
its SCC nodes and of the edges added by `markEdgesAndSubEdges` has no directed cycle; in
particular no two SCCs are connected in both directions. -/
theorem construct_acyclic (pdg : PDG) :
    ∃ d, SCCDAG.construct pdg = some d ∧ d.Acyclic ∧
      ∀ a b, d.edgeRel a b → ¬ d.edgeRel b a := by
  obtain ⟨d, hd, -⟩ := construct_spec pdg
  have hac := construct_result_acyclic pdg d hd
  exact ⟨d, hd, hac, acyclic_no_two_way d hac⟩

/-- Counterexample to C4 as stated: the SCCDAG of the chain `0 -> 1 -> 2 -> 3` is
acyclic, and after `mergeSCCs` of its first and last SCC the edges `1 -> 2`, `2 -> 4`
and `4 -> 1` form a cycle. -/
theorem merge_chain_ends_cyclic :
    SCCDAG.construct chain4 = some chain4SCCDAG ∧ chain4SCCDAG.Acyclic ∧
      chain4SCCDAG.HasNodes [0, 3] ∧
      chain4SCCDAG.mergeSCCs [0, 3] = some chain4Merged ∧ ¬ chain4Merged.Acyclic := by
  have hc : SCCDAG.construct chain4 = some chain4SCCDAG := by decide
  refine ⟨hc, construct_result_acyclic chain4 _ hc, by unfold SCCDAG.HasNodes; decide,
    by decide, ?_⟩
  intro h
  apply h 1
  have e1 : chain4Merged.edgeRel 1 2 := ⟨⟨1, 2, [arc 1 2]⟩, by decide, rfl, rfl⟩
  have e2 : chain4Merged.edgeRel 2 4 := ⟨⟨2, 4, [arc 2 3]⟩, by decide, rfl, rfl⟩
  have e3 : chain4Merged.edgeRel 4 1 := ⟨⟨4, 1, [arc 0 1]⟩, by decide, rfl, rfl⟩
  exact ((Relation.TransGen.single e1).tail e2).tail e3

/-- C5: on a well-formed SCCDAG, `mergeSCCs` of a set `S` whose nodes are internal SCC
nodes leaves the SCCDAG unchanged when `S` has fewer than two nodes; when `S` has
`k >= 2` nodes it returns an SCCDAG with `k - 1` internal SCCs fewer: the internal nodes
are the old ones outside `S` followed by exactly one new SCC, whose values are exactly
the values of the SCCs of `S`, and no node of `S` is left. -/
theorem mergeSCCs_count (d : SCCDAG) (S : List Nat) (hwf : d.WellFormed) (hS : d.HasNodes S) :
    (S.dedup.length < 2 → d.mergeSCCs S = some d) ∧
    (2 ≤ S.dedup.length → ∃ d', d.mergeSCCs S = some d' ∧
      d'.internalNodes.length + S.dedup.length = d.internalNodes.length + 1 ∧
      d'.internalNodes = d.internalNodes.filter (fun s => decide (s.id ∉ S))
        ++ [⟨d.nextId, d.mergeNodes S⟩] ∧
      (∀ v, v ∈ d.mergeNodes S ↔ ∃ s ∈ d.internalNodes, s.id ∈ S ∧ v ∈ s.values) ∧
      (∀ s ∈ d'.internalNodes, s.id ∉ S)) := by
  constructor
  · intro h
    unfold SCCDAG.mergeSCCs
    rw [if_pos h]
  · intro h2
    obtain ⟨d', hm, hnodes, -, -, -⟩ := merge_spec d hwf S hS h2
    refine ⟨d', hm, ?_, hnodes, mem_mergeNodes d hwf.1.1 S hS, ?_⟩
    · rw [hnodes, List.length_append, List.length_singleton]
      have hfl := filter_ids_length d.internalNodes hwf.1.1 S.dedup (List.nodup_dedup S)
        (fun n hn => hS n (List.mem_dedup.1 hn))
      have hfe : d.internalNodes.filter (fun s => decide (s.id ∉ S.dedup))
          = d.internalNodes.filter (fun s => decide (s.id ∉ S)) := by
        apply List.filter_congr
        intro s _
        simp
      rw [hfe] at hfl
      omega
    · intro s hs
      rw [hnodes] at hs
      rcases List.mem_append.1 hs with h | h
      · simpa using (List.mem_filter.1 h).2
      · rw [List.mem_singleton] at h
        subst h
        intro hn
        obtain ⟨s0, hs0, hid⟩ := hS _ hn
        have := hwf.1.2 s0 (List.mem_append_left _ hs0)
        simp only at hid
        omega

/-- Witness for C5: merging the first and last SCC of the SCCDAG of `0 -> 1 -> 2`. -/
theorem mergeSCCs_count_witness :
    (chain3SCCDAG.WellFormed ∧ chain3SCCDAG.HasNodes [0, 2]) ∧
    ((([0, 2] : List Nat).dedup.length < 2 → chain3SCCDAG.mergeSCCs [0, 2] = some chain3SCCDAG) ∧
    (2 ≤ ([0, 2] : List Nat).dedup.length → ∃ d', chain3SCCDAG.mergeSCCs [0, 2] = some d' ∧
      d'.internalNodes.length + ([0, 2] : List Nat).dedup.length
        = chain3SCCDAG.internalNodes.length + 1 ∧
      d'.internalNodes = chain3SCCDAG.internalNodes.filter (fun s => decide (s.id ∉ [0, 2]))
        ++ [⟨chain3SCCDAG.nextId, chain3SCCDAG.mergeNodes [0, 2]⟩] ∧
      (∀ v, v ∈ chain3SCCDAG.mergeNodes [0, 2] ↔
        ∃ s ∈ chain3SCCDAG.internalNodes, s.id ∈ [0, 2] ∧ v ∈ s.values) ∧
      (∀ s ∈ d'.internalNodes, s.id ∉ [0, 2]))) :=
  ⟨⟨(construct_result chain3 chain3SCCDAG (by decide)).2.1, by unfold SCCDAG.HasNodes; decide⟩,
    mergeSCCs_count chain3SCCDAG [0, 2]
      (construct_result chain3 chain3SCCDAG (by decide)).2.1
      (by unfold SCCDAG.HasNodes; decide)⟩

theorem reachable_wellFormed (d : SCCDAG) (h : d.Reachable) : d.WellFormed := by
  induction h with
  | construct pdg d hd => exact (construct_result pdg d hd).2.1
  | merge d S d' _ hS hm ih =>
    by_cases h2 : 2 ≤ S.dedup.length
    · obtain ⟨d0, hm0, -, -, hwf, -⟩ := merge_spec d ih S hS h2
      rw [hm] at hm0
      rw [Option.some.inj hm0]
      exact hwf
    · unfold SCCDAG.mergeSCCs at hm
      rw [if_pos (by omega)] at hm
      rw [← Option.some.inj hm]
      exact ih

theorem wellFormed_roundtrip (d : SCCDAG) (hwf : d.WellFormed) (s : SCC)
    (hs : s ∈ d.internalNodes) (v : Nat) (hv : v ∈ s.values) : d.sccOfValue v = some s := by
  unfold SCCDAG.sccOfValue
  rw [hwf.2.2.2.2 s hs v hv]
  exact getT_internal d hwf.1.1 s hs

/-- C6: for every SCCDAG produced by the constructor or by any sequence of `mergeSCCs`
calls on sets of its internal SCC nodes, `sccOfValue(V)` returns exactly `s` for every
value `V` internal to an internal SCC `s`; and on such an SCCDAG `mergeSCCs` returns for
every set of its internal SCC nodes. -/
theorem sccOfValue_roundtrip (d : SCCDAG) (h : d.Reachable) :
    (∀ s ∈ d.internalNodes, ∀ v ∈ s.values, d.sccOfValue v = some s) ∧
    (∀ S, d.HasNodes S → ∃ d', d.mergeSCCs S = some d') := by
  have hwf := reachable_wellFormed d h
  constructor
  · intro s hs v hv
    exact wellFormed_roundtrip d hwf s hs v hv
  · intro S hS
    by_cases h2 : 2 ≤ S.dedup.length
    · obtain ⟨d', hm, -⟩ := merge_spec d hwf S hS h2
      exact ⟨d', hm⟩
    · refine ⟨d, ?_⟩
      unfold SCCDAG.mergeSCCs
      rw [if_pos (by omega)]

/-- Witness for C6: the SCCDAG of `0 -> 1 -> 2` after merging its first and last SCC. -/
theorem sccOfValue_roundtrip_witness :
    chain3Merged.Reachable ∧
    ((∀ s ∈ chain3Merged.internalNodes, ∀ v ∈ s.values, chain3Merged.sccOfValue v = some s) ∧
    (∀ S, chain3Merged.HasNodes S → ∃ d', chain3Merged.mergeSCCs S = some d')) :=
  ⟨SCCDAG.Reachable.merge chain3SCCDAG [0, 2] chain3Merged
      (SCCDAG.Reachable.construct chain3 chain3SCCDAG (by decide))
      (by unfold SCCDAG.HasNodes; decide) (by decide),
    sccOfValue_roundtrip chain3Merged
      (SCCDAG.Reachable.merge chain3SCCDAG [0, 2] chain3Merged
        (SCCDAG.Reachable.construct chain3 chain3SCCDAG (by decide))
        (by unfold SCCDAG.HasNodes; decide) (by decide))⟩

/-- Counterexample to C7 as stated: inside `mergeSCCs` of the first and last SCC of the
chain `0 -> 1 -> 2`, `markEdgesAndSubEdges` leaves the single edge `1 -> 3` between the
SCC `{1}` and the merged SCC `{0, 2}`; the dependence edge `0 -> 1` goes from the merged
SCC to `{1}` but no edge goes from node `3` to node `1`, and the sub-edges of the edge
`1 -> 3` include `0 -> 1`, which does not go from `{1}` to `{0, 2}`. -/
theorem markEdges_shares_edge_both_ways :
    chain3SCCDAG.mergeSCCs [0, 2] = chain3PreMark.markEdgesAndSubEdges ∧
    chain3PreMark.markEdgesAndSubEdges = some chain3Merged ∧
    chain3Merged.internalNodes = [⟨1, [1]⟩, ⟨3, [0, 2]⟩] ∧
    arc 0 1 ∈ chain3.internalEdges ∧
    (¬ ∃ e ∈ chain3Merged.edges, e.src = 3 ∧ e.dst = 1) ∧
    chain3Merged.edges = [⟨1, 3, [arc 1 2, arc 0 1]⟩] := by
  decide

/-- C7 (as amended): on a well-formed SCCDAG whose edges are single per pair of nodes
and each backed by a dependence edge in its own direction, `markEdgesAndSubEdges`
returns, changing only the edges, and for every two different internal SCCs `A` and `B`:
at most one edge joins `A` and `B` (in one direction or the other); an edge joining
them exists if and only if some dependence edge goes between a value of `A` and a value
of `B`, in one direction or the other; an edge from `A` to `B` exists only if some
dependence edge goes from a value of `A` to a value of `B`; and the sub-edges of the
edge joining them are exactly the dependence edges between values of `A` and values of
`B`, in both directions. -/
theorem markEdges_one_edge_per_pair (d : SCCDAG) (hwf : d.WellFormed)
    (hsingle : d.SingleEdges) (hF : d.Faithful) :
    ∃ E', d.markEdgesAndSubEdges = some { d with edges := E' } ∧
      ∀ A ∈ d.internalNodes, ∀ B ∈ d.internalNodes, A ≠ B →
        (E'.filter (SCCEdge.joins A.id B.id)).length ≤ 1 ∧
        ((∃ e ∈ E', e.joins A.id B.id = true) ↔
          ∃ dep ∈ d.pdg.internalEdges, A.Between B dep) ∧
        ((∃ e ∈ E', e.src = A.id ∧ e.dst = B.id) →
          ∃ dep ∈ d.pdg.internalEdges, dep.src ∈ A.values ∧ dep.dst ∈ B.values) ∧
        (∀ e ∈ E', e.joins A.id B.id = true → ∀ dep, dep ∈ e.subEdges ↔
          (dep ∈ d.pdg.internalEdges ∧ A.Between B dep)) := by
  obtain ⟨hids, hD, hcl, hmap⟩ := hwf
  obtain ⟨E', cl, h1, hinv⟩ := markEdgesAndSubEdges_spec d hsingle (mapTotal_of d hmap hcl)
  refine ⟨E', h1, ?_⟩
  intro A hA B hB hne
  obtain ⟨f1, f2⟩ := pair_facts d hids.1 hD hmap (edgesBacked_of_faithful d hids.1 hF)
    E' cl hinv A B hA hB hne
  refine ⟨filter_joins_le_one A.id B.id E' (singleEdges_of_index E' hinv.single), f1, ?_, f2⟩
  rintro ⟨e, he, hs, hd'⟩
  obtain ⟨A', hA', B', hB', hA'e, hB'e, dep, hdep, h3, h4, -⟩ :=
    faithful_of_inv d hF hmap E' cl hinv e he
  have e1 : A' = A := ids_inj d hids.1 A' A hA' hA (hA'e.trans hs)
  have e2 : B' = B := ids_inj d hids.1 B' B hB' hB (hB'e.trans hd')
  subst e1 e2
  exact ⟨dep, hdep, h3, h4⟩

/-- Witness for C7 (as amended): the state inside `mergeSCCs` of the first and last SCC
of the chain `0 -> 1 -> 2`. -/
theorem markEdges_one_edge_per_pair_witness :
    (chain3PreMark.WellFormed ∧ chain3PreMark.SingleEdges ∧ chain3PreMark.Faithful) ∧
    ∃ E', chain3PreMark.markEdgesAndSubEdges = some { chain3PreMark with edges := E' } ∧
      ∀ A ∈ chain3PreMark.internalNodes, ∀ B ∈ chain3PreMark.internalNodes, A ≠ B →
        (E'.filter (SCCEdge.joins A.id B.id)).length ≤ 1 ∧
        ((∃ e ∈ E', e.joins A.id B.id = true) ↔
          ∃ dep ∈ chain3PreMark.pdg.internalEdges, A.Between B dep) ∧
        ((∃ e ∈ E', e.src = A.id ∧ e.dst = B.id) →
          ∃ dep ∈ chain3PreMark.pdg.internalEdges, dep.src ∈ A.values ∧ dep.dst ∈ B.values) ∧
        (∀ e ∈ E', e.joins A.id B.id = true → ∀ dep, dep ∈ e.subEdges ↔
          (dep ∈ chain3PreMark.pdg.internalEdges ∧ A.Between B dep)) :=
  ⟨⟨by unfold SCCDAG.WellFormed SCCDAG.IdsOK SCCDAG.DisjointSCCs SCCDAG.Closed SCCDAG.MapOK;
        decide,
      by unfold SCCDAG.SingleEdges; decide,
      by unfold SCCDAG.Faithful; decide⟩,
    markEdges_one_edge_per_pair chain3PreMark
      (by unfold SCCDAG.WellFormed SCCDAG.IdsOK SCCDAG.DisjointSCCs SCCDAG.Closed SCCDAG.MapOK;
          decide)
      (by unfold SCCDAG.SingleEdges; decide)
      (by unfold SCCDAG.Faithful; decide)⟩

/-! ## Theorems: calls and conservative oracle answers -/

/-- C11: for every store `S` and call `C`, `addEdgeFromFunctionModRef` only appends
edges, every appended edge goes from `S` to `C` and is flagged memory and may (not
must), and the read-after-write flags of the appended edges are, by the answer of the
mod/ref oracle for `(C, location of S)`: `[true]` for `Ref` (one read edge), `[false]`
for `Mod` (one write edge), `[true, false]` for `ModRef` (those two edges), and none
for `NoModRef`. -/
theorem modRef_store_call_edges (aa : AAResults) (pdg : PDG) (S C : Nat) :
    ∃ created, (addEdgeFromFunctionModRefStore aa pdg S C).edges = pdg.edges ++ created ∧
      (∀ e ∈ created, e.src = S ∧ e.dst = C ∧ e.memory = true ∧ e.must = false) ∧
      created.map DGEdge.readAfterWrite =
        (match aa.getModRefInfo C S with
          | ModRefInfo.MRI_Ref => [true]
          | ModRefInfo.MRI_Mod => [false]
          | ModRefInfo.MRI_ModRef => [true, false]
          | ModRefInfo.MRI_NoModRef => []) := by
  refine ⟨modRefStoreEdges aa S C, addEdgeFromFunctionModRefStore_edges aa pdg S C, ?_, ?_⟩
  · intro e he
    unfold modRefStoreEdges at he
    cases h : aa.getModRefInfo C S <;> rw [h] at he <;> simp at he
    · subst he; simp
    · subst he; simp
    · rcases he with he | he <;> subst he <;> simp
  · unfold modRefStoreEdges
    cases h : aa.getModRefInfo C S <;> rfl

theorem mem_aliasEdges (m : IRModule) (aaOf : IRFunction → AAResults)
    (f : IRFunction) (i j : Nat) (e : DGEdge) (hf : f ∈ m.functions)
    (hi : i ∈ f.instructions) (hj : j ∈ f.instructions)
    (he : e ∈ (match m.kind i with
      | ValueKind.instruction Opcode.store => storeAliasEdges m (aaOf f) i j
      | ValueKind.instruction Opcode.load => loadAliasEdges m (aaOf f) i j
      | ValueKind.instruction Opcode.call => modRefEdges m (aaOf f) i j
      | _ => [])) :
    e ∈ m.functions.flatMap (fun f => aliasEdgesOfFunction m (aaOf f) f) := by
  have hne : ¬ f.blocks.isEmpty = true := by
    intro h
    have : f.blocks = [] := List.isEmpty_iff.1 h
    simp [IRFunction.instructions, this] at hi
  refine List.mem_flatMap.2 ⟨f, hf, ?_⟩
  rw [aliasEdgesOfFunction, if_neg hne]
  refine List.mem_flatMap.2 ⟨i, hi, ?_⟩
  have hgoal : aliasEdgesAt m (aaOf f) f i = (match m.kind i with
      | ValueKind.instruction Opcode.store =>
        f.instructions.flatMap (storeAliasEdges m (aaOf f) i)
      | ValueKind.instruction Opcode.load =>
        f.instructions.flatMap (loadAliasEdges m (aaOf f) i)
      | ValueKind.instruction Opcode.call =>
        f.instructions.flatMap (modRefEdges m (aaOf f) i)
      | _ => []) := rfl
  rw [hgoal]
  revert he
  cases m.kind i with
  | instruction op =>
    cases op <;> intro he
    · exact List.mem_flatMap.2 ⟨j, hj, he⟩
    · exact List.mem_flatMap.2 ⟨j, hj, he⟩
    · exact List.mem_flatMap.2 ⟨j, hj, he⟩
    · simp at he
  | argument => intro he; simp at he
  | constant => intro he; simp at he

theorem modRefStoreEdges_of_answer (aa : AAResults) (S C : Nat)
    (h : aa.getModRefInfo C S ≠ ModRefInfo.MRI_NoModRef) :
    ∃ e ∈ modRefStoreEdges aa S C, e.IsMemoryEdge S C := by
  unfold modRefStoreEdges
  cases h' : aa.getModRefInfo C S <;> simp [h', DGEdge.IsMemoryEdge] at h ⊢

theorem modRefLoadEdges_of_answer (aa : AAResults) (L C : Nat)
    (h : aa.getModRefInfo C L = ModRefInfo.MRI_Mod ∨
      aa.getModRefInfo C L = ModRefInfo.MRI_ModRef) :
    ∃ e ∈ modRefLoadEdges aa L C, e.IsMemoryEdge C L := by
  unfold modRefLoadEdges
  rcases h with h | h <;> simp [h, DGEdge.IsMemoryEdge]

theorem memoryAliasEdges_memory (aa : AAResults) (i j : Nat) (sp : Bool)
    (h : aa.aliasOf i j ≠ AliasResult.NoAlias) :
    ∃ e ∈ memoryAliasEdges aa i j sp, e.IsMemoryEdge i j :=
  ⟨_, memoryAliasEdges_of_alias aa i j sp h, rfl, rfl, rfl⟩

/-- Counterexample to C12 as stated: for the load `0` and the call `1` the mod/ref
oracle answers `Ref`, and `constructEdgesFromAliases` creates no edge at all. -/
theorem loadCall_ref_no_edge :
    refOracle.getModRefInfo 1 0 = ModRefInfo.MRI_Ref ∧
    (constructEdgesFromAliases loadCallModule (fun _ => refOracle) ⟨[0, 1], [], []⟩).edges
      = [] := by
  decide

/-- C12 (as amended): `constructEdgesFromAliases` only appends edges, and for the
stores `S`, `S'`, the load `L` and the call `C` of a function of the module: every
answer of the alias oracle other than `NoAlias` for the pairs `(S, S')`, `(L, S)` and
`(S, L)` gives a memory edge between the two operations; every answer of the mod/ref
oracle other than `NoModRef` for the store `S` and the call `C` gives a memory edge
`S -> C`; and the answers `Mod` and `ModRef` for the load `L` and the call `C` give a
memory edge `C -> L` (the answer `Ref` for a load and a call gives none). -/
theorem conservative_answers_give_edges (m : IRModule) (aaOf : IRFunction → AAResults)
    (pdg : PDG) (f : IRFunction) (S S' L C : Nat) (hf : f ∈ m.functions)
    (hS : S ∈ f.instructions) (hS' : S' ∈ f.instructions) (hL : L ∈ f.instructions)
    (hC : C ∈ f.instructions) (hne : S ≠ S')
    (hkS : m.kind S = ValueKind.instruction Opcode.store)
    (hkS' : m.kind S' = ValueKind.instruction Opcode.store)
    (hkL : m.kind L = ValueKind.instruction Opcode.load)
    (hkC : m.kind C = ValueKind.instruction Opcode.call) :
    ∃ created, (constructEdgesFromAliases m aaOf pdg).edges = pdg.edges ++ created ∧
      ((aaOf f).aliasOf S S' ≠ AliasResult.NoAlias → ∃ e ∈ created, e.IsMemoryEdge S S') ∧
      ((aaOf f).aliasOf L S ≠ AliasResult.NoAlias → ∃ e ∈ created, e.IsMemoryEdge L S) ∧
      ((aaOf f).aliasOf S L ≠ AliasResult.NoAlias → ∃ e ∈ created, e.IsMemoryEdge S L) ∧
      ((aaOf f).getModRefInfo C S ≠ ModRefInfo.MRI_NoModRef →
        ∃ e ∈ created, e.IsMemoryEdge S C) ∧
      (((aaOf f).getModRefInfo C L = ModRefInfo.MRI_Mod ∨
          (aaOf f).getModRefInfo C L = ModRefInfo.MRI_ModRef) →
        ∃ e ∈ created, e.IsMemoryEdge C L) := by
  refine ⟨_, constructEdgesFromAliases_edges m aaOf pdg, ?_, ?_, ?_, ?_, ?_⟩
  · intro h
    obtain ⟨e, he, hm⟩ := memoryAliasEdges_memory (aaOf f) S S' true h
    refine ⟨e, mem_aliasEdges m aaOf f S' S e hf hS' hS ?_, hm⟩
    simp only [hkS', storeAliasEdges, hkS, if_pos hne]
    exact he
  · intro h
    obtain ⟨e, he, hm⟩ := memoryAliasEdges_memory (aaOf f) L S false h
    refine ⟨e, mem_aliasEdges m aaOf f S L e hf hS hL ?_, hm⟩
    simp only [hkS, storeAliasEdges, hkL]
    exact he
  · intro h
    obtain ⟨e, he, hm⟩ := memoryAliasEdges_memory (aaOf f) S L false h
    refine ⟨e, mem_aliasEdges m aaOf f L S e hf hL hS ?_, hm⟩
    simp only [hkL, loadAliasEdges, hkS]
    exact he
  · intro h
    obtain ⟨e, he, hm⟩ := modRefStoreEdges_of_answer (aaOf f) S C h
    refine ⟨e, mem_aliasEdges m aaOf f C S e hf hC hS ?_, hm⟩
    simp only [hkC, modRefEdges, hkS]
    exact he
  · intro h
    obtain ⟨e, he, hm⟩ := modRefLoadEdges_of_answer (aaOf f) L C h
    refine ⟨e, mem_aliasEdges m aaOf f C L e hf hC hL ?_, hm⟩
    simp only [hkC, modRefEdges, hkL]
    exact he

/-- Witness for C12 (as amended): the function with the load `0`, the stores `1` and
`2` and the call `3`, and an oracle that answers `MustAlias` and `ModRef`. -/
theorem conservative_answers_give_edges_witness :
    ((⟨[[0, 1, 2, 3]]⟩ : IRFunction) ∈ memOpsModule.functions ∧
      1 ∈ (⟨[[0, 1, 2, 3]]⟩ : IRFunction).instructions ∧
      2 ∈ (⟨[[0, 1, 2, 3]]⟩ : IRFunction).instructions ∧
      0 ∈ (⟨[[0, 1, 2, 3]]⟩ : IRFunction).instructions ∧
      3 ∈ (⟨[[0, 1, 2, 3]]⟩ : IRFunction).instructions ∧ (1 : Nat) ≠ 2 ∧
      memOpsModule.kind 1 = ValueKind.instruction Opcode.store ∧
      memOpsModule.kind 2 = ValueKind.instruction Opcode.store ∧
      memOpsModule.kind 0 = ValueKind.instruction Opcode.load ∧
      memOpsModule.kind 3 = ValueKind.instruction Opcode.call) ∧
    ∃ created, (constructEdgesFromAliases memOpsModule (fun _ => mustAliasOracle)
        ⟨[0, 1, 2, 3], [], []⟩).edges = (⟨[0, 1, 2, 3], [], []⟩ : PDG).edges ++ created ∧
      (mustAliasOracle.aliasOf 1 2 ≠ AliasResult.NoAlias →
        ∃ e ∈ created, e.IsMemoryEdge 1 2) ∧
      (mustAliasOracle.aliasOf 0 1 ≠ AliasResult.NoAlias →
        ∃ e ∈ created, e.IsMemoryEdge 0 1) ∧
      (mustAliasOracle.aliasOf 1 0 ≠ AliasResult.NoAlias →
        ∃ e ∈ created, e.IsMemoryEdge 1 0) ∧
      (mustAliasOracle.getModRefInfo 3 1 ≠ ModRefInfo.MRI_NoModRef →
        ∃ e ∈ created, e.IsMemoryEdge 1 3) ∧
      ((mustAliasOracle.getModRefInfo 3 0 = ModRefInfo.MRI_Mod ∨
          mustAliasOracle.getModRefInfo 3 0 = ModRefInfo.MRI_ModRef) →
        ∃ e ∈ created, e.IsMemoryEdge 3 0) :=
  ⟨⟨by decide, by decide, by decide, by decide, by decide, by decide, by decide, by decide,
      by decide, by decide⟩,
    conservative_answers_give_edges memOpsModule (fun _ => mustAliasOracle)
      ⟨[0, 1, 2, 3], [], []⟩ ⟨[[0, 1, 2, 3]]⟩ 1 2 0 3 (by decide) (by decide) (by decide)
      (by decide) (by decide) (by decide) (by decide) (by decide) (by decide) (by decide)⟩

/-! ## Theorems: the loop-governing attribution -/

theorem mem_setInsert (x y : Nat) (s : List Nat) : y ∈ setInsert x s ↔ y = x ∨ y ∈ s := by
  unfold setInsert
  by_cases h : x ∈ s
  · rw [if_pos h]
    constructor
    · exact Or.inr
    · rintro (rfl | h') <;> assumption
  · rw [if_neg h, List.mem_append, List.mem_singleton]
    exact Or.comm

theorem scanIncomingEdges_spec (ir : LoopIR) (scc : SCCGraph) (ivs : List Nat) :
    ∀ (edges : List DepEdge) (d : List Nat) (r : List Nat × Bool),
      scanIncomingEdges ir scc ivs edges d = some r →
        (∀ v, v ∈ r.1 → v ∈ d ∨ ∃ e ∈ edges, e.src = v ∧ scc.isInternal e.src = true) ∧
        (r.2 = false → ∀ e ∈ edges, scc.isInternal e.src = true →
          e.src ∉ ivs ∧ e.src ∈ r.1) ∧
        (∀ v ∈ d, v ∈ r.1) := by
  intro edges
  induction edges with
  | nil =>
    intro d r h
    simp only [scanIncomingEdges, Option.some.injEq] at h
    subst h
    exact ⟨fun v hv => Or.inl hv, fun _ e he => absurd he (List.not_mem_nil e),
      fun v hv => hv⟩
  | cons edge rest ih =>
    intro d r h
    unfold scanIncomingEdges at h
    by_cases hint : scc.isInternal edge.src = true
    · rw [if_pos hint] at h
      by_cases hinst : (ir.value edge.src).isInstruction = true
      · simp only [hinst, Bool.not_true, Bool.false_eq_true, if_false] at h
        by_cases hiv : edge.src ∈ ivs
        · rw [if_pos hiv] at h
          simp only [Option.some.injEq] at h
          subst h
          exact ⟨fun v hv => Or.inl hv, fun hf => absurd hf (by simp), fun v hv => hv⟩
        · rw [if_neg hiv] at h
          obtain ⟨h1, h2, h3⟩ := ih _ r h
          refine ⟨?_, ?_, ?_⟩
          · intro v hv
            rcases h1 v hv with hv' | ⟨e, he, hev, hei⟩
            · rcases (mem_setInsert _ _ _).1 hv' with rfl | hv''
              · exact Or.inr ⟨edge, List.mem_cons_self _ _, rfl, hint⟩
              · exact Or.inl hv''
            · exact Or.inr ⟨e, List.mem_cons_of_mem _ he, hev, hei⟩
          · intro hf e he hei
            rcases List.mem_cons.1 he with rfl | he'
            · exact ⟨hiv, h3 _ ((mem_setInsert _ _ _).2 (Or.inl rfl))⟩
            · exact h2 hf e he' hei
          · intro v hv
            exact h3 v ((mem_setInsert _ _ _).2 (Or.inr hv))
      · simp [hinst] at h
    · rw [if_neg hint] at h
      obtain ⟨h1, h2, h3⟩ := ih _ r h
      refine ⟨?_, ?_, h3⟩
      · intro v hv
        rcases h1 v hv with hv' | ⟨e, he, hev, hei⟩
        · exact Or.inl hv'
        · exact Or.inr ⟨e, List.mem_cons_of_mem _ he, hev, hei⟩
      · intro hf e he hei
        rcases List.mem_cons.1 he with rfl | he'
        · exact absurd hei hint
        · exact h2 hf e he' hei

theorem mem_getIncomingEdges (scc : SCCGraph) (v : Nat) (e : DepEdge) :
    e ∈ scc.getIncomingEdges v ↔ e ∈ scc.edges ∧ e.dst = v := by
  simp [SCCGraph.getIncomingEdges]

/-- The constructor from the test on the condition value on, when it ends well formed:
the pointers set before are kept, `conditionValueDerivation` holds exactly the internal
values with an edge into an internal condition value, none of them is an instruction
of the induction variable, and every internal node passed the last loop. -/
theorem checkConditionValue_spec (ir : LoopIR) (iv : InductionVariable) (scc : SCCGraph)
    (a0 a : LoopGoverningIVAttribution) (cv : Nat) (h0 : a0.isWellFormed = false)
    (hd0 : a0.conditionValueDerivation = [])
    (h : checkConditionValue ir iv scc a0 cv = some a) (hw : a.isWellFormed = true) :
    a.headerBr = a0.headerBr ∧ a.headerCmp = a0.headerCmp ∧
    a.conditionValue = a0.conditionValue ∧ a.exitBlock = a0.exitBlock ∧
    (∀ v, v ∈ a.conditionValueDerivation ↔
      (scc.isInternal cv = true ∧ scc.isInternal v = true ∧
        ∃ e ∈ scc.edges, e.src = v ∧ e.dst = cv)) ∧
    (∀ v ∈ a.conditionValueDerivation, v ∉ iv.allInstructions) ∧
    (∀ v ∈ scc.internalNodes, passesSCCCheck ir iv a v = true) := by
  unfold checkConditionValue at h
  by_cases hint : scc.isInternal cv = true
  · rw [if_pos hint] at h
    by_cases hinst : (ir.value cv).isInstruction = true
    · simp only [hinst, Bool.not_true, Bool.false_eq_true, if_false] at h
      unfold deriveConditionValue at h
      cases hs : scanIncomingEdges ir scc iv.allInstructions (scc.getIncomingEdges cv) [] with
      | none => simp [hs] at h
      | some r =>
        obtain ⟨deriv, flag⟩ := r
        obtain ⟨s1, s2, -⟩ := scanIncomingEdges_spec ir scc _ _ _ _ hs
        cases flag with
        | true =>
          simp only [hs, Option.some.injEq] at h
          subst h
          exact absurd hw (by simp [h0])
        | false =>
          simp only [hs, deriveConditionValue, Option.some.injEq] at h
          subst h
          refine ⟨rfl, rfl, rfl, rfl, ?_, ?_, ?_⟩
          · intro v
            simp only [checkInternalNodes]
            constructor
            · intro hv
              rcases s1 v hv with hv' | ⟨e, he, hev, hei⟩
              · exact absurd hv' (List.not_mem_nil v)
              · obtain ⟨he1, he2⟩ := (mem_getIncomingEdges scc cv e).1 he
                exact ⟨hint, hev ▸ hei, e, he1, hev, he2⟩
            · rintro ⟨-, hvi, e, he, hev, hed⟩
              have := (s2 rfl e ((mem_getIncomingEdges scc cv e).2 ⟨he, hed⟩)
                (hev ▸ hvi)).2
              exact hev ▸ this
          · intro v hv
            simp only [checkInternalNodes] at hv
            rcases s1 v hv with hv' | ⟨e, he, hev, hei⟩
            · exact absurd hv' (List.not_mem_nil v)
            · exact hev ▸ (s2 rfl e he hei).1
          · intro v hv
            simp only [checkInternalNodes] at hw
            have := List.all_eq_true.1 hw v hv
            simpa [passesSCCCheck, checkInternalNodes] using this
    · simp [hinst] at h
  · rw [if_neg hint] at h
    simp only [Option.some.injEq] at h
    subst h
    refine ⟨rfl, rfl, rfl, rfl, ?_, ?_, ?_⟩
    · intro v
      simp only [checkInternalNodes, hd0]
      constructor
      · intro hv; exact absurd hv (List.not_mem_nil v)
      · rintro ⟨h1, -⟩; exact absurd h1 hint
    · intro v hv
      simp only [checkInternalNodes, hd0] at hv
      exact absurd hv (List.not_mem_nil v)
    · intro v hv
      simp only [checkInternalNodes] at hw
      have := List.all_eq_true.1 hw v hv
      simpa [passesSCCCheck, checkInternalNodes] using this

/-- What a well-formed attribution went through in its constructor. -/
theorem attribution_wellFormed (ir : LoopIR) (iv : InductionVariable) (scc : SCCGraph)
    (exitBlocks : List Nat) (a : LoopGoverningIVAttribution)
    (h : LoopGoverningIVAttribution.construct ir iv scc exitBlocks = some a)
    (hw : a.isWellFormed = true) :
    hasNonConstantStep ir iv = false ∧
    ∃ headerCondition succ0 succ1 p opL opR,
      ir.value (ir.getTerminator (ir.getParent iv.headerPHI))
        = IRValue.condBr headerCondition succ0 succ1 ∧
      ir.value headerCondition = IRValue.cmp p opL opR ∧
      xor (decide (opL = iv.headerPHI)) (decide (opR = iv.headerPHI)) = true ∧
      (succ0 ∈ exitBlocks ∨ succ1 ∈ exitBlocks) ∧
      a.headerBr = some (ir.getTerminator (ir.getParent iv.headerPHI)) ∧
      a.headerCmp = some headerCondition ∧
      a.conditionValue = some (if opL = iv.headerPHI then opR else opL) ∧
      a.exitBlock = some (if succ0 ∈ exitBlocks then succ0 else succ1) ∧
      (∀ v, v ∈ a.conditionValueDerivation ↔
        (scc.isInternal (if opL = iv.headerPHI then opR else opL) = true ∧
          scc.isInternal v = true ∧
          ∃ e ∈ scc.edges, e.src = v ∧ e.dst = (if opL = iv.headerPHI then opR else opL))) ∧
      (∀ v ∈ a.conditionValueDerivation, v ∉ iv.allInstructions) ∧
      (∀ v ∈ scc.internalNodes, passesSCCCheck ir iv a v = true) := by
  unfold LoopGoverningIVAttribution.construct at h
  by_cases hstep : hasNonConstantStep ir iv = true
  · rw [if_pos hstep] at h
    simp only [Option.some.injEq] at h
    subst h
    exact absurd hw (by simp)
  · rw [if_neg hstep] at h
    refine ⟨by simpa using hstep, ?_⟩
    cases hT : ir.value (ir.getTerminator (ir.getParent iv.headerPHI)) with
    | condBr headerCondition succ0 succ1 =>
      rw [hT] at h
      simp only at h
      cases hC : ir.value headerCondition with
      | cmp p opL opR =>
        rw [hC] at h
        simp only at h
        by_cases hx : xor (decide (opL = iv.headerPHI)) (decide (opR = iv.headerPHI)) = true
        · simp only [hx, Bool.not_true, Bool.false_eq_true, if_false] at h
          by_cases h0 : succ0 ∈ exitBlocks
          · rw [if_pos h0] at h
            obtain ⟨c1, c2, c3, c4, c5, c6, c7⟩ :=
              checkConditionValue_spec ir iv scc _ a _ rfl rfl h hw
            exact ⟨headerCondition, succ0, succ1, p, opL, opR, rfl, hC, hx, Or.inl h0,
              c1, c2, c3, by rw [c4, if_pos h0], c5, c6, c7⟩
          · rw [if_neg h0] at h
            by_cases h1 : succ1 ∈ exitBlocks
            · rw [if_pos h1] at h
              obtain ⟨c1, c2, c3, c4, c5, c6, c7⟩ :=
                checkConditionValue_spec ir iv scc _ a _ rfl rfl h hw
              exact ⟨headerCondition, succ0, succ1, p, opL, opR, rfl, hC, hx, Or.inr h1,
                c1, c2, c3, by rw [c4, if_neg h0], c5, c6, c7⟩
            · rw [if_neg h1] at h
              simp only [Option.some.injEq] at h
              subst h
              exact absurd hw (by simp)
        · simp only [hx, Bool.not_false, if_true, Option.some.injEq] at h
          subst h
          exact absurd hw (by simp)
      | _ =>
        rw [hC] at h
        simp only [Option.some.injEq] at h
        subst h
        exact absurd hw (by simp)
    | _ =>
      rw [hT] at h
      simp only [Option.some.injEq] at h
      subst h
      exact absurd hw (by simp)

/-! ## Theorems: what a well-formed attribution guarantees -/

theorem nonConstantStep_not_wellFormed (ir : LoopIR) (iv : InductionVariable)
    (scc : SCCGraph) (exitBlocks : List Nat) (h : hasNonConstantStep ir iv = true) :
    LoopGoverningIVAttribution.construct ir iv scc exitBlocks
      = some ⟨none, none, none, none, [], false⟩ := by
  unfold LoopGoverningIVAttribution.construct
  rw [if_pos h]

/-- C17 (failing input): for the loop `loopIR` whose induction variable has a composite
step with no existing expansion, the constructor of `InductionVariable` leaves the step
unset, the attribution is nevertheless well formed, and the constructor of
`LoopGoverningIVUtility` then stops at its assertion on the step. -/
theorem composite_step_accepted :
    InductionVariable.construct (loopIR Predicate.ICMP_SLT false true 0 1) [1, 2]
        (loopSE SCEV.scOther) 0 loopSCC 3 = some { loopIV with stepSize := none } ∧
    LoopGoverningIVAttribution.construct (loopIR Predicate.ICMP_SLT false true 0 1)
        { loopIV with stepSize := none } loopSCC [3] = some loopAttribution ∧
    loopAttribution.isWellFormed = true ∧
    LoopGoverningIVUtility.construct (loopIR Predicate.ICMP_SLT false true 0 1)
        { loopIV with stepSize := none } loopAttribution = none := by
  decide

/-- The exit block that a well-formed attribution records: the header terminator is a
conditional branch recorded as `headerBr`, at least one of its two successors is in the
set of loop-exit blocks, and the recorded exit block is the first of the two that is. -/
theorem attribution_exit_first (ir : LoopIR) (iv : InductionVariable) (scc : SCCGraph)
    (exitBlocks : List Nat) (a : LoopGoverningIVAttribution)
    (h : LoopGoverningIVAttribution.construct ir iv scc exitBlocks = some a)
    (hw : a.isWellFormed = true) :
    ∃ headerBr headerCondition succ0 succ1,
      a.headerBr = some headerBr ∧
      headerBr = ir.getTerminator (ir.getParent iv.headerPHI) ∧
      ir.value headerBr = IRValue.condBr headerCondition succ0 succ1 ∧
      (succ0 ∈ exitBlocks ∨ succ1 ∈ exitBlocks) ∧
      a.exitBlock = some (if succ0 ∈ exitBlocks then succ0 else succ1) := by
  obtain ⟨-, headerCondition, succ0, succ1, p, opL, opR, h1, -, -, h4, h5, -, -, h8, -⟩ :=
    attribution_wellFormed ir iv scc exitBlocks a h hw
  exact ⟨_, headerCondition, succ0, succ1, h5, rfl, h1, h4, h8⟩

/-- C18: let `bbs` be the blocks of the loop; the loop-exit blocks lie outside the loop
and the header has a successor inside the loop (as `getLoopExitBasicBlocks` and the shape
of a loop guarantee). If the attribution is well formed then the header terminator is a
conditional branch recorded as `headerBr`, exactly one of its two successors is in the
set of loop-exit blocks, and the recorded exit block is that successor. Hence if
neither or both successors are exit blocks the attribution is not well formed. -/
theorem attribution_one_exit_successor (ir : LoopIR) (iv : InductionVariable)
    (scc : SCCGraph) (bbs exitBlocks : List Nat) (a : LoopGoverningIVAttribution)
    (hexit : ∀ B ∈ exitBlocks, B ∉ bbs)
    (hloop : ∀ headerCondition succ0 succ1,
      ir.value (ir.getTerminator (ir.getParent iv.headerPHI))
        = IRValue.condBr headerCondition succ0 succ1 → succ0 ∈ bbs ∨ succ1 ∈ bbs)
    (h : LoopGoverningIVAttribution.construct ir iv scc exitBlocks = some a) :
    (a.isWellFormed = true →
      ∃ headerBr headerCondition succ0 succ1,
        a.headerBr = some headerBr ∧
        headerBr = ir.getTerminator (ir.getParent iv.headerPHI) ∧
        ir.value headerBr = IRValue.condBr headerCondition succ0 succ1 ∧
        ((succ0 ∈ exitBlocks ∧ succ1 ∉ exitBlocks ∧ a.exitBlock = some succ0) ∨
          (succ0 ∉ exitBlocks ∧ succ1 ∈ exitBlocks ∧ a.exitBlock = some succ1))) ∧
    (∀ headerCondition succ0 succ1,
      ir.value (ir.getTerminator (ir.getParent iv.headerPHI))
        = IRValue.condBr headerCondition succ0 succ1 →
      ((succ0 ∉ exitBlocks ∧ succ1 ∉ exitBlocks) ∨ (succ0 ∈ exitBlocks ∧ succ1 ∈ exitBlocks)) →
      a.isWellFormed = false) := by
  have key : a.isWellFormed = true →
      ∃ headerBr headerCondition succ0 succ1,
        a.headerBr = some headerBr ∧
        headerBr = ir.getTerminator (ir.getParent iv.headerPHI) ∧
        ir.value headerBr = IRValue.condBr headerCondition succ0 succ1 ∧
        ((succ0 ∈ exitBlocks ∧ succ1 ∉ exitBlocks ∧ a.exitBlock = some succ0) ∨
          (succ0 ∉ exitBlocks ∧ succ1 ∈ exitBlocks ∧ a.exitBlock = some succ1)) := by
    intro hw
    obtain ⟨headerBr, headerCondition, succ0, succ1, h1, h2, h3, h4, h5⟩ :=
      attribution_exit_first ir iv scc exitBlocks a h hw
    refine ⟨headerBr, headerCondition, succ0, succ1, h1, h2, h3, ?_⟩
    have hin := hloop headerCondition succ0 succ1 (h2 ▸ h3)
    by_cases h0 : succ0 ∈ exitBlocks
    · left
      refine ⟨h0, ?_, by rw [h5, if_pos h0]⟩
      intro h1'
      rcases hin with hb | hb
      · exact hexit succ0 h0 hb
      · exact hexit succ1 h1' hb
    · right
      refine ⟨h0, ?_, by rw [h5, if_neg h0]⟩
      rcases h4 with h4 | h4
      · exact absurd h4 h0
      · exact h4
  refine ⟨key, ?_⟩
  intro headerCondition succ0 succ1 hbr hcase
  cases hwf : a.isWellFormed with
  | false => rfl
  | true =>
    exfalso
    obtain ⟨headerBr, hc, s0, s1, -, h2, h3, hone⟩ := key hwf
    rw [h2, hbr] at h3
    simp only [IRValue.condBr.injEq] at h3
    obtain ⟨-, rfl, rfl⟩ := h3
    rcases hcase with ⟨n0, n1⟩ | ⟨y0, y1⟩
    · rcases hone with ⟨y0, -, -⟩ | ⟨-, y1, -⟩
      · exact n0 y0
      · exact n1 y1
    · rcases hone with ⟨-, n1, -⟩ | ⟨n0, -, -⟩
      · exact n1 y1
      · exact n0 y0

/-- Witness for C18: the loop `loopIR` with the blocks 1 and 2 and the exit block 3. -/
theorem attribution_one_exit_successor_witness :
    ((∀ B ∈ [3], B ∉ [1, 2]) ∧
      (∀ headerCondition succ0 succ1,
        (loopIR Predicate.ICMP_SLT false true 0 1).value
          ((loopIR Predicate.ICMP_SLT false true 0 1).getTerminator
            ((loopIR Predicate.ICMP_SLT false true 0 1).getParent loopIV.headerPHI))
          = IRValue.condBr headerCondition succ0 succ1 → succ0 ∈ [1, 2] ∨ succ1 ∈ [1, 2]) ∧
      LoopGoverningIVAttribution.construct (loopIR Predicate.ICMP_SLT false true 0 1)
        loopIV loopSCC [3] = some loopAttribution ∧ loopAttribution.isWellFormed = true) ∧
    ∃ headerBr headerCondition succ0 succ1,
      loopAttribution.headerBr = some headerBr ∧
      headerBr = (loopIR Predicate.ICMP_SLT false true 0 1).getTerminator
        ((loopIR Predicate.ICMP_SLT false true 0 1).getParent loopIV.headerPHI) ∧
      (loopIR Predicate.ICMP_SLT false true 0 1).value headerBr
        = IRValue.condBr headerCondition succ0 succ1 ∧
      ((succ0 ∈ [3] ∧ succ1 ∉ [3] ∧ loopAttribution.exitBlock = some succ0) ∨
        (succ0 ∉ [3] ∧ succ1 ∈ [3] ∧ loopAttribution.exitBlock = some succ1)) :=
  ⟨⟨by decide,
      fun hc s0 s1 hbr => by
        have h3 : (loopIR Predicate.ICMP_SLT false true 0 1).value
            ((loopIR Predicate.ICMP_SLT false true 0 1).getTerminator
              ((loopIR Predicate.ICMP_SLT false true 0 1).getParent loopIV.headerPHI))
            = IRValue.condBr 2 2 3 := by decide
        rw [h3] at hbr
        simp only [IRValue.condBr.injEq] at hbr
        obtain ⟨-, rfl, rfl⟩ := hbr
        decide,
      by decide, by decide⟩,
    (attribution_one_exit_successor (loopIR Predicate.ICMP_SLT false true 0 1) loopIV loopSCC
      [1, 2] [3] loopAttribution (by decide)
      (fun hc s0 s1 hbr => by
        have h3 : (loopIR Predicate.ICMP_SLT false true 0 1).value
            ((loopIR Predicate.ICMP_SLT false true 0 1).getTerminator
              ((loopIR Predicate.ICMP_SLT false true 0 1).getParent loopIV.headerPHI))
            = IRValue.condBr 2 2 3 := by decide
        rw [h3] at hbr
        simp only [IRValue.condBr.injEq] at hbr
        obtain ⟨-, rfl, rfl⟩ := hbr
        decide)
      (by decide)).1 (by decide)⟩

theorem derivedBound_dependsOn : (derivedBoundSCC true).DependsOn 8 0 := by
  have h1 : (derivedBoundSCC true).dataStep 0 9 :=
    ⟨by decide, by decide, ⟨0, 9, true⟩, by decide, rfl, rfl, rfl⟩
  have h2 : (derivedBoundSCC true).dataStep 9 8 :=
    ⟨by decide, by decide, ⟨9, 8, true⟩, by decide, rfl, rfl, rfl⟩
  exact Relation.TransGen.tail (Relation.TransGen.single h1) h2

/-- C19 (failing input): in the loop `derivedBoundIR` the bound `%8`, the non-IV operand
of the header compare, depends on the induction variable `%0` through the instruction
`%9` (data dependences `%0 -> %9 -> %8` inside the SCC), the PHI `%0` is an instruction
of the induction variable, and the attribution is nevertheless well formed: only the
direct predecessors `%9` and `%3` of the bound were examined. -/
theorem circular_condition_accepted :
    InductionVariable.construct derivedBoundIR [1, 2] (loopSE (SCEV.scConstant 7)) 0
        (derivedBoundSCC true) 3 = some loopIV ∧
    0 ∈ loopIV.allInstructions ∧
    (derivedBoundSCC true).DependsOn 8 0 ∧
    LoopGoverningIVAttribution.construct derivedBoundIR loopIV (derivedBoundSCC true) [3]
      = some { headerBr := some 3, headerCmp := some 2, conditionValue := some 8,
               exitBlock := some 3, conditionValueDerivation := [9, 3],
               isWellFormed := true } :=
  ⟨by decide, by decide, derivedBound_dependsOn, by decide⟩

/-- An instruction of the induction variable that is a direct predecessor of an internal
condition value is caught: the attribution is then not well formed. -/
theorem direct_circular_condition_rejected (ir : LoopIR) (iv : InductionVariable)
    (scc : SCCGraph) (exitBlocks : List Nat) (a : LoopGoverningIVAttribution)
    (h : LoopGoverningIVAttribution.construct ir iv scc exitBlocks = some a)
    (cv v : Nat) (hcv : a.conditionValue = some cv) (hi : scc.isInternal cv = true)
    (hv : v ∈ iv.allInstructions) (hvi : scc.isInternal v = true)
    (e : DepEdge) (he : e ∈ scc.edges) (hs : e.src = v) (hd : e.dst = cv) :
    a.isWellFormed = false := by
  by_contra hw
  have hw' : a.isWellFormed = true := by simpa using hw
  obtain ⟨-, headerCondition, succ0, succ1, p, opL, opR, -, -, -, -, -, -, h7, -, h9, h10, -⟩ :=
    attribution_wellFormed ir iv scc exitBlocks a h hw'
  rw [hcv] at h7
  have hcv' : cv = if opL = iv.headerPHI then opR else opL := Option.some.inj h7
  rw [← hcv'] at h9
  exact h10 v ((h9 v).2 ⟨hi, hvi, e, he, hs, hd⟩) hv

/-- Counterexample to C20 as stated: in the loop `derivedBoundIR` whose next bound `%9`
does not depend on the induction variable, `%9` is internal to the SCC, is an
arithmetic instruction (no address computation, PHI, compare or branch) and is no
instruction of the induction variable, yet the attribution is well formed. -/
theorem derivation_instruction_accepted :
    InductionVariable.construct derivedBoundIR [1, 2] (loopSE (SCEV.scConstant 7)) 0
        (derivedBoundSCC false) 3 = some loopIV ∧
    9 ∈ (derivedBoundSCC false).internalNodes ∧
    derivedBoundIR.value 9 = IRValue.instruction ∧
    9 ∉ loopIV.allInstructions ∧
    LoopGoverningIVAttribution.construct derivedBoundIR loopIV (derivedBoundSCC false) [3]
      = some { headerBr := some 3, headerCmp := some 2, conditionValue := some 8,
               exitBlock := some 3, conditionValueDerivation := [9, 3],
               isWellFormed := true } := by
  decide

theorem passesSCCCheck_cases (ir : LoopIR) (iv : InductionVariable)
    (a : LoopGoverningIVAttribution) (v : Nat) (h : passesSCCCheck ir iv a v = true) :
    (ir.value v).isInstruction = true ∧
    (v ∈ iv.allInstructions ∨ v ∈ a.conditionValueDerivation ∨
      ir.value v = IRValue.gep ∨ (ir.value v).isPHINode = true ∨
      (∃ p x y, a.headerCmp = some v ∧ ir.value v = IRValue.cmp p x y) ∨
      (∃ c s0 s1, a.headerBr = some v ∧ ir.value v = IRValue.condBr c s0 s1) ∨
      (∃ s, ir.value v = IRValue.br s)) := by
  unfold passesSCCCheck at h
  by_cases hi : (ir.value v).isInstruction = true
  · refine ⟨hi, ?_⟩
    rw [if_pos hi] at h
    by_cases h1 : v ∈ iv.allInstructions
    · exact Or.inl h1
    · rw [if_neg h1] at h
      by_cases h2 : v ∈ a.conditionValueDerivation
      · exact Or.inr (Or.inl h2)
      · rw [if_neg h2] at h
        cases hv : ir.value v with
        | phi inc => exact Or.inr (Or.inr (Or.inr (Or.inl rfl)))
        | cmp p x y =>
          rw [hv] at h
          simp only [decide_eq_true_eq] at h
          exact Or.inr (Or.inr (Or.inr (Or.inr (Or.inl ⟨p, x, y, h.symm, rfl⟩))))
        | condBr c s0 s1 =>
          rw [hv] at h
          simp only [decide_eq_true_eq] at h
          exact Or.inr (Or.inr (Or.inr (Or.inr (Or.inr (Or.inl ⟨c, s0, s1, h.symm, rfl⟩)))))
        | br s => exact Or.inr (Or.inr (Or.inr (Or.inr (Or.inr (Or.inr ⟨s, rfl⟩)))))
        | gep => exact Or.inr (Or.inr (Or.inl rfl))
        | instruction => rw [hv] at h; simp at h
        | constantInt c => rw [hv] at h; simp at h
        | other => rw [hv] at h; simp at h
  · rw [if_neg hi] at h
    exact absurd h (by simp)

/-- C20 (as amended): if the attribution is well formed then every internal node of the
SCC is an instruction, and every one that is no instruction of the induction variable
is an address computation (GEP), a PHI, the header compare itself, the header branch
itself, an unconditional branch, or a value with a dependence edge into the non-IV
operand of the header compare (a member of `conditionValueDerivation`). An SCC with
any other internal node outside the induction variable makes the attribution not well
formed. -/
theorem wellFormed_scc_instructions (ir : LoopIR) (iv : InductionVariable) (scc : SCCGraph)
    (exitBlocks : List Nat) (a : LoopGoverningIVAttribution)
    (h : LoopGoverningIVAttribution.construct ir iv scc exitBlocks = some a)
    (hw : a.isWellFormed = true) :
    ∀ v ∈ scc.internalNodes, (ir.value v).isInstruction = true ∧
      (v ∉ iv.allInstructions →
        ir.value v = IRValue.gep ∨ (ir.value v).isPHINode = true ∨
        a.headerCmp = some v ∨ a.headerBr = some v ∨ (∃ s, ir.value v = IRValue.br s) ∨
        (v ∈ a.conditionValueDerivation ∧
          ∃ cv, a.conditionValue = some cv ∧ ∃ e ∈ scc.edges, e.src = v ∧ e.dst = cv)) := by
  obtain ⟨-, headerCondition, succ0, succ1, p, opL, opR, -, -, -, -, -, -, h7, -, h9, -, h11⟩ :=
    attribution_wellFormed ir iv scc exitBlocks a h hw
  intro v hv
  obtain ⟨hi, hc⟩ := passesSCCCheck_cases ir iv a v (h11 v hv)
  refine ⟨hi, fun hniv => ?_⟩
  rcases hc with hc | hc | hc | hc | ⟨_, _, _, hc, -⟩ | ⟨_, _, _, hc, -⟩ | hc
  · exact absurd hc hniv
  · obtain ⟨-, -, e, he, hs, hd⟩ := (h9 v).1 hc
    exact Or.inr (Or.inr (Or.inr (Or.inr (Or.inr ⟨hc, _, h7, e, he, hs, hd⟩))))
  · exact Or.inl hc
  · exact Or.inr (Or.inl hc)
  · exact Or.inr (Or.inr (Or.inl hc))
  · exact Or.inr (Or.inr (Or.inr (Or.inl hc)))
  · exact Or.inr (Or.inr (Or.inr (Or.inr (Or.inl hc))))

/-- Witness for C20 (as amended): the loop `derivedBoundIR` whose next bound does not
depend on the induction variable. -/
theorem wellFormed_scc_instructions_witness :
    (LoopGoverningIVAttribution.construct derivedBoundIR loopIV (derivedBoundSCC false) [3]
        = some { headerBr := some 3, headerCmp := some 2, conditionValue := some 8,
                 exitBlock := some 3, conditionValueDerivation := [9, 3],
                 isWellFormed := true }) ∧
    ∀ v ∈ (derivedBoundSCC false).internalNodes,
      (derivedBoundIR.value v).isInstruction = true ∧
      (v ∉ loopIV.allInstructions →
        derivedBoundIR.value v = IRValue.gep ∨ (derivedBoundIR.value v).isPHINode = true ∨
        some 2 = some v ∨ some 3 = some v ∨ (∃ s, derivedBoundIR.value v = IRValue.br s) ∨
        (v ∈ [9, 3] ∧
          ∃ cv, some 8 = some cv ∧
            ∃ e ∈ (derivedBoundSCC false).edges, e.src = v ∧ e.dst = cv)) :=
  ⟨by decide,
    wellFormed_scc_instructions derivedBoundIR loopIV (derivedBoundSCC false) [3]
      { headerBr := some 3, headerCmp := some 2, conditionValue := some 8,
        exitBlock := some 3, conditionValueDerivation := [9, 3], isWellFormed := true }
      (by decide) rfl⟩

/-! ## Theorems: predicate normalization -/

theorem utility_of_compare (ir : LoopIR) (iv : InductionVariable)
    (attribution : LoopGoverningIVAttribution) (p : Predicate) (t l : Bool) (k : Int)
    (hc : GoverningCompare ir iv attribution p t l k) :
    ∃ condition derivation,
      LoopGoverningIVUtility.construct ir iv attribution =
        (selectNonStrictPredicate (exitPredicateOf p t l) (decide (0 < k))).map
          (fun q => ⟨condition, l, derivation, !l, q⟩) := by
  obtain ⟨condition, op0, op1, headerBr, headerCondition, succ0, succ1, exitBlock, stepSize,
    h1, h2, h3, h4, h5, h6, h7, h8, h9⟩ := hc
  refine ⟨condition, (ir.instructions (ir.getParent condition)).filter
    (fun I => I ∈ attribution.conditionValueDerivation), ?_⟩
  unfold LoopGoverningIVUtility.construct
  simp only [h1, h2, h3, h4, h5, h8, h9]
  rw [← h6, ← h7]

theorem holds_getInversePredicate (w : Nat) (p : Predicate) (a b : Int) :
    (getInversePredicate p).holds w a b = !p.holds w a b := by
  cases p <;> simp only [getInversePredicate, Predicate.holds] <;> rw [Bool.eq_iff_iff] <;>
    simp

theorem holds_getSwappedPredicate (w : Nat) (p : Predicate) (a b : Int) :
    (getSwappedPredicate p).holds w a b = p.holds w b a := by
  cases p <;> simp only [getSwappedPredicate, Predicate.holds] <;> rw [Bool.eq_iff_iff] <;>
    simp only [decide_eq_true_eq]
  · exact eq_comm
  · exact ne_comm

/-- The exit predicate holds of the value `v` of the induction variable and the bound
`b` exactly when the header compare, with its operands in their original order, sends
the header branch to its exit edge. -/
theorem exitPredicateOf_holds (w : Nat) (p : Predicate) (t l : Bool) (v b : Int) :
    (exitPredicateOf p t l).holds w v b
      = (if t then (if l then p.holds w v b else p.holds w b v)
         else !(if l then p.holds w v b else p.holds w b v)) := by
  cases t <;> cases l <;>
    simp [exitPredicateOf, holds_getInversePredicate, holds_getSwappedPredicate]

/-- C13: for every predicate `p` of the header compare, exit edge, operand position of
the induction variable and constant step `k`, let `e` be `p`, inverted when the loop
exits on the false edge, then swapped when the induction variable is the right operand.
If the constructor of `LoopGoverningIVUtility` succeeds, its non-strict predicate is:
`!=` when `e` is `!=`; `>=` (unsigned) when `e` is `==` and the step is positive; `<=`
(unsigned) when `e` is `==` and the step is not positive; and `e` itself when `e` is one
of `<`, `<=`, `>`, `>=`, signed or unsigned. -/
theorem nonStrictPredicate_table (ir : LoopIR) (iv : InductionVariable)
    (attribution : LoopGoverningIVAttribution) (p : Predicate) (t l : Bool) (k : Int)
    (u : LoopGoverningIVUtility) (hc : GoverningCompare ir iv attribution p t l k)
    (hu : LoopGoverningIVUtility.construct ir iv attribution = some u) :
    (exitPredicateOf p t l = Predicate.ICMP_NE →
      u.nonStrictPredicate = Predicate.ICMP_NE) ∧
    (exitPredicateOf p t l = Predicate.ICMP_EQ → 0 < k →
      u.nonStrictPredicate = Predicate.ICMP_UGE) ∧
    (exitPredicateOf p t l = Predicate.ICMP_EQ → k ≤ 0 →
      u.nonStrictPredicate = Predicate.ICMP_ULE) ∧
    (((exitPredicateOf p t l).isLessThan = true ∨
        (exitPredicateOf p t l).isGreaterThan = true) →
      u.nonStrictPredicate = exitPredicateOf p t l) := by
  obtain ⟨c, d, heq⟩ := utility_of_compare ir iv attribution p t l k hc
  rw [heq] at hu
  generalize exitPredicateOf p t l = e at hu
  refine ⟨?_, ?_, ?_, ?_⟩
  · intro he
    subst he
    simp only [selectNonStrictPredicate, Option.map_some', Option.some.injEq] at hu
    rw [← hu]
  · intro he hk
    subst he
    simp only [selectNonStrictPredicate, hk, decide_True, if_true, Option.map_some',
      Option.some.injEq] at hu
    rw [← hu]
  · intro he hk
    subst he
    have hk' : ¬ 0 < k := not_lt.2 hk
    simp only [selectNonStrictPredicate, hk', decide_False, Bool.false_eq_true, if_false,
      Option.map_some', Option.some.injEq] at hu
    rw [← hu]
  · intro he
    cases e <;> simp [Predicate.isLessThan, Predicate.isGreaterThan] at he <;>
      simp only [selectNonStrictPredicate] at hu <;>
      split at hu <;> simp at hu <;> rw [← hu]

/-- Witness for C13: the loop `loopIR` with the compare `%0 != %6` and exit on the
false edge, so that the exit predicate is `==`, and with step 1. -/
theorem nonStrictPredicate_table_witness :
    (GoverningCompare (loopIR Predicate.ICMP_NE false true 0 1) loopIV loopAttribution
        Predicate.ICMP_NE false true 1 ∧
      LoopGoverningIVUtility.construct (loopIR Predicate.ICMP_NE false true 0 1) loopIV
        loopAttribution = some ⟨2, true, [], false, Predicate.ICMP_UGE⟩) ∧
    ((exitPredicateOf Predicate.ICMP_NE false true = Predicate.ICMP_NE →
      Predicate.ICMP_UGE = Predicate.ICMP_NE) ∧
    (exitPredicateOf Predicate.ICMP_NE false true = Predicate.ICMP_EQ → (0 : Int) < 1 →
      Predicate.ICMP_UGE = Predicate.ICMP_UGE) ∧
    (exitPredicateOf Predicate.ICMP_NE false true = Predicate.ICMP_EQ → (1 : Int) ≤ 0 →
      Predicate.ICMP_UGE = Predicate.ICMP_ULE) ∧
    (((exitPredicateOf Predicate.ICMP_NE false true).isLessThan = true ∨
        (exitPredicateOf Predicate.ICMP_NE false true).isGreaterThan = true) →
      Predicate.ICMP_UGE = exitPredicateOf Predicate.ICMP_NE false true)) :=
  ⟨⟨⟨2, 0, 6, 3, 2, 2, 3, 3, 7, rfl, rfl, rfl, rfl, rfl, by decide, by decide, rfl, rfl⟩,
      by decide⟩,
    nonStrictPredicate_table (loopIR Predicate.ICMP_NE false true 0 1) loopIV loopAttribution
      Predicate.ICMP_NE false true 1 ⟨2, true, [], false, Predicate.ICMP_UGE⟩
      ⟨2, 0, 6, 3, 2, 2, 3, 3, 7, rfl, rfl, rfl, rfl, rfl, by decide, by decide, rfl, rfl⟩
      (by decide)⟩

/-- Counterexample to C14 as stated: the loop `for (i = 10; i > N; i--)` has the
less-than exit predicate `<=` and the decrementing step -1, and the loop
`for (i = 0; i < N; i++)` has the greater-than exit predicate `>=` and the incrementing
step 1; the constructor of `LoopGoverningIVUtility` succeeds for both. -/
theorem compatible_signs_accepted :
    (exitPredicateOf Predicate.ICMP_SGT false true = Predicate.ICMP_SLE ∧
      LoopGoverningIVUtility.construct (loopIR Predicate.ICMP_SGT false true 10 (-1)) loopIV
        loopAttribution = some ⟨2, true, [], false, Predicate.ICMP_SLE⟩) ∧
    (exitPredicateOf Predicate.ICMP_SLT false true = Predicate.ICMP_SGE ∧
      LoopGoverningIVUtility.construct (loopIR Predicate.ICMP_SLT false true 0 1) loopIV
        loopAttribution = some ⟨2, true, [], false, Predicate.ICMP_SGE⟩) := by
  decide

/-- C14 (as amended): for every combination with exit predicate `e` (the predicate of
the header compare after inversion for the exit edge and swapping for the operand
order) and constant step `k`, the constructor of `LoopGoverningIVUtility` fails exactly
when `e` is a less-than predicate (`<`, `<=`) and the step is incrementing (positive),
or `e` is a greater-than predicate (`>`, `>=`) and the step is not positive
(decrementing); every other combination is accepted. -/
theorem normalization_accepted_iff (ir : LoopIR) (iv : InductionVariable)
    (attribution : LoopGoverningIVAttribution) (p : Predicate) (t l : Bool) (k : Int)
    (hc : GoverningCompare ir iv attribution p t l k) :
    (LoopGoverningIVUtility.construct ir iv attribution = none ↔
      (((exitPredicateOf p t l).isLessThan = true ∧ 0 < k) ∨
        ((exitPredicateOf p t l).isGreaterThan = true ∧ k ≤ 0))) ∧
    ((∃ u, LoopGoverningIVUtility.construct ir iv attribution = some u) ↔
      ¬ (((exitPredicateOf p t l).isLessThan = true ∧ 0 < k) ∨
        ((exitPredicateOf p t l).isGreaterThan = true ∧ k ≤ 0))) := by
  have key : LoopGoverningIVUtility.construct ir iv attribution = none ↔
      (((exitPredicateOf p t l).isLessThan = true ∧ 0 < k) ∨
        ((exitPredicateOf p t l).isGreaterThan = true ∧ k ≤ 0)) := by
    obtain ⟨c, d, heq⟩ := utility_of_compare ir iv attribution p t l k hc
    rw [heq]
    generalize exitPredicateOf p t l = e
    by_cases hk : 0 < k
    · have hk' : ¬ k ≤ 0 := not_le.2 hk
      cases e <;>
        simp [selectNonStrictPredicate, Predicate.isLessThan, Predicate.isGreaterThan, hk, hk']
    · have hk' : k ≤ 0 := not_lt.1 hk
      cases e <;>
        simp [selectNonStrictPredicate, Predicate.isLessThan, Predicate.isGreaterThan, hk, hk']
  refine ⟨key, ?_⟩
  rw [← key]
  cases LoopGoverningIVUtility.construct ir iv attribution <;> simp

/-- Witness for C14 (as amended): the loop `for (i = 0; i > N; i++)`, whose exit
predicate `<=` meets the incrementing step 1, is rejected. -/
theorem normalization_accepted_iff_witness :
    GoverningCompare (loopIR Predicate.ICMP_SGT false true 0 1) loopIV loopAttribution
      Predicate.ICMP_SGT false true 1 ∧
    ((LoopGoverningIVUtility.construct (loopIR Predicate.ICMP_SGT false true 0 1) loopIV
        loopAttribution = none ↔
      (((exitPredicateOf Predicate.ICMP_SGT false true).isLessThan = true ∧ (0 : Int) < 1) ∨
        ((exitPredicateOf Predicate.ICMP_SGT false true).isGreaterThan = true ∧
          (1 : Int) ≤ 0))) ∧
    ((∃ u, LoopGoverningIVUtility.construct (loopIR Predicate.ICMP_SGT false true 0 1) loopIV
        loopAttribution = some u) ↔
      ¬ (((exitPredicateOf Predicate.ICMP_SGT false true).isLessThan = true ∧ (0 : Int) < 1) ∨
        ((exitPredicateOf Predicate.ICMP_SGT false true).isGreaterThan = true ∧
          (1 : Int) ≤ 0)))) :=
  ⟨⟨2, 0, 6, 3, 2, 2, 3, 3, 7, rfl, rfl, rfl, rfl, rfl, by decide, by decide, rfl, rfl⟩,
    normalization_accepted_iff (loopIR Predicate.ICMP_SGT false true 0 1) loopIV
      loopAttribution Predicate.ICMP_SGT false true 1
      ⟨2, 0, 6, 3, 2, 2, 3, 3, 7, rfl, rfl, rfl, rfl, rfl, by decide, by decide, rfl, rfl⟩⟩

theorem emod_add_of_range (m a c : Int) (h0 : 0 ≤ a % m + c) (h1 : a % m + c < m) :
    (a + c) % m = a % m + c := by
  rw [← Int.emod_add_emod]
  exact Int.emod_eq_of_lt h0 h1

theorem unsignedValue_add (w : Nat) (a c : Int) (h0 : 0 ≤ unsignedValue w a + c)
    (h1 : unsignedValue w a + c < 2 ^ w) :
    unsignedValue w (a + c) = unsignedValue w a + c :=
  emod_add_of_range _ a c h0 h1

theorem signedValue_add (w : Nat) (hw : 0 < w) (a c : Int)
    (h0 : -(2 ^ (w - 1)) ≤ signedValue w a + c) (h1 : signedValue w a + c < 2 ^ (w - 1)) :
    signedValue w (a + c) = signedValue w a + c := by
  have hpow : (2 : Int) ^ w = 2 * 2 ^ (w - 1) := by
    obtain ⟨n, rfl⟩ : ∃ n, w = n + 1 := ⟨w - 1, by omega⟩
    simp only [Nat.add_sub_cancel]
    rw [pow_succ]
    ring
  unfold signedValue at h0 h1 ⊢
  have he : a + c + 2 ^ (w - 1) = (a + 2 ^ (w - 1)) + c := by ring
  rw [he, emod_add_of_range _ _ c (by omega) (by omega)]
  ring

/-- The non-strict predicate that the `switch` selects still holds after further steps
of the recurrence, when the exit predicate holds and the later value does not wrap. -/
theorem selectNonStrictPredicate_safe (e q : Predicate) (k : Int)
    (hq : selectNonStrictPredicate e (decide (0 < k)) = some q) (hne : e ≠ Predicate.ICMP_NE)
    (w : Nat) (hw : 0 < w) (v b : Int) (n : Nat) (hnw : NoWrap w e v n k)
    (he : e.holds w v b = true) : q.holds w (v + n * k) b = true := by
  have hn : (0 : Int) ≤ n := Int.ofNat_nonneg n
  by_cases hk : 0 < k
  · have hnk : 0 ≤ (n : Int) * k := mul_nonneg hn (le_of_lt hk)
    cases e <;>
      simp only [selectNonStrictPredicate, hk, decide_True, Bool.not_true, Bool.false_eq_true,
        if_true, if_false, Option.some.injEq] at hq <;>
      first
        | exact absurd rfl hne
        | exact absurd hq (by simp)
        | (subst hq
           simp only [NoWrap, Predicate.isSigned, if_true, if_false, Bool.false_eq_true] at hnw
           simp only [Predicate.holds, decide_eq_true_eq] at he ⊢
           first
             | (rw [unsignedValue_add w v _ hnw.1 hnw.2]; omega)
             | (rw [signedValue_add w hw v _ hnw.1 hnw.2]; omega))
  · have hk' : k ≤ 0 := not_lt.1 hk
    have hnk : (n : Int) * k ≤ 0 := mul_nonpos_of_nonneg_of_nonpos hn hk'
    cases e <;>
      simp only [selectNonStrictPredicate, hk, decide_False, Bool.not_false, Bool.false_eq_true,
        if_true, if_false, Option.some.injEq] at hq <;>
      first
        | exact absurd rfl hne
        | exact absurd hq (by simp)
        | (subst hq
           simp only [NoWrap, Predicate.isSigned, if_true, if_false, Bool.false_eq_true] at hnw
           simp only [Predicate.holds, decide_eq_true_eq] at he ⊢
           first
             | (rw [unsignedValue_add w v _ hnw.1 hnw.2]; omega)
             | (rw [signedValue_add w hw v _ hnw.1 hnw.2]; omega))

/-- Counterexample to C15 as stated, on 8-bit words. The loop `loopIR` with the compare
`%0 != %6`, exit on the true edge and step 1 is accepted with the non-strict predicate
`!=`; the exit predicate holds of the value 0 and the bound 2, but the non-strict
predicate does not hold of the later value `0 + 2 * 1` and the bound 2. The loop with the
compare `%0 == %6`, exit on the true edge and step -1 is accepted with the non-strict
predicate `<=` (unsigned); the exit predicate holds of the value 0 and the bound 0, but
the non-strict predicate does not hold of the later value `0 + 1 * (-1)`, the word 255,
and the bound 0. -/
theorem exit_check_not_safe :
    exitPredicateOf Predicate.ICMP_NE true true = Predicate.ICMP_NE ∧
    LoopGoverningIVUtility.construct (loopIR Predicate.ICMP_NE true true 0 1) loopIV
      loopAttribution = some ⟨2, true, [], false, Predicate.ICMP_NE⟩ ∧
    (exitPredicateOf Predicate.ICMP_NE true true).holds 8 0 2 = true ∧
    Predicate.ICMP_NE.holds 8 (0 + (2 : Nat) * 1) 2 = false ∧
    exitPredicateOf Predicate.ICMP_EQ true true = Predicate.ICMP_EQ ∧
    LoopGoverningIVUtility.construct (loopIR Predicate.ICMP_EQ true true 0 (-1)) loopIV
      loopAttribution = some ⟨2, true, [], false, Predicate.ICMP_ULE⟩ ∧
    (exitPredicateOf Predicate.ICMP_EQ true true).holds 8 0 0 = true ∧
    Predicate.ICMP_ULE.holds 8 (0 + (1 : Nat) * (-1)) 0 = false ∧
    -(2 ^ (8 - 1)) ≤ signedValue 8 0 + (1 : Nat) * (-1) ∧
    ¬ NoWrap 8 Predicate.ICMP_EQ 0 1 (-1) := by
  refine ⟨by decide, by decide, by decide, by decide, by decide, by decide, by decide,
    by decide, by decide, ?_⟩
  unfold NoWrap
  decide

/-- C15 (as amended): for every accepted combination whose exit predicate `e` is not
`!=`, with non-strict predicate `q` and constant step `k`, for all `w`-bit words `v` and
`b` and every `n >= 0` such that the later value `v + n*k` of the recurrence does not
wrap (in the signed range when `e` is a signed predicate, in the unsigned range when `e`
is `==` or an unsigned predicate): if `e(v, b)` holds then `q(v + n*k, b)` holds, that
is, the check built by `cloneConditionalCheckFor` for the later value takes its edge to
the exit block. -/
theorem nonStrictPredicate_safe (ir : LoopIR) (iv : InductionVariable)
    (attribution : LoopGoverningIVAttribution) (p : Predicate) (t l : Bool) (k : Int)
    (u : LoopGoverningIVUtility) (hc : GoverningCompare ir iv attribution p t l k)
    (hu : LoopGoverningIVUtility.construct ir iv attribution = some u)
    (hne : exitPredicateOf p t l ≠ Predicate.ICMP_NE) (w : Nat) (hw : 0 < w) (v b : Int)
    (n : Nat) (hnw : NoWrap w (exitPredicateOf p t l) v n k)
    (he : (exitPredicateOf p t l).holds w v b = true) :
    u.nonStrictPredicate.holds w (v + n * k) b = true ∧
    ∀ recurrenceOfIV clonedCompareValue continueBlock exitBlock cmpInst : Nat,
      takesEdgeTo w
        (u.cloneConditionalCheckFor recurrenceOfIV clonedCompareValue continueBlock exitBlock
          cmpInst).1
        (u.cloneConditionalCheckFor recurrenceOfIV clonedCompareValue continueBlock exitBlock
          cmpInst).2 exitBlock (v + n * k) b = true := by
  obtain ⟨c, d, heq⟩ := utility_of_compare ir iv attribution p t l k hc
  rw [heq] at hu
  cases hs : selectNonStrictPredicate (exitPredicateOf p t l) (decide (0 < k)) with
  | none => simp [hs] at hu
  | some q =>
    simp only [hs, Option.map_some', Option.some.injEq] at hu
    have hq : u.nonStrictPredicate = q := by rw [← hu]
    have hsafe := selectNonStrictPredicate_safe _ q k hs hne w hw v b n hnw he
    refine ⟨by rw [hq]; exact hsafe, ?_⟩
    intro r cv cb eb ci
    simp only [LoopGoverningIVUtility.cloneConditionalCheckFor, takesEdgeTo, hq, hsafe, if_true,
      decide_True]

/-- Witness for C15 (as amended): the loop `for (i = 0; i < N; i++)` on 8-bit words, the
value 5, the bound 3 and two further steps. -/
theorem nonStrictPredicate_safe_witness :
    (GoverningCompare (loopIR Predicate.ICMP_SLT false true 0 1) loopIV loopAttribution
        Predicate.ICMP_SLT false true 1 ∧
      LoopGoverningIVUtility.construct (loopIR Predicate.ICMP_SLT false true 0 1) loopIV
        loopAttribution = some ⟨2, true, [], false, Predicate.ICMP_SGE⟩ ∧
      exitPredicateOf Predicate.ICMP_SLT false true ≠ Predicate.ICMP_NE ∧
      0 < 8 ∧
      NoWrap 8 (exitPredicateOf Predicate.ICMP_SLT false true) 5 2 1 ∧
      (exitPredicateOf Predicate.ICMP_SLT false true).holds 8 5 3 = true) ∧
    (Predicate.ICMP_SGE.holds 8 (5 + (2 : Nat) * 1) 3 = true ∧
    ∀ recurrenceOfIV clonedCompareValue continueBlock exitBlock cmpInst : Nat,
      takesEdgeTo 8
        ((⟨2, true, [], false, Predicate.ICMP_SGE⟩ :
          LoopGoverningIVUtility).cloneConditionalCheckFor recurrenceOfIV clonedCompareValue
            continueBlock exitBlock cmpInst).1
        ((⟨2, true, [], false, Predicate.ICMP_SGE⟩ :
          LoopGoverningIVUtility).cloneConditionalCheckFor recurrenceOfIV clonedCompareValue
            continueBlock exitBlock cmpInst).2 exitBlock (5 + (2 : Nat) * 1) 3 = true) :=
  ⟨⟨⟨2, 0, 6, 3, 2, 2, 3, 3, 7, rfl, rfl, rfl, rfl, rfl, by decide, by decide, rfl, rfl⟩,
      by decide, by decide, by decide, (by unfold NoWrap; decide), by decide⟩,
    nonStrictPredicate_safe (loopIR Predicate.ICMP_SLT false true 0 1) loopIV loopAttribution
      Predicate.ICMP_SLT false true 1 ⟨2, true, [], false, Predicate.ICMP_SGE⟩
      ⟨2, 0, 6, 3, 2, 2, 3, 3, 7, rfl, rfl, rfl, rfl, rfl, by decide, by decide, rfl, rfl⟩
      (by decide) (by decide) 8 (by decide) 5 3 2 (by unfold NoWrap; decide) (by decide)⟩

theorem collect_fuel_succ (ir : LoopIR) (scc : SCCGraph) :
    ∀ (fuel : Nat) (queue visited : List Nat) (iv r : InductionVariable),
      InductionVariable.collect ir scc fuel queue visited iv = some r →
      InductionVariable.collect ir scc (fuel + 1) queue visited iv = some r := by
  intro fuel
  induction fuel with
  | zero =>
    intro queue visited iv r h
    cases queue with
    | nil => simpa [InductionVariable.collect] using h
    | cons value rest => simp [InductionVariable.collect] at h
  | succ fuel ih =>
    intro queue visited iv r h
    cases queue with
    | nil => simpa [InductionVariable.collect] using h
    | cons value rest =>
      rw [InductionVariable.collect] at h ⊢
      by_cases hv : value ∈ visited
      · rw [if_pos hv] at h ⊢
        exact ih _ _ _ _ h
      · rw [if_neg hv] at h ⊢
        exact ih _ _ _ _ h

theorem collect_fuel_add (ir : LoopIR) (scc : SCCGraph) (fuel : Nat)
    (queue visited : List Nat) (iv r : InductionVariable)
    (h : InductionVariable.collect ir scc fuel queue visited iv = some r) :
    ∀ extra, InductionVariable.collect ir scc (extra + fuel) queue visited iv = some r := by
  intro extra
  induction extra with
  | zero => simpa using h
  | succ extra ih =>
    rw [Nat.add_right_comm]
    exact collect_fuel_succ ir scc _ _ _ _ _ ih

theorem construct_fuel_add (ir : LoopIR) (bbs : List Nat) (SE : ScalarEvolution)
    (headerPHI : Nat) (scc : SCCGraph) (fuel : Nat) (r : InductionVariable)
    (h : InductionVariable.construct ir bbs SE headerPHI scc fuel = some r) (extra : Nat) :
    InductionVariable.construct ir bbs SE headerPHI scc (extra + fuel) = some r := by
  unfold InductionVariable.construct at h ⊢
  by_cases hg : (!scc.isInGraph headerPHI) = true
  · rw [if_pos hg] at h
    exact absurd h (by simp)
  · rw [if_neg hg] at h ⊢
    cases hc : InductionVariable.collect ir scc fuel [headerPHI] []
        ⟨headerPHI, [], [], [], none, none⟩ with
    | none => rw [hc] at h; exact absurd h (by simp)
    | some iv =>
      rw [hc] at h
      rw [collect_fuel_add ir scc fuel _ _ _ iv hc extra]
      exact h

/-- C16: for the canonical loop `for (i = 0; i < N; i++)` (the loop `loopIR` with the
compare `%0 < %6`, signed or unsigned, the induction variable as left operand, exit on
the false edge, start 0 and step 1) and any fuel from 3 on: the constructor of
`InductionVariable` returns the induction variable with start value the constant 0 and
step the constant 1; the attribution is well formed; and the constructor of
`LoopGoverningIVUtility` succeeds, keeps the operand order, and gives a non-strict
predicate (`>=`, signed or unsigned as the compare) that holds of the words `(i, N)`, of
any width, exactly when `N <= i` in the signedness of the compare, that is, exactly when
the loop condition `i < N` does not hold. -/
theorem canonical_loop_governed (signed : Bool) (fuel : Nat) :
    InductionVariable.construct
        (loopIR (if signed then Predicate.ICMP_SLT else Predicate.ICMP_ULT) false true 0 1)
        [1, 2] (loopSE (SCEV.scConstant 7)) 0 loopSCC (fuel + 3) = some loopIV ∧
    loopIV.startValue = some 5 ∧
    (loopIR (if signed then Predicate.ICMP_SLT else Predicate.ICMP_ULT) false true 0 1).value 5
      = IRValue.constantInt 0 ∧
    loopIV.stepSize = some 7 ∧
    (loopIR (if signed then Predicate.ICMP_SLT else Predicate.ICMP_ULT) false true 0 1).value 7
      = IRValue.constantInt 1 ∧
    LoopGoverningIVAttribution.construct
        (loopIR (if signed then Predicate.ICMP_SLT else Predicate.ICMP_ULT) false true 0 1)
        loopIV loopSCC [3] = some loopAttribution ∧
    loopAttribution.isWellFormed = true ∧
    ∃ u, LoopGoverningIVUtility.construct
        (loopIR (if signed then Predicate.ICMP_SLT else Predicate.ICMP_ULT) false true 0 1)
        loopIV loopAttribution = some u ∧
      u.flipOperandsToUseNonStrictPredicate = false ∧
      u.nonStrictPredicate = (if signed then Predicate.ICMP_SGE else Predicate.ICMP_UGE) ∧
      ∀ (w : Nat) (i N : Int),
        (u.nonStrictPredicate.holds w i N = true ↔
          (if signed then signedValue w N ≤ signedValue w i
           else unsignedValue w N ≤ unsignedValue w i)) ∧
        ((if signed then Predicate.ICMP_SLT else Predicate.ICMP_ULT).holds w i N = true ↔
          ¬ (if signed then signedValue w N ≤ signedValue w i
             else unsignedValue w N ≤ unsignedValue w i)) := by
  cases signed
  · refine ⟨construct_fuel_add _ _ _ _ _ 3 _ (by decide) fuel, rfl, rfl, rfl, rfl, by decide,
      rfl, ⟨2, true, [], false, Predicate.ICMP_UGE⟩,
      by decide, rfl, rfl, ?_⟩
    intro w i N
    simp [Predicate.holds]
  · refine ⟨construct_fuel_add _ _ _ _ _ 3 _ (by decide) fuel, rfl, rfl, rfl, rfl, by decide,
      rfl, ⟨2, true, [], false, Predicate.ICMP_SGE⟩,
      by decide, rfl, rfl, ?_⟩
    intro w i N
    simp [Predicate.holds]

/-! ## Theorems: the outer chunking loop, the chunk counter, and the membership test -/

/-- Counterexample to C23 as stated: for worker 2 with chunk size `2^63` the initial
outer index is 0, not `2 * 2^63`; and with 4 workers of chunk size 1 and the step
`2^62` the outer index does not change in the latch. -/
theorem outer_index_wraps :
    outerIVStart (workerInfo 0 1 10 4 (2 ^ 63) 2) = 0 ∧
    outerIVInc (workerInfo 0 (2 ^ 62) 10 4 1 0) 3 = 3 := by
  decide

/-- C23 (as amended): for every worker id `w`, worker count `C`, chunk size `K`, step
`s`, trip bound `N` and outer index `outerIV`, the outer chunking loop has the initial
outer index `(w * K) mod 2^64`, the outer latch turns the outer index into
`(outerIV + (C * K * s) mod 2^64) mod 2^64`, and the outer header enters the inner loop
(and then the latch) if and only if `outerIV <u N` and otherwise goes to the exit block.
When `w * K` fits in 64 bits the initial outer index is `w * K`, and when
`outerIV + C * K * s` fits in 64 bits the latch increases the outer index by exactly
`C * K * s`. -/
theorem outer_chunking_loop (a s N C K w outerIV fuel : Nat) (visited : List Nat) :
    outerIVStart (workerInfo a s N C K w) = (w * K) % wordSize ∧
    outerIVInc (workerInfo a s N C K w) outerIV
      = (outerIV + (C * K * s) % wordSize) % wordSize ∧
    chunkWorker (workerInfo a s N C K w) fuel
      = outerLoop (workerInfo a s N C K w) fuel ((w * K) % wordSize) [] ∧
    (outerIV < N → outerLoop (workerInfo a s N C K w) (fuel + 1) outerIV visited
      = (innerLoop (workerInfo a s N C K w) outerIV fuel 0 visited).bind
          (outerLoop (workerInfo a s N C K w) fuel
            ((outerIV + (C * K * s) % wordSize) % wordSize))) ∧
    (¬ outerIV < N →
      outerLoop (workerInfo a s N C K w) (fuel + 1) outerIV visited = some visited) ∧
    (w * K < wordSize → outerIVStart (workerInfo a s N C K w) = w * K) ∧
    (outerIV + C * K * s < wordSize →
      outerIVInc (workerInfo a s N C K w) outerIV = outerIV + C * K * s) := by
  have h1 : outerIVStart (workerInfo a s N C K w) = (w * K) % wordSize := by
    simp only [outerIVStart, workerInfo]
  have h2 : outerIVStepSize (workerInfo a s N C K w) = (C * K * s) % wordSize := by
    simp only [outerIVStepSize, workerInfo]
    exact Nat.mod_mul_mod
  have h3 : outerIVInc (workerInfo a s N C K w) outerIV
      = (outerIV + (C * K * s) % wordSize) % wordSize := by
    simp only [outerIVInc, h2]
  refine ⟨h1, h3, ?_, ?_, ?_, ?_, ?_⟩
  · simp only [chunkWorker, h1]
  · intro hlt
    have hc : outerIVCmp (workerInfo a s N C K w) outerIV = true := by
      simp [outerIVCmp, workerInfo, hlt]
    rw [outerLoop, if_pos hc, h3]
    cases innerLoop (workerInfo a s N C K w) outerIV fuel 0 visited <;> rfl
  · intro hlt
    have hc : ¬ outerIVCmp (workerInfo a s N C K w) outerIV = true := by
      simp [outerIVCmp, workerInfo, hlt]
    rw [outerLoop, if_neg hc]
  · intro hstart
    rw [h1]
    exact Nat.mod_eq_of_lt hstart
  · intro hstep
    rw [h3]
    have : C * K * s < wordSize := by omega
    rw [Nat.mod_eq_of_lt this, Nat.mod_eq_of_lt hstep]

/-- Witness for C23 (as amended): worker 2 of 3 with chunk size 4, step 1, bound 97
starts at 8, and its latch takes the outer index from 8 to 20. -/
theorem outer_chunking_loop_witness :
    (2 * 4 < wordSize ∧ 8 + 3 * 4 * 1 < wordSize ∧ 8 < 97) ∧
    outerIVStart (workerInfo 0 1 97 3 4 2) = 2 * 4 ∧
    outerIVInc (workerInfo 0 1 97 3 4 2) 8 = 8 + 3 * 4 * 1 ∧
    outerLoop (workerInfo 0 1 97 3 4 2) (9 + 1) 8 []
      = (innerLoop (workerInfo 0 1 97 3 4 2) 8 9 0 []).bind
          (outerLoop (workerInfo 0 1 97 3 4 2) 9 ((8 + (3 * 4 * 1) % wordSize) % wordSize)) :=
  ⟨⟨by decide, by decide, by decide⟩,
    (outer_chunking_loop 0 1 97 3 4 2 8 9 []).2.2.2.2.2.1 (by decide),
    (outer_chunking_loop 0 1 97 3 4 2 8 9 []).2.2.2.2.2.2 (by decide),
    (outer_chunking_loop 0 1 97 3 4 2 8 9 []).2.2.2.1 (by decide)⟩

/-- C30 (failing inputs): with one worker and chunk size 2 the loop
`for (i = 0; i <u 8; i += 2)` runs its body on 0, 2, 4, 6 but the chunk worker runs the
cloned body on 0, 1, 4, 5; and with one worker and chunk size 1 the loop
`for (i = 5; i <u 8; i += 1)` runs its body on 5, 6, 7 but the chunk worker runs the
cloned body on 0, 1, ..., 7. -/
theorem chunk_worker_ignores_start_and_step :
    originalLoop 2 8 20 0 [] = some [0, 2, 4, 6] ∧
    chunkWorker (workerInfo 0 2 8 1 2 0) 20 = some [0, 1, 4, 5] ∧
    visitedByAll 0 2 8 1 2 20 = [0, 1, 4, 5] ∧
    originalLoop 1 8 20 5 [] = some [5, 6, 7] ∧
    chunkWorker (workerInfo 5 1 8 1 1 0) 20 = some [0, 1, 2, 3, 4, 5, 6, 7] ∧
    visitedByAll 5 1 8 1 1 20 = [0, 1, 2, 3, 4, 5, 6, 7] := by
  decide

theorem doesItContain_of_member (d : SCCDAG) (hwf : d.WellFormed) (s : SCC)
    (hs : s ∈ d.internalNodes) (v : Nat) (hv : v ∈ s.values) :
    d.doesItContain v = some true := by
  unfold SCCDAG.doesItContain
  rw [wellFormed_roundtrip d hwf s hs v hv]

theorem doesItContain_of_absent (d : SCCDAG) (v : Nat)
    (h : d.valueToSCCNode.lookup v = none) : d.doesItContain v = none := by
  unfold SCCDAG.doesItContain SCCDAG.sccOfValue
  rw [h]

/-- C29 (failing input): on the SCCDAG that the constructor builds for the chain
`0 -> 1 -> 2`, the value 7 is internal to no SCC and has no entry in the value-to-SCC
map, and `doesItContain` fails for it instead of returning false; for the value 1, which
is in an SCC, it returns true. -/
theorem doesItContain_fails_for_absent_value :
    SCCDAG.construct chain3 = some chain3SCCDAG ∧
    (∀ s ∈ chain3SCCDAG.internalNodes, 7 ∉ s.values) ∧
    chain3SCCDAG.valueToSCCNode.lookup 7 = none ∧
    chain3SCCDAG.sccOfValue 7 = none ∧
    chain3SCCDAG.doesItContain 7 = none ∧
    chain3SCCDAG.doesItContain 1 = some true := by
  decide

/-! ## Theorems: the chunk counter and the invariance of predicate normalization -/

theorem find?_createChunkPHI (preheaderB : Nat) (B : Nat) :
    ∀ (headerPreds : List Nat), B ∈ headerPreds →
      (createChunkPHI preheaderB headerPreds).find? (fun p => p.2 = B)
        = some (if preheaderB = B then (ChunkIncoming.zeroValueForChunking, B)
            else (ChunkIncoming.chunkWrap, B)) := by
  intro headerPreds
  induction headerPreds with
  | nil => intro h; exact absurd h (List.not_mem_nil B)
  | cons X rest ih =>
    intro h
    unfold createChunkPHI
    rw [List.map_cons, List.find?_cons]
    by_cases hX : X = B
    · subst hX
      by_cases hp : preheaderB = X <;> simp [hp]
    · have hB : B ∈ rest := by
        rcases List.mem_cons.1 h with h' | h'
        · exact absurd h'.symm hX
        · exact h'
      have hne : decide ((if preheaderB = X then (ChunkIncoming.zeroValueForChunking, X)
          else (ChunkIncoming.chunkWrap, X)).2 = B) = false := by
        by_cases hp : preheaderB = X <;> simp [hp, hX]
      rw [hne]
      exact ih hB

theorem succ_mod_cases (n K : Nat) (hK : 1 ≤ K) :
    (n % K + 1 = K → (n + 1) % K = 0) ∧ (n % K + 1 ≠ K → (n + 1) % K = n % K + 1) := by
  have hlt : n % K < K := Nat.mod_lt n (by omega)
  have h : (n + 1) % K = (n % K + 1) % K := by
    rw [Nat.add_mod, Nat.add_mod (n % K) 1 K, Nat.mod_mod]
  constructor
  · intro he
    rw [h, he, Nat.mod_self]
  · intro hne
    rw [h]
    exact Nat.mod_eq_of_lt (by omega)

theorem chunkPHIAfter_latches (w chunkSize preheaderB : Nat) (headerPreds : List Nat)
    (h1 : 1 ≤ chunkSize) (hw : chunkSize < 2 ^ w) (hpre : preheaderB ∈ headerPreds) :
    ∀ latches : List Nat, (∀ B ∈ latches, B ∈ headerPreds ∧ B ≠ preheaderB) →
      chunkPHIAfter w chunkSize (createChunkPHI preheaderB headerPreds)
        (preheaderB :: latches) = latches.length % chunkSize := by
  intro latches
  induction latches using List.reverseRecOn with
  | nil =>
    intro _
    simp only [chunkPHIAfter, List.foldl_cons, List.foldl_nil, phiValueFrom,
      find?_createChunkPHI preheaderB preheaderB headerPreds hpre, if_true,
      ChunkIncoming.value, List.length_nil, Nat.zero_mod]
  | append_singleton latches B ih =>
    intro hl
    have hB := hl B (List.mem_append_right _ (List.mem_singleton_self B))
    have ih' := ih (fun X hX => hl X (List.mem_append_left _ hX))
    have hfold : chunkPHIAfter w chunkSize (createChunkPHI preheaderB headerPreds)
        (preheaderB :: (latches ++ [B]))
        = phiValueFrom w chunkSize (createChunkPHI preheaderB headerPreds)
            (chunkPHIAfter w chunkSize (createChunkPHI preheaderB headerPreds)
              (preheaderB :: latches)) B := by
      simp only [chunkPHIAfter, ← List.cons_append, List.foldl_append, List.foldl_cons,
        List.foldl_nil]
    rw [hfold, ih']
    have hne : ¬ preheaderB = B := fun h => hB.2 h.symm
    have hlt : latches.length % chunkSize < chunkSize := Nat.mod_lt _ (by omega)
    have hinc : chunkIncrement w (latches.length % chunkSize)
        = latches.length % chunkSize + 1 := by
      unfold chunkIncrement
      exact Nat.mod_eq_of_lt (by omega)
    obtain ⟨c1, c2⟩ := succ_mod_cases latches.length chunkSize h1
    simp only [phiValueFrom, find?_createChunkPHI preheaderB B headerPreds hB.1, if_neg hne,
      ChunkIncoming.value, isChunkCompleted, hinc, List.length_append, List.length_singleton]
    by_cases he : latches.length % chunkSize + 1 = chunkSize
    · simp only [he, decide_True, if_true]
      exact (c1 he).symm
    · simp only [he, decide_False, Bool.false_eq_true, if_false]
      exact (c2 he).symm

/-- C27: for a chunk PHI `w` bits wide and a chunk size from 1 up to `2^w - 1`, after
the header was entered from the preheader and then through any `n` latch edges, the
chunk PHI built by `createChunkPHI` has the value `n mod chunkSize`, which is below the
chunk size; and the condition `isChunkCompleted` that `chunkInductionVariablePHI` uses
holds in the next latch traversal exactly when that traversal is a multiple of
`chunkSize`, where the induction variable then takes the value `incoming + chunkStepSize`
and otherwise `incoming`. -/
theorem chunk_counter_mod (w chunkSize preheaderB : Nat) (headerPreds latches : List Nat)
    (incoming chunkStepSize : Nat)
    (h1 : 1 ≤ chunkSize) (hw : chunkSize < 2 ^ w) (hpre : preheaderB ∈ headerPreds)
    (hl : ∀ B ∈ latches, B ∈ headerPreds ∧ B ≠ preheaderB) :
    chunkPHIAfter w chunkSize (createChunkPHI preheaderB headerPreds) [preheaderB] = 0 ∧
    chunkPHIAfter w chunkSize (createChunkPHI preheaderB headerPreds) (preheaderB :: latches)
      = latches.length % chunkSize ∧
    chunkPHIAfter w chunkSize (createChunkPHI preheaderB headerPreds) (preheaderB :: latches)
      < chunkSize ∧
    (isChunkCompleted w chunkSize
        (chunkPHIAfter w chunkSize (createChunkPHI preheaderB headerPreds)
          (preheaderB :: latches)) = true
      ↔ (latches.length + 1) % chunkSize = 0) ∧
    nextStepOrNextChunk w chunkSize
        (chunkPHIAfter w chunkSize (createChunkPHI preheaderB headerPreds)
          (preheaderB :: latches)) incoming chunkStepSize
      = (if (latches.length + 1) % chunkSize = 0 then (incoming + chunkStepSize) % 2 ^ w
         else incoming) := by
  have h0 := chunkPHIAfter_latches w chunkSize preheaderB headerPreds h1 hw hpre []
    (fun B hB => absurd hB (List.not_mem_nil B))
  have hn := chunkPHIAfter_latches w chunkSize preheaderB headerPreds h1 hw hpre latches hl
  have hlt : latches.length % chunkSize < chunkSize := Nat.mod_lt _ (by omega)
  have hinc : chunkIncrement w (latches.length % chunkSize)
      = latches.length % chunkSize + 1 := by
    unfold chunkIncrement
    exact Nat.mod_eq_of_lt (by omega)
  obtain ⟨c1, c2⟩ := succ_mod_cases latches.length chunkSize h1
  have hiff : isChunkCompleted w chunkSize (latches.length % chunkSize) = true
      ↔ (latches.length + 1) % chunkSize = 0 := by
    simp only [isChunkCompleted, hinc, decide_eq_true_eq]
    constructor
    · exact c1
    · intro hz
      by_contra hne
      rw [c2 hne] at hz
      omega
  refine ⟨by simpa using h0, hn, by rw [hn]; exact hlt, by rw [hn]; exact hiff, ?_⟩
  rw [hn]
  unfold nextStepOrNextChunk
  by_cases hz : (latches.length + 1) % chunkSize = 0
  · rw [if_pos (hiff.2 hz), if_pos hz]
  · rw [if_neg (fun h => hz (hiff.1 h)), if_neg hz]

/-- Witness for C27: a 64-bit counter, chunk size 3, preheader block 0, latch block 2,
after five latch traversals. -/
theorem chunk_counter_mod_witness :
    (1 ≤ 3 ∧ 3 < 2 ^ 64 ∧ 0 ∈ [0, 2] ∧ ∀ B ∈ [2, 2, 2, 2, 2], B ∈ [0, 2] ∧ B ≠ 0) ∧
    (chunkPHIAfter 64 3 (createChunkPHI 0 [0, 2]) [0] = 0 ∧
    chunkPHIAfter 64 3 (createChunkPHI 0 [0, 2]) (0 :: [2, 2, 2, 2, 2])
      = [2, 2, 2, 2, 2].length % 3 ∧
    chunkPHIAfter 64 3 (createChunkPHI 0 [0, 2]) (0 :: [2, 2, 2, 2, 2]) < 3 ∧
    (isChunkCompleted 64 3
        (chunkPHIAfter 64 3 (createChunkPHI 0 [0, 2]) (0 :: [2, 2, 2, 2, 2])) = true
      ↔ ([2, 2, 2, 2, 2].length + 1) % 3 = 0) ∧
    nextStepOrNextChunk 64 3
        (chunkPHIAfter 64 3 (createChunkPHI 0 [0, 2]) (0 :: [2, 2, 2, 2, 2])) 10 100
      = (if ([2, 2, 2, 2, 2].length + 1) % 3 = 0 then (10 + 100) % 2 ^ 64 else 10)) :=
  ⟨⟨by decide, by decide, by decide, by decide⟩,
    chunk_counter_mod 64 3 0 [0, 2] [2, 2, 2, 2, 2] 10 100 (by decide) (by decide) (by decide)
      (by decide)⟩

theorem getSwappedPredicate_involutive (p : Predicate) :
    getSwappedPredicate (getSwappedPredicate p) = p := by
  cases p <;> rfl

theorem getInversePredicate_involutive (p : Predicate) :
    getInversePredicate (getInversePredicate p) = p := by
  cases p <;> rfl

theorem getSwapped_getInverse_getSwapped (p : Predicate) :
    getSwappedPredicate (getInversePredicate (getSwappedPredicate p))
      = getInversePredicate p := by
  cases p <;> rfl

theorem exitPredicateOf_swapped (p : Predicate) (t : Bool) :
    exitPredicateOf (getSwappedPredicate p) t false = exitPredicateOf p t true := by
  cases t <;>
    simp [exitPredicateOf, getSwappedPredicate_involutive, getSwapped_getInverse_getSwapped]

theorem exitPredicateOf_inverse (p : Predicate) (l : Bool) :
    exitPredicateOf (getInversePredicate p) false l = exitPredicateOf p true l := by
  cases l <;> simp [exitPredicateOf, getInversePredicate_involutive]

theorem loopIR_governingCompare (p : Predicate) (t l : Bool) (a k : Int) :
    GoverningCompare (loopIR p t l a k) loopIV loopAttribution p t l k := by
  cases t <;> cases l
  · exact ⟨2, 6, 0, 3, 2, 2, 3, 3, 7, rfl, rfl, rfl, rfl, rfl, by decide, by decide, rfl, rfl⟩
  · exact ⟨2, 0, 6, 3, 2, 2, 3, 3, 7, rfl, rfl, rfl, rfl, rfl, by decide, by decide, rfl, rfl⟩
  · exact ⟨2, 6, 0, 3, 2, 3, 2, 3, 7, rfl, rfl, rfl, rfl, rfl, by decide, by decide, rfl, rfl⟩
  · exact ⟨2, 0, 6, 3, 2, 3, 2, 3, 7, rfl, rfl, rfl, rfl, rfl, by decide, by decide, rfl, rfl⟩

/-- C28: for every predicate `p`, exit edge `t`, operand position `l` and constant step
`k`: the constructor of `LoopGoverningIVUtility` accepts the compare `p(IV, bound)` with
the induction variable on the left exactly when it accepts `swapped(p)(bound, IV)` with
the induction variable on the right, with the same non-strict predicate, and
`updateConditionAndBranchToCatchIteratingPastExitValue` turns both compares into the
same compare; and it accepts `p` with exit on the true edge exactly when it accepts
`inverse(p)` with exit on the false edge, with the same non-strict predicate and the
same operand flip, and the update turns both branches into the same branch. -/
theorem normalization_invariant (p : Predicate) (t l : Bool) (k : Int)
    (irA irB irC irD : LoopIR) (ivA ivB ivC ivD : InductionVariable)
    (aA aB aC aD : LoopGoverningIVAttribution)
    (hA : GoverningCompare irA ivA aA p t true k)
    (hB : GoverningCompare irB ivB aB (getSwappedPredicate p) t false k)
    (hC : GoverningCompare irC ivC aC p true l k)
    (hD : GoverningCompare irD ivD aD (getInversePredicate p) false l k) :
    (LoopGoverningIVUtility.construct irA ivA aA).map
        LoopGoverningIVUtility.nonStrictPredicate
      = (LoopGoverningIVUtility.construct irB ivB aB).map
        LoopGoverningIVUtility.nonStrictPredicate ∧
    (∀ uA uB, LoopGoverningIVUtility.construct irA ivA aA = some uA →
      LoopGoverningIVUtility.construct irB ivB aB = some uB →
      ∀ (iv bound : Nat) (br : IRValue) (exitBlock : Nat),
        (uA.updateConditionAndBranchToCatchIteratingPastExitValue (IRValue.cmp p iv bound)
            br exitBlock).1
          = (uB.updateConditionAndBranchToCatchIteratingPastExitValue
            (IRValue.cmp (getSwappedPredicate p) bound iv) br exitBlock).1) ∧
    (LoopGoverningIVUtility.construct irC ivC aC).map
        (fun u => (u.nonStrictPredicate, u.flipOperandsToUseNonStrictPredicate))
      = (LoopGoverningIVUtility.construct irD ivD aD).map
        (fun u => (u.nonStrictPredicate, u.flipOperandsToUseNonStrictPredicate)) ∧
    (∀ uC uD, LoopGoverningIVUtility.construct irC ivC aC = some uC →
      LoopGoverningIVUtility.construct irD ivD aD = some uD →
      ∀ (cmp : IRValue) (condition exitBlock continueBlock : Nat),
        exitBlock ≠ continueBlock →
        (uC.updateConditionAndBranchToCatchIteratingPastExitValue cmp
            (IRValue.condBr condition exitBlock continueBlock) exitBlock).2
          = (uD.updateConditionAndBranchToCatchIteratingPastExitValue cmp
            (IRValue.condBr condition continueBlock exitBlock) exitBlock).2) := by
  obtain ⟨cA, dA, eA⟩ := utility_of_compare irA ivA aA p t true k hA
  obtain ⟨cB, dB, eB⟩ := utility_of_compare irB ivB aB _ t false k hB
  obtain ⟨cC, dC, eC⟩ := utility_of_compare irC ivC aC p true l k hC
  obtain ⟨cD, dD, eD⟩ := utility_of_compare irD ivD aD _ false l k hD
  rw [exitPredicateOf_swapped] at eB
  rw [exitPredicateOf_inverse] at eD
  refine ⟨?_, ?_, ?_, ?_⟩
  · rw [eA, eB]
    cases selectNonStrictPredicate (exitPredicateOf p t true) (decide (0 < k)) <;> rfl
  · intro uA uB hA' hB' iv bound br exitBlock
    rw [eA] at hA'
    rw [eB] at hB'
    cases hs : selectNonStrictPredicate (exitPredicateOf p t true) (decide (0 < k)) with
    | none => rw [hs] at hA'; exact absurd hA' (by simp)
    | some q =>
      rw [hs] at hA' hB'
      simp only [Option.map_some', Option.some.injEq] at hA' hB'
      subst hA' hB'
      simp [LoopGoverningIVUtility.updateConditionAndBranchToCatchIteratingPastExitValue]
  · rw [eC, eD]
    cases selectNonStrictPredicate (exitPredicateOf p true l) (decide (0 < k)) <;> rfl
  · intro uC uD _ _ cmp condition exitBlock continueBlock hne
    simp [LoopGoverningIVUtility.updateConditionAndBranchToCatchIteratingPastExitValue, hne,
      Ne.symm hne]

/-- Witness for C28: the loop `loopIR` written as `sge` with exit on the true edge and
the induction variable on the left, as `sle` with the induction variable on the right,
and as `slt` with exit on the false edge (the canonical loop); step 1. -/
theorem normalization_invariant_witness :
    (GoverningCompare (loopIR Predicate.ICMP_SGE true true 0 1) loopIV loopAttribution
        Predicate.ICMP_SGE true true 1 ∧
      GoverningCompare (loopIR Predicate.ICMP_SLE true false 0 1) loopIV loopAttribution
        (getSwappedPredicate Predicate.ICMP_SGE) true false 1 ∧
      GoverningCompare (loopIR Predicate.ICMP_SLT false true 0 1) loopIV loopAttribution
        (getInversePredicate Predicate.ICMP_SGE) false true 1) ∧
    ((LoopGoverningIVUtility.construct (loopIR Predicate.ICMP_SGE true true 0 1) loopIV
        loopAttribution).map LoopGoverningIVUtility.nonStrictPredicate
      = (LoopGoverningIVUtility.construct (loopIR Predicate.ICMP_SLE true false 0 1) loopIV
        loopAttribution).map LoopGoverningIVUtility.nonStrictPredicate ∧
    (∀ uA uB, LoopGoverningIVUtility.construct (loopIR Predicate.ICMP_SGE true true 0 1)
        loopIV loopAttribution = some uA →
      LoopGoverningIVUtility.construct (loopIR Predicate.ICMP_SLE true false 0 1) loopIV
        loopAttribution = some uB →
      ∀ (iv bound : Nat) (br : IRValue) (exitBlock : Nat),
        (uA.updateConditionAndBranchToCatchIteratingPastExitValue
            (IRValue.cmp Predicate.ICMP_SGE iv bound) br exitBlock).1
          = (uB.updateConditionAndBranchToCatchIteratingPastExitValue
            (IRValue.cmp (getSwappedPredicate Predicate.ICMP_SGE) bound iv) br exitBlock).1) ∧
    (LoopGoverningIVUtility.construct (loopIR Predicate.ICMP_SGE true true 0 1) loopIV
        loopAttribution).map
        (fun u => (u.nonStrictPredicate, u.flipOperandsToUseNonStrictPredicate))
      = (LoopGoverningIVUtility.construct (loopIR Predicate.ICMP_SLT false true 0 1) loopIV
        loopAttribution).map
        (fun u => (u.nonStrictPredicate, u.flipOperandsToUseNonStrictPredicate)) ∧
    (∀ uC uD, LoopGoverningIVUtility.construct (loopIR Predicate.ICMP_SGE true true 0 1)
        loopIV loopAttribution = some uC →
      LoopGoverningIVUtility.construct (loopIR Predicate.ICMP_SLT false true 0 1) loopIV
        loopAttribution = some uD →
      ∀ (cmp : IRValue) (condition exitBlock continueBlock : Nat),
        exitBlock ≠ continueBlock →
        (uC.updateConditionAndBranchToCatchIteratingPastExitValue cmp
            (IRValue.condBr condition exitBlock continueBlock) exitBlock).2
          = (uD.updateConditionAndBranchToCatchIteratingPastExitValue cmp
            (IRValue.condBr condition continueBlock exitBlock) exitBlock).2)) :=
  ⟨⟨loopIR_governingCompare Predicate.ICMP_SGE true true 0 1,
      loopIR_governingCompare Predicate.ICMP_SLE true false 0 1,
      loopIR_governingCompare Predicate.ICMP_SLT false true 0 1⟩,
    normalization_invariant Predicate.ICMP_SGE true true 1
      (loopIR Predicate.ICMP_SGE true true 0 1) (loopIR Predicate.ICMP_SLE true false 0 1)
      (loopIR Predicate.ICMP_SGE true true 0 1) (loopIR Predicate.ICMP_SLT false true 0 1)
      loopIV loopIV loopIV loopIV loopAttribution loopAttribution loopAttribution
      loopAttribution
      (loopIR_governingCompare Predicate.ICMP_SGE true true 0 1)
      (loopIR_governingCompare Predicate.ICMP_SLE true false 0 1)
      (loopIR_governingCompare Predicate.ICMP_SGE true true 0 1)
      (loopIR_governingCompare Predicate.ICMP_SLT false true 0 1)⟩

/-! ## Theorems: the member sets of an induction variable -/

theorem isInstruction_of_isPHINode (x : IRValue) (h : x.isPHINode = true) :
    x.isInstruction = true := by
  cases x <;> first | rfl | simp [IRValue.isPHINode] at h

theorem mem_pushed (scc : SCCGraph) (a b : Nat) :
    b ∈ ((scc.getIncomingEdges a).filter
      (fun edge => edge.isDataDependence && scc.isInternal edge.src)).map DepEdge.src
      ↔ scc.ivStep a b := by
  simp only [List.mem_map, List.mem_filter, mem_getIncomingEdges, Bool.and_eq_true,
    SCCGraph.ivStep]
  constructor
  · rintro ⟨e, ⟨⟨he, hd⟩, hdd, hi⟩, hs⟩
    exact ⟨e, he, hdd, hi, hd, hs⟩
  · rintro ⟨e, he, hdd, hi, hd, hs⟩
    exact ⟨e, ⟨⟨he, hd⟩, hdd, hi⟩, hs⟩

theorem collectInv_step (ir : LoopIR) (scc : SCCGraph) (headerPHI value : Nat)
    (queue visited : List Nat) (iv : InductionVariable) (hv : value ∉ visited)
    (h : CollectInv ir scc headerPHI (value :: queue) visited iv) :
    CollectInv ir scc headerPHI
      (queue ++ ((scc.getIncomingEdges value).filter
        (fun edge => edge.isDataDependence && scc.isInternal edge.src)).map DepEdge.src)
      (setInsert value visited)
      (if (ir.value value).isPHINode then
          { iv with PHIs := setInsert value iv.PHIs,
                    allInstructions := setInsert value iv.allInstructions }
        else if (ir.value value).isInstruction then
          { iv with accumulators := setInsert value iv.accumulators,
                    allInstructions := setInsert value iv.allInstructions }
        else iv) := by
  have hval : scc.IVReach headerPHI value := h.reach value (Or.inl (List.mem_cons_self _ _))
  refine ⟨?_, ?_, ?_, ?_, ?_, ?_⟩
  · intro v hvm
    rcases hvm with hq | hvis
    · rcases List.mem_append.1 hq with hq' | hp
      · exact h.reach v (Or.inl (List.mem_cons_of_mem _ hq'))
      · exact Relation.ReflTransGen.tail hval ((mem_pushed scc value v).1 hp)
    · rcases (mem_setInsert value v visited).1 hvis with rfl | hvis'
      · exact hval
      · exact h.reach v (Or.inr hvis')
  · intro v hvis b hb
    rcases (mem_setInsert value v visited).1 hvis with rfl | hvis'
    · exact Or.inr (List.mem_append_right _ ((mem_pushed scc v b).2 hb))
    · rcases h.closed v hvis' b hb with hb' | hb'
      · exact Or.inl ((mem_setInsert value b visited).2 (Or.inr hb'))
      · rcases List.mem_cons.1 hb' with rfl | hb''
        · exact Or.inl ((mem_setInsert b b visited).2 (Or.inl rfl))
        · exact Or.inr (List.mem_append_left _ hb'')
  · rcases h.start with hs | hs
    · exact Or.inl ((mem_setInsert value headerPHI visited).2 (Or.inr hs))
    · rcases List.mem_cons.1 hs with rfl | hs'
      · exact Or.inl ((mem_setInsert headerPHI headerPHI visited).2 (Or.inl rfl))
      · exact Or.inr (List.mem_append_left _ hs')
  · intro v
    by_cases hp : (ir.value value).isPHINode = true
    · simp only [hp, if_true, mem_setInsert, h.phis v]
      constructor
      · rintro (rfl | ⟨h1, h2⟩)
        · exact ⟨Or.inl rfl, hp⟩
        · exact ⟨Or.inr h1, h2⟩
      · rintro ⟨rfl | h1, h2⟩
        · exact Or.inl rfl
        · exact Or.inr ⟨h1, h2⟩
    · have hsame : (if (ir.value value).isPHINode = true then
            ({ iv with PHIs := setInsert value iv.PHIs,
                       allInstructions := setInsert value iv.allInstructions } :
              InductionVariable)
          else if (ir.value value).isInstruction = true then
            { iv with accumulators := setInsert value iv.accumulators,
                      allInstructions := setInsert value iv.allInstructions }
          else iv).PHIs = iv.PHIs := by
        rw [if_neg hp]
        split <;> rfl
      rw [hsame, h.phis v, mem_setInsert]
      constructor
      · rintro ⟨h1, h2⟩
        exact ⟨Or.inr h1, h2⟩
      · rintro ⟨rfl | h1, h2⟩
        · exact absurd h2 hp
        · exact ⟨h1, h2⟩
  · intro v
    by_cases hp : (ir.value value).isPHINode = true
    · simp only [hp, if_true, mem_setInsert, h.accs v]
      constructor
      · rintro ⟨h1, h2, h3⟩
        exact ⟨Or.inr h1, h2, h3⟩
      · rintro ⟨rfl | h1, h2, h3⟩
        · rw [hp] at h3; exact absurd h3 (by simp)
        · exact ⟨h1, h2, h3⟩
    · have hp' : (ir.value value).isPHINode = false := by simpa using hp
      by_cases hi : (ir.value value).isInstruction = true
      · simp only [hp', Bool.false_eq_true, if_false, hi, if_true, mem_setInsert, h.accs v]
        constructor
        · rintro (rfl | ⟨h1, h2, h3⟩)
          · exact ⟨Or.inl rfl, hi, hp'⟩
          · exact ⟨Or.inr h1, h2, h3⟩
        · rintro ⟨rfl | h1, h2, h3⟩
          · exact Or.inl rfl
          · exact Or.inr ⟨h1, h2, h3⟩
      · simp only [hp', Bool.false_eq_true, if_false, hi, mem_setInsert, h.accs v]
        constructor
        · rintro ⟨h1, h2, h3⟩
          exact ⟨Or.inr h1, h2, h3⟩
        · rintro ⟨rfl | h1, h2, h3⟩
          · exact absurd h2 hi
          · exact ⟨h1, h2, h3⟩
  · intro v
    by_cases hp : (ir.value value).isPHINode = true
    · have hi := isInstruction_of_isPHINode _ hp
      simp only [hp, if_true, mem_setInsert, h.all v]
      constructor
      · rintro (rfl | ⟨h1, h2⟩)
        · exact ⟨Or.inl rfl, hi⟩
        · exact ⟨Or.inr h1, h2⟩
      · rintro ⟨rfl | h1, h2⟩
        · exact Or.inl rfl
        · exact Or.inr ⟨h1, h2⟩
    · have hp' : (ir.value value).isPHINode = false := by simpa using hp
      by_cases hi : (ir.value value).isInstruction = true
      · simp only [hp', Bool.false_eq_true, if_false, hi, if_true, mem_setInsert, h.all v]
        constructor
        · rintro (rfl | ⟨h1, h2⟩)
          · exact ⟨Or.inl rfl, hi⟩
          · exact ⟨Or.inr h1, h2⟩
        · rintro ⟨rfl | h1, h2⟩
          · exact Or.inl rfl
          · exact Or.inr ⟨h1, h2⟩
      · simp only [hp', Bool.false_eq_true, if_false, hi, mem_setInsert, h.all v]
        constructor
        · rintro ⟨h1, h2⟩
          exact ⟨Or.inr h1, h2⟩
        · rintro ⟨rfl | h1, h2⟩
          · exact absurd h2 hi
          · exact ⟨h1, h2⟩

theorem collectInv_skip (ir : LoopIR) (scc : SCCGraph) (headerPHI value : Nat)
    (queue visited : List Nat) (iv : InductionVariable) (hv : value ∈ visited)
    (h : CollectInv ir scc headerPHI (value :: queue) visited iv) :
    CollectInv ir scc headerPHI queue visited iv := by
  refine ⟨?_, ?_, ?_, h.phis, h.accs, h.all⟩
  · intro v hvm
    rcases hvm with hq | hvis
    · exact h.reach v (Or.inl (List.mem_cons_of_mem _ hq))
    · exact h.reach v (Or.inr hvis)
  · intro v hvis b hb
    rcases h.closed v hvis b hb with hb' | hb'
    · exact Or.inl hb'
    · rcases List.mem_cons.1 hb' with rfl | hb''
      · exact Or.inl hv
      · exact Or.inr hb''
  · rcases h.start with hs | hs
    · exact Or.inl hs
    · rcases List.mem_cons.1 hs with rfl | hs'
      · exact Or.inl hv
      · exact Or.inr hs'

theorem collect_inv (ir : LoopIR) (scc : SCCGraph) (headerPHI : Nat) :
    ∀ (fuel : Nat) (queue visited : List Nat) (iv r : InductionVariable),
      InductionVariable.collect ir scc fuel queue visited iv = some r →
      CollectInv ir scc headerPHI queue visited iv →
      ∃ visited', CollectInv ir scc headerPHI [] visited' r := by
  intro fuel
  induction fuel with
  | zero =>
    intro queue visited iv r h hinv
    cases queue with
    | nil =>
      simp only [InductionVariable.collect, Option.some.injEq] at h
      subst h
      exact ⟨visited, hinv⟩
    | cons value rest => simp [InductionVariable.collect] at h
  | succ fuel ih =>
    intro queue visited iv r h hinv
    cases queue with
    | nil =>
      simp only [InductionVariable.collect, Option.some.injEq] at h
      subst h
      exact ⟨visited, hinv⟩
    | cons value rest =>
      rw [InductionVariable.collect] at h
      by_cases hv : value ∈ visited
      · rw [if_pos hv] at h
        exact ih _ _ _ _ h (collectInv_skip ir scc headerPHI value rest visited iv hv hinv)
      · rw [if_neg hv] at h
        exact ih _ _ _ _ h (collectInv_step ir scc headerPHI value rest visited iv hv hinv)

theorem collectInv_final (ir : LoopIR) (scc : SCCGraph) (headerPHI : Nat)
    (visited : List Nat) (iv : InductionVariable)
    (h : CollectInv ir scc headerPHI [] visited iv) (v : Nat) :
    v ∈ visited ↔ scc.IVReach headerPHI v := by
  constructor
  · intro hv
    exact h.reach v (Or.inr hv)
  · intro hr
    induction hr with
    | refl =>
      rcases h.start with hs | hs
      · exact hs
      · exact absurd hs (List.not_mem_nil _)
    | tail _ hstep ih =>
      rcases h.closed _ ih _ hstep with hb | hb
      · exact hb
      · exact absurd hb (List.not_mem_nil _)

theorem unvisited_edges (value : Nat) (visited : List Nat) (hv : value ∉ visited) :
    ∀ edges : List DepEdge,
      (edges.filter (fun e => decide (e.dst ∉ setInsert value visited))).length
        + (edges.filter (fun e => decide (e.dst = value))).length
      = (edges.filter (fun e => decide (e.dst ∉ visited))).length := by
  intro edges
  induction edges with
  | nil => rfl
  | cons e rest ih =>
    by_cases h1 : e.dst = value
    · have d1 : decide (e.dst ∉ setInsert value visited) = false := by
        simp [mem_setInsert, h1]
      have d2 : decide (e.dst = value) = true := by simp [h1]
      have d3 : decide (e.dst ∉ visited) = true := by simp [h1, hv]
      simp only [List.filter_cons, d1, d2, d3, if_true, Bool.false_eq_true, if_false,
        List.length_cons]
      omega
    · by_cases h2 : e.dst ∈ visited
      · have d1 : decide (e.dst ∉ setInsert value visited) = false := by
          simp [mem_setInsert, h2]
        have d2 : decide (e.dst = value) = false := by simp [h1]
        have d3 : decide (e.dst ∉ visited) = false := by simp [h2]
        simp only [List.filter_cons, d1, d2, d3, Bool.false_eq_true, if_false]
        exact ih
      · have d1 : decide (e.dst ∉ setInsert value visited) = true := by
          simp [mem_setInsert, h1, h2]
        have d2 : decide (e.dst = value) = false := by simp [h1]
        have d3 : decide (e.dst ∉ visited) = true := by simp [h2]
        simp only [List.filter_cons, d1, d2, d3, if_true, Bool.false_eq_true, if_false,
          List.length_cons]
        omega

theorem pushed_length_le (scc : SCCGraph) (value : Nat) :
    (((scc.getIncomingEdges value).filter
      (fun edge => edge.isDataDependence && scc.isInternal edge.src)).map DepEdge.src).length
      ≤ (scc.edges.filter (fun e => decide (e.dst = value))).length := by
  rw [List.length_map]
  exact List.length_filter_le _ _

theorem collect_terminates (ir : LoopIR) (scc : SCCGraph) :
    ∀ (fuel : Nat) (queue visited : List Nat) (iv : InductionVariable),
      queue.length + (scc.edges.filter (fun e => decide (e.dst ∉ visited))).length ≤ fuel →
      ∃ r, InductionVariable.collect ir scc fuel queue visited iv = some r := by
  intro fuel
  induction fuel with
  | zero =>
    intro queue visited iv h
    cases queue with
    | nil => exact ⟨iv, by simp [InductionVariable.collect]⟩
    | cons value rest => simp at h
  | succ fuel ih =>
    intro queue visited iv h
    cases queue with
    | nil => exact ⟨iv, by simp [InductionVariable.collect]⟩
    | cons value rest =>
      rw [InductionVariable.collect]
      by_cases hv : value ∈ visited
      · rw [if_pos hv]
        exact ih _ _ _ (by simp only [List.length_cons] at h; omega)
      · rw [if_neg hv]
        apply ih
        have h1 := unvisited_edges value visited hv scc.edges
        have h2 := pushed_length_le scc value
        simp only [List.length_cons] at h
        rw [List.length_append]
        omega

/-- C26: for every SCC, every header PHI that is a node of its graph and has an add
recurrence as scalar evolution, and every fuel above the number of edges of the SCC, the
traversal of the constructor of `InductionVariable` terminates (the constructor
returns), and afterwards `allInstructions` holds exactly the instructions reachable
from the header PHI by following incoming data-dependence edges whose source is
internal to the SCC, `PHIs` exactly the PHIs among them (the header PHI is one),
`accumulators` exactly the other instructions among them, and `PHIs` and `accumulators`
are disjoint with union `allInstructions`. -/
theorem iv_member_sets (ir : LoopIR) (bbs : List Nat) (SE : ScalarEvolution)
    (headerPHI : Nat) (scc : SCCGraph) (fuel : Nat) (incoming : List (Nat × Nat))
    (stepSCEV : SCEV) (hg : scc.isInGraph headerPHI = true)
    (hphi : ir.value headerPHI = IRValue.phi incoming)
    (hscev : SE.getSCEV headerPHI = SCEV.scAddRecExpr stepSCEV)
    (hf : scc.edges.length + 1 ≤ fuel) :
    ∃ iv, InductionVariable.construct ir bbs SE headerPHI scc fuel = some iv ∧
      (∀ v, v ∈ iv.allInstructions ↔
        (scc.IVReach headerPHI v ∧ (ir.value v).isInstruction = true)) ∧
      (∀ v, v ∈ iv.PHIs ↔ (scc.IVReach headerPHI v ∧ (ir.value v).isPHINode = true)) ∧
      headerPHI ∈ iv.PHIs ∧
      (∀ v, v ∈ iv.accumulators ↔
        (scc.IVReach headerPHI v ∧ (ir.value v).isInstruction = true ∧
          (ir.value v).isPHINode = false)) ∧
      (∀ v ∈ iv.PHIs, v ∉ iv.accumulators) ∧
      (∀ v, v ∈ iv.allInstructions ↔ (v ∈ iv.PHIs ∨ v ∈ iv.accumulators)) := by
  have hfuel : [headerPHI].length
      + (scc.edges.filter (fun e => decide (e.dst ∉ ([] : List Nat)))).length ≤ fuel := by
    have := List.length_filter_le (fun e : DepEdge => decide (e.dst ∉ ([] : List Nat)))
      scc.edges
    simp only [List.length_singleton]
    omega
  obtain ⟨r, hr⟩ := collect_terminates ir scc fuel [headerPHI] []
    ⟨headerPHI, [], [], [], none, none⟩ hfuel
  have hinit : CollectInv ir scc headerPHI [headerPHI] [] ⟨headerPHI, [], [], [], none, none⟩ := by
    refine ⟨?_, ?_, Or.inr (List.mem_singleton_self _), ?_, ?_, ?_⟩
    · intro v hv
      rcases hv with hv | hv
      · rw [List.mem_singleton.1 hv]
        exact Relation.ReflTransGen.refl
      · exact absurd hv (List.not_mem_nil v)
    · intro v hv
      exact absurd hv (List.not_mem_nil v)
    · intro v; simp
    · intro v; simp
    · intro v; simp
  obtain ⟨visited, hinv⟩ := collect_inv ir scc headerPHI fuel _ _ _ r hr hinit
  have hvis := collectInv_final ir scc headerPHI visited r hinv
  refine ⟨{ r with startValue := fetchStartValue bbs incoming,
                   stepSize := fetchStepSize SE stepSCEV }, ?_, ?_, ?_, ?_, ?_, ?_, ?_⟩
  · unfold InductionVariable.construct
    simp only [hg, Bool.not_true, Bool.false_eq_true, if_false, hr, hphi, hscev]
  · intro v
    rw [← hvis v]
    exact hinv.all v
  · intro v
    rw [← hvis v]
    exact hinv.phis v
  · refine (hinv.phis headerPHI).2 ⟨(hvis headerPHI).2 Relation.ReflTransGen.refl, ?_⟩
    rw [hphi]
    rfl
  · intro v
    rw [← hvis v]
    exact hinv.accs v
  · intro v hp ha
    have h1 := ((hinv.phis v).1 hp).2
    have h2 := ((hinv.accs v).1 ha).2.2
    rw [h1] at h2
    exact absurd h2 (by simp)
  · intro v
    show v ∈ r.allInstructions ↔ (v ∈ r.PHIs ∨ v ∈ r.accumulators)
    rw [hinv.all v, hinv.phis v, hinv.accs v]
    constructor
    · rintro ⟨h1, h2⟩
      by_cases hp : (ir.value v).isPHINode = true
      · exact Or.inl ⟨h1, hp⟩
      · exact Or.inr ⟨h1, h2, by simpa using hp⟩
    · rintro (⟨h1, h2⟩ | ⟨h1, h2, -⟩)
      · exact ⟨h1, isInstruction_of_isPHINode _ h2⟩
      · exact ⟨h1, h2⟩

/-- Witness for C26: the loop `loopIR` with its SCC of four values and eight edges. -/
theorem iv_member_sets_witness :
    (loopSCC.isInGraph 0 = true ∧
      (loopIR Predicate.ICMP_SLT false true 0 1).value 0 = IRValue.phi [(5, 0), (1, 2)] ∧
      (loopSE (SCEV.scConstant 7)).getSCEV 0 = SCEV.scAddRecExpr (SCEV.scConstant 7) ∧
      loopSCC.edges.length + 1 ≤ 9) ∧
    ∃ iv, InductionVariable.construct (loopIR Predicate.ICMP_SLT false true 0 1) [1, 2]
        (loopSE (SCEV.scConstant 7)) 0 loopSCC 9 = some iv ∧
      (∀ v, v ∈ iv.allInstructions ↔
        (loopSCC.IVReach 0 v ∧
          ((loopIR Predicate.ICMP_SLT false true 0 1).value v).isInstruction = true)) ∧
      (∀ v, v ∈ iv.PHIs ↔
        (loopSCC.IVReach 0 v ∧
          ((loopIR Predicate.ICMP_SLT false true 0 1).value v).isPHINode = true)) ∧
      0 ∈ iv.PHIs ∧
      (∀ v, v ∈ iv.accumulators ↔
        (loopSCC.IVReach 0 v ∧
          ((loopIR Predicate.ICMP_SLT false true 0 1).value v).isInstruction = true ∧
          ((loopIR Predicate.ICMP_SLT false true 0 1).value v).isPHINode = false)) ∧
      (∀ v ∈ iv.PHIs, v ∉ iv.accumulators) ∧
      (∀ v, v ∈ iv.allInstructions ↔ (v ∈ iv.PHIs ∨ v ∈ iv.accumulators)) :=
  ⟨⟨by decide, by decide, by decide, by decide⟩,
    iv_member_sets (loopIR Predicate.ICMP_SLT false true 0 1) [1, 2]
      (loopSE (SCEV.scConstant 7)) 0 loopSCC 9 [(5, 0), (1, 2)] (SCEV.scConstant 7)
      (by decide) (by decide) (by decide) (by decide)⟩

/-! ## Theorems: `markEdgesAndSubEdges` is idempotent -/

theorem joins_of_ends (a b : Nat) (e e' : SCCEdge) (h : e.ends = e'.ends) :
    SCCEdge.joins a b e = SCCEdge.joins a b e' := by
  have h1 : e.src = e'.src := congrArg Prod.fst h
  have h2 : e.dst = e'.dst := congrArg Prod.snd h
  exact joins_ends a b e e' h1 h2

theorem map_joins_of_ends (a b : Nat) (x y : Option SCCEdge)
    (h : x.map SCCEdge.ends = y.map SCCEdge.ends) :
    x.map (SCCEdge.joins a b) = y.map (SCCEdge.joins a b) := by
  cases x with
  | none => cases y with
    | none => rfl
    | some e' => simp at h
  | some e => cases y with
    | none => simp at h
    | some e' =>
      simp only [Option.map_some', Option.some.injEq] at h ⊢
      exact joins_of_ends a b e e' h

theorem findIdx?_of_getElem? (p : SCCEdge → Bool) (B : List SCCEdge) (j : Nat)
    (hj : (B[j]?).map p = some true) (hlt : ∀ k, k < j → (B[k]?).map p = some false) :
    B.findIdx? p = some j := by
  rw [List.findIdx?_eq_some_iff_getElem]
  have hjl : j < B.length := by
    by_contra hge
    rw [List.getElem?_eq_none (by omega)] at hj
    simp at hj
  refine ⟨hjl, ?_, ?_⟩
  · rw [List.getElem?_eq_getElem hjl] at hj
    simpa using hj
  · intro k hk
    have := hlt k hk
    rw [List.getElem?_eq_getElem (by omega)] at this
    simp only [Option.map_some', Option.some.injEq] at this
    rw [this]
    exact Bool.false_ne_true

theorem getElem?_of_findIdx? (p : SCCEdge → Bool) (A : List SCCEdge) (j : Nat)
    (h : A.findIdx? p = some j) :
    j < A.length ∧ (A[j]?).map p = some true ∧ ∀ k, k < j → (A[k]?).map p = some false := by
  rw [List.findIdx?_eq_some_iff_getElem] at h
  obtain ⟨hjl, hp, hlt⟩ := h
  refine ⟨hjl, ?_, ?_⟩
  · rw [List.getElem?_eq_getElem hjl]
    simp [hp]
  · intro k hk
    rw [List.getElem?_eq_getElem (by omega)]
    have := hlt k hk
    simp only [Option.map_some', Option.some.injEq]
    simpa using this

theorem map_ends_modifyAt (f : SCCEdge → SCCEdge) (hf : ∀ e, (f e).ends = e.ends)
    (i : Nat) (l : List SCCEdge) (j : Nat) :
    ((modifyAt f i l)[j]?).map SCCEdge.ends = (l[j]?).map SCCEdge.ends := by
  rw [getElem?_modifyAt]
  by_cases h : j = i
  · rw [if_pos h]
    cases l[j]? with
    | none => rfl
    | some e => simp [hf]
  · rw [if_neg h]

/-- The edge list after one visit of `markEdgesAndSubEdges`, read position by position. -/
theorem markEdgeStep_getElem? (P : PDG) (M : List (Nat × Nat)) (s : SCC)
    (A : List SCCEdge) (c : List Nat) (x t : Nat)
    (hinc : ¬ (s.incomingEdges P x).length = 0) (hlk : M.lookup x = some t) :
    ∃ (A' : List SCCEdge) (idx : Nat) (A1 : List SCCEdge),
      markEdgeStep P M s (A, c) x = some (A1, if idx ∈ c then c else idx :: c) ∧
      ((A.findIdx? (SCCEdge.joins s.id t) = some idx ∧ A' = A) ∨
        (A.findIdx? (SCCEdge.joins s.id t) = none ∧ idx = A.length ∧
          A' = A ++ [⟨s.id, t, []⟩])) ∧
      idx < A'.length ∧ A1.length = A'.length ∧
      (∀ j : Nat, (A1[j]?).map SCCEdge.ends = (A'[j]?).map SCCEdge.ends) ∧
      (∀ j : Nat, j ≠ idx → A1[j]? = A'[j]?) ∧
      A1[idx]? = (A'[idx]?).map (fun e =>
        { e with subEdges := (if idx ∈ c then e.subEdges else []) ++ s.incomingEdges P x }) := by
  cases hf : A.findIdx? (SCCEdge.joins s.id t) with
  | none =>
    refine ⟨A ++ [⟨s.id, t, []⟩], A.length,
      modifyAt (fun e => { e with subEdges := e.subEdges ++ s.incomingEdges P x }) A.length
        (if A.length ∈ c then A ++ [⟨s.id, t, []⟩]
          else modifyAt (fun e => { e with subEdges := [] }) A.length (A ++ [⟨s.id, t, []⟩])),
      ?_, Or.inr ⟨rfl, rfl, rfl⟩, by simp, ?_, ?_, ?_, ?_⟩
    · simp only [markEdgeStep, hinc, if_false, hlk, hf, Option.isNone_none, if_true,
        Option.getD_none]
    · by_cases hc : A.length ∈ c <;> simp [hc, modifyAt_length]
    · intro j
      rw [map_ends_modifyAt
        (fun e => { e with subEdges := e.subEdges ++ s.incomingEdges P x }) (fun e => rfl)]
      by_cases hc : A.length ∈ c
      · rw [if_pos hc]
      · rw [if_neg hc, map_ends_modifyAt (fun e => { e with subEdges := [] }) (fun e => rfl)]
    · intro j hj
      rw [getElem?_modifyAt, if_neg hj]
      by_cases hc : A.length ∈ c
      · rw [if_pos hc]
      · rw [if_neg hc, getElem?_modifyAt, if_neg hj]
    · rw [getElem?_modifyAt, if_pos rfl]
      by_cases hc : A.length ∈ c
      · simp [hc]
      · simp [hc, getElem?_modifyAt]
  | some i =>
    obtain ⟨hi, -, -⟩ := getElem?_of_findIdx? _ A i hf
    refine ⟨A, i,
      modifyAt (fun e => { e with subEdges := e.subEdges ++ s.incomingEdges P x }) i
        (if i ∈ c then A else modifyAt (fun e => { e with subEdges := [] }) i A),
      ?_, Or.inl ⟨rfl, rfl⟩, hi, ?_, ?_, ?_, ?_⟩
    · simp only [markEdgeStep, hinc, if_false, hlk, hf, Option.isNone_some, Option.getD_some,
        Bool.false_eq_true]
    · by_cases hc : i ∈ c <;> simp [hc, modifyAt_length]
    · intro j
      rw [map_ends_modifyAt
        (fun e => { e with subEdges := e.subEdges ++ s.incomingEdges P x }) (fun e => rfl)]
      by_cases hc : i ∈ c
      · rw [if_pos hc]
      · rw [if_neg hc, map_ends_modifyAt (fun e => { e with subEdges := [] }) (fun e => rfl)]
    · intro j hj
      rw [getElem?_modifyAt, if_neg hj]
      by_cases hc : i ∈ c
      · rw [if_pos hc]
      · rw [if_neg hc, getElem?_modifyAt, if_neg hj]
    · rw [getElem?_modifyAt, if_pos rfl]
      by_cases hc : i ∈ c
      · simp [hc]
      · rw [if_neg hc, getElem?_modifyAt, if_pos rfl]
        cases A[i]? with
        | none => rfl
        | some e => simp [hc]

theorem EndExt.refl (A : List SCCEdge) : EndExt A A :=
  ⟨Nat.le_refl _, fun _ _ => rfl⟩

theorem EndExt.trans {A B C : List SCCEdge} (h1 : EndExt A B) (h2 : EndExt B C) :
    EndExt A C :=
  ⟨Nat.le_trans h1.1 h2.1, fun j hj =>
    (h2.2 j (Nat.lt_of_lt_of_le hj h1.1)).trans (h1.2 j hj)⟩

/-- One visit keeps the end points of the edges that exist. -/
theorem markEdgeStep_endExt (P : PDG) (M : List (Nat × Nat)) (s : SCC)
    (A : List SCCEdge) (c : List Nat) (x : Nat) (A1 : List SCCEdge) (c1 : List Nat)
    (h : markEdgeStep P M s (A, c) x = some (A1, c1)) : EndExt A A1 := by
  by_cases hinc : (s.incomingEdges P x).length = 0
  · rw [markEdgeStep_skip P M s (A, c) x (List.length_eq_zero.mp hinc)] at h
    cases h
    exact EndExt.refl A
  · cases hlk : M.lookup x with
    | none =>
      simp only [markEdgeStep, hinc, if_false, hlk] at h
      cases h
    | some t =>
      obtain ⟨A', idx, A2, hstep, hcase, hidx, hlen, hends, -, -⟩ :=
        markEdgeStep_getElem? P M s A c x t hinc hlk
      rw [hstep] at h
      cases h
      rcases hcase with ⟨-, hA'⟩ | ⟨-, -, hA'⟩
      · subst hA'
        exact ⟨Nat.le_of_eq hlen.symm, fun j _ => hends j⟩
      · subst hA'
        refine ⟨by rw [hlen]; simp, fun j hj => ?_⟩
        rw [hends j, List.getElem?_append_left hj]

theorem markEdges_inner_endExt (P : PDG) (M : List (Nat × Nat)) (s : SCC) (xs : List Nat) :
    ∀ (A : List SCCEdge) (c : List Nat) (A1 : List SCCEdge) (c1 : List Nat),
      xs.foldlM (markEdgeStep P M s) (A, c) = some (A1, c1) → EndExt A A1 := by
  induction xs with
  | nil =>
    intro A c A1 c1 h
    cases h
    exact EndExt.refl A
  | cons x xs ih =>
    intro A c A1 c1 h
    rw [List.foldlM_cons] at h
    cases h1 : markEdgeStep P M s (A, c) x with
    | none => rw [h1] at h; cases h
    | some st =>
      rw [h1] at h
      exact (markEdgeStep_endExt P M s A c x st.1 st.2 h1).trans (ih st.1 st.2 A1 c1 h)

theorem markEdges_outer_endExt (P : PDG) (M : List (Nat × Nat)) (ext : SCC → List Nat)
    (ss : List SCC) :
    ∀ (A : List SCCEdge) (c : List Nat) (A1 : List SCCEdge) (c1 : List Nat),
      ss.foldlM (fun (st : List SCCEdge × List Nat) (s : SCC) =>
        (ext s).foldlM (markEdgeStep P M s) st) (A, c) = some (A1, c1) → EndExt A A1 := by
  induction ss with
  | nil =>
    intro A c A1 c1 h
    cases h
    exact EndExt.refl A
  | cons s ss ih =>
    intro A c A1 c1 h
    rw [List.foldlM_cons] at h
    cases h1 : (ext s).foldlM (markEdgeStep P M s) (A, c) with
    | none => rw [h1] at h; cases h
    | some st =>
      rw [h1] at h
      exact (markEdges_inner_endExt P M s (ext s) A c st.1 st.2 h1).trans
        (ih st.1 st.2 A1 c1 h)

theorem SCCEdge.eq_of_ends (e e' : SCCEdge) (l : List DGEdge) (h : e.ends = e'.ends) :
    ({ e with subEdges := l } : SCCEdge) = { e' with subEdges := l } := by
  have h1 : e.src = e'.src := congrArg Prod.fst h
  have h2 : e.dst = e'.dst := congrArg Prod.snd h
  rw [h1, h2]

/-- One visit of the second pass does what the same visit of the first pass did. -/
theorem markEdgeStep_sim (P : PDG) (M : List (Nat × Nat)) (s : SCC) (F : List SCCEdge)
    (A : List SCCEdge) (c : List Nat) (x : Nat) (A1 : List SCCEdge) (c1 : List Nat)
    (B : List SCCEdge)
    (h : markEdgeStep P M s (A, c) x = some (A1, c1)) (hF : EndExt A1 F)
    (hs : EdgeSim A c B F) :
    ∃ B1, markEdgeStep P M s (B, c) x = some (B1, c1) ∧ EdgeSim A1 c1 B1 F := by
  by_cases hinc : (s.incomingEdges P x).length = 0
  · rw [markEdgeStep_skip P M s (A, c) x (List.length_eq_zero.mp hinc)] at h
    cases h
    exact ⟨B, markEdgeStep_skip P M s (B, c) x (List.length_eq_zero.mp hinc), hs⟩
  · cases hlk : M.lookup x with
    | none =>
      simp only [markEdgeStep, hinc, if_false, hlk] at h
      cases h
    | some t =>
      obtain ⟨A', idx, A2, hstep, hcase, hidx, hlen, hends, hother, hat⟩ :=
        markEdgeStep_getElem? P M s A c x t hinc hlk
      rw [hstep] at h
      cases h
      -- the position found by the first pass joins the two SCCs, and no earlier one does
      have hjoin : (A'[idx]?).map (SCCEdge.joins s.id t) = some true ∧
          (∀ k, k < idx → (A'[k]?).map (SCCEdge.joins s.id t) = some false) ∧
          (∀ j, j < A.length → A'[j]? = A[j]?) ∧ (idx ∈ c → A' = A) := by
        rcases hcase with ⟨hf, hA'⟩ | ⟨hf, hi, hA'⟩
        · subst hA'
          obtain ⟨-, h1, h2⟩ := getElem?_of_findIdx? _ A' idx hf
          exact ⟨h1, h2, fun _ _ => rfl, fun _ => rfl⟩
        · subst hA' hi
          refine ⟨?_, ?_, ?_, ?_⟩
          · rw [List.getElem?_append_right (Nat.le_refl _)]
            simp [SCCEdge.joins]
          · intro k hk
            rw [List.getElem?_append_left hk, List.getElem?_eq_getElem hk]
            rw [List.findIdx?_eq_none_iff] at hf
            simp only [Option.map_some', Option.some.injEq]
            exact hf _ (List.getElem_mem hk)
          · intro j hj
            exact List.getElem?_append_left hj
          · intro hc
            exact absurd (hs.touched _ hc).2 (Nat.lt_irrefl _)
      obtain ⟨hj1, hj2, hj3, hj4⟩ := hjoin
      have hendsF : ∀ j, j < A'.length →
          (F[j]?).map SCCEdge.ends = (A'[j]?).map SCCEdge.ends := by
        intro j hj
        rw [hF.2 j (by rw [hlen]; exact hj), hends j]
      have hBends : ∀ j, j < A'.length →
          (B[j]?).map SCCEdge.ends = (A'[j]?).map SCCEdge.ends := by
        intro j hj
        rw [hs.ends j, hendsF j hj]
      have hfindB : B.findIdx? (SCCEdge.joins s.id t) = some idx := by
        apply findIdx?_of_getElem?
        · rw [map_joins_of_ends _ _ _ _ (hBends idx hidx)]
          exact hj1
        · intro k hk
          rw [map_joins_of_ends _ _ _ _ (hBends k (by omega))]
          exact hj2 k hk
      have hidxB : idx < B.length := (getElem?_of_findIdx? _ B idx hfindB).1
      obtain ⟨B', idx', B2, hstepB, hcaseB, -, hlenB, hendsB, hotherB, hatB⟩ :=
        markEdgeStep_getElem? P M s B c x t hinc hlk
      rcases hcaseB with ⟨hfB, hB'⟩ | ⟨hfB, -, -⟩
      swap
      · rw [hfindB] at hfB
        cases hfB
      rw [hfindB] at hfB
      cases hfB
      subst hB'
      refine ⟨B2, hstepB, ?_⟩
      have hAlen : ∀ j, j ∈ c → j < A.length := fun j hj => (hs.touched j hj).2
      have hA1len : A.length ≤ A1.length := by
        rw [hlen]
        rcases hcase with ⟨-, hA'⟩ | ⟨-, -, hA'⟩
        · rw [hA']
        · rw [hA']; simp
      have hatEq : B2[idx]? = A1[idx]? := by
        rw [hat, hatB]
        by_cases hc : idx ∈ c
        · rw [hj4 hc, (hs.touched idx hc).1]
        · simp only [hc, if_false, List.nil_append]
          have hb := hBends idx hidx
          rw [List.getElem?_eq_getElem hidxB, List.getElem?_eq_getElem hidx] at hb ⊢
          simp only [Option.map_some', Option.some.injEq] at hb ⊢
          exact SCCEdge.eq_of_ends _ _ _ hb
      constructor
      · rw [hlenB, hs.len]
      · intro j
        rw [hendsB j, hs.ends j]
      · intro j hj
        have hj' : j = idx ∨ j ∈ c := by
          by_cases hc : idx ∈ c
          · rw [if_pos hc] at hj
            exact Or.inr hj
          · rw [if_neg hc] at hj
            rcases List.mem_cons.mp hj with h1 | h1
            · exact Or.inl h1
            · exact Or.inr h1
        by_cases hji : j = idx
        · subst hji
          exact ⟨hatEq, by rw [hlen]; exact hidx⟩
        · rcases hj' with h1 | h1
          · exact absurd h1 hji
          · have hjl := hAlen j h1
            refine ⟨?_, by omega⟩
            rw [hotherB j hji, hother j hji, hj3 j hjl]
            exact (hs.touched j h1).1
      · intro j hj
        have hjc : j ∉ c ∧ j ≠ idx := by
          by_cases hc : idx ∈ c
          · rw [if_pos hc] at hj
            exact ⟨hj, fun h1 => hj (h1 ▸ hc)⟩
          · rw [if_neg hc] at hj
            exact ⟨fun h1 => hj (List.mem_cons_of_mem _ h1),
              fun h1 => hj (h1 ▸ List.mem_cons_self _ _)⟩
        rw [hotherB j hjc.2]
        exact hs.untouched j hjc.1

theorem markEdges_inner_sim (P : PDG) (M : List (Nat × Nat)) (s : SCC) (F : List SCCEdge)
    (xs : List Nat) :
    ∀ (A : List SCCEdge) (c : List Nat) (A1 : List SCCEdge) (c1 : List Nat)
      (B : List SCCEdge),
      xs.foldlM (markEdgeStep P M s) (A, c) = some (A1, c1) → EndExt A1 F →
      EdgeSim A c B F →
      ∃ B1, xs.foldlM (markEdgeStep P M s) (B, c) = some (B1, c1) ∧ EdgeSim A1 c1 B1 F := by
  induction xs with
  | nil =>
    intro A c A1 c1 B h _ hs
    cases h
    exact ⟨B, rfl, hs⟩
  | cons x xs ih =>
    intro A c A1 c1 B h hF hs
    rw [List.foldlM_cons] at h
    cases h1 : markEdgeStep P M s (A, c) x with
    | none => rw [h1] at h; cases h
    | some st =>
      rw [h1] at h
      have hext := markEdges_inner_endExt P M s xs st.1 st.2 A1 c1 h
      obtain ⟨B1, hB1, hs1⟩ :=
        markEdgeStep_sim P M s F A c x st.1 st.2 B h1 (hext.trans hF) hs
      obtain ⟨B2, hB2, hs2⟩ := ih st.1 st.2 A1 c1 B1 h hF hs1
      refine ⟨B2, ?_, hs2⟩
      rw [List.foldlM_cons, hB1]
      exact hB2

theorem markEdges_outer_sim (P : PDG) (M : List (Nat × Nat)) (ext : SCC → List Nat)
    (F : List SCCEdge) (ss : List SCC) :
    ∀ (A : List SCCEdge) (c : List Nat) (A1 : List SCCEdge) (c1 : List Nat)
      (B : List SCCEdge),
      ss.foldlM (fun (st : List SCCEdge × List Nat) (s : SCC) =>
        (ext s).foldlM (markEdgeStep P M s) st) (A, c) = some (A1, c1) → EndExt A1 F →
      EdgeSim A c B F →
      ∃ B1, ss.foldlM (fun (st : List SCCEdge × List Nat) (s : SCC) =>
        (ext s).foldlM (markEdgeStep P M s) st) (B, c) = some (B1, c1) ∧
        EdgeSim A1 c1 B1 F := by
  induction ss with
  | nil =>
    intro A c A1 c1 B h _ hs
    cases h
    exact ⟨B, rfl, hs⟩
  | cons s ss ih =>
    intro A c A1 c1 B h hF hs
    rw [List.foldlM_cons] at h
    cases h1 : (ext s).foldlM (markEdgeStep P M s) (A, c) with
    | none => rw [h1] at h; cases h
    | some st =>
      rw [h1] at h
      have hext := markEdges_outer_endExt P M ext ss st.1 st.2 A1 c1 h
      obtain ⟨B1, hB1, hs1⟩ :=
        markEdges_inner_sim P M s F (ext s) A c st.1 st.2 B h1 (hext.trans hF) hs
      obtain ⟨B2, hB2, hs2⟩ := ih st.1 st.2 A1 c1 B1 h hF hs1
      refine ⟨B2, ?_, hs2⟩
      rw [List.foldlM_cons, hB1]
      exact hB2

/-- C24: marking the edges and sub-edges of an SCCDAG whose last operation was a
successful `markEdgesAndSubEdges` succeeds again and changes nothing. -/
theorem markEdgesAndSubEdges_idempotent (d d1 : SCCDAG)
    (h : d.markEdgesAndSubEdges = some d1) :
    d1.markEdgesAndSubEdges = some d1 := by
  unfold SCCDAG.markEdgesAndSubEdges at h
  cases hrun : d.internalNodes.foldlM (fun (st : List SCCEdge × List Nat) (s : SCC) =>
      (s.externalValues d.pdg).foldlM (markEdgeStep d.pdg d.valueToSCCNode s) st)
      (d.edges, []) with
  | none =>
    rw [hrun] at h
    cases h
  | some st =>
    rw [hrun] at h
    simp only [Option.map_some', Option.some.injEq] at h
    subst h
    obtain ⟨F, cF⟩ := st
    have hsim0 : EdgeSim d.edges [] F F :=
      ⟨rfl, fun _ => rfl, fun j hj => absurd hj (List.not_mem_nil j), fun _ _ => rfl⟩
    obtain ⟨B1, hB1, hs1⟩ := markEdges_outer_sim d.pdg d.valueToSCCNode
      (fun s => s.externalValues d.pdg) F d.internalNodes d.edges [] F cF F hrun
      (EndExt.refl F) hsim0
    have hB : B1 = F := by
      apply List.ext_getElem?
      intro j
      by_cases hj : j ∈ cF
      · exact (hs1.touched j hj).1
      · exact hs1.untouched j hj
    subst hB
    show (d.internalNodes.foldlM (fun (st : List SCCEdge × List Nat) (s : SCC) =>
      (s.externalValues d.pdg).foldlM (markEdgeStep d.pdg d.valueToSCCNode s) st)
      (B1, [])).map (fun st => ({ d with edges := st.1 } : SCCDAG)) = _
    rw [hB1]
    rfl

/-- Witness for C24: the state inside `mergeSCCs` of the first and last SCC of the chain
`0 -> 1 -> 2`, where the first pass makes the edge `1 -> 3` with two sub-edges. -/
theorem markEdgesAndSubEdges_idempotent_witness :
    chain3PreMark.markEdgesAndSubEdges = some chain3Merged ∧
      chain3Merged.markEdgesAndSubEdges = some chain3Merged :=
  ⟨by decide, markEdgesAndSubEdges_idempotent chain3PreMark chain3Merged (by decide)⟩

/-! ## Theorems: the breadth-first traversal of the stage creation -/

theorem mem_nextDepthNodes (d : SCCDAG) (n y : Nat) :
    y ∈ d.nextDepthNodes n ↔ d.edgeRel n y := by
  unfold SCCDAG.nextDepthNodes SCCDAG.edgeRel
  rw [List.mem_dedup, List.mem_map]
  constructor
  · rintro ⟨e, he, rfl⟩
    rw [List.mem_filter] at he
    exact ⟨e, he.1, of_decide_eq_true he.2, rfl⟩
  · rintro ⟨e, he, hs, hd⟩
    exact ⟨e, List.mem_filter.2 ⟨he, decide_eq_true hs⟩, hd⟩

theorem mem_getTopLevelNodes (d : SCCDAG) (x : Nat) :
    x ∈ d.getTopLevelNodes ↔
      (∃ s ∈ d.internalNodes, s.id = x) ∧ ∀ e ∈ d.edges, e.dst ≠ x := by
  unfold SCCDAG.getTopLevelNodes
  rw [List.mem_map]
  constructor
  · rintro ⟨s, hs, rfl⟩
    rw [List.mem_filter] at hs
    refine ⟨⟨s, hs.1, rfl⟩, fun e he hd => ?_⟩
    have h0 := of_decide_eq_true hs.2
    have hmem : e ∈ d.edges.filter (fun e => e.dst = s.id) :=
      List.mem_filter.2 ⟨he, decide_eq_true hd⟩
    rw [List.length_eq_zero] at h0
    rw [h0] at hmem
    exact List.not_mem_nil _ hmem
  · rintro ⟨⟨s, hs, rfl⟩, hno⟩
    refine ⟨s, List.mem_filter.2 ⟨hs, decide_eq_true ?_⟩, rfl⟩
    rw [List.length_eq_zero, List.filter_eq_nil_iff]
    intro e he hd
    exact hno e he (of_decide_eq_true hd)

theorem addUnvisited_nil (found queue : List Nat) :
    addUnvisited [] found queue = (found, queue) := rfl

theorem addUnvisited_cons (y : Nat) (nx found queue : List Nat) :
    addUnvisited (y :: nx) found queue =
      if y ∈ found then addUnvisited nx found queue
      else addUnvisited nx (found ++ [y]) (queue ++ [y]) := by
  unfold addUnvisited
  rw [List.foldl_cons]
  by_cases h : y ∈ found
  · simp only [h, if_true]
  · simp only [h, if_false, setInsert]

theorem mem_addUnvisited_found (nx : List Nat) :
    ∀ (found queue : List Nat) (y : Nat),
      y ∈ (addUnvisited nx found queue).1 ↔ y ∈ found ∨ y ∈ nx := by
  induction nx with
  | nil =>
    intro found queue y
    simp [addUnvisited_nil]
  | cons a nx ih =>
    intro found queue y
    rw [addUnvisited_cons]
    by_cases h : a ∈ found
    · rw [if_pos h, ih, List.mem_cons]
      constructor
      · rintro (h1 | h1)
        · exact Or.inl h1
        · exact Or.inr (Or.inr h1)
      · rintro (h1 | h1 | h1)
        · exact Or.inl h1
        · exact Or.inl (h1 ▸ h)
        · exact Or.inr h1
    · rw [if_neg h, ih, List.mem_append, List.mem_singleton, List.mem_cons]
      constructor
      · rintro ((h1 | h1) | h1)
        · exact Or.inl h1
        · exact Or.inr (Or.inl h1)
        · exact Or.inr (Or.inr h1)
      · rintro (h1 | h1 | h1)
        · exact Or.inl (Or.inl h1)
        · exact Or.inl (Or.inr h1)
        · exact Or.inr h1

theorem mem_addUnvisited_queue (nx : List Nat) :
    ∀ (found queue : List Nat) (y : Nat),
      y ∈ (addUnvisited nx found queue).2 ↔ y ∈ queue ∨ (y ∈ nx ∧ y ∉ found) := by
  induction nx with
  | nil =>
    intro found queue y
    simp [addUnvisited_nil]
  | cons a nx ih =>
    intro found queue y
    rw [addUnvisited_cons]
    by_cases h : a ∈ found
    · rw [if_pos h, ih, List.mem_cons]
      constructor
      · rintro (h1 | ⟨h1, h2⟩)
        · exact Or.inl h1
        · exact Or.inr ⟨Or.inr h1, h2⟩
      · rintro (h1 | ⟨h1 | h1, h2⟩)
        · exact Or.inl h1
        · exact absurd (h1 ▸ h) h2
        · exact Or.inr ⟨h1, h2⟩
    · rw [if_neg h, ih, List.mem_append, List.mem_singleton, List.mem_cons,
        List.mem_append, List.mem_singleton]
      constructor
      · rintro ((h1 | h1) | ⟨h1, h2⟩)
        · exact Or.inl h1
        · exact Or.inr ⟨Or.inl h1, h1 ▸ h⟩
        · exact Or.inr ⟨Or.inr h1, fun h3 => h2 (Or.inl h3)⟩
      · rintro (h1 | ⟨h1 | h1, h2⟩)
        · exact Or.inl (Or.inl h1)
        · exact Or.inl (Or.inr h1)
        · by_cases hya : y = a
          · exact Or.inl (Or.inr hya)
          · exact Or.inr ⟨h1, fun h3 => h3.elim h2 hya⟩

theorem unfound_edges (y : Nat) (found : List Nat) (hy : y ∉ found) :
    ∀ edges : List SCCEdge,
      (edges.filter (fun e => decide (e.dst ∉ found ++ [y]))).length
        + (edges.filter (fun e => decide (e.dst = y))).length
      = (edges.filter (fun e => decide (e.dst ∉ found))).length := by
  intro edges
  induction edges with
  | nil => rfl
  | cons e rest ih =>
    by_cases h1 : e.dst = y
    · have d1 : decide (e.dst ∉ found ++ [y]) = false := by simp [h1]
      have d2 : decide (e.dst = y) = true := by simp [h1]
      have d3 : decide (e.dst ∉ found) = true := by simp [h1, hy]
      simp only [List.filter_cons, d1, d2, d3, if_true, Bool.false_eq_true, if_false,
        List.length_cons]
      omega
    · by_cases h2 : e.dst ∈ found
      · have d1 : decide (e.dst ∉ found ++ [y]) = false := by simp [h2]
        have d2 : decide (e.dst = y) = false := by simp [h1]
        have d3 : decide (e.dst ∉ found) = false := by simp [h2]
        simp only [List.filter_cons, d1, d2, d3, Bool.false_eq_true, if_false]
        exact ih
      · have d1 : decide (e.dst ∉ found ++ [y]) = true := by simp [h1, h2]
        have d2 : decide (e.dst = y) = false := by simp [h1]
        have d3 : decide (e.dst ∉ found) = true := by simp [h2]
        simp only [List.filter_cons, d1, d2, d3, if_true, Bool.false_eq_true, if_false,
          List.length_cons]
        omega

/-- Adding the unvisited next nodes does not raise the number of queued nodes plus the
number of edges into nodes not found yet. -/
theorem addUnvisited_measure (edges : List SCCEdge) (nx : List Nat)
    (hnx : ∀ y ∈ nx, ∃ e ∈ edges, e.dst = y) :
    ∀ (found queue : List Nat),
      (addUnvisited nx found queue).2.length
        + (edges.filter (fun e => decide (e.dst ∉ (addUnvisited nx found queue).1))).length
      ≤ queue.length + (edges.filter (fun e => decide (e.dst ∉ found))).length := by
  induction nx with
  | nil =>
    intro found queue
    exact Nat.le_refl _
  | cons a nx ih =>
    intro found queue
    have hnx' : ∀ y ∈ nx, ∃ e ∈ edges, e.dst = y :=
      fun y hy => hnx y (List.mem_cons_of_mem _ hy)
    rw [addUnvisited_cons]
    by_cases h : a ∈ found
    · rw [if_pos h]
      exact ih hnx' found queue
    · rw [if_neg h]
      have h1 := ih hnx' (found ++ [a]) (queue ++ [a])
      have h2 := unfound_edges a found h edges
      obtain ⟨e, he, hd⟩ := hnx a (List.mem_cons_self _ _)
      have h3 : 0 < (edges.filter (fun e => decide (e.dst = a))).length :=
        List.length_pos_of_mem (List.mem_filter.2 ⟨he, decide_eq_true hd⟩)
      rw [List.length_append, List.length_singleton] at h1
      omega

theorem traversalOrder_terminates (d : SCCDAG) :
    ∀ (fuel : Nat) (found queue : List Nat),
      queue.length + (d.edges.filter (fun e => decide (e.dst ∉ found))).length ≤ fuel →
      ∃ visited, traversalOrder d fuel found queue = some visited := by
  intro fuel
  induction fuel with
  | zero =>
    intro found queue h
    cases queue with
    | nil => exact ⟨[], by simp [traversalOrder]⟩
    | cons n rest => simp at h
  | succ fuel ih =>
    intro found queue h
    cases queue with
    | nil => exact ⟨[], by simp [traversalOrder]⟩
    | cons n rest =>
      have hm := addUnvisited_measure d.edges (d.nextDepthNodes n)
        (fun y hy => by
          obtain ⟨e, he, -, hd⟩ := (mem_nextDepthNodes d n y).1 hy
          exact ⟨e, he, hd⟩) found rest
      obtain ⟨visited, hv⟩ := ih (addUnvisited (d.nextDepthNodes n) found rest).1
        (addUnvisited (d.nextDepthNodes n) found rest).2
        (by simp only [List.length_cons] at h; omega)
      exact ⟨n :: visited, by rw [traversalOrder, hv]; rfl⟩

theorem traversal_terminates (d : SCCDAG) (fuel : Nat)
    (hf : d.getTopLevelNodes.length + d.edges.length ≤ fuel) :
    ∃ visited, d.traversal fuel = some visited := by
  apply traversalOrder_terminates
  have := List.length_filter_le (fun e : SCCEdge => decide (e.dst ∉
    d.getTopLevelNodes.foldl (fun s n => setInsert n s) [])) d.edges
  omega

/-- The loop of the stage creation is the traversal followed by the assignment of the
stages to the visited SCCs in the order of the traversal. -/
theorem createStagesLoop_eq (d : SCCDAG) (P : SCCDAGPartition) :
    ∀ (fuel : Nat) (found queue : List Nat) (st : StageAssignment),
      createStagesLoop d P fuel found queue st =
        (traversalOrder d fuel found queue).bind
          (fun visited => visited.foldlM (assignStage P) st) := by
  intro fuel
  induction fuel with
  | zero =>
    intro found queue st
    cases queue with
    | nil => simp [createStagesLoop, traversalOrder]
    | cons n rest => simp [createStagesLoop, traversalOrder]
  | succ fuel ih =>
    intro found queue st
    cases queue with
    | nil => simp [createStagesLoop, traversalOrder]
    | cons n rest =>
      rw [createStagesLoop, traversalOrder]
      cases ha : assignStage P st n with
      | none =>
        cases traversalOrder d fuel (addUnvisited (d.nextDepthNodes n) found rest).1
            (addUnvisited (d.nextDepthNodes n) found rest).2 with
        | none => rfl
        | some visited =>
          simp only [Option.map_some', Option.some_bind, List.foldlM_cons, ha,
            Option.none_bind]
          rfl
      | some st1 =>
        simp only []
        rw [ih]
        cases traversalOrder d fuel (addUnvisited (d.nextDepthNodes n) found rest).1
            (addUnvisited (d.nextDepthNodes n) found rest).2 with
        | none => rfl
        | some visited =>
          simp only [Option.map_some', Option.some_bind, List.foldlM_cons, ha]
          rfl

/-- Every queued node is visited, and every node one edge away from a visited node was
found before or is visited. -/
theorem traversalOrder_closed (d : SCCDAG) :
    ∀ (fuel : Nat) (found queue visited : List Nat),
      traversalOrder d fuel found queue = some visited →
      (∀ x ∈ queue, x ∈ visited) ∧
        ∀ x ∈ visited, ∀ y, d.edgeRel x y → y ∈ found ∨ y ∈ visited := by
  intro fuel
  induction fuel with
  | zero =>
    intro found queue visited h
    cases queue with
    | nil =>
      simp only [traversalOrder, Option.some.injEq] at h
      subst h
      exact ⟨fun x hx => hx, fun x hx => absurd hx (List.not_mem_nil x)⟩
    | cons n rest => simp [traversalOrder] at h
  | succ fuel ih =>
    intro found queue visited h
    cases queue with
    | nil =>
      simp only [traversalOrder, Option.some.injEq] at h
      subst h
      exact ⟨fun x hx => hx, fun x hx => absurd hx (List.not_mem_nil x)⟩
    | cons n rest =>
      rw [traversalOrder] at h
      cases hr : traversalOrder d fuel (addUnvisited (d.nextDepthNodes n) found rest).1
          (addUnvisited (d.nextDepthNodes n) found rest).2 with
      | none => rw [hr] at h; cases h
      | some vis =>
        rw [hr] at h
        simp only [Option.map_some', Option.some.injEq] at h
        subst h
        obtain ⟨h1, h2⟩ := ih _ _ _ hr
        have hnew : ∀ y, d.edgeRel n y → y ∈ found ∨ y ∈ vis := by
          intro y hy
          by_cases hf : y ∈ found
          · exact Or.inl hf
          · exact Or.inr (h1 y ((mem_addUnvisited_queue _ _ _ _).2
              (Or.inr ⟨(mem_nextDepthNodes d n y).2 hy, hf⟩)))
        constructor
        · intro x hx
          rcases List.mem_cons.1 hx with rfl | hx
          · exact List.mem_cons_self _ _
          · exact List.mem_cons_of_mem _
              (h1 x ((mem_addUnvisited_queue _ _ _ _).2 (Or.inl hx)))
        · intro x hx y hxy
          rcases List.mem_cons.1 hx with rfl | hx
          · exact (hnew y hxy).imp id (List.mem_cons_of_mem _)
          · rcases h2 x hx y hxy with h3 | h3
            · rcases (mem_addUnvisited_found _ _ _ _).1 h3 with h4 | h4
              · exact Or.inl h4
              · exact (hnew y ((mem_nextDepthNodes d n y).1 h4)).imp id
                  (List.mem_cons_of_mem _)
            · exact Or.inr (List.mem_cons_of_mem _ h3)

/-- Every visited node was queued or is reached from a queued node. -/
theorem traversalOrder_sound (d : SCCDAG) (R : Nat → Prop)
    (hR : ∀ x y, R x → d.edgeRel x y → R y) :
    ∀ (fuel : Nat) (found queue visited : List Nat),
      traversalOrder d fuel found queue = some visited →
      (∀ x ∈ queue, R x) → ∀ x ∈ visited, R x := by
  intro fuel
  induction fuel with
  | zero =>
    intro found queue visited h hq
    cases queue with
    | nil =>
      simp only [traversalOrder, Option.some.injEq] at h
      subst h
      exact fun x hx => absurd hx (List.not_mem_nil x)
    | cons n rest => simp [traversalOrder] at h
  | succ fuel ih =>
    intro found queue visited h hq
    cases queue with
    | nil =>
      simp only [traversalOrder, Option.some.injEq] at h
      subst h
      exact fun x hx => absurd hx (List.not_mem_nil x)
    | cons n rest =>
      rw [traversalOrder] at h
      cases hr : traversalOrder d fuel (addUnvisited (d.nextDepthNodes n) found rest).1
          (addUnvisited (d.nextDepthNodes n) found rest).2 with
      | none => rw [hr] at h; cases h
      | some vis =>
        rw [hr] at h
        simp only [Option.map_some', Option.some.injEq] at h
        subst h
        have hn : R n := hq n (List.mem_cons_self _ _)
        have hvis := ih _ _ _ hr (fun x hx => by
          rcases (mem_addUnvisited_queue _ _ _ _).1 hx with h1 | ⟨h1, -⟩
          · exact hq x (List.mem_cons_of_mem _ h1)
          · exact hR n x hn ((mem_nextDepthNodes d n x).1 h1))
        intro x hx
        rcases List.mem_cons.1 hx with rfl | hx
        · exact hn
        · exact hvis x hx

theorem mem_foldl_setInsert (l : List Nat) :
    ∀ (s : List Nat) (x : Nat), x ∈ l.foldl (fun s n => setInsert n s) s ↔ x ∈ s ∨ x ∈ l := by
  induction l with
  | nil =>
    intro s x
    simp
  | cons a l ih =>
    intro s x
    rw [List.foldl_cons, ih, mem_setInsert, List.mem_cons]
    constructor
    · rintro ((h | h) | h)
      · exact Or.inr (Or.inl h)
      · exact Or.inl h
      · exact Or.inr (Or.inr h)
    · rintro (h | h | h)
      · exact Or.inl (Or.inr h)
      · exact Or.inl (Or.inl h)
      · exact Or.inr h

/-- The traversal visits exactly the nodes reachable from a top-level node. -/
theorem mem_traversal (d : SCCDAG) (fuel : Nat) (visited : List Nat)
    (h : d.traversal fuel = some visited) (x : Nat) :
    x ∈ visited ↔ d.TopReach x := by
  obtain ⟨h1, h2⟩ := traversalOrder_closed d fuel _ _ visited h
  constructor
  · intro hx
    exact traversalOrder_sound d d.TopReach
      (fun a b ⟨t, ht, hta⟩ hab => ⟨t, ht, hta.tail hab⟩) fuel _ _ visited h
      (fun t ht => ⟨t, ht, Relation.ReflTransGen.refl⟩) x hx
  · rintro ⟨t, ht, hreach⟩
    induction hreach with
    | refl => exact h1 t ht
    | tail _ hab ih =>
      rcases h2 _ ih _ hab with h3 | h3
      · rcases (mem_foldl_setInsert _ _ _).1 h3 with h4 | h4
        · exact absurd h4 (List.not_mem_nil _)
        · exact h1 _ h4
      · exact h3

/-- In an SCCDAG without cycle whose edges leave nodes of the SCCDAG, every node is
reachable from a top-level node. -/
theorem topReach_of_acyclic (d : SCCDAG) (hac : d.Acyclic)
    (hsrc : ∀ e ∈ d.edges, ∃ s ∈ d.internalNodes, s.id = e.src) :
    ∀ s ∈ d.internalNodes, d.TopReach s.id := by
  classical
  have hμ : ∀ y x, d.edgeRel y x →
      ((d.edges.map SCCEdge.src).toFinset.filter
        (fun a => Relation.TransGen d.edgeRel a y)).card <
      ((d.edges.map SCCEdge.src).toFinset.filter
        (fun a => Relation.TransGen d.edgeRel a x)).card := by
    intro y x hyx
    apply Finset.card_lt_card
    rw [Finset.ssubset_iff_of_subset]
    · obtain ⟨e, he, hs, _⟩ := hyx
      refine ⟨y, ?_, ?_⟩
      · rw [Finset.mem_filter, List.mem_toFinset, List.mem_map]
        exact ⟨⟨e, he, hs⟩, Relation.TransGen.single ⟨e, he, hs, by assumption⟩⟩
      · rw [Finset.mem_filter]
        exact fun h => hac y h.2
    · intro a ha
      rw [Finset.mem_filter] at ha ⊢
      exact ⟨ha.1, ha.2.tail hyx⟩
  have key : ∀ (n x : Nat),
      ((d.edges.map SCCEdge.src).toFinset.filter
        (fun a => Relation.TransGen d.edgeRel a x)).card = n →
      (∃ s ∈ d.internalNodes, s.id = x) → d.TopReach x := by
    intro n
    induction n using Nat.strong_induction_on with
    | _ n ih =>
      intro x hx hnode
      by_cases htop : ∀ e ∈ d.edges, e.dst ≠ x
      · exact ⟨x, (mem_getTopLevelNodes d x).2 ⟨hnode, htop⟩, Relation.ReflTransGen.refl⟩
      · push_neg at htop
        obtain ⟨e, he, hd⟩ := htop
        have hrel : d.edgeRel e.src x := ⟨e, he, rfl, hd⟩
        obtain ⟨t, ht, hreach⟩ := ih _ (by rw [← hx]; exact hμ _ _ hrel) e.src rfl
          (hsrc e he)
        exact ⟨t, ht, hreach.tail hrel⟩
  intro s hs
  exact key _ _ rfl ⟨s, hs, rfl⟩

theorem nodup_nextDepthNodes (d : SCCDAG) (n : Nat) : (d.nextDepthNodes n).Nodup :=
  List.nodup_dedup _

/-- The loop over the next nodes adds, to the set and to the back of the queue, the next
nodes that were not found before, in their order. -/
theorem addUnvisited_eq (nx : List Nat) (hnd : nx.Nodup) :
    ∀ (found queue : List Nat),
      addUnvisited nx found queue =
        (found ++ nx.filter (fun y => decide (y ∉ found)),
         queue ++ nx.filter (fun y => decide (y ∉ found))) := by
  induction nx with
  | nil =>
    intro found queue
    simp [addUnvisited_nil]
  | cons a nx ih =>
    intro found queue
    rw [List.nodup_cons] at hnd
    rw [addUnvisited_cons]
    by_cases h : a ∈ found
    · have hf : (a :: nx).filter (fun y => decide (y ∉ found))
          = nx.filter (fun y => decide (y ∉ found)) := by simp [h]
      rw [if_pos h, ih hnd.2, hf]
    · have hf : (a :: nx).filter (fun y => decide (y ∉ found))
          = a :: nx.filter (fun y => decide (y ∉ found)) := by simp [h]
      rw [if_neg h, ih hnd.2, hf]
      have hsame : nx.filter (fun y => decide (y ∉ found ++ [a]))
          = nx.filter (fun y => decide (y ∉ found)) := by
        apply List.filter_congr
        intro y hy
        have hya : y ≠ a := fun h' => hnd.1 (h' ▸ hy)
        simp [hya]
      rw [hsame]
      simp

/-- The order of the traversal: after the queued nodes come, for every visited node in
turn, its next nodes that were neither found at the start nor added for an earlier
visited node. -/
theorem traversalOrder_levels (d : SCCDAG) :
    ∀ (fuel : Nat) (found queue visited : List Nat),
      traversalOrder d fuel found queue = some visited →
      ∃ news : List (List Nat), news.length = visited.length ∧
        visited = queue ++ news.flatten ∧
        ∀ (i x : Nat), visited[i]? = some x →
          news[i]? = some ((d.nextDepthNodes x).filter
            (fun y => decide (y ∉ found ++ (news.take i).flatten))) := by
  intro fuel
  induction fuel with
  | zero =>
    intro found queue visited h
    cases queue with
    | nil =>
      simp only [traversalOrder, Option.some.injEq] at h
      subst h
      exact ⟨[], rfl, rfl, fun i x hx => by simp at hx⟩
    | cons n rest => simp [traversalOrder] at h
  | succ fuel ih =>
    intro found queue visited h
    cases queue with
    | nil =>
      simp only [traversalOrder, Option.some.injEq] at h
      subst h
      exact ⟨[], rfl, rfl, fun i x hx => by simp at hx⟩
    | cons n rest =>
      rw [traversalOrder, addUnvisited_eq _ (nodup_nextDepthNodes d n)] at h
      cases hr : traversalOrder d fuel
          (found ++ (d.nextDepthNodes n).filter (fun y => decide (y ∉ found)))
          (rest ++ (d.nextDepthNodes n).filter (fun y => decide (y ∉ found))) with
      | none => rw [hr] at h; cases h
      | some vis =>
        rw [hr] at h
        simp only [Option.map_some', Option.some.injEq] at h
        subst h
        obtain ⟨news, hlen, hvis, hnews⟩ := ih _ _ _ hr
        refine ⟨(d.nextDepthNodes n).filter (fun y => decide (y ∉ found)) :: news, ?_, ?_, ?_⟩
        · simp [hlen]
        · rw [hvis]
          simp
        · intro i x hx
          cases i with
          | zero =>
            simp only [List.getElem?_cons_zero, Option.some.injEq] at hx
            subst hx
            simp
          | succ i =>
            rw [List.getElem?_cons_succ] at hx ⊢
            rw [hnews i x hx, List.take_succ_cons, List.flatten_cons, List.append_assoc]

theorem nodup_of_fresh (news : List (List Nat)) :
    ∀ base : List Nat, base.Nodup →
      (∀ (i : Nat) (l : List Nat), news[i]? = some l →
        l.Nodup ∧ ∀ y ∈ l, y ∉ base ++ (news.take i).flatten) →
      (base ++ news.flatten).Nodup := by
  induction news with
  | nil =>
    intro base hb _
    simpa using hb
  | cons l rest ih =>
    intro base hb h
    obtain ⟨hl, hfresh⟩ := h 0 l (by simp)
    have hbl : (base ++ l).Nodup := by
      refine List.Nodup.append hb hl ?_
      intro a ha hal
      exact hfresh a hal (by simpa using ha)
    have := ih (base ++ l) hbl (by
      intro i l1 hi
      obtain ⟨h1, h2⟩ := h (i + 1) l1 (by rw [List.getElem?_cons_succ]; exact hi)
      refine ⟨h1, fun y hy => ?_⟩
      have := h2 y hy
      rw [List.take_succ_cons, List.flatten_cons, ← List.append_assoc] at this
      exact this)
    rw [List.flatten_cons, ← List.append_assoc]
    exact this

theorem nodup_getTopLevelNodes (d : SCCDAG) (hids : (d.internalNodes.map SCC.id).Nodup) :
    d.getTopLevelNodes.Nodup := by
  unfold SCCDAG.getTopLevelNodes
  exact List.Nodup.sublist ((List.filter_sublist _).map SCC.id) hids

/-- The traversal from the top-level nodes is breadth first: it visits the top-level
nodes in their order and then, for every visited node in turn, the nodes one edge away
that are no top-level nodes and were not added for an earlier visited node; no node is
visited twice. -/
theorem traversal_breadth_first (d : SCCDAG) (fuel : Nat) (visited : List Nat)
    (h : d.traversal fuel = some visited) :
    ((d.internalNodes.map SCC.id).Nodup → visited.Nodup) ∧
    ∃ news : List (List Nat), news.length = visited.length ∧
      visited = d.getTopLevelNodes ++ news.flatten ∧
      ∀ (i x : Nat), visited[i]? = some x →
        news[i]? = some ((d.nextDepthNodes x).filter
          (fun y => decide (y ∉ d.getTopLevelNodes ++ (news.take i).flatten))) := by
  obtain ⟨news, hlen, hvis, hnews⟩ := traversalOrder_levels d fuel _ _ visited h
  have hnews' : ∀ (i x : Nat), visited[i]? = some x →
      news[i]? = some ((d.nextDepthNodes x).filter
        (fun y => decide (y ∉ d.getTopLevelNodes ++ (news.take i).flatten))) := by
    intro i x hx
    rw [hnews i x hx]
    congr 1
    apply List.filter_congr
    intro y _
    simp only [List.mem_append, mem_foldl_setInsert, List.not_mem_nil, false_or]
  refine ⟨?_, news, hlen, hvis, hnews'⟩
  intro hids
  rw [hvis]
  apply nodup_of_fresh news _ (nodup_getTopLevelNodes d hids)
  intro i l hi
  have hilt : i < visited.length := by
    rw [← hlen]
    exact (List.getElem?_eq_some.1 hi).1
  have hx := hnews' i visited[i] (List.getElem?_eq_getElem hilt)
  rw [hi] at hx
  have hl := Option.some.inj hx
  rw [hl]
  refine ⟨(nodup_nextDepthNodes d _).filter _, fun y hy => ?_⟩
  exact of_decide_eq_true (List.mem_filter.1 hy).2

/-! ## Theorems: the stages made by `createStagesfromPartitionedSCCs` -/

theorem lookup_mapAssign (key val : Nat) :
    ∀ (m : List (Nat × Nat)) (k : Nat),
      (mapAssign key val m).lookup k = if k = key then some val else m.lookup k := by
  intro m
  induction m with
  | nil =>
    intro k
    by_cases h : k = key
    · subst h
      simp [mapAssign, List.lookup]
    · have hb : (k == key) = false := by simp [h]
      simp only [mapAssign, List.lookup, hb, h, if_false]
  | cons p m ih =>
    intro k
    obtain ⟨a, b⟩ := p
    by_cases ha : a = key
    · subst ha
      by_cases h : k = a
      · subst h
        simp [mapAssign, List.lookup]
      · have hb : (k == a) = false := by simp [h]
        simp only [mapAssign, if_true, List.lookup, hb, h, if_false]
    · by_cases h : k = key
      · subst h
        have hka : (k == a) = false := by simp [Ne.symm ha]
        simp only [mapAssign, ha, if_false, List.lookup, hka, ih, if_true]
      · by_cases hk : k = a
        · subst hk
          have hb : (k == k) = true := by simp
          simp only [mapAssign, ha, if_false, List.lookup, hb]
        · have hka : (k == a) = false := by simp [hk]
          simp only [mapAssign, ha, if_false, List.lookup, hka, ih, h]

theorem keys_mapAssign (key val : Nat) :
    ∀ m : List (Nat × Nat),
      (mapAssign key val m).map Prod.fst = setInsert key (m.map Prod.fst) := by
  intro m
  induction m with
  | nil => rfl
  | cons p m ih =>
    obtain ⟨a, b⟩ := p
    by_cases ha : a = key
    · subst ha
      simp [mapAssign, setInsert]
    · have hne : ¬ key = a := fun h => ha h.symm
      simp only [mapAssign, ha, if_false, List.map_cons, ih, setInsert, List.mem_cons, hne,
        false_or]
      by_cases hm : key ∈ m.map Prod.fst
      · simp only [hm, if_true]
      · simp only [hm, if_false, List.cons_append]

theorem nodup_setInsert (x : Nat) (s : List Nat) (h : s.Nodup) : (setInsert x s).Nodup := by
  unfold setInsert
  by_cases hx : x ∈ s
  · rw [if_pos hx]
    exact h
  · rw [if_neg hx]
    exact List.Nodup.append h (List.nodup_singleton x)
      (by
        intro a ha hb
        rw [List.mem_singleton] at hb
        exact hx (hb ▸ ha))

/-- A map with one entry per key holds, for a key, the one entry that `lookup` finds. -/
theorem entriesOf_of_nodup (x : Nat) :
    ∀ m : List (Nat × Nat), (m.map Prod.fst).Nodup →
      entriesOf x m = match m.lookup x with
        | some v => [(x, v)]
        | none => [] := by
  intro m
  induction m with
  | nil => intro _; rfl
  | cons p m ih =>
    intro hnd
    obtain ⟨a, b⟩ := p
    rw [List.map_cons, List.nodup_cons] at hnd
    by_cases hxa : x = a
    · subst hxa
      have hnone : entriesOf x m = [] := by
        unfold entriesOf
        rw [List.filter_eq_nil_iff]
        intro q hq hq1
        exact hnd.1 (List.mem_map.2 ⟨q, hq, of_decide_eq_true hq1⟩)
      have h1 : entriesOf x ((x, b) :: m) = (x, b) :: entriesOf x m := by
        simp [entriesOf]
      rw [h1, hnone]
      simp [List.lookup]
    · have hax : ¬ a = x := fun h => hxa h.symm
      have h1 : entriesOf x ((a, b) :: m) = entriesOf x m := by
        simp [entriesOf, hax]
      have hxa' : (x == a) = false := by simp [hxa]
      rw [h1, ih hnd.2]
      simp only [List.lookup, hxa']

theorem firstMet_append (l : List Nat) (k : Nat) :
    firstMet (l ++ [k]) = setInsert k (firstMet l) := by
  unfold firstMet
  rw [List.foldl_append]
  rfl

theorem mem_firstMet (l : List Nat) (k : Nat) : k ∈ firstMet l ↔ k ∈ l := by
  unfold firstMet
  rw [mem_foldl_setInsert]
  constructor
  · rintro (h | h)
    · exact absurd h (List.not_mem_nil _)
    · exact h
  · exact Or.inr

theorem nodup_foldl_setInsert (l : List Nat) :
    ∀ s : List Nat, s.Nodup → (l.foldl (fun s n => setInsert n s) s).Nodup := by
  induction l with
  | nil => intro s h; exact h
  | cons a l ih =>
    intro s h
    rw [List.foldl_cons]
    exact ih _ (nodup_setInsert a s h)

theorem nodup_firstMet (l : List Nat) : (firstMet l).Nodup :=
  nodup_foldl_setInsert l [] List.nodup_nil

theorem staged_append (P : SCCDAGPartition) (visited : List Nat) (x : Nat) :
    staged P (visited ++ [x]) =
      if P.isRemovable x then staged P visited else staged P visited ++ [x] := by
  unfold staged
  rw [List.filter_append]
  by_cases h : P.isRemovable x = true
  · simp [h]
  · simp [h]

theorem partitionsMet_append (P : SCCDAGPartition) (visited : List Nat) (x : Nat) :
    partitionsMet P (visited ++ [x]) =
      if P.isRemovable x then partitionsMet P visited
      else setInsert (P.partitionOf x) (partitionsMet P visited) := by
  unfold partitionsMet
  rw [staged_append]
  by_cases h : P.isRemovable x = true
  · rw [if_pos h, if_pos h]
  · rw [if_neg h, if_neg h, List.map_append, List.map_singleton, firstMet_append]

theorem mem_partitionsMet (P : SCCDAGPartition) (visited : List Nat) (y : Nat)
    (hy : y ∈ staged P visited) : P.partitionOf y ∈ partitionsMet P visited := by
  unfold partitionsMet
  rw [mem_firstMet]
  exact List.mem_map_of_mem _ hy

theorem mem_staged (P : SCCDAGPartition) (visited : List Nat) (y : Nat) :
    y ∈ staged P visited ↔ y ∈ visited ∧ P.isRemovable y = false := by
  unfold staged
  rw [List.mem_filter]
  simp

theorem stageInv_init (P : SCCDAGPartition) : StageInv P [] ⟨0, [], [], []⟩ := by
  constructor
  · rfl
  · rfl
  · intro k
    rfl
  · intro i s h
    simp at h
  · intro x
    rfl
  · exact List.nodup_nil

theorem indexOf_getElem? (keys : List Nat) (hnd : keys.Nodup) (i k : Nat)
    (h : keys[i]? = some k) : keys.indexOf k = i := by
  obtain ⟨hi, hk⟩ := List.getElem?_eq_some.1 h
  rw [← hk]
  exact List.indexOf_getElem hnd i hi

theorem getElem?_indexOf_mem (keys : List Nat) (k : Nat) (h : k ∈ keys) :
    keys[keys.indexOf k]? = some k := by
  rw [List.getElem?_eq_getElem (List.indexOf_lt_length.2 h)]
  simp

/-- One step of the stage assignment keeps the description of the stages in terms of
the partitions met so far, and does not fail. -/
theorem stageInv_step (P : SCCDAGPartition) (visited : List Nat) (st : StageAssignment)
    (x : Nat) (hinv : StageInv P visited st) :
    ∃ st1, assignStage P st x = some st1 ∧ StageInv P (visited ++ [x]) st1 := by
  by_cases hrem : P.isRemovable x = true
  · refine ⟨st, by simp [assignStage, hrem], ?_⟩
    have h1 : staged P (visited ++ [x]) = staged P visited := by
      rw [staged_append, if_pos hrem]
    have h2 : partitionsMet P (visited ++ [x]) = partitionsMet P visited := by
      rw [partitionsMet_append, if_pos hrem]
    constructor
    · rw [h2]; exact hinv.order
    · rw [h2]; exact hinv.length
    · rw [h2]; exact hinv.toStage
    · rw [h1, h2]; exact hinv.stage
    · rw [h1, h2]; exact hinv.sccStage
    · exact hinv.keys
  · have h1 : staged P (visited ++ [x]) = staged P visited ++ [x] := by
      rw [staged_append, if_neg hrem]
    have hnd := nodup_firstMet ((staged P visited).map P.partitionOf)
    have hndk : (partitionsMet P visited).Nodup := hnd
    by_cases hk : P.partitionOf x ∈ partitionsMet P visited
    · -- the partition has a stage
      have h2 : partitionsMet P (visited ++ [x]) = partitionsMet P visited := by
        rw [partitionsMet_append, if_neg hrem, setInsert, if_pos hk]
      have hlk := hinv.toStage (P.partitionOf x)
      rw [if_pos hk] at hlk
      refine ⟨_, (by simp only [assignStage, hrem, Bool.false_eq_true, if_false, hlk]; rfl), ?_⟩
      constructor
      · rw [h2]; exact hinv.order
      · rw [h2, modifyAt_length]; exact hinv.length
      · rw [h2]; exact hinv.toStage
      · intro i s hs
        rw [h1, h2]
        rw [getElem?_modifyAt] at hs
        by_cases hi : i = (partitionsMet P visited).indexOf (P.partitionOf x)
        · rw [if_pos hi] at hs
          cases hs0 : st.stages[i]? with
          | none => rw [hs0] at hs; cases hs
          | some s0 =>
            rw [hs0] at hs
            simp only [Option.map_some', Option.some.injEq] at hs
            subst hs
            obtain ⟨ho, k, hki, hmem⟩ := hinv.stage i s0 hs0
            have hkx : k = P.partitionOf x := by
              have := getElem?_indexOf_mem _ _ hk
              rw [← hi, hki] at this
              exact Option.some.inj this
            refine ⟨ho, k, hki, fun y => ?_⟩
            simp only [mem_setInsert, List.mem_append, List.mem_singleton, hmem]
            constructor
            · rintro (h | h)
              · exact ⟨Or.inr h, by rw [h, hkx]⟩
              · exact ⟨Or.inl h.1, h.2⟩
            · rintro ⟨h | h, h3⟩
              · exact Or.inr ⟨h, h3⟩
              · exact Or.inl h
        · rw [if_neg hi] at hs
          obtain ⟨ho, k, hki, hmem⟩ := hinv.stage i s hs
          refine ⟨ho, k, hki, fun y => ?_⟩
          rw [hmem, List.mem_append, List.mem_singleton]
          constructor
          · rintro ⟨h, h3⟩
            exact ⟨Or.inl h, h3⟩
          · rintro ⟨h | h, h3⟩
            · exact ⟨h, h3⟩
            · exfalso
              apply hi
              rw [← h, h3]
              exact (indexOf_getElem? _ hndk i k hki).symm
      · intro y
        rw [h1, h2]
        show (mapAssign x _ st.sccToStage).lookup y = _
        rw [lookup_mapAssign]
        by_cases hy : y = x
        · rw [if_pos hy, if_pos (List.mem_append.2 (Or.inr (List.mem_singleton.2 hy))), hy]
        · rw [if_neg hy, hinv.sccStage y]
          by_cases hys : y ∈ staged P visited
          · rw [if_pos hys, if_pos (List.mem_append.2 (Or.inl hys))]
          · rw [if_neg hys, if_neg (fun h => (List.mem_append.1 h).elim hys
              (fun h3 => hy (List.mem_singleton.1 h3)))]
      · show ((mapAssign x _ st.sccToStage).map Prod.fst).Nodup
        rw [keys_mapAssign]
        exact nodup_setInsert _ _ hinv.keys
    · -- the partition is met for the first time
      have h2 : partitionsMet P (visited ++ [x]) =
          partitionsMet P visited ++ [P.partitionOf x] := by
        rw [partitionsMet_append, if_neg hrem, setInsert, if_neg hk]
      have hlk := hinv.toStage (P.partitionOf x)
      rw [if_neg hk] at hlk
      have hord := hinv.order
      have hlen := hinv.length
      have hin : st.order + 1 - 1 < (st.stages ++ [(⟨st.order, [x]⟩ : StageInfo)]).length := by
        rw [List.length_append, List.length_singleton]
        omega
      refine ⟨_, (by
        simp only [assignStage, hrem, Bool.false_eq_true, if_false, hlk, hin, if_true]
        rfl), ?_⟩
      have hidx : (partitionsMet P visited ++ [P.partitionOf x]).indexOf (P.partitionOf x)
          = st.order := by
        rw [List.indexOf_append_of_not_mem hk, hord]
        simp
      constructor
      · show st.order + 1 = _
        rw [h2, List.length_append, List.length_singleton, hord]
      · show (st.stages ++ [_]).length = _
        rw [h2, List.length_append, List.length_append, hlen]
        rfl
      · intro k
        show (mapAssign _ (st.order + 1 - 1) st.partitionToStage).lookup k = _
        rw [lookup_mapAssign, h2]
        by_cases hkk : k = P.partitionOf x
        · rw [if_pos hkk, if_pos (List.mem_append.2 (Or.inr (List.mem_singleton.2 hkk))),
            hkk, hidx]
          rfl
        · rw [if_neg hkk, hinv.toStage k]
          by_cases hkm : k ∈ partitionsMet P visited
          · rw [if_pos hkm, if_pos (List.mem_append.2 (Or.inl hkm)),
              List.indexOf_append_of_mem hkm]
          · rw [if_neg hkm, if_neg (fun h => (List.mem_append.1 h).elim hkm
              (fun h3 => hkk (List.mem_singleton.1 h3)))]
      · intro i s hs
        rw [h1, h2]
        have hs' : (st.stages ++ [(⟨st.order, [x]⟩ : StageInfo)])[i]? = some s := hs
        by_cases hi : i < st.stages.length
        · rw [List.getElem?_append_left hi] at hs'
          obtain ⟨ho, k, hki, hmem⟩ := hinv.stage i s hs'
          refine ⟨ho, k, ?_, fun y => ?_⟩
          · rw [List.getElem?_append_left (by rw [← hlen]; exact hi)]
            exact hki
          · rw [hmem, List.mem_append, List.mem_singleton]
            constructor
            · rintro ⟨h, h3⟩
              exact ⟨Or.inl h, h3⟩
            · rintro ⟨h | h, h3⟩
              · exact ⟨h, h3⟩
              · exfalso
                apply hk
                rw [← h, h3]
                obtain ⟨hlt, hget⟩ := List.getElem?_eq_some.1 hki
                rw [← hget]
                exact List.getElem_mem hlt
        · rw [List.getElem?_append_right (Nat.le_of_not_lt hi)] at hs'
          have hi0 : i - st.stages.length = 0 := by
            by_contra hne
            rw [List.getElem?_eq_none (by simp; omega)] at hs'
            cases hs'
          rw [hi0] at hs'
          simp only [List.getElem?_cons_zero, Option.some.injEq] at hs'
          subst hs'
          have hil : i = st.stages.length := by omega
          refine ⟨by show st.order = i; omega, P.partitionOf x, ?_, fun y => ?_⟩
          · rw [List.getElem?_append_right (by omega)]
            have : i - (partitionsMet P visited).length = 0 := by omega
            rw [this]
            rfl
          · show y ∈ [x] ↔ _
            rw [List.mem_singleton, List.mem_append, List.mem_singleton]
            constructor
            · intro h
              exact ⟨Or.inr h, by rw [h]⟩
            · rintro ⟨h | h, h3⟩
              · exfalso
                apply hk
                rw [← h3]
                exact mem_partitionsMet P visited y h
              · exact h
      · intro y
        rw [h1, h2]
        show (mapAssign x (st.order + 1 - 1) st.sccToStage).lookup y = _
        rw [lookup_mapAssign]
        by_cases hy : y = x
        · rw [if_pos hy, if_pos (List.mem_append.2 (Or.inr (List.mem_singleton.2 hy))),
            hy, hidx]
          rfl
        · rw [if_neg hy, hinv.sccStage y]
          by_cases hys : y ∈ staged P visited
          · rw [if_pos hys, if_pos (List.mem_append.2 (Or.inl hys)),
              List.indexOf_append_of_mem (mem_partitionsMet P visited y hys)]
          · rw [if_neg hys, if_neg (fun h => (List.mem_append.1 h).elim hys
              (fun h3 => hy (List.mem_singleton.1 h3)))]
      · show ((mapAssign x _ st.sccToStage).map Prod.fst).Nodup
        rw [keys_mapAssign]
        exact nodup_setInsert _ _ hinv.keys

theorem stageInv_fold (P : SCCDAGPartition) (rest : List Nat) :
    ∀ (visited : List Nat) (st : StageAssignment), StageInv P visited st →
      ∃ st1, rest.foldlM (assignStage P) st = some st1 ∧ StageInv P (visited ++ rest) st1 := by
  induction rest with
  | nil =>
    intro visited st h
    exact ⟨st, rfl, by rw [List.append_nil]; exact h⟩
  | cons x rest ih =>
    intro visited st h
    obtain ⟨st1, h1, hinv1⟩ := stageInv_step P visited st x h
    obtain ⟨st2, h2, hinv2⟩ := ih (visited ++ [x]) st1 hinv1
    refine ⟨st2, ?_, ?_⟩
    · rw [List.foldlM_cons, h1]
      exact h2
    · rw [List.append_assoc] at hinv2
      exact hinv2

/-- The stage creation on fresh loop information returns, and its result is described by
the traversal from the top-level nodes. -/
theorem createStages_spec (LDI : DSWPLoopDependenceInfo) (fuel : Nat)
    (hstages : LDI.stages = []) (hmap : LDI.sccToStage = [])
    (hf : LDI.loopSCCDAG.getTopLevelNodes.length + LDI.loopSCCDAG.edges.length ≤ fuel) :
    ∃ visited st, LDI.loopSCCDAG.traversal fuel = some visited ∧
      visited.foldlM (assignStage LDI.partitions) ⟨0, [], [], []⟩ = some st ∧
      DSWP.createStagesfromPartitionedSCCs LDI fuel =
        some { LDI with stages := st.stages, sccToStage := st.sccToStage } ∧
      StageInv LDI.partitions visited st := by
  obtain ⟨visited, hv⟩ := traversal_terminates LDI.loopSCCDAG fuel hf
  obtain ⟨st, hst, hinv⟩ := stageInv_fold LDI.partitions visited [] _
    (stageInv_init LDI.partitions)
  refine ⟨visited, st, hv, hst, ?_, by simpa using hinv⟩
  unfold DSWP.createStagesfromPartitionedSCCs
  simp only []
  rw [createStagesLoop_eq, hstages, hmap]
  unfold SCCDAG.traversal at hv
  rw [hv]
  simp only [Option.some_bind, hst, Option.map_some']

/-- An SCC that the traversal does not visit, or that is removable, has no entry in
`sccToStage` and is in no stage. -/
theorem stageInv_not_staged (P : SCCDAGPartition) (visited : List Nat)
    (st : StageAssignment) (hinv : StageInv P visited st) (x : Nat)
    (hx : x ∉ staged P visited) :
    entriesOf x st.sccToStage = [] ∧ ∀ s ∈ st.stages, x ∉ s.stageSCCs := by
  constructor
  · rw [entriesOf_of_nodup x _ hinv.keys, hinv.sccStage x, if_neg hx]
  · intro s hs hxs
    obtain ⟨i, hi⟩ := List.getElem?_of_mem hs
    obtain ⟨-, k, -, hmem⟩ := hinv.stage i s hi
    exact hx ((hmem x).1 hxs).1

/-- A visited SCC that is not removable has one entry in `sccToStage`, for the stage of
its partition, is in that stage and in no other. -/
theorem stageInv_staged (P : SCCDAGPartition) (visited : List Nat)
    (st : StageAssignment) (hinv : StageInv P visited st) (x : Nat)
    (hx : x ∈ staged P visited) :
    ∃ s, st.sccToStage.lookup x =
        some ((partitionsMet P visited).indexOf (P.partitionOf x)) ∧
      entriesOf x st.sccToStage =
        [(x, (partitionsMet P visited).indexOf (P.partitionOf x))] ∧
      st.stages[(partitionsMet P visited).indexOf (P.partitionOf x)]? = some s ∧
      (partitionsMet P visited)[(partitionsMet P visited).indexOf (P.partitionOf x)]? =
        some (P.partitionOf x) ∧
      x ∈ s.stageSCCs ∧
      ∀ (j : Nat) (s1 : StageInfo), st.stages[j]? = some s1 → x ∈ s1.stageSCCs →
        j = (partitionsMet P visited).indexOf (P.partitionOf x) := by
  have hk := mem_partitionsMet P visited x hx
  have hlt : (partitionsMet P visited).indexOf (P.partitionOf x) < st.stages.length := by
    rw [hinv.length]
    exact List.indexOf_lt_length.2 hk
  have hlk := hinv.sccStage x
  rw [if_pos hx] at hlk
  have hget := getElem?_indexOf_mem _ _ hk
  refine ⟨st.stages[(partitionsMet P visited).indexOf (P.partitionOf x)], hlk, ?_,
    List.getElem?_eq_getElem hlt, hget, ?_, ?_⟩
  · rw [entriesOf_of_nodup x _ hinv.keys, hlk]
  · obtain ⟨-, k, hki, hmem⟩ := hinv.stage _ _ (List.getElem?_eq_getElem hlt)
    rw [hget] at hki
    rw [hmem x]
    exact ⟨hx, Option.some.inj hki⟩
  · intro j s1 hj hxs
    obtain ⟨-, k, hki, hmem⟩ := hinv.stage j s1 hj
    have := ((hmem x).1 hxs).2
    rw [this]
    exact (indexOf_getElem? _ (nodup_firstMet _) j k hki).symm

/-! ## Theorems: claims on the DSWP stages -/

/-- Counterexample to C21 as stated: after `mergeSCCs` of the first and last SCC of the
chain `0 -> 1 -> 2 -> 3` the SCCDAG has the three nodes `1`, `2`, `4` on a cycle and no
top-level node; none of them is removable, and the stage creation makes no stage and no
entry of `sccToStage`, whatever the fuel. -/
theorem cyclic_sccdag_gets_no_stage :
    chain4SCCDAG.mergeSCCs [0, 3] = some chain4Merged ∧
    chain4Merged.internalNodes.map SCC.id = [1, 2, 4] ∧
    (∀ s ∈ chain4Merged.internalNodes,
      (ownStages chain4Merged).partitions.isRemovable s.id = false) ∧
    chain4Merged.getTopLevelNodes = [] ∧
    ∀ fuel, (DSWP.createStagesfromPartitionedSCCs (ownStages chain4Merged) fuel).map
      (fun LDI => (LDI.stages, LDI.sccToStage)) = some ([], []) := by
  refine ⟨by decide, by decide, by decide, by decide, fun fuel => ?_⟩
  have htop : chain4Merged.getTopLevelNodes = [] := by decide
  unfold DSWP.createStagesfromPartitionedSCCs
  simp only [ownStages, htop, List.foldl_nil]
  cases fuel <;> rfl

/-- C21, amended: on fresh loop information and with fuel for one iteration per
top-level node and per edge, `createStagesfromPartitionedSCCs` returns, and afterwards
every non-removable SCC reachable from a top-level node has exactly one entry in
`sccToStage`, is a member of the SCC set of that stage and of no other stage; a
removable SCC, and an SCC not reachable from a top-level node, has no entry and is in no
stage. In an SCCDAG without cycle whose edges leave nodes of the SCCDAG, every node is
reachable from a top-level node. -/
theorem reachable_sccs_staged (LDI : DSWPLoopDependenceInfo) (fuel : Nat)
    (hstages : LDI.stages = []) (hmap : LDI.sccToStage = [])
    (hf : LDI.loopSCCDAG.getTopLevelNodes.length + LDI.loopSCCDAG.edges.length ≤ fuel) :
    ∃ LDI1, DSWP.createStagesfromPartitionedSCCs LDI fuel = some LDI1 ∧
      (∀ x, LDI.loopSCCDAG.TopReach x → LDI.partitions.isRemovable x = false →
        ∃ (i : Nat) (s : StageInfo), entriesOf x LDI1.sccToStage = [(x, i)] ∧
          LDI1.stages[i]? = some s ∧ x ∈ s.stageSCCs ∧
          ∀ (j : Nat) (s1 : StageInfo), LDI1.stages[j]? = some s1 →
            x ∈ s1.stageSCCs → j = i) ∧
      (∀ x, (LDI.partitions.isRemovable x = true ∨ ¬ LDI.loopSCCDAG.TopReach x) →
        entriesOf x LDI1.sccToStage = [] ∧ ∀ s ∈ LDI1.stages, x ∉ s.stageSCCs) ∧
      (LDI.loopSCCDAG.Acyclic →
        (∀ e ∈ LDI.loopSCCDAG.edges, ∃ s ∈ LDI.loopSCCDAG.internalNodes, s.id = e.src) →
        ∀ s ∈ LDI.loopSCCDAG.internalNodes, LDI.loopSCCDAG.TopReach s.id) := by
  obtain ⟨visited, st, hv, -, hrun, hinv⟩ := createStages_spec LDI fuel hstages hmap hf
  refine ⟨_, hrun, ?_, ?_, fun hac hsrc => topReach_of_acyclic _ hac hsrc⟩
  · intro x hreach hrem
    have hx : x ∈ staged LDI.partitions visited :=
      (mem_staged _ _ _).2 ⟨(mem_traversal _ fuel visited hv x).2 hreach, hrem⟩
    obtain ⟨s, -, hent, hs, -, hxs, huniq⟩ := stageInv_staged _ _ _ hinv x hx
    exact ⟨_, s, hent, hs, hxs, huniq⟩
  · intro x hx
    apply stageInv_not_staged _ _ _ hinv x
    intro hxs
    obtain ⟨hvis, hrem⟩ := (mem_staged _ _ _).1 hxs
    rcases hx with h | h
    · rw [h] at hrem
      cases hrem
    · exact h ((mem_traversal _ fuel visited hv x).1 hvis)

/-- Witness for C21: the SCCDAG of the list traversal, with every SCC a partition of its
own. -/
theorem reachable_sccs_staged_witness :
    ((ownStages listLoopSCCDAG).stages = [] ∧ (ownStages listLoopSCCDAG).sccToStage = [] ∧
      (ownStages listLoopSCCDAG).loopSCCDAG.getTopLevelNodes.length
        + (ownStages listLoopSCCDAG).loopSCCDAG.edges.length ≤ 3) ∧
    ∃ LDI1, DSWP.createStagesfromPartitionedSCCs (ownStages listLoopSCCDAG) 3 = some LDI1 ∧
      (∀ x, (ownStages listLoopSCCDAG).loopSCCDAG.TopReach x →
          (ownStages listLoopSCCDAG).partitions.isRemovable x = false →
        ∃ (i : Nat) (s : StageInfo), entriesOf x LDI1.sccToStage = [(x, i)] ∧
          LDI1.stages[i]? = some s ∧ x ∈ s.stageSCCs ∧
          ∀ (j : Nat) (s1 : StageInfo), LDI1.stages[j]? = some s1 →
            x ∈ s1.stageSCCs → j = i) ∧
      (∀ x, ((ownStages listLoopSCCDAG).partitions.isRemovable x = true ∨
          ¬ (ownStages listLoopSCCDAG).loopSCCDAG.TopReach x) →
        entriesOf x LDI1.sccToStage = [] ∧ ∀ s ∈ LDI1.stages, x ∉ s.stageSCCs) ∧
      ((ownStages listLoopSCCDAG).loopSCCDAG.Acyclic →
        (∀ e ∈ (ownStages listLoopSCCDAG).loopSCCDAG.edges,
          ∃ s ∈ (ownStages listLoopSCCDAG).loopSCCDAG.internalNodes, s.id = e.src) →
        ∀ s ∈ (ownStages listLoopSCCDAG).loopSCCDAG.internalNodes,
          (ownStages listLoopSCCDAG).loopSCCDAG.TopReach s.id) :=
  ⟨⟨rfl, rfl, by decide⟩,
    reachable_sccs_staged (ownStages listLoopSCCDAG) 3 rfl rfl (by decide)⟩

/-- C22 fails on the code: the SCCDAG of the dependence graph `0 -> 1`, `0 -> 2`,
`2 -> 3`, `3 -> 1` has no cycle, no SCC is removable and every SCC is a partition of its
own; the traversal visits the SCCs in the order `0, 1, 2, 3`, so the stage of the SCC `3`
has order `3` and the stage of the SCC `1` has order `1`, although the edge `3 -> 1` goes
from the first to the second. On the SCCDAG of the list traversal, whose pointer-chasing
SCC feeds the accumulation SCC, no edge goes backward. -/
theorem stage_order_backward_edge :
    (SCCDAG.construct kite = some kiteSCCDAG ∧ kiteSCCDAG.Acyclic ∧
      (∀ s ∈ kiteSCCDAG.internalNodes,
        (ownStages kiteSCCDAG).partitions.isRemovable s.id = false) ∧
      kiteSCCDAG.traversal 5 = some [0, 1, 2, 3] ∧
      ∃ LDI1, DSWP.createStagesfromPartitionedSCCs (ownStages kiteSCCDAG) 5 = some LDI1 ∧
        LDI1.stages = [⟨0, [0]⟩, ⟨1, [1]⟩, ⟨2, [2]⟩, ⟨3, [3]⟩] ∧
        LDI1.sccToStage = [(0, 0), (1, 1), (2, 2), (3, 3)] ∧
        kiteSCCDAG.edgeRel 3 1 ∧
        LDI1.stageOrder 3 = some 3 ∧ LDI1.stageOrder 1 = some 1) ∧
    (SCCDAG.construct listLoop = some listLoopSCCDAG ∧
      ∃ LDI1, DSWP.createStagesfromPartitionedSCCs (ownStages listLoopSCCDAG) 3
          = some LDI1 ∧
        LDI1.stages = [⟨0, [0]⟩, ⟨1, [1]⟩, ⟨2, [2]⟩] ∧
        listLoopSCCDAG.edges.map SCCEdge.ends = [(0, 1), (1, 2)] ∧
        LDI1.stageOrder 0 = some 0 ∧ LDI1.stageOrder 1 = some 1 ∧
        LDI1.stageOrder 2 = some 2) := by
  have hk : SCCDAG.construct kite = some kiteSCCDAG := by decide
  have hl : SCCDAG.construct listLoop = some listLoopSCCDAG := by decide
  have hrunk : (DSWP.createStagesfromPartitionedSCCs (ownStages kiteSCCDAG) 5).map
      (fun LDI => (LDI.stages, LDI.sccToStage)) =
      some ([⟨0, [0]⟩, ⟨1, [1]⟩, ⟨2, [2]⟩, ⟨3, [3]⟩], [(0, 0), (1, 1), (2, 2), (3, 3)]) := by
    decide
  have hrunl : (DSWP.createStagesfromPartitionedSCCs (ownStages listLoopSCCDAG) 3).map
      (fun LDI => (LDI.stages, LDI.sccToStage)) =
      some ([⟨0, [0]⟩, ⟨1, [1]⟩, ⟨2, [2]⟩], [(0, 0), (1, 1), (2, 2)]) := by
    decide
  constructor
  · refine ⟨hk, construct_result_acyclic kite _ hk, by decide, by decide, ?_⟩
    cases hr : DSWP.createStagesfromPartitionedSCCs (ownStages kiteSCCDAG) 5 with
    | none => rw [hr] at hrunk; cases hrunk
    | some LDI1 =>
      rw [hr] at hrunk
      simp only [Option.map_some', Option.some.injEq, Prod.mk.injEq] at hrunk
      refine ⟨LDI1, rfl, hrunk.1, hrunk.2, ⟨⟨3, 1, [arc 3 1]⟩, by decide, rfl, rfl⟩, ?_, ?_⟩
      · simp only [DSWPLoopDependenceInfo.stageOrder, hrunk.1, hrunk.2]
        decide
      · simp only [DSWPLoopDependenceInfo.stageOrder, hrunk.1, hrunk.2]
        decide
  · refine ⟨hl, ?_⟩
    cases hr : DSWP.createStagesfromPartitionedSCCs (ownStages listLoopSCCDAG) 3 with
    | none => rw [hr] at hrunl; cases hrunl
    | some LDI1 =>
      rw [hr] at hrunl
      simp only [Option.map_some', Option.some.injEq, Prod.mk.injEq] at hrunl
      refine ⟨LDI1, rfl, hrunl.1, by decide, ?_⟩
      simp only [DSWPLoopDependenceInfo.stageOrder, hrunl.1, hrunl.2]
      decide

/-- C25: on fresh loop information and with fuel for one iteration per top-level node
and per edge, `createStagesfromPartitionedSCCs` returns after visiting the SCCs in the
order `visited`, and its result is that of assigning the stages to the visited SCCs in
that order. The order `visited` is the breadth-first traversal from the top-level nodes:
it holds exactly the nodes reachable from a top-level node along edges of the SCCDAG,
none twice; it begins with the top-level nodes and goes on, for every visited node in
turn, with the nodes one edge away that are no top-level nodes and were not added for an
earlier visited node. Two visited non-removable SCCs have the same stage exactly if
`partitionOf` gives them the same partition, and each is a member of its stage. The
visit of an SCC adds a stage exactly if the SCC is not removable and no non-removable
SCC visited before has its partition; so there is one stage per partition met, the stage
at position `i` (the `i`-th made) has order `i` and holds the visited non-removable SCCs
of the `i`-th partition met. -/
theorem stages_follow_partitions (LDI : DSWPLoopDependenceInfo) (fuel : Nat)
    (hstages : LDI.stages = []) (hmap : LDI.sccToStage = [])
    (hf : LDI.loopSCCDAG.getTopLevelNodes.length + LDI.loopSCCDAG.edges.length ≤ fuel) :
    ∃ visited st LDI1, LDI.loopSCCDAG.traversal fuel = some visited ∧
      visited.foldlM (assignStage LDI.partitions) ⟨0, [], [], []⟩ = some st ∧
      DSWP.createStagesfromPartitionedSCCs LDI fuel = some LDI1 ∧
      LDI1.stages = st.stages ∧ LDI1.sccToStage = st.sccToStage ∧
      (∀ x, x ∈ visited ↔ LDI.loopSCCDAG.TopReach x) ∧
      ((LDI.loopSCCDAG.internalNodes.map SCC.id).Nodup → visited.Nodup) ∧
      (∀ x y, y ∈ LDI.loopSCCDAG.nextDepthNodes x ↔ LDI.loopSCCDAG.edgeRel x y) ∧
      (∃ news : List (List Nat), news.length = visited.length ∧
        visited = LDI.loopSCCDAG.getTopLevelNodes ++ news.flatten ∧
        ∀ (i x : Nat), visited[i]? = some x →
          news[i]? = some ((LDI.loopSCCDAG.nextDepthNodes x).filter
            (fun y => decide (y ∉ LDI.loopSCCDAG.getTopLevelNodes
              ++ (news.take i).flatten)))) ∧
      (∀ x ∈ staged LDI.partitions visited, ∀ y ∈ staged LDI.partitions visited,
        (LDI1.sccToStage.lookup x = LDI1.sccToStage.lookup y ↔
          LDI.partitions.partitionOf x = LDI.partitions.partitionOf y)) ∧
      (∀ x ∈ staged LDI.partitions visited, ∃ (i : Nat) (s : StageInfo),
        LDI1.sccToStage.lookup x = some i ∧ LDI1.stages[i]? = some s ∧ x ∈ s.stageSCCs ∧
        (partitionsMet LDI.partitions visited)[i]? = some (LDI.partitions.partitionOf x)) ∧
      (∀ pre x post, visited = pre ++ x :: post →
        ∃ st0 st1, pre.foldlM (assignStage LDI.partitions) ⟨0, [], [], []⟩ = some st0 ∧
          assignStage LDI.partitions st0 x = some st1 ∧
          st1.stages.length = st0.stages.length +
            (if LDI.partitions.isRemovable x = false ∧ LDI.partitions.partitionOf x ∉
                (staged LDI.partitions pre).map LDI.partitions.partitionOf
              then 1 else 0)) ∧
      LDI1.stages.length = (partitionsMet LDI.partitions visited).length ∧
      (∀ (i : Nat) (s : StageInfo), LDI1.stages[i]? = some s → s.order = i ∧
        ∃ k, (partitionsMet LDI.partitions visited)[i]? = some k ∧
          ∀ x, x ∈ s.stageSCCs ↔
            (x ∈ staged LDI.partitions visited ∧ LDI.partitions.partitionOf x = k)) := by
  obtain ⟨visited, st, hv, hfold, hrun, hinv⟩ := createStages_spec LDI fuel hstages hmap hf
  obtain ⟨hnd, hbfs⟩ := traversal_breadth_first LDI.loopSCCDAG fuel visited hv
  refine ⟨visited, st, _, hv, hfold, hrun, rfl, rfl,
    mem_traversal LDI.loopSCCDAG fuel visited hv, hnd,
    fun x y => mem_nextDepthNodes LDI.loopSCCDAG x y, hbfs, ?_, ?_, ?_,
    hinv.length, hinv.stage⟩
  · intro x hx y hy
    show st.sccToStage.lookup x = st.sccToStage.lookup y ↔ _
    rw [hinv.sccStage x, hinv.sccStage y, if_pos hx, if_pos hy]
    constructor
    · intro h
      exact (List.indexOf_inj (mem_partitionsMet _ _ x hx)
        (mem_partitionsMet _ _ y hy)).1 (Option.some.inj h)
    · intro h
      rw [h]
  · intro x hx
    obtain ⟨s, hlk, -, hs, hget, hxs, -⟩ := stageInv_staged _ _ _ hinv x hx
    exact ⟨_, s, hlk, hs, hxs, hget⟩
  · intro pre x post _
    obtain ⟨st0, h0, hinv0⟩ := stageInv_fold LDI.partitions pre [] _
      (stageInv_init LDI.partitions)
    rw [List.nil_append] at hinv0
    obtain ⟨st1, h1, hinv1⟩ := stageInv_step LDI.partitions pre st0 x hinv0
    refine ⟨st0, st1, h0, h1, ?_⟩
    rw [hinv1.length, hinv0.length, partitionsMet_append]
    have hmem : LDI.partitions.partitionOf x ∈ partitionsMet LDI.partitions pre ↔
        LDI.partitions.partitionOf x ∈
          (staged LDI.partitions pre).map LDI.partitions.partitionOf :=
      mem_firstMet _ _
    by_cases hrem : LDI.partitions.isRemovable x = true
    · rw [if_pos hrem, if_neg (fun h => by rw [hrem] at h; exact Bool.noConfusion h.1)]
      rfl
    · rw [if_neg hrem]
      have hrem1 : LDI.partitions.isRemovable x = false := by simpa using hrem
      by_cases hk : LDI.partitions.partitionOf x ∈ partitionsMet LDI.partitions pre
      · rw [if_neg (fun h => h.2 (hmem.1 hk)), setInsert, if_pos hk]
        rfl
      · rw [if_pos ⟨hrem1, fun h => hk (hmem.2 h)⟩, setInsert, if_neg hk,
          List.length_append, List.length_singleton]

/-- Witness for C25: the SCCDAG of the dependence graph `0 -> 1`, `0 -> 2`, `2 -> 3`,
`3 -> 1`, with every SCC a partition of its own. -/
theorem stages_follow_partitions_witness :
    ((ownStages kiteSCCDAG).stages = [] ∧ (ownStages kiteSCCDAG).sccToStage = [] ∧
      (ownStages kiteSCCDAG).loopSCCDAG.getTopLevelNodes.length
        + (ownStages kiteSCCDAG).loopSCCDAG.edges.length ≤ 5) ∧
    ∃ visited st LDI1, (ownStages kiteSCCDAG).loopSCCDAG.traversal 5 = some visited ∧
      visited.foldlM (assignStage (ownStages kiteSCCDAG).partitions) ⟨0, [], [], []⟩
        = some st ∧
      DSWP.createStagesfromPartitionedSCCs (ownStages kiteSCCDAG) 5 = some LDI1 ∧
      LDI1.stages = st.stages ∧ LDI1.sccToStage = st.sccToStage ∧
      (∀ x, x ∈ visited ↔ (ownStages kiteSCCDAG).loopSCCDAG.TopReach x) ∧
      (((ownStages kiteSCCDAG).loopSCCDAG.internalNodes.map SCC.id).Nodup →
        visited.Nodup) ∧
      (∀ x y, y ∈ (ownStages kiteSCCDAG).loopSCCDAG.nextDepthNodes x ↔
        (ownStages kiteSCCDAG).loopSCCDAG.edgeRel x y) ∧
      (∃ news : List (List Nat), news.length = visited.length ∧
        visited = (ownStages kiteSCCDAG).loopSCCDAG.getTopLevelNodes ++ news.flatten ∧
        ∀ (i x : Nat), visited[i]? = some x →
          news[i]? = some (((ownStages kiteSCCDAG).loopSCCDAG.nextDepthNodes x).filter
            (fun y => decide (y ∉ (ownStages kiteSCCDAG).loopSCCDAG.getTopLevelNodes
              ++ (news.take i).flatten)))) ∧
      (∀ x ∈ staged (ownStages kiteSCCDAG).partitions visited,
        ∀ y ∈ staged (ownStages kiteSCCDAG).partitions visited,
        (LDI1.sccToStage.lookup x = LDI1.sccToStage.lookup y ↔
          (ownStages kiteSCCDAG).partitions.partitionOf x =
            (ownStages kiteSCCDAG).partitions.partitionOf y)) ∧
      (∀ x ∈ staged (ownStages kiteSCCDAG).partitions visited, ∃ (i : Nat) (s : StageInfo),
        LDI1.sccToStage.lookup x = some i ∧ LDI1.stages[i]? = some s ∧ x ∈ s.stageSCCs ∧
        (partitionsMet (ownStages kiteSCCDAG).partitions visited)[i]? =
          some ((ownStages kiteSCCDAG).partitions.partitionOf x)) ∧
      (∀ pre x post, visited = pre ++ x :: post →
        ∃ st0 st1, pre.foldlM (assignStage (ownStages kiteSCCDAG).partitions)
            ⟨0, [], [], []⟩ = some st0 ∧
          assignStage (ownStages kiteSCCDAG).partitions st0 x = some st1 ∧
          st1.stages.length = st0.stages.length +
            (if (ownStages kiteSCCDAG).partitions.isRemovable x = false ∧
                (ownStages kiteSCCDAG).partitions.partitionOf x ∉
                (staged (ownStages kiteSCCDAG).partitions pre).map
                  (ownStages kiteSCCDAG).partitions.partitionOf
              then 1 else 0)) ∧
      LDI1.stages.length = (partitionsMet (ownStages kiteSCCDAG).partitions visited).length ∧
      (∀ (i : Nat) (s : StageInfo), LDI1.stages[i]? = some s → s.order = i ∧
        ∃ k, (partitionsMet (ownStages kiteSCCDAG).partitions visited)[i]? = some k ∧
          ∀ x, x ∈ s.stageSCCs ↔
            (x ∈ staged (ownStages kiteSCCDAG).partitions visited ∧
              (ownStages kiteSCCDAG).partitions.partitionOf x = k)) :=
  ⟨⟨rfl, rfl, by decide⟩,
    stages_follow_partitions (ownStages kiteSCCDAG) 5 rfl rfl (by decide)⟩

/-! ## Theorems: `mergeSCCs` of a convex set keeps the SCCDAG acyclic -/

/-- The nodes of a graph with edges `r` are merged into the node `n` when they belong to
`S`: if every edge of the new graph `r'` comes from an edge of the old one in this way,
the old graph has no cycle and `S` is convex in it, then the new graph has no cycle. -/
theorem acyclic_of_translation (r r' : Nat → Nat → Prop) (n : Nat) (S : List Nat)
    (htr : ∀ a b, r' a b →
      (a ≠ n ∧ b ≠ n ∧ a ∉ S ∧ b ∉ S ∧ r a b) ∨
      (a = n ∧ b ≠ n ∧ b ∉ S ∧ ∃ s ∈ S, r s b) ∨
      (b = n ∧ a ≠ n ∧ a ∉ S ∧ ∃ s ∈ S, r a s))
    (hac : ∀ a, ¬ Relation.TransGen r a a)
    (hconv : ∀ a ∈ S, ∀ b ∈ S, ∀ x, x ∉ S →
      ¬ (Relation.TransGen r a x ∧ Relation.TransGen r x b)) :
    ∀ a, ¬ Relation.TransGen r' a a := by
  -- nodes below the merged node: the merged node, and the outside nodes reached from `S`
  have hstep : ∀ c b, r' c b →
      (c = n ∨ (c ∉ S ∧ ∃ s ∈ S, Relation.TransGen r s c)) →
      b ≠ n ∧ (b = n ∨ (b ∉ S ∧ ∃ s ∈ S, Relation.TransGen r s b)) := by
    intro c b hcb hD
    rcases htr c b hcb with ⟨hc, hb, -, hbS, hr⟩ | ⟨-, hb, hbS, s, hs, hr⟩ |
        ⟨-, hc, hcS, s1, hs1, hr⟩
    · rcases hD with hD | ⟨-, s, hs, hsc⟩
      · exact absurd hD hc
      · exact ⟨hb, Or.inr ⟨hbS, s, hs, hsc.tail hr⟩⟩
    · exact ⟨hb, Or.inr ⟨hbS, s, hs, Relation.TransGen.single hr⟩⟩
    · rcases hD with hD | ⟨-, s, hs, hsc⟩
      · exact absurd hD hc
      · exact absurd ⟨hsc, Relation.TransGen.single hr⟩ (hconv s hs s1 hs1 c hcS)
  have hbelow : ∀ a b, Relation.TransGen r' a b →
      (a = n ∨ (a ∉ S ∧ ∃ s ∈ S, Relation.TransGen r s a)) →
      b ≠ n ∧ (b = n ∨ (b ∉ S ∧ ∃ s ∈ S, Relation.TransGen r s b)) := by
    intro a b hab
    induction hab with
    | single h => exact hstep _ _ h
    | tail _ hcb ih => exact fun hD => hstep _ _ hcb (ih hD).2
  have hsplit : ∀ a b, Relation.TransGen r' a b →
      (a ≠ n ∧ b ≠ n ∧ Relation.TransGen r a b) ∨ a = n ∨ b = n ∨
        (Relation.TransGen r' a n ∧ Relation.TransGen r' n b) := by
    intro a b hab
    induction hab with
    | single h =>
      rcases htr _ _ h with ⟨ha, hb, -, -, hr⟩ | ⟨ha, -⟩ | ⟨hb, -⟩
      · exact Or.inl ⟨ha, hb, Relation.TransGen.single hr⟩
      · exact Or.inr (Or.inl ha)
      · exact Or.inr (Or.inr (Or.inl hb))
    | tail hac' hcb ih =>
      rename_i c b
      rcases ih with ⟨ha, hc, hr⟩ | ha | hc | ⟨h1, h2⟩
      · rcases htr _ _ hcb with ⟨-, hb, -, -, hr'⟩ | ⟨hc', -⟩ | ⟨hb, -⟩
        · exact Or.inl ⟨ha, hb, hr.tail hr'⟩
        · exact absurd hc' hc
        · exact Or.inr (Or.inr (Or.inl hb))
      · exact Or.inr (Or.inl ha)
      · subst hc
        exact Or.inr (Or.inr (Or.inr ⟨hac', Relation.TransGen.single hcb⟩))
      · exact Or.inr (Or.inr (Or.inr ⟨h1, h2.tail hcb⟩))
  have hn : ¬ Relation.TransGen r' n n := fun h => (hbelow n n h (Or.inl rfl)).1 rfl
  intro a haa
  rcases hsplit a a haa with ⟨-, -, hr⟩ | ha | ha | ⟨h1, h2⟩
  · exact hac a hr
  · exact hn (ha ▸ haa)
  · exact hn (ha ▸ haa)
  · exact hn (h2.trans h1)

/-- Two nodes of the merged graph are not joined by translated edges in both
directions. -/
theorem translation_one_way (r : Nat → Nat → Prop) (n : Nat) (S : List Nat)
    (hac : ∀ a, ¬ Relation.TransGen r a a)
    (hconv : ∀ a ∈ S, ∀ b ∈ S, ∀ x, x ∉ S →
      ¬ (Relation.TransGen r a x ∧ Relation.TransGen r x b))
    (a b : Nat)
    (h1 : (a ≠ n ∧ b ≠ n ∧ a ∉ S ∧ b ∉ S ∧ r a b) ∨
      (a = n ∧ b ≠ n ∧ b ∉ S ∧ ∃ s ∈ S, r s b) ∨
      (b = n ∧ a ≠ n ∧ a ∉ S ∧ ∃ s ∈ S, r a s))
    (h2 : (b ≠ n ∧ a ≠ n ∧ b ∉ S ∧ a ∉ S ∧ r b a) ∨
      (b = n ∧ a ≠ n ∧ a ∉ S ∧ ∃ s ∈ S, r s a) ∨
      (a = n ∧ b ≠ n ∧ b ∉ S ∧ ∃ s ∈ S, r b s)) : False := by
  rcases h1 with ⟨ha, hb, -, -, hr⟩ | ⟨ha, hb, hbS, s, hs, hr⟩ | ⟨hb, ha, haS, s, hs, hr⟩
  · rcases h2 with ⟨-, -, -, -, hr'⟩ | ⟨hb', -⟩ | ⟨ha', -⟩
    · exact hac a ((Relation.TransGen.single hr).tail hr')
    · exact hb hb'
    · exact ha ha'
  · rcases h2 with ⟨-, ha', -⟩ | ⟨hb', -⟩ | ⟨-, -, -, s1, hs1, hr'⟩
    · exact ha' ha
    · exact hb hb'
    · exact hconv s hs s1 hs1 b hbS ⟨Relation.TransGen.single hr, Relation.TransGen.single hr'⟩
  · rcases h2 with ⟨hb', -⟩ | ⟨-, -, -, s1, hs1, hr'⟩ | ⟨ha', -⟩
    · exact hb' hb
    · exact hconv s1 hs1 s hs a haS ⟨Relation.TransGen.single hr', Relation.TransGen.single hr⟩
    · exact ha ha'

/-- A dependence edge between two nodes of the SCCDAG after `mergeSCCs` comes from an
edge of the SCCDAG before it: between the same nodes, or between a node of the merged
set and the other node. -/
theorem merge_dep_translation (d d1 : SCCDAG) (S : List Nat) (hwf : d.WellFormed)
    (hdir : d.Directed) (hS : d.HasNodes S)
    (hnodes : d1.internalNodes = d.internalNodes.filter (fun s => decide (s.id ∉ S))
        ++ [⟨d.nextId, d.mergeNodes S⟩])
    (A B : SCC) (hA : A ∈ d1.internalNodes) (hB : B ∈ d1.internalNodes) (hne : A ≠ B)
    (dep : DGEdge) (hdep : dep ∈ d.pdg.internalEdges) (hs : dep.src ∈ A.values)
    (ht : dep.dst ∈ B.values) :
    (A.id ≠ d.nextId ∧ B.id ≠ d.nextId ∧ A.id ∉ S ∧ B.id ∉ S ∧ d.edgeRel A.id B.id) ∨
    (A.id = d.nextId ∧ B.id ≠ d.nextId ∧ B.id ∉ S ∧ ∃ s ∈ S, d.edgeRel s B.id) ∨
    (B.id = d.nextId ∧ A.id ≠ d.nextId ∧ A.id ∉ S ∧ ∃ s ∈ S, d.edgeRel A.id s) := by
  obtain ⟨hids, -, -, -⟩ := hwf
  have hmem := mem_mergeNodes d hids.1 S hS
  have hold : ∀ X ∈ d1.internalNodes,
      (X ∈ d.internalNodes ∧ X.id ∉ S ∧ X.id ≠ d.nextId) ∨ X = ⟨d.nextId, d.mergeNodes S⟩ := by
    intro X hX
    rw [hnodes] at hX
    rcases List.mem_append.1 hX with h | h
    · have h1 := List.mem_filter.1 h
      have h2 := hids.2 X (List.mem_append_left _ h1.1)
      exact Or.inl ⟨h1.1, by simpa using h1.2, by omega⟩
    · exact Or.inr (List.mem_singleton.1 h)
  rcases hold A hA with ⟨hA0, hAS, hAn⟩ | hAN
  · rcases hold B hB with ⟨hB0, hBS, hBn⟩ | hBN
    · exact Or.inl ⟨hAn, hBn, hAS, hBS, hdir A hA0 B hB0 hne dep hdep hs ht⟩
    · subst hBN
      obtain ⟨s1, hs1, hs1S, hv1⟩ := (hmem dep.dst).1 ht
      have hne1 : A ≠ s1 := fun h => hAS (h ▸ hs1S)
      exact Or.inr (Or.inr ⟨rfl, hAn, hAS, s1.id, hs1S,
        hdir A hA0 s1 hs1 hne1 dep hdep hs hv1⟩)
  · subst hAN
    rcases hold B hB with ⟨hB0, hBS, hBn⟩ | hBN
    · obtain ⟨s0, hs0, hs0S, hv0⟩ := (hmem dep.src).1 hs
      have hne0 : s0 ≠ B := fun h => hBS (h ▸ hs0S)
      exact Or.inr (Or.inl ⟨rfl, hBn, hBS, s0.id, hs0S,
        hdir s0 hs0 B hB0 hne0 dep hdep hv0 ht⟩)
    · exact absurd hBN.symm hne

/-- The edges of the SCCDAG that the constructor builds follow the dependences. -/
theorem construct_directed (pdg : PDG) (d : SCCDAG) (h : SCCDAG.construct pdg = some d) :
    d.Directed := by
  obtain ⟨hp, ⟨hids, hD, -, -⟩, hF, -, hcls, hC⟩ := construct_result pdg d h
  intro A hA B hB hne dep hdep hs ht
  obtain ⟨e, he, hj⟩ := hC A hA B hB hne dep hdep hs ht
  rcases (joins_iff _ _ _).1 hj with ⟨h1, h2⟩ | ⟨h1, h2⟩
  · exact ⟨e, he, h1, h2⟩
  · exfalso
    obtain ⟨A0, hA0, B0, hB0, hA0e, hB0e, dep1, hdep1, hs1, ht1, -⟩ := hF e he
    have eA : A0 = B := ids_inj d hids.1 A0 B hA0 hB (hA0e.trans h1)
    have eB : B0 = A := ids_inj d hids.1 B0 A hB0 hA (hB0e.trans h2)
    subst eA eB
    obtain ⟨uA, huA⟩ := hcls B0 hA
    obtain ⟨uB, huB⟩ := hcls A0 hB
    rw [hp] at hdep hdep1
    have r1 := reaches_dep pdg dep hdep
    have r2 := reaches_dep pdg dep1 hdep1
    have a1 := (huA dep.src).1 hs
    have a2 := (huA dep1.dst).1 ht1
    have b1 := (huB dep.dst).1 ht
    have b2 := (huB dep1.src).1 hs1
    have hin : dep.dst ∈ B0.values :=
      (huA dep.dst).2 ⟨a1.1.trans r1, (b1.2.trans b2.1).trans (r2.trans a2.2)⟩
    exact hne (disjoint_eq d hD B0 A0 hA hB dep.dst hin ht)

/-- The SCCDAG after `mergeSCCs` of a convex set of at least two nodes of an SCCDAG
without cycle whose edges follow the dependences: it has no cycle, and its edges follow
the dependences. -/
theorem merge_convex_result (d : SCCDAG) (S : List Nat) (hwf : d.WellFormed)
    (hF : d.Faithful) (hsingle : d.SingleEdges) (hdir : d.Directed) (hac : d.Acyclic)
    (hS : d.HasNodes S) (h2 : 2 ≤ S.dedup.length) (hconv : d.ConvexSet S) :
    ∃ d1, d.mergeSCCs S = some d1 ∧ d1.Acyclic ∧ d1.WellFormed ∧ d1.Faithful ∧
      d1.SingleEdges ∧ d1.Directed := by
  obtain ⟨d1, hm, hnodes, hp1, hwf1, hFS⟩ := merge_spec d hwf S hS h2
  obtain ⟨hF1, hS1, hC1⟩ := hFS hF hsingle
  have htr : ∀ a b, d1.edgeRel a b →
      (a ≠ d.nextId ∧ b ≠ d.nextId ∧ a ∉ S ∧ b ∉ S ∧ d.edgeRel a b) ∨
      (a = d.nextId ∧ b ≠ d.nextId ∧ b ∉ S ∧ ∃ s ∈ S, d.edgeRel s b) ∨
      (b = d.nextId ∧ a ≠ d.nextId ∧ a ∉ S ∧ ∃ s ∈ S, d.edgeRel a s) := by
    rintro a b ⟨e, he, rfl, rfl⟩
    obtain ⟨A, hA, B, hB, hAe, hBe, dep, hdep, hs, ht, hnot⟩ := hF1 e he
    have hne : A ≠ B := fun h => hnot (h ▸ ht)
    rw [hp1] at hdep
    rw [← hAe, ← hBe]
    exact merge_dep_translation d d1 S hwf hdir hS hnodes A B hA hB hne dep hdep hs ht
  refine ⟨d1, hm, acyclic_of_translation d.edgeRel d1.edgeRel d.nextId S htr hac hconv,
    hwf1, hF1, hS1, ?_⟩
  intro A hA B hB hne dep hdep hs ht
  obtain ⟨e, he, hj⟩ := hC1 A hA B hB hne dep hdep hs ht
  rcases (joins_iff _ _ _).1 hj with ⟨h1, h2'⟩ | ⟨h1, h2'⟩
  · exact ⟨e, he, h1, h2'⟩
  · exfalso
    rw [hp1] at hdep
    have t1 := merge_dep_translation d d1 S hwf hdir hS hnodes A B hA hB hne dep hdep hs ht
    have t2 := htr B.id A.id ⟨e, he, h1, h2'⟩
    exact translation_one_way d.edgeRel d.nextId S hac hconv A.id B.id t1 t2

theorem chain3_convex : chain3SCCDAG.ConvexSet [0, 1] := by
  have hedge : ∀ c b, chain3SCCDAG.edgeRel c b → (c = 0 ∧ b = 1) ∨ (c = 1 ∧ b = 2) := by
    rintro c b ⟨e, he, rfl, rfl⟩
    simp only [chain3SCCDAG, List.mem_cons, List.mem_singleton, List.not_mem_nil,
      or_false] at he
    rcases he with rfl | rfl
    · exact Or.inl ⟨rfl, rfl⟩
    · exact Or.inr ⟨rfl, rfl⟩
  have hinto : ∀ x b, Relation.TransGen chain3SCCDAG.edgeRel x b → b ∈ [0, 1] →
      x ∈ [0, 1] := by
    intro x b hxb
    induction hxb using Relation.TransGen.head_induction_on with
    | base h =>
      intro _
      rcases hedge _ _ h with ⟨rfl, -⟩ | ⟨rfl, -⟩ <;> decide
    | ih h _ _ =>
      intro _
      rcases hedge _ _ h with ⟨rfl, -⟩ | ⟨rfl, -⟩ <;> decide
  intro a _ b hb x hx hpath
  exact hx (hinto x b hpath.2 hb)

/-- C4 (as amended): let an SCCDAG be well formed, with one edge per pair of SCCs, each
backed by a dependence edge in its direction, and with an edge in its direction for
every dependence edge between two SCCs, as after the constructor and after every merge
of this kind. If it has no cycle and `S` is a convex set of at least two of its internal
SCC nodes (no path of edges leaves the set and comes back), then `mergeSCCs` returns and
the SCCDAG after it has no cycle and is again of this kind, so that further convex sets
can be merged. Every SCCDAG that the constructor builds is of this kind and has no
cycle. -/
theorem merge_convex_acyclic (d : SCCDAG) (S : List Nat) (hwf : d.WellFormed)
    (hF : d.Faithful) (hsingle : d.SingleEdges) (hdir : d.Directed) (hac : d.Acyclic)
    (hS : d.HasNodes S) (h2 : 2 ≤ S.dedup.length) (hconv : d.ConvexSet S) :
    (∃ d1, d.mergeSCCs S = some d1 ∧ d1.Acyclic ∧ d1.WellFormed ∧ d1.Faithful ∧
      d1.SingleEdges ∧ d1.Directed) ∧
    (∀ (pdg : PDG) (d0 : SCCDAG), SCCDAG.construct pdg = some d0 →
      d0.Acyclic ∧ d0.WellFormed ∧ d0.Faithful ∧ d0.SingleEdges ∧ d0.Directed) := by
  refine ⟨merge_convex_result d S hwf hF hsingle hdir hac hS h2 hconv, ?_⟩
  intro pdg d0 h0
  obtain ⟨-, hwf0, hF0, hS0, -, -⟩ := construct_result pdg d0 h0
  exact ⟨construct_result_acyclic pdg d0 h0, hwf0, hF0, hS0, construct_directed pdg d0 h0⟩

/-- Witness for C4 (as amended): merging the first two SCCs of the chain `0 -> 1 -> 2`. -/
theorem merge_convex_acyclic_witness :
    (chain3SCCDAG.WellFormed ∧ chain3SCCDAG.Faithful ∧ chain3SCCDAG.SingleEdges ∧
      chain3SCCDAG.Directed ∧ chain3SCCDAG.Acyclic ∧ chain3SCCDAG.HasNodes [0, 1] ∧
      2 ≤ ([0, 1] : List Nat).dedup.length ∧ chain3SCCDAG.ConvexSet [0, 1]) ∧
    ∃ d1, chain3SCCDAG.mergeSCCs [0, 1] = some d1 ∧ d1.Acyclic ∧ d1.WellFormed ∧
      d1.Faithful ∧ d1.SingleEdges ∧ d1.Directed :=
  ⟨⟨(construct_result chain3 chain3SCCDAG (by decide)).2.1,
      (construct_result chain3 chain3SCCDAG (by decide)).2.2.1,
      (construct_result chain3 chain3SCCDAG (by decide)).2.2.2.1,
      construct_directed chain3 chain3SCCDAG (by decide),
      construct_result_acyclic chain3 chain3SCCDAG (by decide),
      by unfold SCCDAG.HasNodes; decide, by decide, chain3_convex⟩,
    (merge_convex_acyclic chain3SCCDAG [0, 1]
      (construct_result chain3 chain3SCCDAG (by decide)).2.1
      (construct_result chain3 chain3SCCDAG (by decide)).2.2.1
      (construct_result chain3 chain3SCCDAG (by decide)).2.2.2.1
      (construct_directed chain3 chain3SCCDAG (by decide))
      (construct_result_acyclic chain3 chain3SCCDAG (by decide))
      (by unfold SCCDAG.HasNodes; decide) (by decide) chain3_convex).1⟩
end Noelle
